import Mathlib

/-!
# MeshAnimator: transform hierarchy and ray intersection

A shallow embedding of `SceneObjects.h`, `SceneObjects.cpp`, the `Mesh` class
of `ofApp.h` and `ofApp::deleteJoint` of `ofApp.cpp`.

* `float` is idealised as `ℚ`: every finite float is a rational, and the
  arithmetic is taken exact.
* The transcendental routines of the C math library (`cos`, `sin`, `sqrt`)
  are the fields of a `Libm` record handed to every function that uses them.
* Pointers are addresses (`Nat`) into a `Heap`; `NULL` is `none`.
* `glm::mat4` is a `Matrix (Fin 4) (Fin 4) ℚ` in the mathematical
  (row, column) convention, so that `M * v` means what it means in glm.
* The glm routines are written after the glm sources (`glm/gtx/intersect.inl`,
  `glm/gtx/euler_angles.inl`, `glm/ext/matrix_transform.inl`).
* Recursion through pointers and loops that need not end carry a `fuel`
  bound; `none` means the bound was reached.
* A division by zero, which is `inf` or `NaN` in `float`, is `0` in `ℚ`; no
  statement below rests on one.
-/

set_option autoImplicit false

namespace MeshAnimator

/-! ## Vectors and matrices (glm) -/

/-- The type `glm::vec3`. -/
structure Vec3 where
  x : ℚ
  y : ℚ
  z : ℚ
deriving DecidableEq, Repr

/-- The type `glm::vec2`. -/
structure Vec2 where
  x : ℚ
  y : ℚ
deriving DecidableEq, Repr

/-- The type `glm::vec4`. -/
abbrev Vec4 := Fin 4 → ℚ

/-- The type `glm::mat4`. -/
abbrev Mat4 := Matrix (Fin 4) (Fin 4) ℚ

namespace Vec3

/-- Componentwise sum `a + b`. -/
def add (a b : Vec3) : Vec3 := ⟨a.x + b.x, a.y + b.y, a.z + b.z⟩

/-- Componentwise difference `a - b`. -/
def sub (a b : Vec3) : Vec3 := ⟨a.x - b.x, a.y - b.y, a.z - b.z⟩

/-- Scalar multiple `t * a`. -/
def smul (t : ℚ) (a : Vec3) : Vec3 := ⟨t * a.x, t * a.y, t * a.z⟩

/-- Division by a scalar `a / t`. -/
def sdiv (a : Vec3) (t : ℚ) : Vec3 := ⟨a.x / t, a.y / t, a.z / t⟩

/-- The product `glm::dot`. -/
def dot (a b : Vec3) : ℚ := a.x * b.x + a.y * b.y + a.z * b.z

/-- The product `glm::cross`. -/
def cross (a b : Vec3) : Vec3 :=
  ⟨a.y * b.z - b.y * a.z, a.z * b.x - b.z * a.x, a.x * b.y - b.x * a.y⟩

/-- Componentwise negation `-a`. -/
def neg (a : Vec3) : Vec3 := ⟨-a.x, -a.y, -a.z⟩

end Vec3

/-- The constructor `glm::vec4(v, w)`. -/
def vec4 (v : Vec3) (w : ℚ) : Vec4 := ![v.x, v.y, v.z, w]

/-- The conversion `glm::vec3(glm::vec4)`, which drops the `w` component; C++
applies it wherever a `vec4` is assigned to a `vec3`. -/
def xyz (v : Vec4) : Vec3 := ⟨v 0, v 1, v 2⟩

/-- The matrix `glm::translate(glm::mat4(1.0), v)`. -/
def translate (v : Vec3) : Mat4 :=
  !![1, 0, 0, v.x;
     0, 1, 0, v.y;
     0, 0, 1, v.z;
     0, 0, 0, 1]

/-- The matrix `glm::scale(glm::mat4(1.0), v)`. -/
def scaleMatrix (v : Vec3) : Mat4 :=
  !![v.x, 0, 0, 0;
     0, v.y, 0, 0;
     0, 0, v.z, 0;
     0, 0, 0, 1]

/-- The matrix `glm::inverse(M)`: the cofactor (adjugate) matrix times
`1 / det M`. -/
def inverse (M : Mat4) : Mat4 := (1 / M.det) • M.adjugate

/-- The routines of the C math library that glm calls. -/
structure Libm where
  cos : ℚ → ℚ
  sin : ℚ → ℚ
  sqrt : ℚ → ℚ

/-- The conversion `glm::radians`: multiplication by the constant π / 180 as
glm spells it. -/
def radians (degrees : ℚ) : ℚ :=
  degrees * (1745329251994329576923690768489 / 100000000000000000000000000000000)

/-- The matrix `glm::eulerAngleYXZ(yaw, pitch, roll)`. -/
def eulerAngleYXZ (m : Libm) (yaw pitch roll : ℚ) : Mat4 :=
  let ch := m.cos yaw
  let sh := m.sin yaw
  let cp := m.cos pitch
  let sp := m.sin pitch
  let cb := m.cos roll
  let sb := m.sin roll
  !![ch * cb + sh * sp * sb, -ch * sb + sh * sp * cb, sh * cp, 0;
     sb * cp, cb * cp, -sp, 0;
     -sh * cb + ch * sp * sb, sb * sh + ch * sp * cb, ch * cp, 0;
     0, 0, 0, 1]

/-! ## `SceneObject` (SceneObjects.h) -/

/-- The dynamic class of an object, which selects the virtual methods. -/
inductive ObjClass where
  | joint
  | mesh
  | plane
deriving DecidableEq, Repr

/-- An object of the program: the fields of `SceneObject` that the transform
hierarchy reads and writes, the object's `name`, its dynamic class, and the two
fields `hasMesh` and `attatchedMesh` of `Joint`. -/
structure SceneObject where
  parent : Option Nat
  childList : List Nat
  position : Vec3
  rotation : Vec3
  scale : Vec3
  pivot : Vec3
  name : String
  cls : ObjClass
  hasMesh : Bool
  attatchedMesh : Nat
deriving DecidableEq, Repr

/-- The objects of the program by address. -/
abbrev Heap := Nat → SceneObject

namespace SceneObject

/-- The method `SceneObject::getRotateMatrix`. -/
def getRotateMatrix (m : Libm) (o : SceneObject) : Mat4 :=
  eulerAngleYXZ m (radians o.rotation.y) (radians o.rotation.x) (radians o.rotation.z)

/-- The method `SceneObject::getTranslateMatrix`. -/
def getTranslateMatrix (o : SceneObject) : Mat4 :=
  translate ⟨o.position.x, o.position.y, o.position.z⟩

/-- The method `SceneObject::getScaleMatrix`. -/
def getScaleMatrix (o : SceneObject) : Mat4 :=
  scaleMatrix ⟨o.scale.x, o.scale.y, o.scale.z⟩

/-- The method `SceneObject::getLocalMatrix`. -/
def getLocalMatrix (m : Libm) (o : SceneObject) : Mat4 :=
  let scale := o.getScaleMatrix
  let rotate := o.getRotateMatrix m
  let trans := o.getTranslateMatrix
  let pre := translate ⟨-o.pivot.x, -o.pivot.y, -o.pivot.z⟩
  let post := translate ⟨o.pivot.x, o.pivot.y, o.pivot.z⟩
  trans * post * rotate * pre * scale

end SceneObject

/-- A freshly constructed `Joint`: the default member initialisers. -/
def SceneObject.new : SceneObject :=
  { parent := none, childList := [], position := ⟨0, 0, 0⟩, rotation := ⟨0, 0, 0⟩,
    scale := ⟨1, 1, 1⟩, pivot := ⟨0, 0, 0⟩, name := "default", cls := ObjClass.joint,
    hasMesh := false, attatchedMesh := 0 }

/-- The method `SceneObject::getMatrix` called on the object at address `n`.
The recursion through `parent` is bounded by `fuel`; `none` means the bound
was reached before a root was. -/
def getMatrix (m : Libm) (h : Heap) : Nat → Nat → Option Mat4
  | 0, _ => none
  | fuel + 1, n =>
    match (h n).parent with
    | some p =>
      match getMatrix m h fuel p with
      | some M => some (M * (h n).getLocalMatrix m)
      | none => none
    | none => some ((h n).getLocalMatrix m)

/-- The method `SceneObject::getPosition`. -/
def getPosition (m : Libm) (h : Heap) (fuel n : Nat) : Option Vec3 :=
  match getMatrix m h fuel n with
  | some M => some (xyz (M.mulVec (vec4 ⟨0, 0, 0⟩ 1)))
  | none => none

/-- The method `SceneObject::setPosition`. -/
def setPosition (m : Libm) (h : Heap) (fuel n : Nat) (pos : Vec3) : Option Heap :=
  match getMatrix m h fuel n with
  | some M =>
    some (Function.update h n
      { h n with position := xyz ((inverse M).mulVec (vec4 pos 1)) })
  | none => none

/-- The method `SceneObject::resetMatrices`. -/
def resetMatrices (h : Heap) (n : Nat) : Heap :=
  Function.update h n
    { h n with position := ⟨0, 0, 0⟩, rotation := ⟨0, 0, 0⟩, scale := ⟨1, 1, 1⟩ }

/-- The method `SceneObject::addChild` called on the object at `n`. -/
def addChild (h : Heap) (n child : Nat) : Heap :=
  let h1 := Function.update h n { h n with childList := (h n).childList ++ [child] }
  Function.update h1 child { h1 child with parent := some n }

/-! ## Rays and the glm intersection routines -/

/-- The class `Ray`. -/
structure Ray where
  p : Vec3
  d : Vec3
deriving DecidableEq, Repr

/-- The method `Ray::evalPoint`. -/
def Ray.evalPoint (r : Ray) (t : ℚ) : Vec3 := r.p.add (Vec3.smul t r.d)

/-- The constant `std::numeric_limits<float>::epsilon()`, which is 2⁻²³. -/
def epsilon : ℚ := 1 / 8388608

/-- The function `glm::normalize` on `vec3`: `v * inversesqrt(dot(v, v))`. -/
def normalize (m : Libm) (v : Vec3) : Vec3 := Vec3.smul (1 / m.sqrt (v.dot v)) v

/-- The function `glm::normalize` on `vec4`. -/
def normalize4 (m : Libm) (v : Vec4) : Vec4 :=
  fun i => v i * (1 / m.sqrt (Matrix.dotProduct v v))

/-- The function `glm::intersectRaySphere` that reports the distance along the
ray; `none` is the return value `false`. -/
def intersectRaySphereDistance (m : Libm) (rayStarting rayNormalizedDirection sphereCenter : Vec3)
    (sphereRadiusSquared : ℚ) : Option ℚ :=
  let diff := sphereCenter.sub rayStarting
  let t0 := diff.dot rayNormalizedDirection
  let dSquared := diff.dot diff - t0 * t0
  if dSquared > sphereRadiusSquared then none
  else
    let t1 := m.sqrt (sphereRadiusSquared - dSquared)
    let intersectionDistance := if t0 > t1 + epsilon then t0 - t1 else t0 + t1
    if intersectionDistance > epsilon then some intersectionDistance else none

/-- The function `glm::intersectRaySphere` that reports the hit position and
normal; `none` is the return value `false`, which leaves both untouched. -/
def intersectRaySphere (m : Libm) (rayStarting rayNormalizedDirection sphereCenter : Vec3)
    (sphereRadius : ℚ) : Option (Vec3 × Vec3) :=
  match intersectRaySphereDistance m rayStarting rayNormalizedDirection sphereCenter
      (sphereRadius * sphereRadius) with
  | some distance =>
    let intersectionPosition := rayStarting.add (Vec3.smul distance rayNormalizedDirection)
    some (intersectionPosition, (intersectionPosition.sub sphereCenter).sdiv sphereRadius)
  | none => none

/-- The function `glm::intersectRayPlane` of glm 0.9.9; `some dist` is the
return value `true` with the distance written. -/
def intersectRayPlane (orig dir planeOrig planeNormal : Vec3) : Option ℚ :=
  let d := dir.dot planeNormal
  if |d| > epsilon then
    let tmp_intersectionDistance := (planeOrig.sub orig).dot planeNormal / d
    if tmp_intersectionDistance > 0 then some tmp_intersectionDistance else none
  else none

/-- The function `glm::intersectRayTriangle` of glm 0.9.9 (the release with the
`vec2` barycentric position and the separate `distance` that `Mesh::intersect`
passes); `some (baryPosition, distance)` is the return value `true` with both
written. After the bounds tests on the barycentric coordinates the routine ends
with `distance = dot(edge2, Perpendicular) * inv_det; baryPosition *= inv_det;
return true;`: the sign of `distance` is not tested. -/
def intersectRayTriangle (orig dir vert0 vert1 vert2 : Vec3) : Option (Vec2 × ℚ) :=
  let edge1 := vert1.sub vert0
  let edge2 := vert2.sub vert0
  let p := dir.cross edge2
  let det := edge1.dot p
  let dist := orig.sub vert0
  let bx := dist.dot p
  let Perpendicular := dist.cross edge1
  let byy := dir.dot Perpendicular
  let inv_det := 1 / det
  if det > epsilon then
    if bx < 0 ∨ bx > det then none
    else if byy < 0 ∨ bx + byy > det then none
    else some (⟨bx * inv_det, byy * inv_det⟩, edge2.dot Perpendicular * inv_det)
  else if det < -epsilon then
    if bx > 0 ∨ bx < det then none
    else if byy > 0 ∨ bx + byy < det then none
    else some (⟨bx * inv_det, byy * inv_det⟩, edge2.dot Perpendicular * inv_det)
  else none

/-- The type of a ray–plane routine (`orig`, `dir`, `planeOrig`, `planeNormal`). -/
abbrev RayPlaneTest := Vec3 → Vec3 → Vec3 → Vec3 → Option ℚ

/-- The type of a ray–triangle routine (`orig`, `dir`, `vert0`, `vert1`, `vert2`). -/
abbrev RayTriangleTest := Vec3 → Vec3 → Vec3 → Vec3 → Vec3 → Option (Vec2 × ℚ)

/-- What an `intersect` method leaves behind: its return value and the two
reference parameters `point` and `normal`. -/
structure Intersection where
  hit : Bool
  point : Vec3
  normal : Vec3
deriving DecidableEq, Repr

/-! ## `Sphere` and `Plane` (SceneObjects.h, SceneObjects.cpp) -/

/-- The method `Sphere::intersect` of the sphere at address `n` with the given
radius; `point` and `normal` are the values of the reference parameters at the
call. The outer `none` means `getPosition` ran out of fuel. -/
def Sphere.intersect (m : Libm) (h : Heap) (fuel n : Nat) (radius : ℚ) (ray : Ray)
    (point normal : Vec3) : Option Intersection :=
  match getPosition m h fuel n with
  | some center =>
    match intersectRaySphere m ray.p ray.d center radius with
    | some (pt, nrm) => some ⟨true, pt, nrm⟩
    | none => some ⟨false, point, normal⟩
  | none => none

/-- The fields of `Plane` that `Plane::intersect` reads. -/
structure Plane where
  position : Vec3
  normal : Vec3
  width : ℚ
  height : ℚ
deriving DecidableEq, Repr

/-- The method `Plane::intersect`, over the ray–plane routine `rp` that stands
for `glm::intersectRayPlane`. -/
def Plane.intersect (rp : RayPlaneTest) (pl : Plane) (ray : Ray) (point normalAtIntersect : Vec3) :
    Intersection :=
  match rp ray.p ray.d pl.position pl.normal with
  | some dist =>
    let r := ray
    let point := r.evalPoint dist
    let normalAtIntersect := pl.normal
    let xrange : Vec2 := ⟨pl.position.x - pl.width / 2, pl.position.x + pl.width / 2⟩
    let zrange : Vec2 := ⟨pl.position.z - pl.height / 2, pl.position.z + pl.height / 2⟩
    if point.x < xrange.y ∧ point.x > xrange.x ∧ point.z < zrange.y ∧ point.z > zrange.x then
      ⟨true, point, normalAtIntersect⟩
    else ⟨false, point, normalAtIntersect⟩
  | none => ⟨false, point, normalAtIntersect⟩

/-- The floor of the scene: `Plane(glm::vec3(0, -2, 0), glm::vec3(0, 1, 0))` with
the default width and height 20. -/
def floorPlane : Plane := ⟨⟨0, -2, 0⟩, ⟨0, 1, 0⟩, 20, 20⟩

/-! ## `Triangle` and `Mesh` (ofApp.h) -/

/-- The class `Triangle`. -/
structure Triangle where
  vertInd : Fin 3 → Nat
  nVertInd : Fin 3 → Nat

/-- The fields of `Mesh` that `Mesh::intersect` reads. -/
structure Mesh where
  verts : List Vec3
  nVerts : List Vec3
  triangles : List Triangle
  meshTransMatrix : Mat4
  smoothShading : Bool

/-- The locals of `Mesh::intersect` that live across iterations, and the two
reference parameters. `shortestDistance = none` is the initial `+infinity`. -/
structure MeshScan where
  hit : Bool
  shortestDistance : Option ℚ
  point : Vec3
  normal : Vec3

/-- The comparison `currentDistance < shortestDistance`. -/
def closer (currentDistance : ℚ) (shortestDistance : Option ℚ) : Bool :=
  match shortestDistance with
  | some s => decide (currentDistance < s)
  | none => true

namespace Mesh

/-- The transformed position vertex `meshTransMatrix * glm::vec4(verts[i], 1)`.
An index outside `verts` reads (0, 0, 0). -/
def vert (mesh : Mesh) (i : Nat) : Vec3 :=
  xyz (mesh.meshTransMatrix.mulVec (vec4 (mesh.verts.getD i ⟨0, 0, 0⟩) 1))

/-- The transformed vertex normal
`normalize(meshTransMatrix * vec4(nVerts[i], 1) - meshTransMatrix * vec4(0, 0, 0, 1))`.
An index outside `nVerts` reads (0, 0, 0). -/
def nVert (m : Libm) (mesh : Mesh) (i : Nat) : Vec3 :=
  xyz (normalize4 m
    (mesh.meshTransMatrix.mulVec (vec4 (mesh.nVerts.getD i ⟨0, 0, 0⟩) 1) -
      mesh.meshTransMatrix.mulVec (vec4 ⟨0, 0, 0⟩ 1)))

/-- The normal that `Mesh::intersect` stores for triangle `t` hit at the
barycentric coordinates `baryCenter`. -/
def hitNormal (m : Libm) (mesh : Mesh) (t : Triangle) (baryCenter : Vec2) : Vec3 :=
  let v0 := mesh.vert (t.vertInd 0)
  let v1 := mesh.vert (t.vertInd 1)
  let v2 := mesh.vert (t.vertInd 2)
  let nV0 := mesh.nVert m (t.nVertInd 0)
  let nV1 := mesh.nVert m (t.nVertInd 1)
  let nV2 := mesh.nVert m (t.nVertInd 2)
  if mesh.smoothShading then
    normalize m
      (((Vec3.smul (1 - baryCenter.x - baryCenter.y) nV0).add (Vec3.smul baryCenter.x nV1)).add
        (Vec3.smul baryCenter.y nV2))
  else
    let v0v1 := normalize m (v1.sub v0)
    let v0v2 := normalize m (v2.sub v0)
    v0v1.cross v0v2

/-- The ray–triangle test of `Mesh::intersect` on triangle `t`. -/
def test (rt : RayTriangleTest) (mesh : Mesh) (ray : Ray) (t : Triangle) : Option (Vec2 × ℚ) :=
  rt ray.p ray.d (mesh.vert (t.vertInd 0)) (mesh.vert (t.vertInd 1)) (mesh.vert (t.vertInd 2))

/-- One iteration of the loop of `Mesh::intersect`. -/
def step (m : Libm) (rt : RayTriangleTest) (mesh : Mesh) (ray : Ray) (s : MeshScan)
    (t : Triangle) : MeshScan :=
  match mesh.test rt ray t with
  | some (baryCenter, currentDistance) =>
    if closer currentDistance s.shortestDistance then
      { hit := true, shortestDistance := some currentDistance,
        point := ray.evalPoint currentDistance,
        normal := mesh.hitNormal m t baryCenter }
    else { s with hit := true }
  | none => s

/-- The loop of `Mesh::intersect` over the triangles `ts`. -/
def scan (m : Libm) (rt : RayTriangleTest) (mesh : Mesh) (ray : Ray) (s : MeshScan)
    (ts : List Triangle) : MeshScan :=
  ts.foldl (mesh.step m rt ray) s

/-- The method `Mesh::intersect`, over the ray–triangle routine `rt` that
stands for `glm::intersectRayTriangle`. -/
def intersect (m : Libm) (rt : RayTriangleTest) (mesh : Mesh) (ray : Ray) (point normal : Vec3) :
    Intersection :=
  let s := mesh.scan m rt ray ⟨false, none, point, normal⟩ mesh.triangles
  ⟨s.hit, s.point, s.normal⟩

end Mesh

/-! ## `ofApp::deleteJoint` (ofApp.cpp) -/

/-- The virtual method `getName`: `Joint` and `Mesh` report their name, and
`Plane` inherits the "no name" of `SceneObject`. -/
def getName (o : SceneObject) : String :=
  match o.cls with
  | ObjClass.joint => o.name
  | ObjClass.mesh => o.name
  | ObjClass.plane => "no name"

/-- The virtual method `getMeshName`: a `Joint` that has a mesh reports the
name of its mesh, and everything else reports "no mesh". -/
def getMeshName (h : Heap) (o : SceneObject) : String :=
  match o.cls with
  | ObjClass.joint => if o.hasMesh then getName (h o.attatchedMesh) else "no mesh"
  | ObjClass.mesh => "no mesh"
  | ObjClass.plane => "no mesh"

/-- The fields of `ofApp` that `deleteJoint` reads and writes, and the heap. -/
structure App where
  heap : Heap
  meshScene : List Nat
  joints : List Nat
  selected : List Nat

/-- The loop `for (int i = 0; i < v.size(); i++) if (pred(v[i])) v.erase(v.begin() + i);`
from the index `i` on. -/
def eraseLoop (pred : Nat → Bool) (v : List Nat) (i : Nat) : List Nat :=
  if h : i < v.length then
    if pred (v.get ⟨i, h⟩) then eraseLoop pred (v.eraseIdx i) (i + 1)
    else eraseLoop pred v (i + 1)
  else v
termination_by v.length - i
decreasing_by
  all_goals simp_wf
  · rw [List.length_eraseIdx]
    split <;> omega
  · omega

/-- The part of the body of the second loop of `deleteJoint` that acts on the
heap, for the child `currentChild`: record the world position and the rotation,
clear the parent, `resetMatrices`, `addChild` under `parentJoint` if the joint to
delete has a parent, `setPosition` to the recorded position, restore the
rotation. `parentJoint` is `none` while the C++ variable is uninitialised. -/
def rehome (m : Libm) (fuel jointToDelete : Nat) (parentJoint : Option Nat) (h : Heap)
    (currentChild : Nat) : Option Heap :=
  match getPosition m h fuel currentChild with
  | none => none
  | some resetPosition =>
    let resetRotation := (h currentChild).rotation
    let h1 := Function.update h currentChild { h currentChild with parent := none }
    let h2 := resetMatrices h1 currentChild
    let h3 : Option Heap :=
      match (h2 jointToDelete).parent, parentJoint with
      | some _, some pj => some (addChild h2 pj currentChild)
      | some _, none => none
      | none, _ => some h2
    match h3 with
    | none => none
    | some h3 =>
      match setPosition m h3 fuel currentChild resetPosition with
      | none => none
      | some h4 =>
        some (Function.update h4 currentChild
          { h4 currentChild with rotation := resetRotation })

/-- The body of the second loop of `deleteJoint` for the child `currentChild`:
the removal of the child's mesh from `meshScene`, then `rehome`. -/
def rehomeChild (m : Libm) (fuel jointToDelete : Nat) (parentJoint : Option Nat) (a : App)
    (currentChild : Nat) : Option App :=
  let meshScene := eraseLoop
    (fun s => getName (a.heap s) == getMeshName a.heap (a.heap currentChild)) a.meshScene 0
  match rehome m fuel jointToDelete parentJoint a.heap currentChild with
  | some h => some { a with heap := h, meshScene := meshScene }
  | none => none

/-- The second loop of `deleteJoint`,
`for (int i = 0; i < jointToDelete->childList.size(); i++)`, from the index `i`
on; `k` bounds the number of iterations, and `none` means a bound was
reached. -/
def deleteJointChildren (m : Libm) (fuel jointToDelete : Nat) (parentJoint : Option Nat) :
    Nat → Nat → App → Option App
  | 0, _, _ => none
  | k + 1, i, a =>
    match (a.heap jointToDelete).childList[i]? with
    | none => some a
    | some currentChild =>
      match rehomeChild m fuel jointToDelete parentJoint a currentChild with
      | some a' => deleteJointChildren m fuel jointToDelete parentJoint k (i + 1) a'
      | none => none

/-- The method `ofApp::deleteJoint`. `fuel` bounds the recursion of `getMatrix`
and the number of iterations of the loop over the children; `none` means a bound
was reached. -/
def deleteJoint (m : Libm) (fuel : Nat) (a : App) : Option App :=
  match a.selected with
  | [] => some { a with selected := [] }
  | jointToDelete :: _ =>
    let currentJointName := getName (a.heap jointToDelete)
    let parentJoint := (a.heap jointToDelete).parent
    let heap1 : Heap :=
      match parentJoint with
      | some pj =>
        Function.update a.heap pj
          { a.heap pj with
            childList := eraseLoop (fun c => getName (a.heap c) == currentJointName)
              (a.heap pj).childList 0 }
      | none => a.heap
    match deleteJointChildren m fuel jointToDelete parentJoint fuel 0
        { a with heap := heap1 } with
    | none => none
    | some a2 =>
      let meshScene := eraseLoop
        (fun s => getName (a2.heap s) == getMeshName a2.heap (a2.heap jointToDelete))
        a2.meshScene 0
      let joints := eraseLoop (fun s => getName (a2.heap s) == currentJointName) a2.joints 0
      some { heap := a2.heap, meshScene := meshScene, joints := joints, selected := [] }

/-! ## `ViewPlane` and `RenderCam` (SceneObjects.h, SceneObjects.cpp) -/

/-- The fields of `ViewPlane` that `toWorld` reads: the two corners and the
`position` inherited from `SceneObject`. -/
structure ViewPlane where
  min : Vec2
  max : Vec2
  position : Vec3
deriving DecidableEq, Repr

namespace ViewPlane

/-- The method `ViewPlane::width`. -/
def width (vp : ViewPlane) : ℚ := vp.max.x - vp.min.x

/-- The method `ViewPlane::height`. -/
def height (vp : ViewPlane) : ℚ := vp.max.y - vp.min.y

/-- The method `ViewPlane::toWorld`. -/
def toWorld (vp : ViewPlane) (u v : ℚ) : Vec3 :=
  let w := vp.width
  let h := vp.height
  ⟨u * w + vp.min.x, v * h + vp.min.y, vp.position.z⟩

end ViewPlane

/-- The fields of `RenderCam` that `getRay` reads. -/
structure RenderCam where
  position : Vec3
  view : ViewPlane
deriving DecidableEq, Repr

/-- The method `RenderCam::getRay`. -/
def RenderCam.getRay (m : Libm) (cam : RenderCam) (u v : ℚ) : Ray :=
  let pointOnPlane := cam.view.toWorld u v
  ⟨cam.position, normalize m (pointOnPlane.sub cam.position)⟩

/-! ## The render pass: `shadowCheck`, `phong` and `rayTrace` (ofApp.cpp) -/

/-- The function `glm::distance(p0, p1)`, which is `length(p1 - p0)`. -/
def distance (m : Libm) (p0 p1 : Vec3) : ℚ := m.sqrt ((p1.sub p0).dot (p1.sub p0))

/-- What the render pass takes from outside the repository: the C math library
(`libm`, and `pow`), the two glm intersection routines, the arithmetic of
`ofColor` on the colour type `C` (`scale` is `color * float` and `float * color`,
`add` is `+` and `+=`), the constant `ofColor::white`, the value of
`ofGetBackgroundColor()`, and the indeterminate contents of the two locals
`blockIntersectPt` and `blockIntersectNormal` that `phong` never initialises. -/
structure Outside (C : Type) where
  libm : Libm
  pow : ℚ → ℚ → ℚ
  rayPlane : RayPlaneTest
  rayTriangle : RayTriangleTest
  scale : C → ℚ → C
  add : C → C → C
  white : C
  background : C
  blockIntersectPt : Vec3
  blockIntersectNormal : Vec3

/-- The geometry of an object of `meshScene`: the floor is a `Plane`, every
other element a `Mesh`. -/
inductive Shape where
  | plane (pl : Plane)
  | mesh (me : Mesh)

/-- An object of `meshScene` as the render pass sees it: its geometry, and its
virtual method `getColor` (the diffuse colour, or the texture lookup of a
textured plane). -/
structure Entity (C : Type) where
  shape : Shape
  getColor : Vec3 → C

/-- The virtual method `intersect` of an object of `meshScene`. -/
def Entity.intersect {C : Type} (o : Outside C) (e : Entity C) (ray : Ray)
    (point normal : Vec3) : Intersection :=
  match e.shape with
  | Shape.plane pl => pl.intersect o.rayPlane ray point normal
  | Shape.mesh me => me.intersect o.libm o.rayTriangle ray point normal

/-- The fields `position` and `intensity` of a `Light`. -/
structure Light where
  position : Vec3
  intensity : ℚ
deriving DecidableEq, Repr

/-- The fields of `ofApp` that the render pass reads and does not write. -/
structure Scene (C : Type) where
  meshScene : List (Entity C)
  lights : List Light
  renderCam : RenderCam
  imageWidth : Nat
  imageHeight : Nat
  phongPower : ℚ

/-- The fields of `ofApp` that `rayTrace` writes: the pixels of `image`, by
column and row, and the two vectors `intersectPt` and `intersectNormal`. -/
structure Frame (C : Type) where
  image : Nat → Nat → C
  intersectPt : Vec3
  intersectNormal : Vec3

/-- The loop of `ofApp::shadowCheck` over the objects `meshScene`; the
parameters `intersection` and `normal` are passed on from one call of
`intersect` to the next. -/
def shadowCheckLoop {C : Type} (o : Outside C) (ray : Ray) (lightPosition : Vec3) :
    List (Entity C) → Vec3 → Vec3 → Bool
  | [], _, _ => false
  | e :: rest, intersection, normal =>
    let r := e.intersect o ray intersection normal
    if r.hit = true ∧
        distance o.libm ray.p r.point < distance o.libm ray.p lightPosition ∧
        distance o.libm r.point lightPosition < distance o.libm ray.p lightPosition then
      true
    else shadowCheckLoop o ray lightPosition rest r.point r.normal

/-- The method `ofApp::shadowCheck`. -/
def shadowCheck {C : Type} (o : Outside C) (s : Scene C) (ray : Ray)
    (intersection normal lightPosition : Vec3) : Bool :=
  shadowCheckLoop o ray lightPosition s.meshScene intersection normal

/-- One iteration of the loop of `ofApp::phong` over the lights. -/
def phongStep {C : Type} (o : Outside C) (s : Scene C) (point normal : Vec3)
    (diffuse specular : C) (power : ℚ) (result : C) (light : Light) : C :=
  let norm := normalize o.libm normal
  let directionToCam := normalize o.libm (s.renderCam.position.sub point)
  let directionToLight := normalize o.libm (light.position.sub point)
  let shadowRayPt := point.add (Vec3.smul (1 / 10000) norm)
  let shadingRay : Ray := ⟨shadowRayPt, directionToLight⟩
  let blocked := shadowCheck o s shadingRay o.blockIntersectPt o.blockIntersectNormal
    light.position
  if blocked = false then
    let illumination := light.intensity / o.pow (distance o.libm light.position point) 2
    let dotProdNormLight := norm.dot directionToLight
    let result := o.add result (o.scale (o.scale diffuse illumination) (max 0 dotProdNormLight))
    let bisectingVec := normalize o.libm (directionToCam.add directionToLight)
    let dotProdNormBis := norm.dot bisectingVec
    o.add result
      (o.scale (o.scale specular illumination) (o.pow (max 0 dotProdNormBis) power))
  else result

/-- The method `ofApp::phong`. -/
def phong {C : Type} (o : Outside C) (s : Scene C) (_ray : Ray) (point normal : Vec3)
    (diffuse specular : C) (power : ℚ) : C :=
  s.lights.foldl (phongStep o s point normal diffuse specular power)
    (o.scale diffuse (15 / 100))

/-- The method `ofImage::setColor(x, y, color)`. -/
def setColor {C : Type} (image : Nat → Nat → C) (x y : Nat) (color : C) : Nat → Nat → C :=
  fun a b => if a = x ∧ b = y then color else image a b

/-- The locals of `rayTrace` that live across the iterations of the loop over
`meshScene`, and the fields it writes. -/
structure PixelScan (C : Type) where
  hit : Bool
  shortestDistance : Option ℚ
  closestObject : Option (Entity C)
  frame : Frame C

/-- One iteration of the loop of `rayTrace` over `meshScene`, for the pixel
`(i, j)` and its ray: the intersection test of the object `e`, then the write
of the pixel. A `closestObject` that is still `NULL` when `hit` is set would be
dereferenced; the model leaves the state as it is. -/
def tracePixelStep {C : Type} (o : Outside C) (s : Scene C) (ray : Ray) (i j : Nat)
    (st : PixelScan C) (e : Entity C) : PixelScan C :=
  let r := e.intersect o ray st.frame.intersectPt st.frame.intersectNormal
  let currentDistance := distance o.libm ray.p r.point
  let shortestDistance :=
    if r.hit = true ∧ closer currentDistance st.shortestDistance = true then some currentDistance
    else st.shortestDistance
  let closestObject :=
    if r.hit = true ∧ closer currentDistance st.shortestDistance = true then some e
    else st.closestObject
  let hit := if r.hit = true then true else st.hit
  if hit = true then
    match closestObject with
    | some c =>
      let r2 := c.intersect o ray r.point r.normal
      let objColor := c.getColor r2.point
      let color := phong o s ray r2.point r2.normal objColor o.white s.phongPower
      { hit := hit, shortestDistance := shortestDistance, closestObject := closestObject,
        frame := ⟨setColor st.frame.image i (s.imageHeight - 1 - j) color, r2.point,
          r2.normal⟩ }
    | none =>
      { hit := hit, shortestDistance := shortestDistance, closestObject := closestObject,
        frame := ⟨st.frame.image, r.point, r.normal⟩ }
  else
    { hit := hit, shortestDistance := shortestDistance, closestObject := closestObject,
      frame := ⟨setColor st.frame.image i (s.imageHeight - 1 - j) o.background, r.point,
        r.normal⟩ }

/-- The ray of the pixel `(i, j)` in `rayTrace`:
`renderCam.getRay((i + 0.5) / imageWidth, (j + 0.5) / imageHeight)`. -/
def pixelRay {C : Type} (o : Outside C) (s : Scene C) (i j : Nat) : Ray :=
  let u : ℚ := (i + 1 / 2) / s.imageWidth
  let v : ℚ := (j + 1 / 2) / s.imageHeight
  s.renderCam.getRay o.libm u v

/-- The body of the two pixel loops of `rayTrace` for the pixel `(i, j)`. -/
def tracePixel {C : Type} (o : Outside C) (s : Scene C) (i j : Nat) (f : Frame C) : Frame C :=
  (s.meshScene.foldl (tracePixelStep o s (pixelRay o s i j) i j)
    ⟨false, none, none, f⟩).frame

/-- The method `ofApp::rayTrace`, up to the saving of the image file. -/
def rayTrace {C : Type} (o : Outside C) (s : Scene C) (f : Frame C) : Frame C :=
  (List.range s.imageWidth).foldl
    (fun f i => (List.range s.imageHeight).foldl (fun f j => tracePixel o s i j f) f) f


/-! ## `rotateToVector` (SceneObjects.cpp) -/

/-- The fields of a `glm::quat`. -/
structure Quat where
  w : ℚ
  x : ℚ
  y : ℚ
  z : ℚ
deriving DecidableEq, Repr

/-- The function `glm::angle` of two vectors, `acos(clamp(dot(x, y), -1, 1))`,
over the routine `acos` of the C math library; `clamp(v, lo, hi)` is
`min(max(v, lo), hi)`. -/
def angle (acos : ℚ → ℚ) (x y : Vec3) : ℚ := acos (min (max (x.dot y) (-1)) 1)

/-- The function `glm::angleAxis`: the quaternion
`(cos(angle * 0.5), v * sin(angle * 0.5))`. -/
def angleAxis (m : Libm) (angle : ℚ) (v : Vec3) : Quat :=
  let a := angle
  let s := m.sin (a * (1 / 2))
  ⟨m.cos (a * (1 / 2)), v.x * s, v.y * s, v.z * s⟩

/-- The function `glm::toMat4`: the matrix of `glm::mat3_cast` in the upper left
corner of the identity. -/
def toMat4 (q : Quat) : Mat4 :=
  let qxx := q.x * q.x
  let qyy := q.y * q.y
  let qzz := q.z * q.z
  let qxz := q.x * q.z
  let qxy := q.x * q.y
  let qyz := q.y * q.z
  let qwx := q.w * q.x
  let qwy := q.w * q.y
  let qwz := q.w * q.z
  !![1 - 2 * (qyy + qzz), 2 * (qxy - qwz), 2 * (qxz + qwy), 0;
     2 * (qxy + qwz), 1 - 2 * (qxx + qzz), 2 * (qyz - qwx), 0;
     2 * (qxz - qwy), 2 * (qyz + qwx), 1 - 2 * (qxx + qyy), 0;
     0, 0, 0, 1]

/-- The method `SceneObject::rotateToVector`, over the routine `acos` of the C
math library. -/
def rotateToVector (m : Libm) (acos : ℚ → ℚ) (v1 v2 : Vec3) : Mat4 :=
  let axis := v1.cross v2
  let q := angleAxis m (angle acos v1 v2) (normalize m axis)
  toMat4 q

/-- The function `glm::normalize` with the float division made explicit. glm
computes `v * inversesqrt(dot(v, v))` with `inversesqrt(x) = 1 / sqrt(x)`; when
`sqrt(dot(v, v))` is 0 the quotient is infinite and the product has NaN or
infinite components, for which `none` stands. Otherwise the result is that of
`normalize`. -/
def normalizeFinite (m : Libm) (v : Vec3) : Option Vec3 :=
  if m.sqrt (v.dot v) = 0 then none else some (normalize m v)

/-- The method `SceneObject::rotateToVector` with the division of
`glm::normalize` made explicit: `none` stands for the matrix with NaN entries
that `toMat4(angleAxis(..))` yields from an axis with NaN components. -/
def rotateToVectorFinite (m : Libm) (acos : ℚ → ℚ) (v1 v2 : Vec3) : Option Mat4 :=
  let axis := v1.cross v2
  match normalizeFinite m axis with
  | some n => some (toMat4 (angleAxis m (angle acos v1 v2) n))
  | none => none

/-! ## `ofApp::lambert` and the shadow ray (ofApp.cpp) -/

/-- The local `shadingRay` of `phong` and of `lambert` for the light at
`lightPosition`: `Ray(point + 0.0001 * norm, directionToLight)` with
`norm = normalize(normal)` and `directionToLight = normalize(lightPosition - point)`. -/
def shadingRay (m : Libm) (point normal lightPosition : Vec3) : Ray :=
  let norm := normalize m normal
  let directionToLight := normalize m (lightPosition.sub point)
  let shadowRayPt := point.add (Vec3.smul (1 / 10000) norm)
  ⟨shadowRayPt, directionToLight⟩

/-- One iteration of the loop of `ofApp::lambert` over the lights; the local
`directionToCam`, which `lambert` assigns and never reads, is left out. -/
def lambertStep {C : Type} (o : Outside C) (s : Scene C) (point normal : Vec3)
    (diffuse : C) (result : C) (light : Light) : C :=
  let norm := normalize o.libm normal
  let directionToLight := normalize o.libm (light.position.sub point)
  let shadowRayPt := point.add (Vec3.smul (1 / 10000) norm)
  let shadingRay : Ray := ⟨shadowRayPt, directionToLight⟩
  let blocked := shadowCheck o s shadingRay o.blockIntersectPt o.blockIntersectNormal
    light.position
  if blocked = false then
    let illumination := light.intensity / o.pow (distance o.libm light.position point) 2
    let dotProdNormLight := norm.dot directionToLight
    o.add result (o.scale (o.scale diffuse illumination) (max 0 dotProdNormLight))
  else result

/-- The call by which `Joint::draw` obtains a rotation matrix:
`glm::eulerAngleYXZ(yaw, pitch, roll)` or `rotateToVector(v1, v2)`. -/
inductive BoneRotation where
  | euler (yaw pitch roll : ℚ)
  | toVector (v1 v2 : Vec3)
deriving DecidableEq

/-- The matrix that the call returns. -/
def BoneRotation.eval (m : Libm) (acos : ℚ → ℚ) : BoneRotation → Mat4
  | BoneRotation.euler yaw pitch roll => eulerAngleYXZ m yaw pitch roll
  | BoneRotation.toVector v1 v2 => rotateToVector m acos v1 v2

/-- The function `std::to_string` on a non-negative `int`: its decimal
digits. -/
def to_string (n : Nat) : String := Nat.repr n

/-- The part of `ofApp::setup` that builds the scene: `floor = new Plane(...)`
and `meshScene.push_back(floor)`, with no joint and no selection. `floor` is the
address that `new` returns; every other address is taken to hold a
default-constructed joint. -/
def setup (floor : Nat) : App :=
  { heap := Function.update (fun _ => SceneObject.new) floor
      { SceneObject.new with cls := ObjClass.plane, position := ⟨0, -2, 0⟩,
                             name := "SceneObject" }
    meshScene := [floor]
    joints := []
    selected := [] }

/-- The method `ofApp::getNewName`, with the field `jointCount` passed in and
returned next to the name; `fuel` bounds the recursion, and `none` means the
bound was reached. -/
def getNewName (h : Heap) (joints : List Nat) : Nat → Nat → String → Option (String × Nat)
  | 0, _, _ => none
  | fuel + 1, jointCount, newName =>
    if joints.any (fun j => getName (h j) == newName) then
      getNewName h joints fuel (jointCount + 1) ("joint" ++ to_string (jointCount + 1))
    else some (newName, jointCount)

/-- The method `ofApp::addJoint`. `fresh` is the address that `new Joint()`
returns and `newPosition` the point that `mouseToDragPlane` reports; `fuel`
bounds the recursions of `getNewName` and `getMatrix`. -/
def addJoint (m : Libm) (fuel fresh : Nat) (newPosition : Vec3) (a : App) : Option App :=
  let heap0 := Function.update a.heap fresh SceneObject.new
  match getNewName heap0 a.joints fuel 0 ("joint" ++ to_string 0) with
  | none => none
  | some (name, _) =>
    let heap1 := Function.update heap0 fresh { heap0 fresh with name := name }
    let joints := a.joints ++ [fresh]
    let heap2 :=
      match a.selected with
      | [] => heap1
      | sel :: _ => addChild heap1 sel fresh
    match setPosition m heap2 fuel fresh newPosition with
    | none => none
    | some heap3 => some { a with heap := heap3, joints := joints }

/-- The end of `ofApp::loadObjFile`, after the file has been read into the new
mesh: the mesh is named, and it is attached to the selected joint and added to
the scene unless that joint is a root. `mesh` is the address that `new Mesh()`
returns; the field `numMeshes` is passed in and returned. -/
def loadObjFile (mesh numMeshes : Nat) (a : App) : App × Nat :=
  let numMeshes := numMeshes + 1
  let heap0 := Function.update a.heap mesh
    { SceneObject.new with cls := ObjClass.mesh, name := "mesh" ++ to_string numMeshes }
  match a.selected with
  | sel :: _ =>
    if (heap0 sel).parent = none then ({ a with heap := heap0 }, numMeshes)
    else
      let meshScene := eraseLoop
        (fun s => getName (heap0 s) == getMeshName heap0 (heap0 sel)) a.meshScene 0
      let heap1 := Function.update heap0 sel
        { heap0 sel with attatchedMesh := mesh, hasMesh := true }
      ({ a with heap := heap1, meshScene := meshScene ++ [mesh] }, numMeshes)
  | [] => ({ a with heap := heap0 }, numMeshes)

/-- The extraction `inputStream >> s` into a string variable that holds `old`:
the next word of the file, or, at the end of the file, the failed extraction,
which leaves the variable as it was. -/
def readWord (old : String) : List String → String × List String
  | [] => (old, [])
  | w :: rest => (w, rest)

/-- The variables of `loadScriptFile` that its read loop updates: the heap, the
vector `joints`, the locals `jointToAdd`, `tempString`, `readName` and
`parentName`, and the address that the next `new Joint()` returns. -/
structure ScriptState where
  heap : Heap
  joints : List Nat
  jointToAdd : Option Nat
  next : Nat
  tempString : String
  readName : String
  parentName : String

/-- The loop of the `-parent` branch of `loadScriptFile`: every joint of
`joints` whose name is `parentName` adopts `jointToAdd`. -/
def adoptLoop (parentName : String) (jointToAdd : Nat) (joints : List Nat) (h : Heap) : Heap :=
  joints.foldl (fun h i => if getName (h i) = parentName then addChild h i jointToAdd else h) h

/-- The read loop of `loadScriptFile` over the whitespace-separated words of
the file. `parseVec3` stands for the three `stof(substr(...))` conversions of a
triple `<x, y, z>`. The result `none` is an exception of `stof` or `substr`, or a
write through `jointToAdd` before the first `create`. Before the first `create`
the list `joints` is empty, so that a `-parent` does nothing. -/
def loadScriptLoop (parseVec3 : String → String → String → Option Vec3) :
    List String → ScriptState → Option ScriptState
  | [], st => some st
  | read :: rest, st =>
    if read = "create" then
      loadScriptLoop parseVec3 rest
        { st with
          heap := Function.update st.heap st.next SceneObject.new
          joints := st.joints ++ [st.next]
          jointToAdd := some st.next
          next := st.next + 1 }
    else if read = "-joint" then
      match st.jointToAdd with
      | none => none
      | some j =>
        loadScriptLoop parseVec3 (readWord st.readName rest).2
          { st with
            readName := (readWord st.readName rest).1
            heap := Function.update st.heap j
              { st.heap j with name := (readWord st.readName rest).1 } }
    else if read = "-rotate" then
      let r1 := readWord st.tempString rest
      let r2 := readWord r1.1 r1.2
      let r3 := readWord r2.1 r2.2
      match parseVec3 r1.1 r2.1 r3.1, st.jointToAdd with
      | some readRotate, some j =>
        loadScriptLoop parseVec3 r3.2
          { st with
            tempString := r3.1
            heap := Function.update st.heap j { st.heap j with rotation := readRotate } }
      | _, _ => none
    else if read = "-translate" then
      let r1 := readWord st.tempString rest
      let r2 := readWord r1.1 r1.2
      let r3 := readWord r2.1 r2.2
      match parseVec3 r1.1 r2.1 r3.1, st.jointToAdd with
      | some readTranslate, some j =>
        loadScriptLoop parseVec3 r3.2
          { st with
            tempString := r3.1
            heap := Function.update st.heap j { st.heap j with position := readTranslate } }
      | _, _ => none
    else if read = "-parent" then
      loadScriptLoop parseVec3 (readWord st.parentName rest).2
        { st with
          parentName := (readWord st.parentName rest).1
          heap :=
            match st.jointToAdd with
            | some j => adoptLoop (readWord st.parentName rest).1 j st.joints st.heap
            | none => st.heap }
    else loadScriptLoop parseVec3 rest st
termination_by l => l.length
decreasing_by
  all_goals simp_wf
  all_goals
    first
    | omega
    | (rcases rest with _ | ⟨w1, _ | ⟨w2, _ | ⟨w3, rest⟩⟩⟩ <;> simp [readWord] <;> omega)

/-- The method `ofApp::loadScriptFile` on a file that opens, given as the list
of its words; `fresh` is the address that the first `new Joint()` returns, and
the later ones return the addresses that follow. On an empty `meshScene` the
initial `erase` is undefined (`none`). -/
def loadScriptFile (parseVec3 : String → String → String → Option Vec3) (fresh : Nat)
    (script : List String) (a : App) : Option App :=
  match a.meshScene with
  | [] => none
  | floor :: _ =>
    match loadScriptLoop parseVec3 script
        { heap := a.heap, joints := [], jointToAdd := none, next := fresh,
          tempString := "", readName := "", parentName := "" } with
    | none => none
    | some st => some { heap := st.heap, meshScene := [floor], joints := st.joints, selected := [] }
/-! ## Predicates of the statements -/

/-- The hierarchy is acyclic: some rank strictly decreases along every
`parent` link, so no object is its own ancestor. -/
def Acyclic (h : Heap) : Prop :=
  ∃ rank : Nat → Nat, ∀ n p, (h n).parent = some p → rank p < rank n

/-- The matrix is affine: its bottom row is (0, 0, 0, 1). -/
def IsAffine (M : Mat4) : Prop := M 3 0 = 0 ∧ M 3 1 = 0 ∧ M 3 2 = 0 ∧ M 3 3 = 1

/-- The two objects have the same parent and the same transform fields. -/
def SameTransform (o o' : SceneObject) : Prop :=
  o'.parent = o.parent ∧ o'.position = o.position ∧ o'.rotation = o.rotation ∧
    o'.scale = o.scale ∧ o'.pivot = o.pivot

/-- The invariant of the second loop of `deleteJoint`, where `h0` is the heap
on entry, `j` the joint to delete, `par` its parent link and `L` its child
list: the rank still decreases along parent links, `j` is untouched, no object
ranked at or below `j` has moved, and every child is above `j`, within reach of
the fuel `g + 1`, unpivoted, at its world position on entry, and a child of `j`
or of `par`. -/
def RehomeInv (m : Libm) (rank : Nat → Nat) (g j : Nat) (par : Option Nat) (L : List Nat)
    (h0 h : Heap) : Prop :=
  (∀ n p, (h n).parent = some p → rank p < rank n) ∧
  ((h j).childList = L ∧ (h j).parent = par) ∧
  (∀ k, rank k ≤ rank j → SameTransform (h0 k) (h k)) ∧
  (∀ c, c ∈ L → rank j < rank c ∧ rank c ≤ g ∧ (h c).pivot = ⟨0, 0, 0⟩ ∧
    getPosition m h (g + 1) c = getPosition m h0 (g + 1) c ∧
    ((h c).parent = some j ∨ (h c).parent = par))

/-! ## Sample data -/

/-- A sample math library over `ℚ`: the rational parametrisation of the circle
for `cos` and `sin`, and the exact root on squares for `sqrt`. -/
def ratLibm : Libm :=
  ⟨fun t => (1 - t ^ 2) / (1 + t ^ 2), fun t => 2 * t / (1 + t ^ 2), Rat.sqrt⟩

/-- A heap of fresh roots. -/
def freshHeap : Heap := fun _ => SceneObject.new

/-- A heap of roots placed at `(1, 0, 0)`. -/
def offsetRootHeap : Heap := fun _ => { SceneObject.new with position := ⟨1, 0, 0⟩ }

/-- A heap whose object 1 is a child of the root object 0; every other address
holds a fresh root. -/
def twoJointHeap : Heap := fun n =>
  if n = 1 then
    { SceneObject.new with parent := some 0, position := ⟨4, 5, 6⟩, pivot := ⟨1, 1, 1⟩ }
  else if n = 0 then
    { SceneObject.new with childList := [1], position := ⟨1, 2, 3⟩ }
  else SceneObject.new

/-- A skeleton of three joints in a chain: 0 is the root, 1 its child and 2 the
child of 1; every other address holds a fresh joint. -/
def threeJointHeap : Heap := fun n =>
  if n = 0 then
    { SceneObject.new with name := "joint0", childList := [1], position := ⟨1, 2, 3⟩ }
  else if n = 1 then
    { SceneObject.new with name := "joint1", parent := some 0, childList := [2],
                           position := ⟨4, 5, 6⟩, rotation := ⟨0, 90, 0⟩ }
  else if n = 2 then
    { SceneObject.new with name := "joint2", parent := some 1, position := ⟨7, 8, 9⟩,
                           rotation := ⟨10, 20, 30⟩ }
  else SceneObject.new

/-- The application state with the skeleton `threeJointHeap`, the floor alone
in the scene (at address 3), and the middle joint selected. -/
def threeJointApp : App :=
  { heap := threeJointHeap, meshScene := [3], joints := [0, 1, 2], selected := [1] }

/-- A flat-shaded mesh of one triangle with the corners (0, 0, 0), (2, 0, 0) and
(0, 2, 0), placed by the identity matrix. -/
def flatTriangleMesh : Mesh :=
  { verts := [⟨0, 0, 0⟩, ⟨2, 0, 0⟩, ⟨0, 2, 0⟩], nVerts := [⟨0, 0, 1⟩],
    triangles := [⟨![0, 1, 2], ![0, 0, 0]⟩], meshTransMatrix := 1, smoothShading := false }

/-- A flat-shaded mesh of two triangles placed by the identity matrix: the
first in the plane `z = 0`, the second, of the same shape, in the plane
`z = 10`. -/
def twoLayerMesh : Mesh :=
  { verts := [⟨0, 0, 0⟩, ⟨2, 0, 0⟩, ⟨0, 2, 0⟩, ⟨0, 0, 10⟩, ⟨2, 0, 10⟩, ⟨0, 2, 10⟩],
    nVerts := [⟨0, 0, 1⟩],
    triangles := [⟨![0, 1, 2], ![0, 0, 0]⟩, ⟨![3, 4, 5], ![0, 0, 0]⟩],
    meshTransMatrix := 1, smoothShading := false }

/-- The render camera as the constructors `RenderCam()` and `ViewPlane()` leave
it: at (0, 0, 10), with the view plane from (-3, -2) to (3, 2) at depth 5. -/
def defaultCam : RenderCam := ⟨⟨0, 0, 10⟩, ⟨⟨-3, -2⟩, ⟨3, 2⟩, ⟨0, 0, 5⟩⟩⟩

/-- The weights of the three corners of a triangle at the barycentric position
`b = (u, v)` that `glm::intersectRayTriangle` reports: `(1 - u - v, u, v)`. -/
def baryWeight (b : Vec2) : Fin 3 → ℚ := ![1 - b.x - b.y, b.x, b.y]

/-- The point of the transformed triangle `t` at the barycentric position `b`:
`(1 - u - v) * v0 + u * v1 + v * v2`. -/
def Mesh.baryPoint (mesh : Mesh) (t : Triangle) (b : Vec2) : Vec3 :=
  ((Vec3.smul (1 - b.x - b.y) (mesh.vert (t.vertInd 0))).add
    (Vec3.smul b.x (mesh.vert (t.vertInd 1)))).add
    (Vec3.smul b.y (mesh.vert (t.vertInd 2)))

/-- A smooth-shaded mesh of two triangles (A, B, C) and (B, A, D) that share the
edge from A = (0, 0, 0) to B = (2, 0, 0) and use the normals 0 at A and 1 at B,
placed by the identity matrix. -/
def sharedEdgeMesh : Mesh :=
  { verts := [⟨0, 0, 0⟩, ⟨2, 0, 0⟩, ⟨0, 2, 0⟩, ⟨2, -2, 0⟩],
    nVerts := [⟨0, 0, 1⟩, ⟨0, 3, 4⟩, ⟨1, 0, 0⟩],
    triangles := [⟨![0, 1, 2], ![0, 1, 2]⟩, ⟨![1, 0, 3], ![1, 0, 2]⟩],
    meshTransMatrix := 1, smoothShading := true }

/-- What `intersect` of the object `e` reports for the ray on a hit: the hit
point and the normal. -/
def Entity.hitData {C : Type} (o : Outside C) (e : Entity C) (ray : Ray) :
    Option (Vec3 × Vec3) :=
  if (e.intersect o ray ⟨0, 0, 0⟩ ⟨0, 0, 0⟩).hit = true then
    some ((e.intersect o ray ⟨0, 0, 0⟩ ⟨0, 0, 0⟩).point,
      (e.intersect o ray ⟨0, 0, 0⟩ ⟨0, 0, 0⟩).normal)
  else none

/-- The closest-hit search in the words of the specification, one object at a
time: keep the object and its hit data with the smallest distance from the ray
origin; on equal distances the object kept is the earlier one. -/
def closestStep {C : Type} (o : Outside C) (ray : Ray) (best : Option (Entity C × Vec3 × Vec3))
    (e : Entity C) : Option (Entity C × Vec3 × Vec3) :=
  match e.hitData o ray with
  | none => best
  | some (pt, n) =>
    match best with
    | none => some (e, pt, n)
    | some (_, pt', _) =>
      if distance o.libm ray.p pt < distance o.libm ray.p pt' then some (e, pt, n) else best

/-- The closest-hit search of the specification over a list of objects. -/
def closestHit {C : Type} (o : Outside C) (ray : Ray) (scene : List (Entity C)) :
    Option (Entity C × Vec3 × Vec3) :=
  scene.foldl (closestStep o ray) none

/-- The colour of a pixel in the words of the specification: the shading of the
closest hit with the colour of its object at the hit point, or the background
colour when there is no hit. -/
def shade {C : Type} (o : Outside C) (s : Scene C) (ray : Ray)
    (best : Option (Entity C × Vec3 × Vec3)) : C :=
  match best with
  | some (e, pt, n) => phong o s ray pt n (e.getColor pt) o.white s.phongPower
  | none => o.background


/-- The light-by-light shading in the words of the specification: the ambient
term, then for each light that `shadowCheck` does not report as blocked, in the
order of the list, the diffuse term `diffuse * (intensity / d²) * max(0, n·L)`
and the specular term `specular * (intensity / d²) * max(0, n·H)^power`. Here
`n` is the unit normal, `d` the distance from the point to the light, `L` the
unit vector from the point to the light and `H` the normalised sum of the unit
vector to the camera and `L`. -/
def phongSpec {C : Type} (o : Outside C) (s : Scene C) (point normal : Vec3)
    (diffuse specular : C) (power : ℚ) : C :=
  let n := normalize o.libm normal
  let toCam := normalize o.libm (s.renderCam.position.sub point)
  let L := fun (l : Light) => normalize o.libm (l.position.sub point)
  let H := fun (l : Light) => normalize o.libm (toCam.add (L l))
  let d := fun (l : Light) => distance o.libm point l.position
  let lit := s.lights.filter (fun l =>
    !shadowCheck o s ⟨point.add (Vec3.smul (1 / 10000) n), L l⟩ o.blockIntersectPt
      o.blockIntersectNormal l.position)
  lit.foldl
    (fun acc l =>
      o.add (o.add acc (o.scale (o.scale diffuse (l.intensity / d l ^ 2)) (max 0 (n.dot (L l)))))
        (o.scale (o.scale specular (l.intensity / d l ^ 2)) (o.pow (max 0 (n.dot (H l))) power)))
    (o.scale diffuse (15 / 100))

/-- A sample of what the render pass takes from outside: the sample math
library, `pow` at the whole part of the exponent, the two glm routines, and
colours as rational grey levels with white 1 and background 0. -/
def ratOutside : Outside ℚ :=
  { libm := ratLibm
    pow := fun x y => x ^ (Rat.floor y).toNat
    rayPlane := intersectRayPlane
    rayTriangle := intersectRayTriangle
    scale := fun c t => c * t
    add := fun a b => a + b
    white := 1
    background := 0
    blockIntersectPt := ⟨0, 0, 0⟩
    blockIntersectNormal := ⟨0, 0, 0⟩ }

/-- The floor as an object of the scene, of grey level 1/2. -/
def floorEntity : Entity ℚ := ⟨Shape.plane floorPlane, fun _ => 1 / 2⟩

/-- A second floor one unit below the first, of grey level 1/4. -/
def lowerFloorEntity : Entity ℚ := ⟨Shape.plane ⟨⟨0, -3, 0⟩, ⟨0, 1, 0⟩, 20, 20⟩, fun _ => 1 / 4⟩

/-- A camera above the floor that looks down at it: the ray through the middle
of its view plane has the direction `(0, -4, -3)`. -/
def tiltedCam : RenderCam := ⟨⟨0, 2, 3⟩, ⟨⟨-1, -3⟩, ⟨1, -1⟩, ⟨0, 0, 0⟩⟩⟩

/-- A scene of one pixel whose ray meets the floor and then the lower floor, with
one light above the floor. -/
def tiltedScene : Scene ℚ :=
  { meshScene := [floorEntity, lowerFloorEntity]
    lights := [⟨⟨0, 8, 0⟩, 100⟩]
    renderCam := tiltedCam
    imageWidth := 1
    imageHeight := 1
    phongPower := 2 }

/-- A scene of one pixel whose ray runs parallel to the floor. -/
def levelScene : Scene ℚ :=
  { meshScene := [floorEntity]
    lights := [⟨⟨0, 8, 0⟩, 100⟩]
    renderCam := defaultCam
    imageWidth := 1
    imageHeight := 1
    phongPower := 2 }

/-- A scene of one pixel without objects. -/
def emptyScene : Scene ℚ :=
  { meshScene := []
    lights := [⟨⟨0, 8, 0⟩, 100⟩]
    renderCam := defaultCam
    imageWidth := 1
    imageHeight := 1
    phongPower := 2 }

/-- A frame whose pixels all hold the grey level 7. -/
def greyFrame : Frame ℚ := ⟨fun _ _ => 7, ⟨0, 0, 0⟩, ⟨0, 0, 0⟩⟩

/-- A sample arc cosine for the sample math library: the argument `t` at which
`ratLibm.cos (t / 2)` is the cosine of half the angle, exact where the two roots
are rational. -/
def ratAcos (x : ℚ) : ℚ :=
  2 * Rat.sqrt ((1 - Rat.sqrt ((1 + x) / 2)) / (1 + Rat.sqrt ((1 + x) / 2)))

/-- The upper left 3 x 3 block of `M` applied to the vector `n`. -/
def linearApply (M : Mat4) (n : Vec3) : Vec3 :=
  ⟨M 0 0 * n.x + M 0 1 * n.y + M 0 2 * n.z,
    M 1 0 * n.x + M 1 1 * n.y + M 1 2 * n.z,
    M 2 0 * n.x + M 2 1 * n.y + M 2 2 * n.z⟩

/-- The mesh `sharedEdgeMesh` moved by the translation (1, 2, 3). -/
def movedMesh : Mesh := { sharedEdgeMesh with meshTransMatrix := translate ⟨1, 2, 3⟩ }

/-- A heap whose object 1, at the local position (0, -2, 0), is a child of the
root object 0 at (0, 3, 0); every other address holds a fresh root. -/
def stackedHeap : Heap := fun n =>
  if n = 1 then { SceneObject.new with parent := some 0, position := ⟨0, -2, 0⟩ }
  else if n = 0 then { SceneObject.new with childList := [1], position := ⟨0, 3, 0⟩ }
  else SceneObject.new

/-- The heap that the re-homing of the child `c` under `par` leaves when the
new local position of the child is `pos`: the child has the parent link `par`,
the position `pos` and the scale (1, 1, 1), and it is appended to the child list
of `par`. -/
def rehomed (h : Heap) (par : Option Nat) (c : Nat) (pos : Vec3) : Heap :=
  match par with
  | none =>
    Function.update h c { h c with parent := none, position := pos, scale := ⟨1, 1, 1⟩ }
  | some pj =>
    Function.update
      (Function.update h pj { h pj with childList := (h pj).childList ++ [c] }) c
      { h c with parent := some pj, position := pos, scale := ⟨1, 1, 1⟩ }

/-- The heap `h` of the second loop of `deleteJoint` after `i` iterations,
described from the heap `h0` at the start of the loop, for the child list `L` of
the joint to delete and its parent link `par`: each of the first `i` children
has the parent link `par`, some new position and the scale (1, 1, 1), the
parent has these children appended to its child list, and every other object
is as it was. -/
def ChildrenRehomed (par : Option Nat) (L : List Nat) (h0 h : Heap) (i : Nat) : Prop :=
  (∀ k, k ∉ L.take i →
    h k = if par = some k then { h0 k with childList := (h0 k).childList ++ L.take i }
      else h0 k) ∧
  (∀ c, c ∈ L.take i →
    ∃ pos, h c = { h0 c with parent := par, position := pos, scale := ⟨1, 1, 1⟩ })

/-- The two objects agree in the fields that `deleteJoint` never writes or
restores: the name, the class, the mesh fields, the rotation and the pivot. -/
def SameIdentity (o o' : SceneObject) : Prop :=
  o'.name = o.name ∧ o'.cls = o.cls ∧ o'.hasMesh = o.hasMesh ∧
    o'.attatchedMesh = o.attatchedMesh ∧ o'.rotation = o.rotation ∧ o'.pivot = o.pivot

/-- A skeleton of two joints: the root 0 is turned by 90 degrees about z, and
its child 1 sits at the local position (1, 0, 0); every other address holds a
fresh joint. -/
def twistHeap : Heap := fun n =>
  if n = 0 then
    { SceneObject.new with name := "joint0", childList := [1], rotation := ⟨0, 0, 90⟩ }
  else if n = 1 then
    { SceneObject.new with name := "joint1", parent := some 0, position := ⟨1, 0, 0⟩ }
  else SceneObject.new

/-- The application state with the skeleton `twistHeap`, the floor alone in the
scene (at address 2), and the root selected. -/
def twistApp : App :=
  { heap := twistHeap, meshScene := [2], joints := [0, 1], selected := [0] }

/-- The application state with the skeleton `stackedHeap`, the floor alone in
the scene (at address 2), and the root selected. -/
def stackedApp : App :=
  { heap := stackedHeap, meshScene := [2], joints := [0, 1], selected := [0] }

/-! ## Reachable states and the script loader -/

/-- The call `getMatrix` returns on every object of the heap: for each address
there is a bound on the recursion from which on a matrix comes back. -/
def GetMatrixReturns (m : Libm) (h : Heap) : Prop :=
  ∀ n, ∃ fuel0, ∀ fuel, fuel0 ≤ fuel → ∃ M, getMatrix m h fuel n = some M

/-- What the read loop of `loadScriptFile` maintains, relative to the heap `h0`
and the first new address `fresh` it started from: the joints it created lie
between `fresh` and `st.next`, the current joint is the newest of them, the heap
is untouched outside that range, and inside it every object is a joint without
a mesh whose parent, if any, is a created joint that is not newer. -/
def ScriptInv (h0 : Heap) (fresh : Nat) (st : ScriptState) : Prop :=
  fresh ≤ st.next ∧
  (∀ j, j ∈ st.joints → fresh ≤ j ∧ j < st.next) ∧
  (∀ j, st.jointToAdd = some j → fresh ≤ j ∧ j < st.next ∧ ∀ i, i ∈ st.joints → i ≤ j) ∧
  (∀ k, k < fresh ∨ st.next ≤ k → st.heap k = h0 k) ∧
  (∀ k, fresh ≤ k → k < st.next →
    (st.heap k).cls = ObjClass.joint ∧ (st.heap k).hasMesh = false ∧
      ∀ p, (st.heap k).parent = some p → fresh ≤ p ∧ p ≤ k)

/-- The states that the commands of the program reach from `setup`, with a
bound above every address that `new` has returned so far. The selection may
become any list of joints; `addJoint`, `loadObjFile` and `loadScriptFile`
allocate at or above the bound. -/
inductive Reachable (m : Libm) (parseVec3 : String → String → String → Option Vec3)
    (floor : Nat) : App → Nat → Prop
  | setup : Reachable m parseVec3 floor (setup floor) (floor + 1)
  | select (a : App) (n : Nat) (sel : List Nat) :
    Reachable m parseVec3 floor a n → (∀ s, s ∈ sel → s ∈ a.joints) →
      Reachable m parseVec3 floor { a with selected := sel } n
  | addJoint (a : App) (n fuel fresh : Nat) (pos : Vec3) (a' : App) :
    Reachable m parseVec3 floor a n → n ≤ fresh → addJoint m fuel fresh pos a = some a' →
      Reachable m parseVec3 floor a' (fresh + 1)
  | deleteJoint (a : App) (n fuel : Nat) (a' : App) :
    Reachable m parseVec3 floor a n → deleteJoint m fuel a = some a' →
      Reachable m parseVec3 floor a' n
  | loadObjFile (a : App) (n mesh numMeshes : Nat) :
    Reachable m parseVec3 floor a n → n ≤ mesh →
      Reachable m parseVec3 floor (loadObjFile mesh numMeshes a).1 (mesh + 1)
  | loadScriptFile (a : App) (n fresh : Nat) (script : List String) (a' : App) (n' : Nat) :
    Reachable m parseVec3 floor a n → n ≤ fresh →
      loadScriptFile parseVec3 fresh script a = some a' →
      fresh ≤ n' → (∀ j, j ∈ a'.joints → j < n') →
      Reachable m parseVec3 floor a' n'

/-- The floor is first in `meshScene`, and no joint can report its name as the
name of a mesh: every mesh attached to a joint lies below the allocation bound
`n` and does not report the name "no name". -/
def FloorFirst (floor : Nat) (a : App) (n : Nat) : Prop :=
  a.meshScene.head? = some floor ∧ (a.heap floor).cls = ObjClass.plane ∧ floor < n ∧
  ∀ k, (a.heap k).cls = ObjClass.joint → (a.heap k).hasMesh = true →
    (a.heap k).attatchedMesh < n ∧ getName (a.heap (a.heap k).attatchedMesh) ≠ "no name"

/-- The state after `setup` with the floor at address 0 and the script
`create -joint a create -joint b -parent a` loaded into the addresses 1 and 2. -/
def scriptedApp : App :=
  { heap := addChild
      (Function.update
        (Function.update
          (Function.update (Function.update (setup 0).heap 1 SceneObject.new) 1
            { SceneObject.new with name := "a" }) 2 SceneObject.new) 2
        { SceneObject.new with name := "b" }) 1 2
    meshScene := [0], joints := [1, 2], selected := [] }

/-! ## A math library that approximates -/

/-- Four steps of Newton's iteration for the square root of `x`, from the start
`(x + 1) / 2`. -/
def newtonSqrt (x : ℚ) : ℚ :=
  if x ≤ 0 then 0 else (fun y => (y + x / y) / 2)^[4] ((x + 1) / 2)

/-- A sample math library over `ℚ` that approximates: the Taylor polynomials of
degree 6 and 7 for `cos` and `sin`, and Newton's iteration for `sqrt`. -/
def seriesLibm : Libm :=
  ⟨fun t => 1 - t ^ 2 / 2 + t ^ 4 / 24 - t ^ 6 / 720,
    fun t => t - t ^ 3 / 6 + t ^ 5 / 120 - t ^ 7 / 5040, newtonSqrt⟩

/-- A sample arc cosine for `seriesLibm`: the start of the series of `acos`
about 0, with 355 / 226 for π / 2. -/
def seriesAcos (x : ℚ) : ℚ := 355 / 226 - x - x ^ 3 / 6

/-- The externals of `ratOutside` over the approximating library `seriesLibm`. -/
def seriesOutside : Outside ℚ := { ratOutside with libm := seriesLibm }

/-- The state after `setup` with the floor at address 0 and the script
`create -joint p create -joint j -parent p -parent p` loaded into the addresses
1 and 2, with the joint `j` selected: `j` stands twice in the child list of
`p`. -/
def doubledApp : App :=
  { heap := addChild
      (addChild
        (Function.update
          (Function.update
            (Function.update (Function.update (setup 0).heap 1 SceneObject.new) 1
              { SceneObject.new with name := "p" }) 2 SceneObject.new) 2
          { SceneObject.new with name := "j" }) 1 2) 1 2
    meshScene := [0], joints := [1, 2], selected := [2] }

/-! ## The accuracy of the math library in `rotateToVector` -/

/-- The squared norm of a quaternion. -/
def Quat.normSq (q : Quat) : ℚ := q.w ^ 2 + q.x ^ 2 + q.y ^ 2 + q.z ^ 2

/-- The square of the cross-product matrix of the vector part `v` of a
quaternion, `v vᵀ - |v|² I`, in the upper left corner of the zero matrix. -/
def Quat.crossSq (q : Quat) : Mat4 :=
  !![-(q.y ^ 2 + q.z ^ 2), q.x * q.y, q.x * q.z, 0;
     q.x * q.y, -(q.x ^ 2 + q.z ^ 2), q.y * q.z, 0;
     q.x * q.z, q.y * q.z, -(q.x ^ 2 + q.y ^ 2), 0;
     0, 0, 0, 0]

/-- The cosine that `rotateToVector(a, b)` computes for half the angle between
`a` and `b`. -/
def halfAngleCos (m : Libm) (acos : ℚ → ℚ) (a b : Vec3) : ℚ :=
  m.cos (angle acos a b * (1 / 2))

/-- The sine that `rotateToVector(a, b)` computes for half the angle between
`a` and `b`. -/
def halfAngleSin (m : Libm) (acos : ℚ → ℚ) (a b : Vec3) : ℚ :=
  m.sin (angle acos a b * (1 / 2))

/-- The squared length of the axis `normalize(a × b)` as computed. -/
def axisLengthSq (m : Libm) (a b : Vec3) : ℚ :=
  (normalize m (a.cross b)).dot (normalize m (a.cross b))

/-- How far the quaternion of `rotateToVector(a, b)` is from a unit quaternion:
`cos² + sin² |axis|² - 1` at half the angle, which is 0 for an exact math
library. -/
def quatDefect (m : Libm) (acos : ℚ → ℚ) (a b : Vec3) : ℚ :=
  halfAngleCos m acos a b ^ 2 + halfAngleSin m acos a b ^ 2 * axisLengthSq m a b - 1

/-- How far the computed sine of the angle, `2 cos sin` at half the angle, is
from the computed length of `a × b`, as the ratio minus 1; it is 0 for an exact
math library, for which both are the sine of the angle. -/
def sineDefect (m : Libm) (acos : ℚ → ℚ) (a b : Vec3) : ℚ :=
  2 * halfAngleCos m acos a b * halfAngleSin m acos a b *
      (1 / m.sqrt ((a.cross b).dot (a.cross b))) - 1

/-- How far the computed cosine of the angle, `1 - 2 sin² |axis|²` at half the
angle, is from `a · b` scaled by the ratio of `sineDefect`; it is 0 for an exact
math library on unit vectors. -/
def cosineDefect (m : Libm) (acos : ℚ → ℚ) (a b : Vec3) : ℚ :=
  1 - 2 * halfAngleSin m acos a b ^ 2 * axisLengthSq m a b -
    2 * halfAngleCos m acos a b * halfAngleSin m acos a b *
      (1 / m.sqrt ((a.cross b).dot (a.cross b))) * a.dot b
/-! ## Matrix facts -/

theorem translate_mul (a b : Vec3) : translate a * translate b = translate (a.add b) := by
  ext i j
  fin_cases i <;> fin_cases j <;>
    simp [translate, Matrix.mul_apply, Fin.sum_univ_four, Vec3.add, Matrix.vecHead,
      Matrix.vecTail] <;> ring

theorem translate_zero : translate ⟨0, 0, 0⟩ = 1 := by
  ext i j
  fin_cases i <;> fin_cases j <;> simp [translate, Matrix.vecHead, Matrix.vecTail]

theorem translate_neg_cancel (v : Vec3) :
    translate ⟨v.x, v.y, v.z⟩ * translate ⟨-v.x, -v.y, -v.z⟩ = 1 := by
  rw [translate_mul]
  simp [Vec3.add, translate_zero]

theorem scaleMatrix_one : scaleMatrix ⟨1, 1, 1⟩ = 1 := by
  ext i j
  fin_cases i <;> fin_cases j <;> simp [scaleMatrix, Matrix.vecHead, Matrix.vecTail]

theorem eulerAngleYXZ_zero (m : Libm) (hc : m.cos 0 = 1) (hs : m.sin 0 = 0) :
    eulerAngleYXZ m (radians 0) (radians 0) (radians 0) = 1 := by
  ext i j
  fin_cases i <;> fin_cases j <;>
    simp [eulerAngleYXZ, radians, hc, hs, Matrix.vecHead, Matrix.vecTail]

theorem translate_mulVec (v p : Vec3) (w : ℚ) :
    (translate v).mulVec (vec4 p w) =
      vec4 ⟨p.x + v.x * w, p.y + v.y * w, p.z + v.z * w⟩ w := by
  ext i
  fin_cases i <;>
    simp [translate, vec4, Matrix.mulVec, Matrix.dotProduct, Fin.sum_univ_four]

theorem xyz_vec4 (p : Vec3) (w : ℚ) : xyz (vec4 p w) = p := by
  cases p
  simp [xyz, vec4]

theorem det_translate (v : Vec3) : (translate v).det = 1 := by
  simp [translate, Matrix.det_succ_row_zero, Fin.sum_univ_succ, Matrix.det_fin_three]

theorem inverse_mul (M : Mat4) (hM : M.det ≠ 0) : inverse M * M = 1 := by
  unfold inverse
  rw [Matrix.smul_mul, Matrix.adjugate_mul, smul_smul, one_div, inv_mul_cancel₀ hM, one_smul]

theorem mul_inverse (M : Mat4) (hM : M.det ≠ 0) : M * inverse M = 1 := by
  unfold inverse
  rw [Matrix.mul_smul, Matrix.mul_adjugate, smul_smul, one_div, inv_mul_cancel₀ hM, one_smul]

theorem inverse_eq_of_mul_eq_one (M N : Mat4) (hM : M.det ≠ 0) (h : M * N = 1) :
    inverse M = N := by
  calc inverse M = inverse M * (M * N) := by rw [h, mul_one]
    _ = (inverse M * M) * N := (Matrix.mul_assoc _ _ _).symm
    _ = N := by rw [inverse_mul M hM, one_mul]

theorem inverse_translate (v : Vec3) : inverse (translate v) = translate v.neg := by
  apply inverse_eq_of_mul_eq_one
  · rw [det_translate]; exact one_ne_zero
  · rw [translate_mul]
    simp [Vec3.add, Vec3.neg, translate_zero]

/-! ## The recursion of `getMatrix` -/

theorem getMatrix_succ (m : Libm) (h : Heap) :
    ∀ (fuel n : Nat) (M : Mat4), getMatrix m h fuel n = some M →
      getMatrix m h (fuel + 1) n = some M := by
  intro fuel
  induction fuel with
  | zero => intro n M hM; simp [getMatrix] at hM
  | succ k ih =>
    intro n M hM
    rw [getMatrix] at hM ⊢
    cases hp : (h n).parent with
    | none => simpa [hp] using hM
    | some p =>
      rw [hp] at hM
      simp only at hM ⊢
      cases hq : getMatrix m h k p with
      | none => simp [hq] at hM
      | some Mp =>
        rw [ih p Mp hq]
        simpa [hq] using hM

theorem getMatrix_mono (m : Libm) (h : Heap) (n : Nat) (M : Mat4) (f f' : Nat)
    (hle : f ≤ f') (hM : getMatrix m h f n = some M) : getMatrix m h f' n = some M := by
  induction hle with
  | refl => exact hM
  | step _ ih => exact getMatrix_succ m h _ n M ih

theorem getMatrix_root (m : Libm) (h : Heap) (fuel n : Nat) (hp : (h n).parent = none) :
    getMatrix m h (fuel + 1) n = some ((h n).getLocalMatrix m) := by
  simp [getMatrix, hp]

theorem getMatrix_child (m : Libm) (h : Heap) (fuel n p : Nat) (Mp : Mat4)
    (hp : (h n).parent = some p) (hMp : getMatrix m h fuel p = some Mp) :
    getMatrix m h (fuel + 1) n = some (Mp * (h n).getLocalMatrix m) := by
  rw [getMatrix, hp]; simp [hMp]

theorem getMatrix_of_rank (m : Libm) (h : Heap) (rank : Nat → Nat)
    (hr : ∀ n p, (h n).parent = some p → rank p < rank n) :
    ∀ (k n : Nat), rank n ≤ k → ∃ M, getMatrix m h (k + 1) n = some M := by
  intro k
  induction k with
  | zero =>
    intro n hn
    cases hp : (h n).parent with
    | none => exact ⟨_, getMatrix_root m h _ n hp⟩
    | some p => have := hr n p hp; omega
  | succ k ih =>
    intro n hn
    cases hp : (h n).parent with
    | none => exact ⟨_, getMatrix_root m h _ n hp⟩
    | some p =>
      have hlt := hr n p hp
      obtain ⟨Mp, hMp⟩ := ih p (by omega)
      exact ⟨_, getMatrix_child m h _ n p Mp hp hMp⟩

theorem getLocalMatrix_unrotated (m : Libm) (hc : m.cos 0 = 1) (hs : m.sin 0 = 0)
    (o : SceneObject) (hrot : o.rotation = ⟨0, 0, 0⟩) (hsc : o.scale = ⟨1, 1, 1⟩) :
    o.getLocalMatrix m = translate o.position := by
  unfold SceneObject.getLocalMatrix SceneObject.getRotateMatrix SceneObject.getScaleMatrix
    SceneObject.getTranslateMatrix
  simp only [hrot, hsc]
  rw [eulerAngleYXZ_zero m hc hs, scaleMatrix_one, mul_one, mul_one, Matrix.mul_assoc,
    translate_neg_cancel, mul_one]

theorem acyclic_twoJointHeap : Acyclic twoJointHeap := by
  refine ⟨fun n => if n = 1 then 1 else 0, ?_⟩
  intro n p hp
  by_cases h1 : n = 1
  · subst h1
    simp [twoJointHeap, SceneObject.new] at hp
    subst hp
    simp
  · by_cases h0 : n = 0 <;> simp [twoJointHeap, SceneObject.new, h1, h0] at hp

theorem setPosition_of_getMatrix (m : Libm) (h : Heap) (fuel n : Nat) (pos : Vec3) (M : Mat4)
    (hM : getMatrix m h fuel n = some M) :
    setPosition m h fuel n pos =
      some (Function.update h n
        { h n with position := xyz ((inverse M).mulVec (vec4 pos 1)) }) := by
  simp only [setPosition, hM]

theorem scaleMatrix_mulVec_origin (v : Vec3) :
    (scaleMatrix v).mulVec (vec4 ⟨0, 0, 0⟩ 1) = vec4 ⟨0, 0, 0⟩ 1 := by
  ext i
  fin_cases i <;>
    simp [scaleMatrix, vec4, Matrix.mulVec, Matrix.dotProduct, Fin.sum_univ_four]

theorem eulerAngleYXZ_mulVec_origin (m : Libm) (a b c : ℚ) :
    (eulerAngleYXZ m a b c).mulVec (vec4 ⟨0, 0, 0⟩ 1) = vec4 ⟨0, 0, 0⟩ 1 := by
  ext i
  fin_cases i <;>
    simp [eulerAngleYXZ, vec4, Matrix.mulVec, Matrix.dotProduct, Fin.sum_univ_four]

theorem getLocalMatrix_mulVec_origin (m : Libm) (o : SceneObject)
    (hpiv : o.pivot = ⟨0, 0, 0⟩) :
    (o.getLocalMatrix m).mulVec (vec4 ⟨0, 0, 0⟩ 1) = vec4 o.position 1 := by
  unfold SceneObject.getLocalMatrix SceneObject.getRotateMatrix SceneObject.getScaleMatrix
    SceneObject.getTranslateMatrix
  simp only [hpiv, neg_zero, translate_zero, mul_one, ← Matrix.mulVec_mulVec]
  rw [scaleMatrix_mulVec_origin, eulerAngleYXZ_mulVec_origin, translate_mulVec]
  simp

theorem ratLibm_sqrt_sq (x : ℚ) (hx : 0 ≤ x) : ratLibm.sqrt (x * x) = x := by
  show Rat.sqrt (x * x) = x
  rw [Rat.sqrt_eq, abs_of_nonneg hx]

/-! ## The loop of `Mesh::intersect` -/

theorem getElem?_snoc_cases {α : Type} (l : List α) (a t : α) (j : Nat)
    (h : (l ++ [a])[j]? = some t) : l[j]? = some t ∨ (j = l.length ∧ t = a) := by
  by_cases hj : j < l.length
  · left
    rwa [List.getElem?_append_left hj] at h
  · right
    rw [List.getElem?_append_right (by omega)] at h
    have hlen : j - l.length < [a].length := by
      by_contra hcon
      rw [List.getElem?_eq_none (by omega)] at h
      exact Option.noConfusion h
    simp only [List.length_singleton] at hlen
    have h0 : j - l.length = 0 := by omega
    rw [h0] at h
    simp at h
    exact ⟨by omega, h.symm⟩

theorem getElem?_lt_length {α : Type} (l : List α) (t : α) (j : Nat) (h : l[j]? = some t) :
    j < l.length := by
  by_contra hcon
  rw [List.getElem?_eq_none (by omega)] at h
  exact Option.noConfusion h

theorem Mesh.scan_invariant (m : Libm) (rt : RayTriangleTest) (mesh : Mesh) (ray : Ray)
    (point normal : Vec3) (ts : List Triangle) :
    ((mesh.scan m rt ray ⟨false, none, point, normal⟩ ts).hit = true ↔
        ∃ t ∈ ts, mesh.test rt ray t ≠ none) ∧
      ((mesh.scan m rt ray ⟨false, none, point, normal⟩ ts).hit = false →
        (mesh.scan m rt ray ⟨false, none, point, normal⟩ ts).shortestDistance = none ∧
        (mesh.scan m rt ray ⟨false, none, point, normal⟩ ts).point = point ∧
        (mesh.scan m rt ray ⟨false, none, point, normal⟩ ts).normal = normal) ∧
      ((mesh.scan m rt ray ⟨false, none, point, normal⟩ ts).hit = true →
        ∃ (i : Nat) (t : Triangle) (b : Vec2) (d : ℚ),
          ts[i]? = some t ∧ mesh.test rt ray t = some (b, d) ∧
          (mesh.scan m rt ray ⟨false, none, point, normal⟩ ts).shortestDistance = some d ∧
          (mesh.scan m rt ray ⟨false, none, point, normal⟩ ts).point = ray.evalPoint d ∧
          (mesh.scan m rt ray ⟨false, none, point, normal⟩ ts).normal = mesh.hitNormal m t b ∧
          ∀ (j : Nat) (t' : Triangle) (b' : Vec2) (d' : ℚ),
            ts[j]? = some t' → mesh.test rt ray t' = some (b', d') →
              d ≤ d' ∧ (j < i → d < d')) := by
  induction ts using List.reverseRecOn with
  | nil => simp [Mesh.scan]
  | append_singleton l a ih =>
    obtain ⟨ih1, ih2, ih3⟩ := ih
    have hscan : mesh.scan m rt ray ⟨false, none, point, normal⟩ (l ++ [a]) =
        mesh.step m rt ray (mesh.scan m rt ray ⟨false, none, point, normal⟩ l) a := by
      simp [Mesh.scan, List.foldl_append]
    rw [hscan]
    generalize mesh.scan m rt ray ⟨false, none, point, normal⟩ l = s at ih1 ih2 ih3
    cases hta : mesh.test rt ray a with
    | none =>
      have hstep : mesh.step m rt ray s a = s := by simp [Mesh.step, hta]
      rw [hstep]
      refine ⟨?_, ih2, ?_⟩
      · rw [ih1]
        constructor
        · rintro ⟨t, ht, hne⟩
          exact ⟨t, List.mem_append_left _ ht, hne⟩
        · rintro ⟨t, ht, hne⟩
          rcases List.mem_append.mp ht with ht | ht
          · exact ⟨t, ht, hne⟩
          · rw [List.mem_singleton] at ht
            subst ht
            exact absurd hta hne
      · intro hh
        obtain ⟨i, t, b, d, hi, ht, hsd, hpt, hnm, hmin⟩ := ih3 hh
        refine ⟨i, t, b, d, ?_, ht, hsd, hpt, hnm, ?_⟩
        · rw [List.getElem?_append_left (getElem?_lt_length l t i hi)]
          exact hi
        · intro j t' b' d' hj ht'
          rcases getElem?_snoc_cases l a t' j hj with hj | ⟨_, hj⟩
          · exact hmin j t' b' d' hj ht'
          · subst hj
            rw [hta] at ht'
            exact Option.noConfusion ht'
    | some bd =>
      obtain ⟨b, d⟩ := bd
      have hmem : ∃ t ∈ l ++ [a], mesh.test rt ray t ≠ none :=
        ⟨a, by simp, by rw [hta]; exact Option.some_ne_none _⟩
      have hnew : (l ++ [a])[l.length]? = some a := by simp
      by_cases hcl : closer d s.shortestDistance = true
      · have hstep : mesh.step m rt ray s a =
            ⟨true, some d, ray.evalPoint d, mesh.hitNormal m a b⟩ := by
          simp [Mesh.step, hta, hcl]
        rw [hstep]
        refine ⟨⟨fun _ => hmem, fun _ => rfl⟩, fun hf => Bool.noConfusion hf, ?_⟩
        intro _
        refine ⟨l.length, a, b, d, hnew, hta, rfl, rfl, rfl, ?_⟩
        intro j t' b' d' hj ht'
        rcases getElem?_snoc_cases l a t' j hj with hj | ⟨hjl, hj⟩
        · have hjlt := getElem?_lt_length l t' j hj
          have hhit : s.hit = true :=
            ih1.mpr ⟨t', List.getElem?_mem hj, by rw [ht']; exact Option.some_ne_none _⟩
          obtain ⟨i0, t0, b0, d0, hi0, ht0, hsd, _, _, hmin⟩ := ih3 hhit
          rw [hsd] at hcl
          simp only [closer, decide_eq_true_eq] at hcl
          have := (hmin j t' b' d' hj ht').1
          exact ⟨by linarith, fun _ => by linarith⟩
        · subst hj
          rw [hta] at ht'
          have hdd : d = d' := congrArg Prod.snd (Option.some.inj ht')
          exact ⟨hdd.le, fun hlt => by omega⟩
      · have hstep : mesh.step m rt ray s a = { s with hit := true } := by
          simp [Mesh.step, hta, hcl]
        rw [hstep]
        refine ⟨⟨fun _ => hmem, fun _ => rfl⟩, fun hf => Bool.noConfusion hf, ?_⟩
        intro _
        have hhit : s.hit = true := by
          cases hsh : s.hit with
          | true => rfl
          | false =>
            rw [(ih2 hsh).1] at hcl
            simp [closer] at hcl
        obtain ⟨i0, t0, b0, d0, hi0, ht0, hsd, hpt, hnm, hmin⟩ := ih3 hhit
        have hi0lt := getElem?_lt_length l t0 i0 hi0
        rw [hsd] at hcl
        simp only [closer, decide_eq_true_eq, not_lt] at hcl
        refine ⟨i0, t0, b0, d0, ?_, ht0, hsd, hpt, hnm, ?_⟩
        · rw [List.getElem?_append_left hi0lt]
          exact hi0
        · intro j t' b' d' hj ht'
          rcases getElem?_snoc_cases l a t' j hj with hj | ⟨hjl, hj⟩
          · exact hmin j t' b' d' hj ht'
          · subst hj
            rw [hta] at ht'
            have hdd : d = d' := congrArg Prod.snd (Option.some.inj ht')
            exact ⟨by linarith, fun hlt => by omega⟩

theorem flatTriangleMesh_vert :
    flatTriangleMesh.vert 0 = ⟨0, 0, 0⟩ ∧ flatTriangleMesh.vert 1 = ⟨2, 0, 0⟩ ∧
      flatTriangleMesh.vert 2 = ⟨0, 2, 0⟩ := by
  refine ⟨?_, ?_, ?_⟩ <;> simp [Mesh.vert, flatTriangleMesh, xyz_vec4]

theorem flatTriangleMesh_intersect :
    flatTriangleMesh.intersect ratLibm intersectRayTriangle ⟨⟨1 / 2, 1 / 2, 5⟩, ⟨0, 0, -1⟩⟩
      ⟨0, 0, 0⟩ ⟨0, 0, 0⟩ = ⟨true, ⟨1 / 2, 1 / 2, 0⟩, ⟨0, 0, 1⟩⟩ := by
  obtain ⟨hv0, hv1, hv2⟩ := flatTriangleMesh_vert
  have hsq : ratLibm.sqrt 4 = 2 := by
    have := ratLibm_sqrt_sq 2 (by norm_num)
    norm_num at this
    exact this
  have htest : flatTriangleMesh.test intersectRayTriangle ⟨⟨1 / 2, 1 / 2, 5⟩, ⟨0, 0, -1⟩⟩
      ⟨![0, 1, 2], ![0, 0, 0]⟩ = some (⟨1 / 4, 1 / 4⟩, 5) := by
    simp only [Mesh.test, Matrix.cons_val_zero, Matrix.cons_val_one, Matrix.head_cons,
      Matrix.cons_val_two, Matrix.tail_cons, hv0, hv1, hv2]
    norm_num [intersectRayTriangle, Vec3.sub, Vec3.cross, Vec3.dot, epsilon]
  have hnorm : flatTriangleMesh.hitNormal ratLibm ⟨![0, 1, 2], ![0, 0, 0]⟩ ⟨1 / 4, 1 / 4⟩
      = ⟨0, 0, 1⟩ := by
    simp only [Mesh.hitNormal, Matrix.cons_val_zero, Matrix.cons_val_one, Matrix.head_cons,
      Matrix.cons_val_two, Matrix.tail_cons, hv0, hv1, hv2]
    norm_num [flatTriangleMesh, normalize, Vec3.sub, Vec3.cross, Vec3.dot, Vec3.smul, hsq]
  simp only [Mesh.intersect, Mesh.scan]
  rw [show flatTriangleMesh.triangles = [⟨![0, 1, 2], ![0, 0, 0]⟩] from rfl]
  simp only [List.foldl, Mesh.step, htest, closer, hnorm, if_true]
  norm_num [Ray.evalPoint, Vec3.add, Vec3.smul]

/-! ## Affine matrices and the world matrix -/

theorem isAffine_one : IsAffine (1 : Mat4) := by
  simp [IsAffine]

theorem isAffine_translate (v : Vec3) : IsAffine (translate v) := by
  simp [IsAffine, translate, Matrix.vecHead, Matrix.vecTail]

theorem isAffine_scaleMatrix (v : Vec3) : IsAffine (scaleMatrix v) := by
  simp [IsAffine, scaleMatrix, Matrix.vecHead, Matrix.vecTail]

theorem isAffine_eulerAngleYXZ (m : Libm) (a b c : ℚ) : IsAffine (eulerAngleYXZ m a b c) := by
  simp [IsAffine, eulerAngleYXZ, Matrix.vecHead, Matrix.vecTail]

theorem isAffine_mul (A B : Mat4) (hA : IsAffine A) (hB : IsAffine B) : IsAffine (A * B) := by
  obtain ⟨a0, a1, a2, a3⟩ := hA
  obtain ⟨b0, b1, b2, b3⟩ := hB
  simp [IsAffine, Matrix.mul_apply, Fin.sum_univ_four, a0, a1, a2, a3, b0, b1, b2, b3]

theorem isAffine_getLocalMatrix (m : Libm) (o : SceneObject) : IsAffine (o.getLocalMatrix m) := by
  unfold SceneObject.getLocalMatrix SceneObject.getRotateMatrix SceneObject.getScaleMatrix
    SceneObject.getTranslateMatrix
  exact isAffine_mul _ _ (isAffine_mul _ _ (isAffine_mul _ _ (isAffine_mul _ _
    (isAffine_translate _) (isAffine_translate _)) (isAffine_eulerAngleYXZ _ _ _ _))
    (isAffine_translate _)) (isAffine_scaleMatrix _)

theorem isAffine_getMatrix (m : Libm) (h : Heap) :
    ∀ (fuel n : Nat) (M : Mat4), getMatrix m h fuel n = some M → IsAffine M := by
  intro fuel
  induction fuel with
  | zero => intro n M hM; simp [getMatrix] at hM
  | succ k ih =>
    intro n M hM
    cases hp : (h n).parent with
    | none =>
      rw [getMatrix_root m h k n hp] at hM
      rw [← Option.some.inj hM]
      exact isAffine_getLocalMatrix m _
    | some p =>
      cases hq : getMatrix m h k p with
      | none => simp [getMatrix, hp, hq] at hM
      | some Mp =>
        rw [getMatrix_child m h k n p Mp hp hq] at hM
        rw [← Option.some.inj hM]
        exact isAffine_mul _ _ (ih p Mp hq) (isAffine_getLocalMatrix m _)

theorem isAffine_inverse (M : Mat4) (hM : M.det ≠ 0) (hA : IsAffine M) :
    IsAffine (inverse M) := by
  obtain ⟨a0, a1, a2, a3⟩ := hA
  have h1 := mul_inverse M hM
  have row : ∀ j, (M * inverse M) 3 j = (inverse M) 3 j := by
    intro j
    simp [Matrix.mul_apply, Fin.sum_univ_four, a0, a1, a2, a3]
  rw [h1] at row
  refine ⟨?_, ?_, ?_, ?_⟩
  · rw [← row 0]; simp
  · rw [← row 1]; simp
  · rw [← row 2]; simp
  · rw [← row 3]; simp

theorem vec4_xyz_of_affine (N : Mat4) (hN : IsAffine N) (p : Vec3) :
    vec4 (xyz (N.mulVec (vec4 p 1))) 1 = N.mulVec (vec4 p 1) := by
  obtain ⟨a0, a1, a2, a3⟩ := hN
  ext i
  fin_cases i
  · simp [vec4, xyz]
  · simp [vec4, xyz]
  · simp [vec4, xyz]
  · simp [vec4, xyz, Matrix.mulVec, Matrix.dotProduct, Fin.sum_univ_four, a0, a1, a2, a3]

theorem mulVec_inverse_roundtrip (P : Mat4) (hdet : P.det ≠ 0) (hP : IsAffine P) (p : Vec3) :
    xyz (P.mulVec (vec4 (xyz ((inverse P).mulVec (vec4 p 1))) 1)) = p := by
  rw [vec4_xyz_of_affine (inverse P) (isAffine_inverse P hdet hP) p, Matrix.mulVec_mulVec,
    mul_inverse P hdet, Matrix.one_mulVec, xyz_vec4]

theorem inverse_one : inverse (1 : Mat4) = 1 :=
  inverse_eq_of_mul_eq_one 1 1 (by simp) (by simp)

theorem getLocalMatrix_congr (m : Libm) (o o' : SceneObject) (hpos : o'.position = o.position)
    (hrot : o'.rotation = o.rotation) (hsc : o'.scale = o.scale) (hpiv : o'.pivot = o.pivot) :
    o'.getLocalMatrix m = o.getLocalMatrix m := by
  unfold SceneObject.getLocalMatrix SceneObject.getRotateMatrix SceneObject.getScaleMatrix
    SceneObject.getTranslateMatrix
  rw [hpos, hrot, hsc, hpiv]

theorem getMatrix_congr (m : Libm) (h h' : Heap) (S : Nat → Prop)
    (hclosed : ∀ n p, S n → (h n).parent = some p → S p)
    (hagree : ∀ n, S n → (h' n).parent = (h n).parent ∧
      (h' n).getLocalMatrix m = (h n).getLocalMatrix m) :
    ∀ (fuel n : Nat), S n → getMatrix m h' fuel n = getMatrix m h fuel n := by
  intro fuel
  induction fuel with
  | zero => intro n _; rfl
  | succ k ih =>
    intro n hn
    rw [getMatrix, getMatrix, (hagree n hn).1, (hagree n hn).2]
    cases hp : (h n).parent with
    | none => rfl
    | some p => simp only []; rw [ih p (hclosed n p hn hp)]

/-! ## Re-homing a child in `deleteJoint` -/

theorem getPosition_of_getMatrix (m : Libm) (h : Heap) (fuel n : Nat) (M : Mat4)
    (hM : getMatrix m h fuel n = some M) :
    getPosition m h fuel n = some (xyz (M.mulVec (vec4 ⟨0, 0, 0⟩ 1))) := by
  simp only [getPosition, hM]

theorem rehome_root (m : Libm) (hc : m.cos 0 = 1) (hs : m.sin 0 = 0) (h : Heap)
    (j c g : Nat) (p : Vec3) (hjc : j ≠ c) (hj : (h j).parent = none)
    (hp : getPosition m h (g + 1) c = some p) :
    rehome m (g + 1) j none h c =
      some (Function.update h c
        { h c with parent := none, position := p, scale := ⟨1, 1, 1⟩ }) := by
  have h2j : (resetMatrices (Function.update h c { h c with parent := none }) c j).parent
      = none := by
    rw [resetMatrices, Function.update_noteq hjc, Function.update_noteq hjc, hj]
  have hM : getMatrix m (resetMatrices (Function.update h c { h c with parent := none }) c)
      (g + 1) c = some 1 := by
    rw [getMatrix_root m _ g c (by simp [resetMatrices]),
      getLocalMatrix_unrotated m hc hs _ (by simp [resetMatrices]) (by simp [resetMatrices])]
    simp [resetMatrices, translate_zero]
  simp only [rehome, hp, h2j, setPosition_of_getMatrix m _ (g + 1) c p 1 hM, inverse_one,
    Matrix.one_mulVec, xyz_vec4]
  simp [resetMatrices]

theorem SameTransform.refl (o : SceneObject) : SameTransform o o :=
  ⟨rfl, rfl, rfl, rfl, rfl⟩

theorem SameTransform.trans (a b c : SceneObject) (hab : SameTransform a b)
    (hbc : SameTransform b c) : SameTransform a c := by
  obtain ⟨a1, a2, a3, a4, a5⟩ := hab
  obtain ⟨b1, b2, b3, b4, b5⟩ := hbc
  exact ⟨b1.trans a1, b2.trans a2, b3.trans a3, b4.trans a4, b5.trans a5⟩

theorem getMatrix_congr_below (m : Libm) (rank : Nat → Nat) (h h' : Heap) (c : Nat)
    (hrank : ∀ n p, (h n).parent = some p → rank p < rank n)
    (hagree : ∀ k, k ≠ c → SameTransform (h k) (h' k)) :
    ∀ (fuel n : Nat), rank n < rank c → getMatrix m h' fuel n = getMatrix m h fuel n := by
  apply getMatrix_congr m h h' (fun k => rank k < rank c)
  · intro n p hn hp
    exact lt_trans (hrank n p hp) hn
  · intro n hn
    have hne : n ≠ c := by
      intro e
      rw [e] at hn
      exact lt_irrefl _ hn
    obtain ⟨e1, e2, e3, e4, e5⟩ := hagree n hne
    exact ⟨e1, getLocalMatrix_congr m _ _ e2 e3 e4 e5⟩

theorem addChild_child (h : Heap) (n child : Nat) (hne : child ≠ n) :
    addChild h n child = Function.update
      (Function.update h n { h n with childList := (h n).childList ++ [child] }) child
      { h child with parent := some n } := by
  simp only [addChild, Function.update_noteq hne]

theorem rehome_stage3 (h : Heap) (c pj : Nat) (hcpj : c ≠ pj) :
    addChild (resetMatrices (Function.update h c { h c with parent := none }) c) pj c =
      Function.update
        (Function.update h pj { h pj with childList := (h pj).childList ++ [c] }) c
        { h c with parent := some pj, position := ⟨0, 0, 0⟩, rotation := ⟨0, 0, 0⟩,
                   scale := ⟨1, 1, 1⟩ } := by
  have hpjc : pj ≠ c := fun e => hcpj e.symm
  rw [addChild_child _ pj c hcpj]
  funext k
  by_cases hk : k = c
  · subst hk
    simp [resetMatrices]
  · by_cases hkp : k = pj
    · subst hkp
      simp [resetMatrices, Function.update_noteq hk]
    · simp [resetMatrices, Function.update_noteq hk, Function.update_noteq hkp]

theorem rehome_child (m : Libm) (hc : m.cos 0 = 1) (hs : m.sin 0 = 0) (rank : Nat → Nat)
    (h : Heap) (j c pj g : Nat) (p : Vec3) (P : Mat4)
    (hrank : ∀ n p, (h n).parent = some p → rank p < rank n)
    (hjc : j ≠ c) (hpc : rank pj < rank c) (hj : (h j).parent = some pj)
    (hp : getPosition m h (g + 1) c = some p) (hP : getMatrix m h g pj = some P) :
    rehome m (g + 1) j (some pj) h c =
      some (Function.update
        (Function.update h pj { h pj with childList := (h pj).childList ++ [c] }) c
        { h c with parent := some pj, position := xyz ((inverse P).mulVec (vec4 p 1)),
                   scale := ⟨1, 1, 1⟩ }) := by
  have hpjc : pj ≠ c := by
    intro e
    rw [e] at hpc
    exact lt_irrefl _ hpc
  have hcpj : c ≠ pj := fun e => hpjc e.symm
  have h2j : (resetMatrices (Function.update h c { h c with parent := none }) c j).parent
      = some pj := by
    rw [resetMatrices, Function.update_noteq hjc, Function.update_noteq hjc, hj]
  have hagree : ∀ k, k ≠ c → SameTransform (h k)
      (Function.update
        (Function.update h pj { h pj with childList := (h pj).childList ++ [c] }) c
        { h c with parent := some pj, position := ⟨0, 0, 0⟩, rotation := ⟨0, 0, 0⟩,
                   scale := ⟨1, 1, 1⟩ } k) := by
    intro k hk
    rw [Function.update_noteq hk]
    by_cases hkp : k = pj
    · subst hkp
      simp [SameTransform]
    · simp [SameTransform, Function.update_noteq hkp]
  have hP3 : getMatrix m
      (Function.update
        (Function.update h pj { h pj with childList := (h pj).childList ++ [c] }) c
        { h c with parent := some pj, position := ⟨0, 0, 0⟩, rotation := ⟨0, 0, 0⟩,
                   scale := ⟨1, 1, 1⟩ }) g pj = some P := by
    rw [getMatrix_congr_below m rank h _ c hrank hagree g pj hpc, hP]
  have hM : getMatrix m
      (Function.update
        (Function.update h pj { h pj with childList := (h pj).childList ++ [c] }) c
        { h c with parent := some pj, position := ⟨0, 0, 0⟩, rotation := ⟨0, 0, 0⟩,
                   scale := ⟨1, 1, 1⟩ }) (g + 1) c = some P := by
    rw [getMatrix_child m _ g c pj P (by simp) hP3,
      getLocalMatrix_unrotated m hc hs _ (by simp) (by simp)]
    simp [translate_zero]
  simp only [rehome, hp, h2j, rehome_stage3 h c pj hcpj,
    setPosition_of_getMatrix m _ (g + 1) c p P hM]
  simp

theorem rehome_spec (m : Libm) (hc : m.cos 0 = 1) (hs : m.sin 0 = 0) (rank : Nat → Nat)
    (h : Heap) (j c g : Nat)
    (hrank : ∀ n p, (h n).parent = some p → rank p < rank n)
    (hjc : rank j < rank c) (hg : rank c ≤ g) (hpiv : (h c).pivot = ⟨0, 0, 0⟩)
    (hdet : ∀ pj P, (h j).parent = some pj → getMatrix m h g pj = some P → P.det ≠ 0) :
    ∃ h', rehome m (g + 1) j (h j).parent h c = some h' ∧
      (h' c).parent = (h j).parent ∧ (h' c).pivot = (h c).pivot ∧
      (h' c).rotation = (h c).rotation ∧
      (∀ k, k ≠ c → SameTransform (h k) (h' k)) ∧
      (∀ k, k ≠ c → (h j).parent ≠ some k → h' k = h k) ∧
      ∃ p, getPosition m h (g + 1) c = some p ∧ getPosition m h' (g + 1) c = some p := by
  have hne : j ≠ c := by
    intro e
    rw [e] at hjc
    exact lt_irrefl _ hjc
  obtain ⟨Mc, hMc⟩ := getMatrix_of_rank m h rank hrank g c hg
  have hp := getPosition_of_getMatrix m h (g + 1) c Mc hMc
  cases hj : (h j).parent with
  | none =>
    refine ⟨_, rehome_root m hc hs h j c g _ hne hj hp, by simp, by simp, by simp, ?_, ?_,
      _, hp, ?_⟩
    · intro k hk
      rw [Function.update_noteq hk]
      exact SameTransform.refl _
    · intro k hk _
      rw [Function.update_noteq hk]
    · rw [getPosition_of_getMatrix m _ (g + 1) c _ (getMatrix_root m _ g c (by simp)),
        getLocalMatrix_mulVec_origin m _ (by simpa using hpiv)]
      simp [xyz_vec4]
  | some pj =>
    have hpj : rank pj < rank j := hrank j pj hj
    have hpc : rank pj < rank c := lt_trans hpj hjc
    have hpjc : pj ≠ c := by
      intro e
      rw [e] at hpc
      exact lt_irrefl _ hpc
    obtain ⟨g', rfl⟩ : ∃ g', g = g' + 1 := ⟨g - 1, by omega⟩
    obtain ⟨P, hP0⟩ := getMatrix_of_rank m h rank hrank g' pj (by omega)
    have hPdet : P.det ≠ 0 := hdet pj P hj hP0
    have hPaff : IsAffine P := isAffine_getMatrix m h _ pj P hP0
    have hagree : ∀ k, k ≠ c → SameTransform (h k)
        (Function.update
          (Function.update h pj { h pj with childList := (h pj).childList ++ [c] }) c
          { h c with parent := some pj,
                     position := xyz ((inverse P).mulVec (vec4 (xyz (Mc.mulVec (vec4 ⟨0, 0, 0⟩ 1))) 1)),
                     scale := ⟨1, 1, 1⟩ } k) := by
      intro k hk
      rw [Function.update_noteq hk]
      by_cases hkp : k = pj
      · subst hkp
        simp [SameTransform]
      · simp [SameTransform, Function.update_noteq hkp]
    refine ⟨_, rehome_child m hc hs rank h j c pj (g' + 1) _ P hrank hne hpc hj hp hP0,
      by simp, by simp, by simp, hagree, ?_, _, hp, ?_⟩
    · intro k hk hkp
      have hkp' : k ≠ pj := fun e => hkp (by rw [e])
      rw [Function.update_noteq hk, Function.update_noteq hkp']
    · have hP' := getMatrix_congr_below m rank h _ c hrank hagree (g' + 1) pj hpc
      rw [hP0] at hP'
      rw [getPosition_of_getMatrix m _ (g' + 1 + 1) c _
        (getMatrix_child m _ (g' + 1) c pj P (by simp) hP'),
        ← Matrix.mulVec_mulVec, getLocalMatrix_mulVec_origin m _ (by simpa using hpiv)]
      simp only [Function.update_same]
      rw [mulVec_inverse_roundtrip P hPdet hPaff]

theorem getPosition_congr (m : Libm) (h h' : Heap) (fuel n : Nat)
    (hM : getMatrix m h' fuel n = getMatrix m h fuel n) :
    getPosition m h' fuel n = getPosition m h fuel n := by
  simp only [getPosition, hM]

theorem rehomeInv_step (m : Libm) (hc : m.cos 0 = 1) (hs : m.sin 0 = 0) (rank : Nat → Nat)
    (g j : Nat) (par : Option Nat) (L : List Nat) (h0 h : Heap) (c : Nat)
    (hrank0 : ∀ n p, (h0 n).parent = some p → rank p < rank n)
    (hdet0 : ∀ pj P, par = some pj → getMatrix m h0 g pj = some P → P.det ≠ 0)
    (hinv : RehomeInv m rank g j par L h0 h) (hcL : c ∈ L) :
    ∃ h', rehome m (g + 1) j par h c = some h' ∧ RehomeInv m rank g j par L h0 h' ∧
      (h' c).parent = par ∧ ∀ k, k ≠ c → (h' k).parent = (h k).parent := by
  obtain ⟨i1, ⟨i2a, i2b⟩, i3, i4⟩ := hinv
  obtain ⟨hjc, hcg, hpiv, _, _⟩ := i4 c hcL
  have hdet : ∀ pj P, (h j).parent = some pj → getMatrix m h g pj = some P → P.det ≠ 0 := by
    intro pj P hpj hP
    rw [i2b] at hpj
    have hpjr : rank pj ≤ rank j := by
      have := i1 j pj (by rw [i2b, hpj])
      omega
    have hcongr := getMatrix_congr m h0 h (fun k => rank k ≤ rank j)
      (fun n p hn hp => by have := hrank0 n p hp; omega)
      (fun n hn => by
        obtain ⟨e1, e2, e3, e4, e5⟩ := i3 n hn
        exact ⟨e1, getLocalMatrix_congr m _ _ e2 e3 e4 e5⟩) g pj hpjr
    rw [hcongr] at hP
    exact hdet0 pj P hpj hP
  obtain ⟨h', hre, hpar, hpv, _, hsame, hfix, p, hp, hp'⟩ :=
    rehome_spec m hc hs rank h j c g i1 hjc hcg hpiv hdet
  rw [i2b] at hre hpar hfix
  have hjne : j ≠ c := by
    intro e
    rw [e] at hjc
    exact lt_irrefl _ hjc
  have hjfix : h' j = h j := by
    apply hfix j hjne
    intro e
    have := i1 j j (by rw [i2b, e])
    exact lt_irrefl _ this
  refine ⟨h', hre, ⟨?_, ?_, ?_, ?_⟩, hpar, fun k hk => (hsame k hk).1⟩
  · intro n q hq
    by_cases hn : n = c
    · subst hn
      rw [hpar] at hq
      have := i1 j q (by rw [i2b, hq])
      omega
    · rw [(hsame n hn).1] at hq
      exact i1 n q hq
  · rw [hjfix]
    exact ⟨i2a, i2b⟩
  · intro k hk
    have hkc : k ≠ c := by
      intro e
      rw [e] at hk
      omega
    exact SameTransform.trans _ _ _ (i3 k hk) (hsame k hkc)
  · intro d hd
    obtain ⟨hjd, hdg, hdpiv, hdpos, hdpar⟩ := i4 d hd
    by_cases hdc : d = c
    · subst hdc
      refine ⟨hjd, hdg, by rw [hpv]; exact hdpiv, ?_, Or.inr hpar⟩
      rw [hp', ← hdpos, hp]
    · have hsd := hsame d hdc
      refine ⟨hjd, hdg, by rw [hsd.2.2.2.2]; exact hdpiv, ?_, by rw [hsd.1]; exact hdpar⟩
      rw [← hdpos]
      apply getPosition_congr
      apply getMatrix_congr m h h' (fun k => k = d ∨ rank k ≤ rank j)
      · intro n q hn hq
        right
        rcases hn with hn | hn
        · subst hn
          rcases hdpar with hdp | hdp
          · rw [hdp] at hq
            rw [← Option.some.inj hq]
          · rw [hdp] at hq
            have := i1 j q (by rw [i2b, hq])
            omega
        · have := i1 n q hq
          omega
      · intro n hn
        have hnc : n ≠ c := by
          rcases hn with hn | hn
          · rw [hn]; exact hdc
          · intro e
            rw [e] at hn
            omega
        obtain ⟨e1, e2, e3, e4, e5⟩ := hsame n hnc
        exact ⟨e1, getLocalMatrix_congr m _ _ e2 e3 e4 e5⟩
      · exact Or.inl rfl

theorem deleteJointChildren_spec (m : Libm) (hc : m.cos 0 = 1) (hs : m.sin 0 = 0)
    (rank : Nat → Nat) (g j : Nat) (par : Option Nat) (L : List Nat) (h0 : Heap)
    (hrank0 : ∀ n p, (h0 n).parent = some p → rank p < rank n)
    (hdet0 : ∀ pj P, par = some pj → getMatrix m h0 g pj = some P → P.det ≠ 0) :
    ∀ (k i : Nat) (a : App), RehomeInv m rank g j par L h0 a.heap → L.length - i < k →
      (∀ i' c, i' < i → L[i']? = some c → (a.heap c).parent = par) →
      ∃ a', deleteJointChildren m (g + 1) j par k i a = some a' ∧
        RehomeInv m rank g j par L h0 a'.heap ∧ (∀ c, c ∈ L → (a'.heap c).parent = par) ∧
        a'.joints = a.joints := by
  intro k
  induction k with
  | zero => intro i a _ hk _; omega
  | succ k ih =>
    intro i a hinv hk hdone
    have hL : (a.heap j).childList = L := hinv.2.1.1
    rw [deleteJointChildren, hL]
    cases hi : L[i]? with
    | none =>
      refine ⟨a, rfl, hinv, ?_, rfl⟩
      intro c hcL
      obtain ⟨i', hi'⟩ := List.mem_iff_getElem?.mp hcL
      have h1 := getElem?_lt_length L c i' hi'
      have h2 : L.length ≤ i := by
        by_contra hcon
        rw [List.getElem?_eq_getElem (by omega)] at hi
        exact Option.noConfusion hi
      exact hdone i' c (by omega) hi'
    | some c =>
      have hcL : c ∈ L := List.getElem?_mem hi
      have hilt := getElem?_lt_length L c i hi
      obtain ⟨h', hre, hinv', hpar, hother⟩ :=
        rehomeInv_step m hc hs rank g j par L h0 a.heap c hrank0 hdet0 hinv hcL
      simp only [rehomeChild, hre]
      obtain ⟨a', ha', hinv'', hall, hjoints⟩ := ih (i + 1)
        { a with
          heap := h'
          meshScene := (eraseLoop
            (fun s => getName (a.heap s) == getMeshName a.heap (a.heap c)) a.meshScene 0) }
        hinv' (by omega)
        (by
          intro i' c' hi' hc'
          by_cases hcc : c' = c
          · rw [hcc]; exact hpar
          · show (h' c').parent = par
            rw [hother c' hcc]
            have hne : i' ≠ i := by
              intro e
              rw [e, hi] at hc'
              exact hcc (Option.some.inj hc').symm
            exact hdone i' c' (by omega) hc')
      exact ⟨a', ha', hinv'', hall, hjoints⟩

theorem rank_bound (rank : Nat → Nat) (L : List Nat) : ∃ B, ∀ c, c ∈ L → rank c ≤ B := by
  induction L with
  | nil => exact ⟨0, fun c hc => by simp at hc⟩
  | cons x xs ih =>
    obtain ⟨B, hB⟩ := ih
    refine ⟨max B (rank x), fun c hc => ?_⟩
    rcases List.mem_cons.mp hc with hc | hc
    · rw [hc]; exact le_max_right _ _
    · exact le_trans (hB c hc) (le_max_left _ _)

theorem deleteJoint_preserves_of_det (m : Libm) (hc : m.cos 0 = 1) (hs : m.sin 0 = 0)
    (a : App) (j : Nat) (rest : List Nat) (hsel : a.selected = j :: rest)
    (hac : Acyclic a.heap)
    (hkids : ∀ c, c ∈ (a.heap j).childList → (a.heap c).parent = some j)
    (hpiv : ∀ c, c ∈ (a.heap j).childList → (a.heap c).pivot = ⟨0, 0, 0⟩)
    (hdet : ∀ pj fuel P, (a.heap j).parent = some pj →
      getMatrix m a.heap fuel pj = some P → P.det ≠ 0) :
    ∃ fuel0, ∀ fuel, fuel0 ≤ fuel → ∃ a', deleteJoint m fuel a = some a' ∧
      ∀ c, c ∈ (a.heap j).childList →
        (a'.heap c).parent = (a.heap j).parent ∧
        ∃ p, getPosition m a.heap fuel c = some p ∧ getPosition m a'.heap fuel c = some p := by
  obtain ⟨rank, hrank⟩ := hac
  obtain ⟨B, hB⟩ := rank_bound rank (a.heap j).childList
  refine ⟨max B (a.heap j).childList.length + 1, fun fuel hfuel => ?_⟩
  obtain ⟨g, rfl⟩ : ∃ g, fuel = g + 1 := ⟨fuel - 1, by omega⟩
  have hgB : B ≤ g := by
    have := le_max_left B (a.heap j).childList.length
    omega
  have hgL : (a.heap j).childList.length ≤ g := by
    have := le_max_right B (a.heap j).childList.length
    omega
  -- the heap after the first loop differs from the heap on entry in a child list only
  have hheap1 : ∃ h1 : Heap, (∀ k, SameTransform (a.heap k) (h1 k)) ∧ h1 j = a.heap j ∧
      (match (a.heap j).parent with
        | some pj =>
          Function.update a.heap pj
            { a.heap pj with
              childList := eraseLoop (fun c => getName (a.heap c) == getName (a.heap j))
                (a.heap pj).childList 0 }
        | none => a.heap) = h1 := by
    cases hpj : (a.heap j).parent with
    | none => exact ⟨a.heap, fun k => SameTransform.refl _, rfl, rfl⟩
    | some pj =>
      have hne : j ≠ pj := by
        intro e
        have := hrank j pj hpj
        rw [← e] at this
        exact lt_irrefl _ this
      refine ⟨_, fun k => ?_, Function.update_noteq hne _ _, rfl⟩
      by_cases hk : k = pj
      · subst hk
        simp [SameTransform]
      · rw [Function.update_noteq hk]
        exact SameTransform.refl _
  obtain ⟨h1, hsame1, hj1, hh1⟩ := hheap1
  have hM1 : ∀ f n, getMatrix m h1 f n = getMatrix m a.heap f n :=
    fun f n => getMatrix_congr m a.heap h1 (fun _ => True) (fun _ _ _ _ => trivial)
      (fun k _ => by
        obtain ⟨e1, e2, e3, e4, e5⟩ := hsame1 k
        exact ⟨e1, getLocalMatrix_congr m _ _ e2 e3 e4 e5⟩) f n trivial
  have hrank1 : ∀ n p, (h1 n).parent = some p → rank p < rank n := by
    intro n p hp
    rw [(hsame1 n).1] at hp
    exact hrank n p hp
  have hinv : RehomeInv m rank g j (a.heap j).parent (a.heap j).childList h1 h1 := by
    refine ⟨hrank1, ⟨by rw [hj1], by rw [hj1]⟩, fun k _ => SameTransform.refl _, ?_⟩
    intro c hcL
    refine ⟨hrank c j (hkids c hcL), le_trans (hB c hcL) hgB, ?_, rfl, Or.inl ?_⟩
    · rw [(hsame1 c).2.2.2.2]
      exact hpiv c hcL
    · rw [(hsame1 c).1]
      exact hkids c hcL
  obtain ⟨a2, ha2, hinv2, hall, _⟩ := deleteJointChildren_spec m hc hs rank g j
    (a.heap j).parent (a.heap j).childList h1 hrank1
    (fun pj P hpj hP => hdet pj g P hpj (by rw [← hM1]; exact hP))
    (g + 1) 0 { a with heap := h1 } hinv (by omega) (fun i' c hi' _ => by omega)
  simp only [hsel] at ha2
  have hdj : deleteJoint m (g + 1) a = some
      { heap := a2.heap
        meshScene := (eraseLoop
          (fun s => getName (a2.heap s) == getMeshName a2.heap (a2.heap j)) a2.meshScene 0)
        joints := (eraseLoop (fun s => getName (a2.heap s) == getName (a.heap j)) a2.joints 0)
        selected := [] } := by
    simp only [deleteJoint, hsel, hh1, ha2]
  refine ⟨_, hdj, ?_⟩
  intro c hcL
  refine ⟨hall c hcL, ?_⟩
  obtain ⟨Mc, hMc⟩ := getMatrix_of_rank m a.heap rank hrank g c (le_trans (hB c hcL) hgB)
  refine ⟨_, getPosition_of_getMatrix m a.heap (g + 1) c Mc hMc, ?_⟩
  show getPosition m a2.heap (g + 1) c = _
  rw [(hinv2.2.2.2 c hcL).2.2.2.1, getPosition_congr m a.heap h1 (g + 1) c (hM1 _ _),
    getPosition_of_getMatrix m a.heap (g + 1) c Mc hMc]

theorem det_eulerAngleYXZ (m : Libm) (htrig : ∀ t, m.cos t ^ 2 + m.sin t ^ 2 = 1)
    (a b c : ℚ) : (eulerAngleYXZ m a b c).det = 1 := by
  have ha := htrig a
  have hb := htrig b
  have hc := htrig c
  simp [eulerAngleYXZ, Matrix.det_succ_row_zero, Fin.sum_univ_succ, Matrix.det_fin_three,
    Fin.succAbove, Matrix.vecHead, Matrix.vecTail]
  linear_combination ((m.cos b ^ 2 + m.sin b ^ 2) * (m.cos c ^ 2 + m.sin c ^ 2)) * ha +
    (m.cos c ^ 2 + m.sin c ^ 2) * hb + hc

theorem det_getLocalMatrix (m : Libm) (htrig : ∀ t, m.cos t ^ 2 + m.sin t ^ 2 = 1)
    (o : SceneObject) (hsc : o.scale = ⟨1, 1, 1⟩) : (o.getLocalMatrix m).det = 1 := by
  unfold SceneObject.getLocalMatrix SceneObject.getRotateMatrix SceneObject.getScaleMatrix
    SceneObject.getTranslateMatrix
  simp only [hsc, scaleMatrix_one, Matrix.det_mul, det_translate, det_eulerAngleYXZ m htrig,
    Matrix.det_one, mul_one]

theorem det_getMatrix (m : Libm) (htrig : ∀ t, m.cos t ^ 2 + m.sin t ^ 2 = 1) (h : Heap)
    (hsc : ∀ n, (h n).scale = ⟨1, 1, 1⟩) :
    ∀ (fuel n : Nat) (M : Mat4), getMatrix m h fuel n = some M → M.det = 1 := by
  intro fuel
  induction fuel with
  | zero => intro n M hM; simp [getMatrix] at hM
  | succ k ih =>
    intro n M hM
    cases hp : (h n).parent with
    | none =>
      rw [getMatrix_root m h k n hp] at hM
      rw [← Option.some.inj hM]
      exact det_getLocalMatrix m htrig _ (hsc n)
    | some p =>
      cases hq : getMatrix m h k p with
      | none => simp [getMatrix, hp, hq] at hM
      | some Mp =>
        rw [getMatrix_child m h k n p Mp hp hq] at hM
        rw [← Option.some.inj hM, Matrix.det_mul, ih p Mp hq,
          det_getLocalMatrix m htrig _ (hsc n), mul_one]

theorem ratLibm_trig (t : ℚ) : ratLibm.cos t ^ 2 + ratLibm.sin t ^ 2 = 1 := by
  show ((1 - t ^ 2) / (1 + t ^ 2)) ^ 2 + (2 * t / (1 + t ^ 2)) ^ 2 = 1
  have h : (1 + t ^ 2) ≠ 0 := by positivity
  field_simp
  ring

theorem acyclic_threeJointHeap : Acyclic threeJointHeap := by
  refine ⟨fun n => if n = 1 then 1 else if n = 2 then 2 else 0, ?_⟩
  intro n p hp
  by_cases h0 : n = 0
  · subst h0
    simp [threeJointHeap, SceneObject.new] at hp
  · by_cases h1 : n = 1
    · subst h1
      simp [threeJointHeap, SceneObject.new] at hp
      subst hp
      simp
    · by_cases h2 : n = 2
      · subst h2
        simp [threeJointHeap, SceneObject.new] at hp
        subst hp
        simp
      · simp [threeJointHeap, SceneObject.new, h0, h1, h2] at hp

theorem threeJointHeap_unpivoted (n : Nat) :
    (threeJointHeap n).pivot = ⟨0, 0, 0⟩ ∧ (threeJointHeap n).scale = ⟨1, 1, 1⟩ := by
  unfold threeJointHeap
  split_ifs <;> exact ⟨rfl, rfl⟩


theorem bary_on_edge (V N : Fin 3 → Vec3) (b : Vec2) (i j k : Fin 3)
    (hd : i ≠ j ∧ i ≠ k ∧ j ≠ k) (hk : baryWeight b k = 0) :
    baryWeight b i + baryWeight b j = 1 ∧
    ((Vec3.smul (1 - b.x - b.y) (V 0)).add (Vec3.smul b.x (V 1))).add (Vec3.smul b.y (V 2)) =
      (Vec3.smul (baryWeight b i) (V i)).add (Vec3.smul (baryWeight b j) (V j)) ∧
    ((Vec3.smul (1 - b.x - b.y) (N 0)).add (Vec3.smul b.x (N 1))).add (Vec3.smul b.y (N 2)) =
      (Vec3.smul (baryWeight b i) (N i)).add (Vec3.smul (baryWeight b j) (N j)) := by
  obtain ⟨hij, hik, hjk⟩ := hd
  have key : ∀ (W : Fin 3 → Vec3),
      ((Vec3.smul (1 - b.x - b.y) (W 0)).add (Vec3.smul b.x (W 1))).add (Vec3.smul b.y (W 2)) =
        (Vec3.smul (baryWeight b i) (W i)).add (Vec3.smul (baryWeight b j) (W j)) := by
    intro W
    fin_cases i <;> fin_cases j <;> fin_cases k <;>
      first
      | exact absurd rfl hij
      | exact absurd rfl hik
      | exact absurd rfl hjk
      | (simp [baryWeight] at hk
         simp [baryWeight, Vec3.smul, Vec3.add, hk]
         try (refine ⟨?_, ?_, ?_⟩ <;> linarith))
  refine ⟨?_, key V, key N⟩
  fin_cases i <;> fin_cases j <;> fin_cases k <;>
    first
    | exact absurd rfl hij
    | exact absurd rfl hik
    | exact absurd rfl hjk
    | (simp [baryWeight] at hk
       simp [baryWeight]
       linarith)

theorem smul_sub_eq_zero_of_ne (c : ℚ) (A B : Vec3) (hAB : A ≠ B)
    (h : Vec3.smul c (A.sub B) = ⟨0, 0, 0⟩) : c = 0 := by
  by_contra hc
  apply hAB
  simp only [Vec3.smul, Vec3.sub, Vec3.mk.injEq, mul_eq_zero] at h
  obtain ⟨hx, hy, hz⟩ := h
  cases A
  cases B
  simp only [Vec3.mk.injEq]
  exact ⟨by rcases hx with h | h <;> [exact absurd h hc; linarith],
    by rcases hy with h | h <;> [exact absurd h hc; linarith],
    by rcases hz with h | h <;> [exact absurd h hc; linarith]⟩


/-! ## The render pass -/

theorem Plane.intersect_plane_indep (rp : RayPlaneTest) (pl : Plane) (ray : Ray)
    (p n p' n' : Vec3) :
    (pl.intersect rp ray p n).hit = (pl.intersect rp ray p' n').hit ∧
    ((pl.intersect rp ray p n).hit = true →
      pl.intersect rp ray p n = pl.intersect rp ray p' n') := by
  unfold Plane.intersect
  cases rp ray.p ray.d pl.position pl.normal with
  | none => exact ⟨rfl, fun h => Bool.noConfusion h⟩
  | some dist => exact ⟨rfl, fun _ => rfl⟩

theorem Mesh.scan_indep (m : Libm) (rt : RayTriangleTest) (mesh : Mesh) (ray : Ray)
    (ts : List Triangle) :
    ∀ (s s' : MeshScan), s.hit = s'.hit → s.shortestDistance = s'.shortestDistance →
      (s.shortestDistance ≠ none → s.point = s'.point ∧ s.normal = s'.normal) →
      (mesh.scan m rt ray s ts).hit = (mesh.scan m rt ray s' ts).hit ∧
      (mesh.scan m rt ray s ts).shortestDistance =
        (mesh.scan m rt ray s' ts).shortestDistance ∧
      ((mesh.scan m rt ray s ts).shortestDistance ≠ none →
        (mesh.scan m rt ray s ts).point = (mesh.scan m rt ray s' ts).point ∧
        (mesh.scan m rt ray s ts).normal = (mesh.scan m rt ray s' ts).normal) := by
  induction ts with
  | nil => intro s s' h1 h2 h3; exact ⟨h1, h2, h3⟩
  | cons t ts ih =>
    intro s s' h1 h2 h3
    have hcons : ∀ u : MeshScan, mesh.scan m rt ray u (t :: ts) =
        mesh.scan m rt ray (mesh.step m rt ray u t) ts := fun u => rfl
    rw [hcons s, hcons s']
    apply ih
    · cases hta : mesh.test rt ray t with
      | none => simp [Mesh.step, hta, h1]
      | some bd =>
        obtain ⟨b, d⟩ := bd
        simp only [Mesh.step, hta, ← h2]
        split_ifs <;> rfl
    · cases hta : mesh.test rt ray t with
      | none => simp [Mesh.step, hta, h2]
      | some bd =>
        obtain ⟨b, d⟩ := bd
        simp only [Mesh.step, hta, ← h2]
        split_ifs
        · rfl
        · rfl
    · cases hta : mesh.test rt ray t with
      | none =>
        simp only [Mesh.step, hta]
        exact h3
      | some bd =>
        obtain ⟨b, d⟩ := bd
        simp only [Mesh.step, hta, ← h2]
        split_ifs
        · intro _; exact ⟨rfl, rfl⟩
        · exact h3

theorem Mesh.intersect_mesh_indep (m : Libm) (rt : RayTriangleTest) (mesh : Mesh) (ray : Ray)
    (p n p' n' : Vec3) :
    (mesh.intersect m rt ray p n).hit = (mesh.intersect m rt ray p' n').hit ∧
    ((mesh.intersect m rt ray p n).hit = true →
      mesh.intersect m rt ray p n = mesh.intersect m rt ray p' n') := by
  obtain ⟨e1, e2, e3⟩ := Mesh.scan_indep m rt mesh ray mesh.triangles
    ⟨false, none, p, n⟩ ⟨false, none, p', n'⟩ rfl rfl (fun h => absurd rfl h)
  refine ⟨e1, fun hh => ?_⟩
  obtain ⟨_, _, h3⟩ := Mesh.scan_invariant m rt mesh ray p n mesh.triangles
  obtain ⟨i, t, b, d, _, _, hsd, _, _, _⟩ := h3 hh
  obtain ⟨e4, e5⟩ := e3 (by rw [hsd]; exact Option.some_ne_none _)
  simp only [Mesh.intersect, Intersection.mk.injEq]
  exact ⟨e1, e4, e5⟩

theorem Entity.intersect_indep {C : Type} (o : Outside C) (e : Entity C) (ray : Ray)
    (p n p' n' : Vec3) :
    (e.intersect o ray p n).hit = (e.intersect o ray p' n').hit ∧
    ((e.intersect o ray p n).hit = true →
      e.intersect o ray p n = e.intersect o ray p' n') := by
  unfold Entity.intersect
  cases e.shape with
  | plane pl => exact Plane.intersect_plane_indep o.rayPlane pl ray p n p' n'
  | mesh me => exact Mesh.intersect_mesh_indep o.libm o.rayTriangle me ray p n p' n'

theorem Entity.hitData_none {C : Type} (o : Outside C) (e : Entity C) (ray : Ray)
    (h : e.hitData o ray = none) (p n : Vec3) : (e.intersect o ray p n).hit = false := by
  unfold Entity.hitData at h
  split_ifs at h with hh
  rw [(Entity.intersect_indep o e ray p n ⟨0, 0, 0⟩ ⟨0, 0, 0⟩).1]
  simpa using hh

theorem Entity.hitData_some {C : Type} (o : Outside C) (e : Entity C) (ray : Ray)
    (pt nr : Vec3) (h : e.hitData o ray = some (pt, nr)) (p n : Vec3) :
    e.intersect o ray p n = ⟨true, pt, nr⟩ := by
  unfold Entity.hitData at h
  split_ifs at h with hh
  have e1 := (Entity.intersect_indep o e ray ⟨0, 0, 0⟩ ⟨0, 0, 0⟩ p n).2 hh
  rw [← e1]
  simp only [Option.some.injEq, Prod.mk.injEq] at h
  cases hr : e.intersect o ray ⟨0, 0, 0⟩ ⟨0, 0, 0⟩ with
  | mk a b c =>
    rw [hr] at hh h
    simp only at hh h
    rw [hh, h.1, h.2]

theorem closestHit_snoc {C : Type} (o : Outside C) (ray : Ray) (l : List (Entity C))
    (e : Entity C) :
    closestHit o ray (l ++ [e]) = closestStep o ray (closestHit o ray l) e := by
  simp [closestHit, List.foldl_append]

theorem closestHit_hitData {C : Type} (o : Outside C) (ray : Ray) (l : List (Entity C)) :
    ∀ (c : Entity C) (pt n : Vec3), closestHit o ray l = some (c, pt, n) →
      c.hitData o ray = some (pt, n) := by
  induction l using List.reverseRecOn with
  | nil => intro c pt n h; simp [closestHit] at h
  | append_singleton l e ih =>
    intro c pt n h
    rw [closestHit_snoc] at h
    unfold closestStep at h
    cases he : e.hitData o ray with
    | none =>
      rw [he] at h
      exact ih c pt n h
    | some d =>
      obtain ⟨pt1, n1⟩ := d
      rw [he] at h
      cases hb : closestHit o ray l with
      | none =>
        rw [hb] at h
        simp only [Option.some.injEq, Prod.mk.injEq] at h
        obtain ⟨h1, h2, h3⟩ := h
        rw [← h1, ← h2, ← h3]
        exact he
      | some b =>
        obtain ⟨c', pt', n'⟩ := b
        rw [hb] at h
        simp only at h
        split_ifs at h
        · simp only [Option.some.injEq, Prod.mk.injEq] at h
          obtain ⟨h1, h2, h3⟩ := h
          rw [← h1, ← h2, ← h3]
          exact he
        · exact ih c pt n (by rw [hb]; exact h)

theorem tracePixel_scan {C : Type} (o : Outside C) (s : Scene C) (ray : Ray) (i j : Nat)
    (f : Frame C) (l : List (Entity C)) :
    (l.foldl (tracePixelStep o s ray i j) ⟨false, none, none, f⟩).hit =
        (closestHit o ray l).isSome ∧
      (l.foldl (tracePixelStep o s ray i j) ⟨false, none, none, f⟩).closestObject =
        (closestHit o ray l).map (fun b => b.1) ∧
      (l.foldl (tracePixelStep o s ray i j) ⟨false, none, none, f⟩).shortestDistance =
        (closestHit o ray l).map (fun b => distance o.libm ray.p b.2.1) ∧
      (∀ x y, ¬ (x = i ∧ y = s.imageHeight - 1 - j) →
        (l.foldl (tracePixelStep o s ray i j) ⟨false, none, none, f⟩).frame.image x y =
          f.image x y) ∧
      (l ≠ [] →
        (l.foldl (tracePixelStep o s ray i j) ⟨false, none, none, f⟩).frame.image i
            (s.imageHeight - 1 - j) = shade o s ray (closestHit o ray l)) := by
  induction l using List.reverseRecOn with
  | nil => simp [closestHit]
  | append_singleton l e ih =>
    obtain ⟨ih1, ih2, ih3, ih4, _⟩ := ih
    rw [List.foldl_append, closestHit_snoc]
    simp only [List.foldl_cons, List.foldl_nil]
    generalize l.foldl (tracePixelStep o s ray i j) ⟨false, none, none, f⟩ = st
      at ih1 ih2 ih3 ih4
    have hdata := closestHit_hitData o ray l
    generalize closestHit o ray l = best at ih1 ih2 ih3 hdata
    cases he : e.hitData o ray with
    | none =>
      have hr := Entity.hitData_none o e ray he st.frame.intersectPt st.frame.intersectNormal
      cases best with
      | none =>
        simp only [Option.isSome_none, Option.map_none'] at ih1 ih2 ih3
        simp [tracePixelStep, closestStep, he, hr, ih1, ih2, ih3, shade, setColor]
        intro x y hxy
        rw [if_neg (fun h => hxy h.1 h.2)]
        exact ih4 x y (fun h => hxy h.1 h.2)
      | some b =>
        obtain ⟨c, pt, n⟩ := b
        simp only [Option.isSome_some, Option.map_some'] at ih1 ih2 ih3
        have hc := fun p q => Entity.hitData_some o c ray pt n (hdata c pt n rfl) p q
        simp [tracePixelStep, closestStep, he, hr, ih1, ih2, ih3, shade, setColor, hc]
        intro x y hxy
        rw [if_neg (fun h => hxy h.1 h.2)]
        exact ih4 x y (fun h => hxy h.1 h.2)
    | some d =>
      obtain ⟨pt1, n1⟩ := d
      have hr := Entity.hitData_some o e ray pt1 n1 he st.frame.intersectPt
        st.frame.intersectNormal
      have hee := fun p q => Entity.hitData_some o e ray pt1 n1 he p q
      cases best with
      | none =>
        simp only [Option.isSome_none, Option.map_none'] at ih1 ih2 ih3
        simp [tracePixelStep, closestStep, he, hr, ih1, ih2, ih3, shade, setColor, hee, closer]
        intro x y hxy
        rw [if_neg (fun h => hxy h.1 h.2)]
        exact ih4 x y (fun h => hxy h.1 h.2)
      | some b =>
        obtain ⟨c, pt, n⟩ := b
        simp only [Option.isSome_some, Option.map_some'] at ih1 ih2 ih3
        have hc := fun p q => Entity.hitData_some o c ray pt n (hdata c pt n rfl) p q
        by_cases hlt : distance o.libm ray.p pt1 < distance o.libm ray.p pt
        · simp [tracePixelStep, closestStep, he, hr, ih1, ih2, ih3, shade, setColor, hee,
            closer, hlt]
          intro x y hxy
          rw [if_neg (fun h => hxy h.1 h.2)]
          exact ih4 x y (fun h => hxy h.1 h.2)
        · simp [tracePixelStep, closestStep, he, hr, ih1, ih2, ih3, shade, setColor, hc,
            closer, hlt]
          intro x y hxy
          rw [if_neg (fun h => hxy h.1 h.2)]
          exact ih4 x y (fun h => hxy h.1 h.2)

theorem closestHit_none_iff {C : Type} (o : Outside C) (ray : Ray) (l : List (Entity C)) :
    closestHit o ray l = none ↔ ∀ e ∈ l, e.hitData o ray = none := by
  induction l using List.reverseRecOn with
  | nil => simp [closestHit]
  | append_singleton l e ih =>
    rw [closestHit_snoc]
    unfold closestStep
    cases he : e.hitData o ray with
    | none =>
      simp only [ih, List.mem_append, List.mem_singleton]
      constructor
      · intro h a ha
        rcases ha with ha | ha
        · exact h a ha
        · rw [ha]; exact he
      · intro h a ha
        exact h a (Or.inl ha)
    | some d =>
      obtain ⟨pt1, n1⟩ := d
      constructor
      · intro h
        cases hb : closestHit o ray l with
        | none => rw [hb] at h; simp at h
        | some b =>
          obtain ⟨c, pt, n⟩ := b
          rw [hb] at h
          simp only at h
          split_ifs at h
      · intro h
        have := h e (by simp)
        rw [he] at this
        simp at this

theorem closestHit_first_min {C : Type} (o : Outside C) (ray : Ray) (l : List (Entity C)) :
    ∀ (c : Entity C) (pt n : Vec3), closestHit o ray l = some (c, pt, n) →
      ∃ l1 l2, l = l1 ++ c :: l2 ∧ c.hitData o ray = some (pt, n) ∧
        (∀ e ∈ l1, ∀ pt' n', e.hitData o ray = some (pt', n') →
          distance o.libm ray.p pt < distance o.libm ray.p pt') ∧
        (∀ e ∈ l2, ∀ pt' n', e.hitData o ray = some (pt', n') →
          distance o.libm ray.p pt ≤ distance o.libm ray.p pt') := by
  induction l using List.reverseRecOn with
  | nil => intro c pt n h; simp [closestHit] at h
  | append_singleton l e ih =>
    intro c pt n h
    rw [closestHit_snoc] at h
    unfold closestStep at h
    cases he : e.hitData o ray with
    | none =>
      rw [he] at h
      obtain ⟨l1, l2, hl, hc, h1, h2⟩ := ih c pt n h
      refine ⟨l1, l2 ++ [e], by rw [hl]; simp, hc, h1, ?_⟩
      intro a ha pt' n' hd
      rw [List.mem_append, List.mem_singleton] at ha
      rcases ha with ha | ha
      · exact h2 a ha pt' n' hd
      · rw [ha, he] at hd; simp at hd
    | some d =>
      obtain ⟨pt1, n1⟩ := d
      rw [he] at h
      cases hb : closestHit o ray l with
      | none =>
        rw [hb] at h
        simp only [Option.some.injEq, Prod.mk.injEq] at h
        obtain ⟨hc1, hc2, hc3⟩ := h
        subst hc1 hc2 hc3
        refine ⟨l, [], rfl, he, ?_, by simp⟩
        intro a ha pt' n' hd
        rw [(closestHit_none_iff o ray l).1 hb a ha] at hd
        simp at hd
      | some b =>
        obtain ⟨c', pt', n'⟩ := b
        rw [hb] at h
        simp only at h
        obtain ⟨l1, l2, hl, hc, h1, h2⟩ := ih c' pt' n' hb
        split_ifs at h with hlt
        · simp only [Option.some.injEq, Prod.mk.injEq] at h
          obtain ⟨hc1, hc2, hc3⟩ := h
          subst hc1 hc2 hc3
          refine ⟨l, [], rfl, he, ?_, by simp⟩
          intro a ha pt2 n2 hd
          rw [hl, List.mem_append, List.mem_cons] at ha
          rcases ha with ha | ha | ha
          · exact lt_trans hlt (h1 a ha pt2 n2 hd)
          · rw [ha, hc] at hd
            simp only [Option.some.injEq, Prod.mk.injEq] at hd
            rw [← hd.1]; exact hlt
          · exact lt_of_lt_of_le hlt (h2 a ha pt2 n2 hd)
        · simp only [Option.some.injEq, Prod.mk.injEq] at h
          obtain ⟨hc1, hc2, hc3⟩ := h
          subst hc1 hc2 hc3
          refine ⟨l1, l2 ++ [e], by rw [hl]; simp, hc, h1, ?_⟩
          intro a ha pt2 n2 hd
          rw [List.mem_append, List.mem_singleton] at ha
          rcases ha with ha | ha
          · exact h2 a ha pt2 n2 hd
          · rw [ha, he] at hd
            simp only [Option.some.injEq, Prod.mk.injEq] at hd
            rw [← hd.1]; exact not_lt.1 hlt

theorem tracePixel_other {C : Type} (o : Outside C) (s : Scene C) (i j : Nat) (f : Frame C)
    (x y : Nat) (hxy : ¬ (x = i ∧ y = s.imageHeight - 1 - j)) :
    (tracePixel o s i j f).image x y = f.image x y :=
  (tracePixel_scan o s (pixelRay o s i j) i j f s.meshScene).2.2.2.1 x y hxy

theorem tracePixel_cell {C : Type} (o : Outside C) (s : Scene C) (i j : Nat) (f : Frame C)
    (hne : s.meshScene ≠ []) :
    (tracePixel o s i j f).image i (s.imageHeight - 1 - j) =
      shade o s (pixelRay o s i j) (closestHit o (pixelRay o s i j) s.meshScene) :=
  (tracePixel_scan o s (pixelRay o s i j) i j f s.meshScene).2.2.2.2 hne

theorem traceColumn_other {C : Type} (o : Outside C) (s : Scene C) (i : Nat) (js : List Nat)
    (f : Frame C) (x y : Nat) (hxy : x ≠ i ∨ ∀ j ∈ js, y ≠ s.imageHeight - 1 - j) :
    (js.foldl (fun f j => tracePixel o s i j f) f).image x y = f.image x y := by
  induction js using List.reverseRecOn with
  | nil => rfl
  | append_singleton js j0 ih =>
    rw [List.foldl_append]
    simp only [List.foldl_cons, List.foldl_nil]
    rw [tracePixel_other]
    · apply ih
      rcases hxy with h | h
      · exact Or.inl h
      · exact Or.inr (fun j hj => h j (by simp [hj]))
    · rintro ⟨h1, h2⟩
      rcases hxy with h | h
      · exact h h1
      · exact h j0 (by simp) h2

theorem traceColumn_cell {C : Type} (o : Outside C) (s : Scene C) (i : Nat) (js : List Nat)
    (f : Frame C) (hne : s.meshScene ≠ []) (hjs : ∀ j ∈ js, j < s.imageHeight) :
    ∀ j ∈ js, (js.foldl (fun f j => tracePixel o s i j f) f).image i (s.imageHeight - 1 - j) =
      shade o s (pixelRay o s i j) (closestHit o (pixelRay o s i j) s.meshScene) := by
  induction js using List.reverseRecOn with
  | nil => intro j hj; simp at hj
  | append_singleton js j0 ih =>
    intro j hj
    rw [List.foldl_append]
    simp only [List.foldl_cons, List.foldl_nil]
    by_cases hjj : j = j0
    · rw [hjj]
      exact tracePixel_cell o s i j0 _ hne
    · have hj' : j ∈ js := by
        rw [List.mem_append, List.mem_singleton] at hj
        rcases hj with h | h
        · exact h
        · exact absurd h hjj
      rw [tracePixel_other]
      · exact ih (fun a ha => hjs a (by simp [ha])) j hj'
      · rintro ⟨_, h2⟩
        have h1 := hjs j (by simp [hj'])
        have h0 := hjs j0 (by simp)
        omega

theorem rayTrace_other {C : Type} (o : Outside C) (s : Scene C) (is : List Nat) (f : Frame C)
    (x y : Nat) (hxy : x ∉ is ∨ s.imageHeight ≤ y) :
    (is.foldl (fun f i => (List.range s.imageHeight).foldl (fun f j => tracePixel o s i j f) f)
      f).image x y = f.image x y := by
  induction is using List.reverseRecOn with
  | nil => rfl
  | append_singleton is i0 ih =>
    rw [List.foldl_append]
    simp only [List.foldl_cons, List.foldl_nil]
    rw [traceColumn_other]
    · apply ih
      rcases hxy with h | h
      · exact Or.inl (fun hx => h (by simp [hx]))
      · exact Or.inr h
    · rcases hxy with h | h
      · exact Or.inl (fun hx => h (by simp [hx]))
      · right
        intro j hj
        rw [List.mem_range] at hj
        omega

theorem rayTrace_cell_of {C : Type} (o : Outside C) (s : Scene C) (is : List Nat) (f : Frame C)
    (hne : s.meshScene ≠ []) :
    ∀ i ∈ is, ∀ j, j < s.imageHeight →
      (is.foldl (fun f i => (List.range s.imageHeight).foldl (fun f j => tracePixel o s i j f) f)
        f).image i (s.imageHeight - 1 - j) =
      shade o s (pixelRay o s i j) (closestHit o (pixelRay o s i j) s.meshScene) := by
  induction is using List.reverseRecOn with
  | nil => intro i hi; simp at hi
  | append_singleton is i0 ih =>
    intro i hi j hj
    rw [List.foldl_append]
    simp only [List.foldl_cons, List.foldl_nil]
    by_cases hii : i = i0
    · rw [hii]
      exact traceColumn_cell o s i0 (List.range s.imageHeight) _ hne
        (fun a ha => List.mem_range.1 ha) j (List.mem_range.2 hj)
    · have hi' : i ∈ is := by
        rw [List.mem_append, List.mem_singleton] at hi
        rcases hi with h | h
        · exact h
        · exact absurd h hii
      rw [traceColumn_other o s i0 _ _ i _ (Or.inl hii)]
      exact ih i hi' j hj

theorem rayTrace_cell {C : Type} (o : Outside C) (s : Scene C) (f : Frame C)
    (hne : s.meshScene ≠ []) (i j : Nat) (hi : i < s.imageWidth) (hj : j < s.imageHeight) :
    (rayTrace o s f).image i (s.imageHeight - 1 - j) =
      shade o s (pixelRay o s i j) (closestHit o (pixelRay o s i j) s.meshScene) :=
  rayTrace_cell_of o s (List.range s.imageWidth) f hne i (List.mem_range.2 hi) j hj

theorem rayTrace_empty {C : Type} (o : Outside C) (s : Scene C) (f : Frame C)
    (he : s.meshScene = []) : rayTrace o s f = f := by
  have h1 : ∀ i j (g : Frame C), tracePixel o s i j g = g := by
    intro i j g
    simp [tracePixel, he]
  have h2 : ∀ (js : List Nat) i (g : Frame C),
      js.foldl (fun f j => tracePixel o s i j f) g = g := by
    intro js
    induction js with
    | nil => intro i g; rfl
    | cons a js ih => intro i g; simp [List.foldl_cons, h1, ih]
  have h3 : ∀ (is : List Nat) (g : Frame C),
      is.foldl (fun f i => (List.range s.imageHeight).foldl (fun f j => tracePixel o s i j f) f)
        g = g := by
    intro is
    induction is with
    | nil => intro g; rfl
    | cons a is ih => intro g; simp [List.foldl_cons, h2, ih]
  exact h3 _ f

theorem tiltedScene_pixelRay :
    pixelRay ratOutside tiltedScene 0 0 = ⟨⟨0, 2, 3⟩, ⟨0, -4 / 5, -3 / 5⟩⟩ := by
  have h : ratLibm.sqrt (5 * 5) = 5 := ratLibm_sqrt_sq 5 (by norm_num)
  have h25 : ratLibm.sqrt 25 = 5 := by
    rw [← h]; norm_num
  simp only [pixelRay, tiltedScene, RenderCam.getRay, ViewPlane.toWorld, ViewPlane.width,
    ViewPlane.height, tiltedCam, normalize, ratOutside, Vec3.sub, Vec3.dot, Vec3.smul]
  norm_num [h25]

theorem levelScene_pixelRay :
    pixelRay ratOutside levelScene 0 0 = ⟨⟨0, 0, 10⟩, ⟨0, 0, -1⟩⟩ := by
  have h : ratLibm.sqrt (5 * 5) = 5 := ratLibm_sqrt_sq 5 (by norm_num)
  have h25 : ratLibm.sqrt 25 = 5 := by
    rw [← h]; norm_num
  simp only [pixelRay, levelScene, RenderCam.getRay, ViewPlane.toWorld, ViewPlane.width,
    ViewPlane.height, defaultCam, normalize, ratOutside, Vec3.sub, Vec3.dot, Vec3.smul]
  norm_num [h25]

theorem floorEntity_tilted (p n : Vec3) :
    floorEntity.intersect ratOutside ⟨⟨0, 2, 3⟩, ⟨0, -4 / 5, -3 / 5⟩⟩ p n =
      ⟨true, ⟨0, -2, 0⟩, ⟨0, 1, 0⟩⟩ := by
  have habs : |(4 / 5 : ℚ)| = 4 / 5 := abs_of_pos (by norm_num)
  norm_num [habs, Entity.intersect, floorEntity, Plane.intersect, ratOutside, intersectRayPlane,
    floorPlane, Vec3.dot, Vec3.sub, epsilon, Ray.evalPoint, Vec3.add, Vec3.smul]

theorem lowerFloorEntity_tilted (p n : Vec3) :
    lowerFloorEntity.intersect ratOutside ⟨⟨0, 2, 3⟩, ⟨0, -4 / 5, -3 / 5⟩⟩ p n =
      ⟨true, ⟨0, -3, -3 / 4⟩, ⟨0, 1, 0⟩⟩ := by
  have habs : |(4 / 5 : ℚ)| = 4 / 5 := abs_of_pos (by norm_num)
  norm_num [habs, Entity.intersect, lowerFloorEntity, Plane.intersect, ratOutside, intersectRayPlane,
    Vec3.dot, Vec3.sub, epsilon, Ray.evalPoint, Vec3.add, Vec3.smul]

theorem floorEntity_level (p n : Vec3) :
    (floorEntity.intersect ratOutside ⟨⟨0, 0, 10⟩, ⟨0, 0, -1⟩⟩ p n).hit = false := by
  norm_num [Entity.intersect, floorEntity, Plane.intersect, ratOutside, intersectRayPlane,
    floorPlane, Vec3.dot, Vec3.sub, epsilon]

theorem Entity.hitData_of_hit {C : Type} (o : Outside C) (e : Entity C) (ray : Ray)
    (p n : Vec3) (h : (e.intersect o ray p n).hit = true) :
    e.hitData o ray =
      some ((e.intersect o ray p n).point, (e.intersect o ray p n).normal) := by
  have h0 := (Entity.intersect_indep o e ray p n ⟨0, 0, 0⟩ ⟨0, 0, 0⟩).2 h
  unfold Entity.hitData
  rw [← h0, if_pos h]

theorem shadowCheckLoop_iff {C : Type} (o : Outside C) (ray : Ray) (lightPosition : Vec3) :
    ∀ (l : List (Entity C)) (p n : Vec3),
      shadowCheckLoop o ray lightPosition l p n = true ↔
        ∃ e ∈ l, ∃ h nh, e.hitData o ray = some (h, nh) ∧
          distance o.libm ray.p h < distance o.libm ray.p lightPosition ∧
          distance o.libm h lightPosition < distance o.libm ray.p lightPosition := by
  intro l
  induction l with
  | nil => intro p n; simp [shadowCheckLoop]
  | cons e rest ih =>
    intro p n
    unfold shadowCheckLoop
    cases he : e.hitData o ray with
    | none =>
      have hr := Entity.hitData_none o e ray he p n
      simp only [hr, Bool.false_eq_true, false_and, if_false, ih, List.mem_cons]
      constructor
      · rintro ⟨a, ha, h, nh, hd, h1, h2⟩
        exact ⟨a, Or.inr ha, h, nh, hd, h1, h2⟩
      · rintro ⟨a, ha, h, nh, hd, h1, h2⟩
        rcases ha with ha | ha
        · rw [ha, he] at hd; simp at hd
        · exact ⟨a, ha, h, nh, hd, h1, h2⟩
    | some d =>
      obtain ⟨h0, nh0⟩ := d
      have hr := Entity.hitData_some o e ray h0 nh0 he p n
      simp only [hr, true_and, List.mem_cons]
      split_ifs with hc
      · simp only [true_iff]
        exact ⟨e, Or.inl rfl, h0, nh0, he, hc.1, hc.2⟩
      · rw [ih]
        constructor
        · rintro ⟨a, ha, h, nh, hd, h1, h2⟩
          exact ⟨a, Or.inr ha, h, nh, hd, h1, h2⟩
        · rintro ⟨a, ha, h, nh, hd, h1, h2⟩
          rcases ha with ha | ha
          · rw [ha, he] at hd
            simp only [Option.some.injEq, Prod.mk.injEq] at hd
            rw [← hd.1] at h1 h2
            exact absurd ⟨h1, h2⟩ hc
          · exact ⟨a, ha, h, nh, hd, h1, h2⟩

theorem Entity.hitData_iff {C : Type} (o : Outside C) (e : Entity C) (ray : Ray) (h nh : Vec3) :
    e.hitData o ray = some (h, nh) ↔ ∀ p n, e.intersect o ray p n = ⟨true, h, nh⟩ := by
  constructor
  · exact Entity.hitData_some o e ray h nh
  · intro hall
    have h0 := hall ⟨0, 0, 0⟩ ⟨0, 0, 0⟩
    unfold Entity.hitData
    rw [h0]
    rfl

theorem distance_comm (m : Libm) (a b : Vec3) : distance m a b = distance m b a := by
  unfold distance
  congr 1
  simp only [Vec3.sub, Vec3.dot]
  ring

theorem phong_blocked_light {C : Type} (o : Outside C) (s : Scene C) (ray : Ray)
    (point normal : Vec3) (diffuse specular : C) (power : ℚ) (l1 l2 : List Light) (light : Light)
    (hblocked : ∀ result, phongStep o s point normal diffuse specular power result light = result) :
    phong o { s with lights := l1 ++ light :: l2 } ray point normal diffuse specular power =
      phong o { s with lights := l1 ++ l2 } ray point normal diffuse specular power := by
  have e1 : ∀ X : List Light, phongStep o { s with lights := X } point normal diffuse specular
      power = phongStep o s point normal diffuse specular power := fun _ => rfl
  simp only [phong, e1, List.foldl_append, List.foldl_cons, hblocked]

theorem Plane.intersect_of_some (rp : RayPlaneTest) (pl : Plane) (ray : Ray) (p n : Vec3)
    (dist : ℚ) (hq : rp ray.p ray.d pl.position pl.normal = some dist) :
    pl.intersect rp ray p n =
      if (ray.evalPoint dist).x < pl.position.x + pl.width / 2 ∧
          (ray.evalPoint dist).x > pl.position.x - pl.width / 2 ∧
          (ray.evalPoint dist).z < pl.position.z + pl.height / 2 ∧
          (ray.evalPoint dist).z > pl.position.z - pl.height / 2 then
        ⟨true, ray.evalPoint dist, pl.normal⟩
      else ⟨false, ray.evalPoint dist, pl.normal⟩ := by
  simp only [Plane.intersect, hq]

theorem floorPlane_below (y : ℚ) (hy : y < -2) :
    intersectRayPlane ⟨0, y, 0⟩ ⟨0, 1, 0⟩ floorPlane.position floorPlane.normal =
      some (-2 - y) := by
  have he : |(0 * 0 + 1 * 1 + 0 * 0 : ℚ)| > epsilon := by
    unfold epsilon
    norm_num
  have hd : ((0 - 0) * 0 + (-2 - y) * 1 + (0 - 0) * 0) / (0 * 0 + 1 * 1 + 0 * 0) = -2 - y := by
    ring
  have hpos : -2 - y > 0 := by linarith
  simp only [intersectRayPlane, floorPlane, Vec3.dot, Vec3.sub]
  rw [if_pos he, hd, if_pos hpos]

theorem floorEntity_below (y : ℚ) (hy : y < -2) (p n : Vec3) :
    floorEntity.intersect ratOutside ⟨⟨0, y, 0⟩, ⟨0, 1, 0⟩⟩ p n =
      ⟨true, ⟨0, -2, 0⟩, ⟨0, 1, 0⟩⟩ := by
  have e : floorEntity.intersect ratOutside ⟨⟨0, y, 0⟩, ⟨0, 1, 0⟩⟩ p n =
      floorPlane.intersect intersectRayPlane ⟨⟨0, y, 0⟩, ⟨0, 1, 0⟩⟩ p n := rfl
  rw [e, Plane.intersect_of_some intersectRayPlane floorPlane ⟨⟨0, y, 0⟩, ⟨0, 1, 0⟩⟩ p n
    (-2 - y) (floorPlane_below y hy)]
  rw [if_pos (by norm_num [Ray.evalPoint, Vec3.add, Vec3.smul, floorPlane])]
  simp only [Ray.evalPoint, Vec3.add, Vec3.smul, floorPlane]
  norm_num

theorem ratOutside_distance_y (a b : ℚ) (hab : a ≤ b) :
    distance ratOutside.libm ⟨0, a, 0⟩ ⟨0, b, 0⟩ = b - a := by
  have h := ratLibm_sqrt_sq (b - a) (by linarith)
  have e : (0 - 0) * (0 - 0) + (b - a) * (b - a) + (0 - 0) * (0 - 0) = (b - a) * (b - a) := by
    ring
  simp only [distance, ratOutside, Vec3.sub, Vec3.dot]
  rw [e]
  exact h

theorem phong_fold_eq {C : Type} (o : Outside C) (s : Scene C) (point normal : Vec3)
    (diffuse specular : C) (power : ℚ) (hpow : ∀ x : ℚ, o.pow x 2 = x ^ 2) :
    ∀ (lights : List Light) (acc : C),
      lights.foldl (phongStep o s point normal diffuse specular power) acc =
        (lights.filter (fun l =>
          !shadowCheck o s
            ⟨point.add (Vec3.smul (1 / 10000) (normalize o.libm normal)),
              normalize o.libm (l.position.sub point)⟩
            o.blockIntersectPt o.blockIntersectNormal l.position)).foldl
          (fun acc l =>
            o.add
              (o.add acc
                (o.scale (o.scale diffuse (l.intensity / distance o.libm point l.position ^ 2))
                  (max 0 ((normalize o.libm normal).dot (normalize o.libm (l.position.sub point))))))
              (o.scale (o.scale specular (l.intensity / distance o.libm point l.position ^ 2))
                (o.pow
                  (max 0 ((normalize o.libm normal).dot
                    (normalize o.libm
                      ((normalize o.libm (s.renderCam.position.sub point)).add
                        (normalize o.libm (l.position.sub point))))))
                  power)))
          acc := by
  intro lights
  induction lights with
  | nil => intro acc; rfl
  | cons l rest ih =>
    intro acc
    rw [List.foldl_cons, ih]
    cases hb : shadowCheck o s
        ⟨point.add (Vec3.smul (1 / 10000) (normalize o.libm normal)),
          normalize o.libm (l.position.sub point)⟩
        o.blockIntersectPt o.blockIntersectNormal l.position with
    | true =>
      rw [List.filter_cons_of_neg (by simp only [hb, Bool.not_true, Bool.false_eq_true, not_false_eq_true])]
      simp only [phongStep, hb, Bool.true_eq_false, if_false]
    | false =>
      rw [List.filter_cons_of_pos (by simp only [hb, Bool.not_false]), List.foldl_cons]
      simp only [phongStep, hb, if_true, hpow, distance_comm o.libm l.position point]

theorem toMat4_mul_transpose (q : Quat) (hq : q.w ^ 2 + q.x ^ 2 + q.y ^ 2 + q.z ^ 2 = 1) :
    toMat4 q * (toMat4 q).transpose = 1 := by
  ext i j
  fin_cases i <;> fin_cases j <;>
    simp [toMat4, Matrix.mul_apply, Fin.sum_univ_four, Matrix.transpose_apply, Matrix.vecHead,
      Matrix.vecTail] <;>
    first
    | linear_combination (4 * (q.y ^ 2 + q.z ^ 2)) * hq
    | linear_combination (4 * (q.x ^ 2 + q.z ^ 2)) * hq
    | linear_combination (4 * (q.x ^ 2 + q.y ^ 2)) * hq
    | linear_combination (-4 * q.x * q.y) * hq
    | linear_combination (-4 * q.x * q.z) * hq
    | linear_combination (-4 * q.y * q.z) * hq

theorem toMat4_det (q : Quat) (hq : q.w ^ 2 + q.x ^ 2 + q.y ^ 2 + q.z ^ 2 = 1) :
    (toMat4 q).det = 1 := by
  simp [toMat4, Matrix.det_succ_row_zero, Fin.sum_univ_succ, Matrix.det_fin_three,
    Fin.succAbove, Matrix.vecHead, Matrix.vecTail]
  linear_combination (4 * (q.x ^ 2 + q.y ^ 2 + q.z ^ 2)) * hq

theorem toMat4_mulVec (q : Quat) (v : Vec3) :
    Matrix.mulVec (toMat4 q) (vec4 v 0) =
      vec4 ⟨(1 - 2 * (q.y * q.y + q.z * q.z)) * v.x + 2 * (q.x * q.y - q.w * q.z) * v.y +
          2 * (q.x * q.z + q.w * q.y) * v.z,
        2 * (q.x * q.y + q.w * q.z) * v.x + (1 - 2 * (q.x * q.x + q.z * q.z)) * v.y +
          2 * (q.y * q.z - q.w * q.x) * v.z,
        2 * (q.x * q.z - q.w * q.y) * v.x + 2 * (q.y * q.z + q.w * q.x) * v.y +
          (1 - 2 * (q.x * q.x + q.y * q.y)) * v.z⟩ 0 := by
  ext i
  fin_cases i <;>
    simp [toMat4, vec4, Matrix.mulVec, Matrix.dotProduct, Fin.sum_univ_four, Matrix.vecHead,
      Matrix.vecTail]

theorem ratAcos_sample :
    angle ratAcos ⟨1, 0, 0⟩ ⟨7 / 25, 24 / 25, 0⟩ * (1 / 2) = 1 / 3 := by
  have h1 : Rat.sqrt (4 / 5 * (4 / 5)) = 4 / 5 := ratLibm_sqrt_sq (4 / 5) (by norm_num)
  have h2 : Rat.sqrt (1 / 3 * (1 / 3)) = 1 / 3 := ratLibm_sqrt_sq (1 / 3) (by norm_num)
  have e0 : min (max (Vec3.dot ⟨1, 0, 0⟩ ⟨7 / 25, 24 / 25, 0⟩) (-1)) 1 = 7 / 25 := by
    have e : Vec3.dot ⟨1, 0, 0⟩ ⟨7 / 25, 24 / 25, 0⟩ = 7 / 25 := by norm_num [Vec3.dot]
    rw [e, max_eq_left (by norm_num), min_eq_left (by norm_num)]
  have e1 : (1 + (7 / 25 : ℚ)) / 2 = 4 / 5 * (4 / 5) := by norm_num
  have e2 : (1 - (4 / 5 : ℚ)) / (1 + 4 / 5) = 1 / 3 * (1 / 3) := by norm_num
  unfold angle ratAcos
  rw [e0, e1, h1, e2, h2]
  norm_num

theorem ratLibm_sample_cross :
    (Vec3.cross ⟨1, 0, 0⟩ ⟨7 / 25, 24 / 25, 0⟩).dot (Vec3.cross ⟨1, 0, 0⟩ ⟨7 / 25, 24 / 25, 0⟩) =
      24 / 25 * (24 / 25) := by
  norm_num [Vec3.cross, Vec3.dot]

/-! ## Vertex normals, shading and bones -/

theorem mulVec_sub_origin (M : Mat4) (n : Vec3) :
    M.mulVec (vec4 n 1) - M.mulVec (vec4 ⟨0, 0, 0⟩ 1) =
      ![(linearApply M n).x, (linearApply M n).y, (linearApply M n).z,
        M 3 0 * n.x + M 3 1 * n.y + M 3 2 * n.z] := by
  ext i
  fin_cases i <;>
    simp [vec4, linearApply, Matrix.mulVec, Matrix.dotProduct, Fin.sum_univ_four,
      Matrix.vecHead, Matrix.vecTail]

theorem mulVec_sub_origin_affine (M : Mat4) (hM : IsAffine M) (n : Vec3) :
    M.mulVec (vec4 n 1) - M.mulVec (vec4 ⟨0, 0, 0⟩ 1) = vec4 (linearApply M n) 0 := by
  rw [mulVec_sub_origin]
  obtain ⟨h0, h1, h2, _⟩ := hM
  simp [vec4, h0, h1, h2]

theorem normalize4_vec4_zero (m : Libm) (v : Vec3) :
    xyz (normalize4 m (vec4 v 0)) = normalize m v := by
  have hd : Matrix.dotProduct (vec4 v 0) (vec4 v 0) = v.dot v := by
    simp [vec4, Matrix.dotProduct, Fin.sum_univ_four, Vec3.dot, Matrix.vecHead, Matrix.vecTail]
  simp only [xyz, normalize4, normalize, Vec3.smul, hd]
  simp [vec4, Matrix.vecHead, Matrix.vecTail, mul_comm]

theorem normalize_smul_pos (m : Libm) (n : Vec3) (k : ℚ) (hk : 0 < k)
    (h1 : m.sqrt (n.dot n) * m.sqrt (n.dot n) = n.dot n) (h1' : 0 ≤ m.sqrt (n.dot n))
    (h2 : m.sqrt ((Vec3.smul k n).dot (Vec3.smul k n)) *
      m.sqrt ((Vec3.smul k n).dot (Vec3.smul k n)) = (Vec3.smul k n).dot (Vec3.smul k n))
    (h2' : 0 ≤ m.sqrt ((Vec3.smul k n).dot (Vec3.smul k n))) :
    normalize m (Vec3.smul k n) = normalize m n := by
  have hq : (Vec3.smul k n).dot (Vec3.smul k n) = k * k * n.dot n := by
    simp only [Vec3.smul, Vec3.dot]
    ring
  unfold normalize
  generalize m.sqrt ((Vec3.smul k n).dot (Vec3.smul k n)) = s2 at h2 h2'
  generalize m.sqrt (n.dot n) = s1 at h1 h1'
  have hs : s2 = k * s1 := by
    have e : (s2 - k * s1) * (s2 + k * s1) = 0 := by
      have : (s2 - k * s1) * (s2 + k * s1) = s2 * s2 - k * k * (s1 * s1) := by ring
      rw [this, h2, h1, hq]
      ring
    rcases mul_eq_zero.1 e with h | h
    · linarith
    · have hks : 0 ≤ k * s1 := mul_nonneg hk.le h1'
      have hs2 : s2 = 0 := by linarith
      have hks0 : k * s1 = 0 := by linarith
      rw [hs2, hks0]
  rw [hs]
  simp only [Vec3.smul]
  rw [Vec3.mk.injEq]
  by_cases hz : s1 = 0
  · simp [hz]
  · have hk0 : k ≠ 0 := ne_of_gt hk
    refine ⟨?_, ?_, ?_⟩ <;> field_simp <;> ring

theorem ratLibm_sqrt_one : ratLibm.sqrt 1 = 1 := by
  have h := ratLibm_sqrt_sq 1 (by norm_num)
  rw [mul_one] at h
  exact h

theorem ratLibm_sqrt_25 : ratLibm.sqrt 25 = 5 := by
  have h := ratLibm_sqrt_sq 5 (by norm_num)
  have e : (5 : ℚ) * 5 = 25 := by norm_num
  rw [e] at h
  exact h

theorem shadingRay_sample :
    shadingRay ratLibm ⟨0, 0, 0⟩ ⟨0, 1, 0⟩ ⟨5, 0, 0⟩ = ⟨⟨0, 1 / 10000, 0⟩, ⟨1, 0, 0⟩⟩ := by
  simp only [shadingRay, normalize, Vec3.dot, Vec3.sub, Vec3.smul, Vec3.add]
  norm_num [ratLibm_sqrt_one, ratLibm_sqrt_25]

theorem eraseLoop_none (pred : Nat → Bool) :
    ∀ (n : Nat) (v : List Nat) (i : Nat), v.length - i ≤ n →
      (∀ x, x ∈ v → pred x = false) → eraseLoop pred v i = v := by
  intro n
  induction n with
  | zero =>
    intro v i hn _
    rw [eraseLoop, dif_neg (by omega)]
  | succ n ih =>
    intro v i hn hall
    rw [eraseLoop]
    by_cases hlt : i < v.length
    · rw [dif_pos hlt]
      have hp : pred (v.get ⟨i, hlt⟩) = false := hall _ (List.get_mem v i hlt)
      rw [hp]
      simp only [Bool.false_eq_true, if_false]
      exact ih v (i + 1) (by omega) hall
    · rw [dif_neg hlt]

theorem eraseLoop_cons_succ (pred : Nat → Bool) (f : Nat) :
    ∀ (n : Nat) (v : List Nat) (i : Nat), v.length - i ≤ n →
      eraseLoop pred (f :: v) (i + 1) = f :: eraseLoop pred v i := by
  intro n
  induction n with
  | zero =>
    intro v i hn
    rw [eraseLoop, dif_neg (by simp; omega), eraseLoop, dif_neg (by omega)]
  | succ n ih =>
    intro v i hn
    by_cases hlt : i < v.length
    · rw [eraseLoop, dif_pos (by simp; omega)]
      conv_rhs => rw [eraseLoop, dif_pos hlt]
      have hget : (f :: v).get ⟨i + 1, by simp; omega⟩ = v.get ⟨i, hlt⟩ := rfl
      rw [hget]
      by_cases hp : pred (v.get ⟨i, hlt⟩) = true
      · rw [if_pos hp, if_pos hp]
        have he : (f :: v).eraseIdx (i + 1) = f :: v.eraseIdx i := rfl
        rw [he]
        apply ih
        rw [List.length_eraseIdx]
        split <;> omega
      · rw [if_neg hp, if_neg hp]
        exact ih v (i + 1) (by omega)
    · rw [eraseLoop, dif_neg (by simp; omega)]
      conv_rhs => rw [eraseLoop, dif_neg hlt]

theorem eraseLoop_head (pred : Nat → Bool) (f : Nat) (v : List Nat) (hf : pred f = false) :
    eraseLoop pred (f :: v) 0 = f :: eraseLoop pred v 0 := by
  rw [eraseLoop, dif_pos (by simp)]
  have hget : (f :: v).get ⟨0, by simp⟩ = f := rfl
  rw [hget, hf]
  simp only [Bool.false_eq_true, if_false]
  exact eraseLoop_cons_succ pred f v.length v 0 (by omega)

theorem eraseLoop_unique (pred : Nat → Bool) (J : Nat) (l2 : List Nat) (hJ : pred J = true)
    (h2 : ∀ x, x ∈ l2 → pred x = false) :
    ∀ (n : Nat) (l1 : List Nat) (i : Nat), l1.length - i ≤ n → i ≤ l1.length →
      (∀ x, x ∈ l1 → pred x = false) → eraseLoop pred (l1 ++ J :: l2) i = l1 ++ l2 := by
  intro n
  induction n with
  | zero =>
    intro l1 i hn hi h1
    have hil : i = l1.length := by omega
    subst hil
    rw [eraseLoop, dif_pos (by simp)]
    have hget : (l1 ++ J :: l2).get ⟨l1.length, by simp⟩ = J := by
      rw [List.get_eq_getElem, List.getElem_append_right (le_refl _)]
      simp
    rw [hget, if_pos hJ]
    have he : (l1 ++ J :: l2).eraseIdx l1.length = l1 ++ l2 := by
      rw [List.eraseIdx_append_of_length_le (le_refl _)]
      simp
    rw [he]
    apply eraseLoop_none pred (l1 ++ l2).length
    · omega
    · intro x hx
      rcases List.mem_append.1 hx with hx | hx
      · exact h1 x hx
      · exact h2 x hx
  | succ n ih =>
    intro l1 i hn hi h1
    by_cases hil : i = l1.length
    · subst hil
      rw [eraseLoop, dif_pos (by simp)]
      have hget : (l1 ++ J :: l2).get ⟨l1.length, by simp⟩ = J := by
        rw [List.get_eq_getElem, List.getElem_append_right (le_refl _)]
        simp
      rw [hget, if_pos hJ]
      have he : (l1 ++ J :: l2).eraseIdx l1.length = l1 ++ l2 := by
        rw [List.eraseIdx_append_of_length_le (le_refl _)]
        simp
      rw [he]
      apply eraseLoop_none pred (l1 ++ l2).length
      · omega
      · intro x hx
        rcases List.mem_append.1 hx with hx | hx
        · exact h1 x hx
        · exact h2 x hx
    · have hlt : i < l1.length := by omega
      rw [eraseLoop, dif_pos (by simp; omega)]
      have hget : (l1 ++ J :: l2).get ⟨i, by simp; omega⟩ = l1.get ⟨i, hlt⟩ := by
        simp [List.get_eq_getElem, List.getElem_append_left hlt]
      have hp : pred (l1.get ⟨i, hlt⟩) = false := h1 _ (List.get_mem l1 i hlt)
      rw [hget, hp]
      simp only [Bool.false_eq_true, if_false]
      exact ih l1 (i + 1) (by omega) (by omega) h1

theorem rehome_struct (m : Libm) (rank : Nat → Nat) (h : Heap) (j c g : Nat)
    (hrank : ∀ n p, (h n).parent = some p → rank p < rank n)
    (hjc : rank j < rank c) (hg : rank c ≤ g) :
    ∃ pos, rehome m (g + 1) j (h j).parent h c = some (rehomed h (h j).parent c pos) := by
  have hne : j ≠ c := by
    intro e
    rw [e] at hjc
    exact lt_irrefl _ hjc
  obtain ⟨Mc, hMc⟩ := getMatrix_of_rank m h rank hrank g c hg
  have hp := getPosition_of_getMatrix m h (g + 1) c Mc hMc
  cases hj : (h j).parent with
  | none =>
    have h2j : (resetMatrices (Function.update h c { h c with parent := none }) c j).parent
        = none := by
      rw [resetMatrices, Function.update_noteq hne, Function.update_noteq hne, hj]
    have hM := getMatrix_root m (resetMatrices (Function.update h c { h c with parent := none }) c)
      g c (by simp [resetMatrices])
    refine ⟨xyz ((inverse (SceneObject.getLocalMatrix m
      ((resetMatrices (Function.update h c { h c with parent := none }) c) c))).mulVec
        (vec4 (xyz (Mc.mulVec (vec4 ⟨0, 0, 0⟩ 1))) 1)), ?_⟩
    simp only [rehome, hp, h2j, setPosition_of_getMatrix m _ (g + 1) c _ _ hM, rehomed]
    simp [resetMatrices]
  | some pj =>
    have hpj : rank pj < rank j := hrank j pj hj
    have hpc : rank pj < rank c := lt_trans hpj hjc
    have hpjc : pj ≠ c := by
      intro e
      rw [e] at hpc
      exact lt_irrefl _ hpc
    have hcpj : c ≠ pj := fun e => hpjc e.symm
    have h2j : (resetMatrices (Function.update h c { h c with parent := none }) c j).parent
        = some pj := by
      rw [resetMatrices, Function.update_noteq hne, Function.update_noteq hne, hj]
    have hrank3 : ∀ n p,
        ((Function.update
          (Function.update h pj { h pj with childList := (h pj).childList ++ [c] }) c
          { h c with parent := some pj, position := ⟨0, 0, 0⟩, rotation := ⟨0, 0, 0⟩,
                     scale := ⟨1, 1, 1⟩ }) n).parent = some p → rank p < rank n := by
      intro n p hnp
      by_cases hn : n = c
      · subst hn
        simp only [Function.update_same, Option.some.injEq] at hnp
        rw [← hnp]
        exact hpc
      · rw [Function.update_noteq hn] at hnp
        by_cases hnp' : n = pj
        · subst hnp'
          simp only [Function.update_same] at hnp
          exact hrank _ p hnp
        · rw [Function.update_noteq hnp'] at hnp
          exact hrank n p hnp
    obtain ⟨M3, hM3⟩ := getMatrix_of_rank m _ rank hrank3 g c hg
    refine ⟨xyz ((inverse M3).mulVec (vec4 (xyz (Mc.mulVec (vec4 ⟨0, 0, 0⟩ 1))) 1)), ?_⟩
    simp only [rehome, hp, h2j, rehome_stage3 h c pj hcpj,
      setPosition_of_getMatrix m _ (g + 1) c _ M3 hM3, rehomed]
    simp

theorem ChildrenRehomed.identity (par : Option Nat) (L : List Nat) (h0 h : Heap) (i : Nat)
    (hd : ChildrenRehomed par L h0 h i) (k : Nat) : SameIdentity (h0 k) (h k) := by
  by_cases hk : k ∈ L.take i
  · obtain ⟨pos, hpos⟩ := hd.2 k hk
    rw [hpos]
    exact ⟨rfl, rfl, rfl, rfl, rfl, rfl⟩
  · rw [hd.1 k hk]
    split_ifs
    · exact ⟨rfl, rfl, rfl, rfl, rfl, rfl⟩
    · exact ⟨rfl, rfl, rfl, rfl, rfl, rfl⟩

theorem getName_of_identity (o o' : SceneObject) (hi : SameIdentity o o') :
    getName o' = getName o := by
  obtain ⟨h1, h2, _⟩ := hi
  simp only [getName, h1, h2]

theorem getMeshName_of_identity (h h' : Heap) (hi : ∀ k, SameIdentity (h k) (h' k)) (n : Nat) :
    getMeshName h' (h' n) = getMeshName h (h n) := by
  obtain ⟨_, h2, h3, h4, _⟩ := hi n
  simp only [getMeshName, h2, h3, h4, getName_of_identity _ _ (hi _)]

theorem ChildrenRehomed.step (m : Libm) (rank : Nat → Nat) (g j : Nat) (par : Option Nat)
    (L : List Nat) (h0 h : Heap) (i c : Nat)
    (hrank0 : ∀ n p, (h0 n).parent = some p → rank p < rank n)
    (hj0 : (h0 j).parent = par)
    (hL : ∀ c, c ∈ L → rank j < rank c ∧ rank c ≤ g)
    (hd : ChildrenRehomed par L h0 h i) (hi : L[i]? = some c) :
    ∃ h', rehome m (g + 1) j par h c = some h' ∧ ChildrenRehomed par L h0 h' (i + 1) := by
  have hcL : c ∈ L := List.getElem?_mem hi
  have hilt := getElem?_lt_length L c i hi
  have htake : L.take (i + 1) = L.take i ++ [c] := by
    rw [List.take_succ, hi]
    rfl
  have hparlt : ∀ pj, par = some pj → rank pj < rank j := by
    intro pj hpj
    exact hrank0 j pj (by rw [hj0, hpj])
  have hnotin : ∀ k, rank k ≤ rank j → k ∉ L.take i := by
    intro k hk hmem
    have := (hL k (List.mem_of_mem_take hmem)).1
    omega
  have hjnot : j ∉ L.take i := hnotin j (le_refl _)
  have hparj : par ≠ some j := by
    intro e
    have := hparlt j e
    omega
  have hhj : h j = h0 j := by
    rw [hd.1 j hjnot, if_neg hparj]
  have hrank : ∀ n p, (h n).parent = some p → rank p < rank n := by
    intro n p hnp
    by_cases hn : n ∈ L.take i
    · obtain ⟨pos, hpos⟩ := hd.2 n hn
      rw [hpos] at hnp
      simp only at hnp
      have h1 := hparlt p hnp
      have h2 := (hL n (List.mem_of_mem_take hn)).1
      omega
    · rw [hd.1 n hn] at hnp
      split_ifs at hnp
      · exact hrank0 n p hnp
      · exact hrank0 n p hnp
  obtain ⟨pos, hre⟩ := rehome_struct m rank h j c g hrank (hL c hcL).1 (hL c hcL).2
  rw [hhj, hj0] at hre
  refine ⟨_, hre, ?_, ?_⟩
  · intro k hk
    rw [htake, List.mem_append, List.mem_singleton, not_or] at hk
    obtain ⟨hk1, hkc⟩ := hk
    cases hpar : par with
    | none =>
      simp only [rehomed, Function.update_noteq hkc, reduceCtorEq, if_false]
      rw [hd.1 k hk1, hpar]
      simp
    | some pj =>
      simp only [rehomed, Function.update_noteq hkc]
      have hpjnot : pj ∉ L.take i := hnotin pj (le_of_lt (hparlt pj hpar))
      by_cases hkp : k = pj
      · subst hkp
        simp only [Function.update_same, if_true]
        rw [hd.1 k hpjnot, hpar, if_pos rfl, htake]
        simp
      · rw [Function.update_noteq hkp, hd.1 k hk1, hpar]
        have hne : some pj ≠ some k := fun e => hkp (Option.some.inj e).symm
        rw [if_neg hne, if_neg hne]
  · intro c' hc'
    rw [htake, List.mem_append, List.mem_singleton] at hc'
    have hcpar : ∀ x, x ∈ L → par ≠ some x := by
      intro x hx e
      have h1 := hparlt x e
      have h2 := (hL x hx).1
      omega
    have hcdesc : ∀ x, x ∈ L →
        ∃ pos', h x = { h0 x with parent := (h x).parent, position := pos',
                                  scale := (h x).scale } := by
      intro x hx
      by_cases hxin : x ∈ L.take i
      · obtain ⟨pos', hpos'⟩ := hd.2 x hxin
        exact ⟨pos', by rw [hpos']⟩
      · refine ⟨(h0 x).position, ?_⟩
        rw [hd.1 x hxin, if_neg (hcpar x hx)]
    by_cases hcc : c' = c
    · subst hcc
      obtain ⟨pos', hpos'⟩ := hcdesc c' hcL
      refine ⟨pos, ?_⟩
      cases hpar : par with
      | none =>
        simp only [rehomed, Function.update_same]
        rw [hpos']
      | some pj =>
        simp only [rehomed, Function.update_same]
        rw [hpos']
    · have hc'' : c' ∈ L.take i := by
        rcases hc' with h1 | h1
        · exact h1
        · exact absurd h1 hcc
      obtain ⟨pos', hpos'⟩ := hd.2 c' hc''
      refine ⟨pos', ?_⟩
      cases hpar : par with
      | none =>
        simp only [rehomed, Function.update_noteq hcc]
        rw [hpos', hpar]
      | some pj =>
        have hne : c' ≠ pj := by
          intro e
          exact hcpar c' (List.mem_of_mem_take hc'') (by rw [hpar, e])
        simp only [rehomed, Function.update_noteq hcc, Function.update_noteq hne]
        rw [hpos', hpar]

theorem deleteJointChildren_struct (m : Libm) (rank : Nat → Nat) (g j : Nat)
    (par : Option Nat) (L : List Nat) (h0 : Heap)
    (hrank0 : ∀ n p, (h0 n).parent = some p → rank p < rank n)
    (hj0 : (h0 j).parent = par) (hL0 : (h0 j).childList = L)
    (hL : ∀ c, c ∈ L → rank j < rank c ∧ rank c ≤ g) :
    ∀ (k i : Nat) (a : App), ChildrenRehomed par L h0 a.heap i → L.length - i < k →
      ∃ a', deleteJointChildren m (g + 1) j par k i a = some a' ∧
        ChildrenRehomed par L h0 a'.heap L.length ∧ a'.joints = a.joints ∧
        a'.selected = a.selected ∧
        (∀ f rest, a.meshScene = f :: rest →
          (∀ n, getName (h0 f) ≠ getMeshName h0 (h0 n)) → ∃ rest', a'.meshScene = f :: rest') := by
  intro k
  induction k with
  | zero => intro i a _ hk; omega
  | succ k ih =>
    intro i a hd hk
    have hparj : par ≠ some j := by
      intro e
      have := hrank0 j j (by rw [hj0, e])
      omega
    have hjnot : j ∉ L.take i := by
      intro hmem
      have := (hL j (List.mem_of_mem_take hmem)).1
      omega
    have hhj : a.heap j = h0 j := by
      rw [hd.1 j hjnot, if_neg hparj]
    rw [deleteJointChildren, hhj, hL0]
    cases hi : L[i]? with
    | none =>
      have hlen : L.length ≤ i := by
        by_contra hcon
        rw [List.getElem?_eq_getElem (by omega)] at hi
        exact Option.noConfusion hi
      refine ⟨a, rfl, ?_, rfl, rfl, fun f rest hf _ => ⟨rest, hf⟩⟩
      have e : L.take i = L.take L.length := by
        rw [List.take_of_length_le hlen, List.take_length]
      unfold ChildrenRehomed at hd ⊢
      rw [← e]
      exact hd
    | some c =>
      have hilt := getElem?_lt_length L c i hi
      obtain ⟨h', hre, hd'⟩ :=
        ChildrenRehomed.step m rank g j par L h0 a.heap i c hrank0 hj0 hL hd hi
      simp only [rehomeChild, hre]
      obtain ⟨a', ha', hd'', hjoints, hsel, hms⟩ := ih (i + 1)
        { a with
          heap := h'
          meshScene := (eraseLoop
            (fun s => getName (a.heap s) == getMeshName a.heap (a.heap c)) a.meshScene 0) }
        hd' (by omega)
      refine ⟨a', ha', hd'', hjoints, hsel, ?_⟩
      intro f rest hf hnm
      have hid := ChildrenRehomed.identity par L h0 a.heap i hd
      have hpf : (fun s => getName (a.heap s) == getMeshName a.heap (a.heap c)) f = false := by
        simp only [beq_eq_false_iff_ne, ne_eq]
        rw [getName_of_identity _ _ (hid f), getMeshName_of_identity h0 a.heap hid c]
        exact hnm c
      apply hms f (eraseLoop
        (fun s => getName (a.heap s) == getMeshName a.heap (a.heap c)) rest 0)
      · show eraseLoop _ a.meshScene 0 = _
        rw [hf]
        exact eraseLoop_head _ f rest hpf
      · exact hnm

theorem deleteJoint_struct (m : Libm) (rank : Nat → Nat) (a : App) (j : Nat) (rest : List Nat)
    (hsel : a.selected = j :: rest)
    (hrank : ∀ n p, (a.heap n).parent = some p → rank p < rank n)
    (hkids : ∀ c, c ∈ (a.heap j).childList → rank j < rank c) :
    ∃ fuel0, ∀ fuel, fuel0 ≤ fuel → ∃ a', deleteJoint m fuel a = some a' ∧
      a'.selected = [] ∧
      a'.joints = eraseLoop (fun s => getName (a.heap s) == getName (a.heap j)) a.joints 0 ∧
      (∀ k, SameIdentity (a.heap k) (a'.heap k)) ∧
      (∀ c, c ∈ (a.heap j).childList →
        (a'.heap c).parent = (a.heap j).parent ∧ (a'.heap c).scale = ⟨1, 1, 1⟩ ∧
          (a'.heap c).childList = (a.heap c).childList) ∧
      (∀ k, k ∉ (a.heap j).childList →
        (a'.heap k).parent = (a.heap k).parent ∧ (a'.heap k).position = (a.heap k).position ∧
          (a'.heap k).scale = (a.heap k).scale) ∧
      (∀ k, (a.heap j).parent ≠ some k → (a'.heap k).childList = (a.heap k).childList) ∧
      (∀ pj, (a.heap j).parent = some pj →
        (a'.heap pj).childList =
          eraseLoop (fun c => getName (a.heap c) == getName (a.heap j))
            (a.heap pj).childList 0 ++ (a.heap j).childList) ∧
      (∀ n p, (a'.heap n).parent = some p → rank p < rank n) ∧
      (∀ f rest', a.meshScene = f :: rest' →
        (∀ n, getName (a.heap f) ≠ getMeshName a.heap (a.heap n)) →
        ∃ rest'', a'.meshScene = f :: rest'') := by
  obtain ⟨B, hB⟩ := rank_bound rank (a.heap j).childList
  refine ⟨max B (a.heap j).childList.length + 1, fun fuel hfuel => ?_⟩
  obtain ⟨g, rfl⟩ : ∃ g, fuel = g + 1 := ⟨fuel - 1, by omega⟩
  have hgB : B ≤ g := by
    have := le_max_left B (a.heap j).childList.length
    omega
  have hgL : (a.heap j).childList.length ≤ g := by
    have := le_max_right B (a.heap j).childList.length
    omega
  have hparj : (a.heap j).parent ≠ some j := by
    intro e
    have := hrank j j e
    omega
  -- the heap after the first loop
  have hheap1 : ∃ h1 : Heap,
      (∀ k, h1 k = if (a.heap j).parent = some k then
        { a.heap k with
          childList := eraseLoop (fun c => getName (a.heap c) == getName (a.heap j))
            (a.heap k).childList 0 }
        else a.heap k) ∧
      (match (a.heap j).parent with
        | some pj =>
          Function.update a.heap pj
            { a.heap pj with
              childList := eraseLoop (fun c => getName (a.heap c) == getName (a.heap j))
                (a.heap pj).childList 0 }
        | none => a.heap) = h1 := by
    cases hpj : (a.heap j).parent with
    | none => exact ⟨a.heap, fun k => by simp, rfl⟩
    | some pj =>
      refine ⟨_, fun k => ?_, rfl⟩
      by_cases hk : k = pj
      · subst hk
        simp
      · have hne : some pj ≠ some k := fun e => hk (Option.some.inj e).symm
        dsimp only
        rw [Function.update_noteq hk, if_neg hne]
  obtain ⟨h1, hh1desc, hh1⟩ := hheap1
  have hj1 : h1 j = a.heap j := by
    rw [hh1desc j, if_neg hparj]
  have hpar1 : ∀ k, (h1 k).parent = (a.heap k).parent := by
    intro k
    rw [hh1desc k]
    split_ifs <;> rfl
  have hid1 : ∀ k, SameIdentity (a.heap k) (h1 k) := by
    intro k
    rw [hh1desc k]
    split_ifs <;> exact ⟨rfl, rfl, rfl, rfl, rfl, rfl⟩
  have hrank1 : ∀ n p, (h1 n).parent = some p → rank p < rank n := by
    intro n p hp
    rw [hpar1 n] at hp
    exact hrank n p hp
  have hL : ∀ c, c ∈ (a.heap j).childList → rank j < rank c ∧ rank c ≤ g :=
    fun c hc => ⟨hkids c hc, le_trans (hB c hc) hgB⟩
  have hd0 : ChildrenRehomed (a.heap j).parent (a.heap j).childList h1 h1 0 := by
    refine ⟨fun k _ => ?_, fun c hc => by simp at hc⟩
    split_ifs
    · simp
    · rfl
  obtain ⟨a2, ha2, hd2, hjoints, _, hms⟩ := deleteJointChildren_struct m rank g j
    (a.heap j).parent (a.heap j).childList h1 hrank1 (by rw [hj1]) (by rw [hj1]) hL
    (g + 1) 0 { a with heap := h1 } hd0 (by omega)
  simp only [hsel] at ha2
  have hdj : deleteJoint m (g + 1) a = some
      { heap := a2.heap
        meshScene := (eraseLoop
          (fun s => getName (a2.heap s) == getMeshName a2.heap (a2.heap j)) a2.meshScene 0)
        joints := (eraseLoop (fun s => getName (a2.heap s) == getName (a.heap j)) a2.joints 0)
        selected := [] } := by
    simp only [deleteJoint, hsel, hh1, ha2]
  have hid2 := ChildrenRehomed.identity _ _ h1 a2.heap _ hd2
  have hid : ∀ k, SameIdentity (a.heap k) (a2.heap k) := by
    intro k
    obtain ⟨a1, a2', a3, a4, a5, a6⟩ := hid1 k
    obtain ⟨b1, b2, b3, b4, b5, b6⟩ := hid2 k
    exact ⟨b1.trans a1, b2.trans a2', b3.trans a3, b4.trans a4, b5.trans a5, b6.trans a6⟩
  simp only [ChildrenRehomed, List.take_length] at hd2
  have hcpar : ∀ x, x ∈ (a.heap j).childList → (a.heap j).parent ≠ some x := by
    intro x hx e
    have h1' := hrank j x e
    have h2' := hkids x hx
    omega
  refine ⟨_, hdj, rfl, ?_, hid, ?_, ?_, ?_, ?_, ?_, ?_⟩
  · show eraseLoop _ a2.joints 0 = _
    rw [hjoints]
    have e : (fun s => getName (a2.heap s) == getName (a.heap j)) =
        (fun s => getName (a.heap s) == getName (a.heap j)) := by
      funext s
      rw [getName_of_identity _ _ (hid s)]
    rw [e]
  · intro c hc
    obtain ⟨pos, hpos⟩ := hd2.2 c hc
    show (a2.heap c).parent = _ ∧ (a2.heap c).scale = _ ∧ (a2.heap c).childList = _
    rw [hpos]
    refine ⟨rfl, rfl, ?_⟩
    show (h1 c).childList = _
    rw [hh1desc c, if_neg (hcpar c hc)]
  · intro k hk
    show (a2.heap k).parent = _ ∧ (a2.heap k).position = _ ∧ (a2.heap k).scale = _
    rw [hd2.1 k hk, hh1desc k]
    split_ifs <;> exact ⟨rfl, rfl, rfl⟩
  · intro k hk
    show (a2.heap k).childList = _
    by_cases hkL : k ∈ (a.heap j).childList
    · obtain ⟨pos, hpos⟩ := hd2.2 k hkL
      rw [hpos]
      show (h1 k).childList = _
      rw [hh1desc k, if_neg hk]
    · rw [hd2.1 k hkL, if_neg hk, hh1desc k, if_neg hk]
  · intro pj hpj
    show (a2.heap pj).childList = _
    have hpjL : pj ∉ (a.heap j).childList := fun hmem => hcpar pj hmem hpj
    rw [hd2.1 pj hpjL, if_pos hpj, hh1desc pj, if_pos hpj]
  · intro n p hnp
    change (a2.heap n).parent = some p at hnp
    by_cases hn : n ∈ (a.heap j).childList
    · obtain ⟨pos, hpos⟩ := hd2.2 n hn
      rw [hpos] at hnp
      simp only at hnp
      have h1' := hrank j p hnp
      have h2' := hkids n hn
      omega
    · rw [hd2.1 n hn] at hnp
      have hnp' : (h1 n).parent = some p := by
        split_ifs at hnp
        · exact hnp
        · exact hnp
      exact hrank1 n p hnp'
  · intro f rest' hf hnm
    have hnm1 : ∀ n, getName (h1 f) ≠ getMeshName h1 (h1 n) := by
      intro n
      rw [getName_of_identity _ _ (hid1 f), getMeshName_of_identity a.heap h1 hid1 n]
      exact hnm n
    obtain ⟨r2, hr2⟩ := hms f rest' hf hnm1
    have hpf : (fun s => getName (a2.heap s) == getMeshName a2.heap (a2.heap j)) f = false := by
      simp only [beq_eq_false_iff_ne, ne_eq]
      rw [getName_of_identity _ _ (hid f), getMeshName_of_identity a.heap a2.heap hid j]
      exact hnm j
    refine ⟨eraseLoop (fun s => getName (a2.heap s) == getMeshName a2.heap (a2.heap j)) r2 0, ?_⟩
    show eraseLoop _ a2.meshScene 0 = _
    rw [hr2]
    exact eraseLoop_head _ f r2 hpf

theorem eraseLoop_erase (pred : Nat → Bool) (v : List Nat) (J : Nat) (hnd : v.Nodup)
    (hJv : J ∈ v) (hJ : pred J = true) (hother : ∀ x, x ∈ v → x ≠ J → pred x = false) :
    eraseLoop pred v 0 = v.erase J := by
  obtain ⟨l1, l2, rfl⟩ := List.append_of_mem hJv
  have hnd' := hnd
  rw [List.nodup_append] at hnd'
  obtain ⟨_, hnd2, hdisj⟩ := hnd'
  have hJ1 : J ∉ l1 := fun hmem => hdisj hmem (List.mem_cons_self J l2)
  have hJ2 : J ∉ l2 := (List.nodup_cons.1 hnd2).1
  have h1 : ∀ x, x ∈ l1 → pred x = false := by
    intro x hx
    exact hother x (List.mem_append_left _ hx) (fun e => hJ1 (e ▸ hx))
  have h2 : ∀ x, x ∈ l2 → pred x = false := by
    intro x hx
    exact hother x (List.mem_append_right _ (List.mem_cons_of_mem _ hx)) (fun e => hJ2 (e ▸ hx))
  rw [eraseLoop_unique pred J l2 hJ h2 l1.length l1 0 (by omega) (by omega) h1,
    List.erase_append_right _ hJ1, List.erase_cons_head]

theorem threeJointApp_wellformed :
    (∀ c, c ∈ (threeJointApp.heap 1).childList → (threeJointApp.heap c).parent = some 1) ∧
    threeJointApp.joints.Nodup ∧ 1 ∈ threeJointApp.joints ∧
    (∀ x, x ∈ threeJointApp.joints → ∀ y, y ∈ threeJointApp.joints →
      getName (threeJointApp.heap x) = getName (threeJointApp.heap y) → x = y) ∧
    (∀ pj, (threeJointApp.heap 1).parent = some pj →
      (threeJointApp.heap pj).childList.Nodup ∧ 1 ∈ (threeJointApp.heap pj).childList ∧
        ∀ x, x ∈ (threeJointApp.heap pj).childList → x ∈ threeJointApp.joints) := by
  have h0 : threeJointApp.heap 0 =
      { SceneObject.new with name := "joint0", childList := [1], position := ⟨1, 2, 3⟩ } := rfl
  have h1 : threeJointApp.heap 1 =
      { SceneObject.new with name := "joint1", parent := some 0, childList := [2],
                             position := ⟨4, 5, 6⟩, rotation := ⟨0, 90, 0⟩ } := rfl
  have h2 : threeJointApp.heap 2 =
      { SceneObject.new with name := "joint2", parent := some 1, position := ⟨7, 8, 9⟩,
                             rotation := ⟨10, 20, 30⟩ } := rfl
  have hj : threeJointApp.joints = [0, 1, 2] := rfl
  refine ⟨?_, ?_, ?_, ?_, ?_⟩
  · intro c hc
    rw [h1] at hc
    simp only [List.mem_singleton] at hc
    rw [hc, h2]
  · rw [hj]
    decide
  · rw [hj]
    decide
  · intro x hx y hy
    rw [hj] at hx hy
    simp only [List.mem_cons, List.mem_singleton, List.not_mem_nil, or_false] at hx hy
    rcases hx with rfl | rfl | rfl <;> rcases hy with rfl | rfl | rfl <;>
      simp [h0, h1, h2, getName, SceneObject.new]
  · intro pj hpj
    rw [h1] at hpj
    simp only [Option.some.injEq] at hpj
    subst hpj
    rw [h0, hj]
    simp

/-! ## The linear part of the world matrix -/

theorem linearApply_mul (A B : Mat4) (hB : IsAffine B) (v : Vec3) :
    linearApply (A * B) v = linearApply A (linearApply B v) := by
  obtain ⟨h0, h1, h2, _⟩ := hB
  simp only [linearApply, Matrix.mul_apply, Fin.sum_univ_four, h0, h1, h2, Vec3.mk.injEq]
  refine ⟨?_, ?_, ?_⟩ <;> ring

theorem linearApply_translate (t v : Vec3) : linearApply (translate t) v = v := by
  simp [linearApply, translate, Matrix.vecHead, Matrix.vecTail]

theorem linearApply_getLocalMatrix (m : Libm) (o : SceneObject) (v : Vec3) :
    linearApply (o.getLocalMatrix m) v =
      linearApply (o.getRotateMatrix m) (linearApply o.getScaleMatrix v) := by
  have hS : IsAffine o.getScaleMatrix := isAffine_scaleMatrix _
  have hR : IsAffine (o.getRotateMatrix m) := isAffine_eulerAngleYXZ m _ _ _
  have hT : o.getTranslateMatrix = translate ⟨o.position.x, o.position.y, o.position.z⟩ := rfl
  unfold SceneObject.getLocalMatrix
  simp only
  rw [linearApply_mul _ _ hS, linearApply_mul _ _ (isAffine_translate _),
    linearApply_translate, linearApply_mul _ _ hR,
    linearApply_mul _ _ (isAffine_translate _), linearApply_translate, hT,
    linearApply_translate]

theorem linearApply_getLocalMatrix_congr (m : Libm) (o o' : SceneObject)
    (hrot : o'.rotation = o.rotation) (hsc : o'.scale = o.scale) (v : Vec3) :
    linearApply (o'.getLocalMatrix m) v = linearApply (o.getLocalMatrix m) v := by
  rw [linearApply_getLocalMatrix, linearApply_getLocalMatrix]
  unfold SceneObject.getRotateMatrix SceneObject.getScaleMatrix
  rw [hrot, hsc]

theorem getMatrix_of_parent (m : Libm) (h : Heap) (rank : Nat → Nat)
    (hrank : ∀ n p, (h n).parent = some p → rank p < rank n) (fuel n p : Nat)
    (hp : (h n).parent = some p) (hf : rank n < fuel) :
    ∃ Mp, getMatrix m h (fuel - 1) p = some Mp ∧
      getMatrix m h fuel n = some (Mp * (h n).getLocalMatrix m) := by
  have hpn := hrank n p hp
  obtain ⟨f, rfl⟩ : ∃ f, fuel = f + 2 := ⟨fuel - 2, by omega⟩
  obtain ⟨Mp, hMp⟩ := getMatrix_of_rank m h rank hrank f p (by omega)
  exact ⟨Mp, hMp, getMatrix_child m h (f + 1) n p Mp hp hMp⟩

theorem deleteJoint_linear (m : Libm) (hc : m.cos 0 = 1) (hs : m.sin 0 = 0)
    (rank : Nat → Nat) (a a' : App) (j c fuel : Nat)
    (hrank : ∀ n p, (a.heap n).parent = some p → rank p < rank n)
    (hcj : (a.heap c).parent = some j) (hfuel : rank c < fuel)
    (hid : ∀ k, SameIdentity (a.heap k) (a'.heap k))
    (hcpar : (a'.heap c).parent = (a.heap j).parent) (hcsc : (a'.heap c).scale = ⟨1, 1, 1⟩)
    (hoth : ∀ k, rank k < rank j →
      (a'.heap k).parent = (a.heap k).parent ∧ (a'.heap k).position = (a.heap k).position ∧
        (a'.heap k).scale = (a.heap k).scale)
    (hjrot : (a.heap j).rotation = ⟨0, 0, 0⟩) (hjsc : (a.heap j).scale = ⟨1, 1, 1⟩)
    (hsc : (a.heap c).scale = ⟨1, 1, 1⟩) :
    ∃ M M', getMatrix m a.heap fuel c = some M ∧ getMatrix m a'.heap fuel c = some M' ∧
      ∀ v, linearApply M' v = linearApply M v := by
  have hjc : rank j < rank c := hrank c j hcj
  have hLc : ∀ v, linearApply ((a'.heap c).getLocalMatrix m) v =
      linearApply ((a.heap c).getLocalMatrix m) v :=
    linearApply_getLocalMatrix_congr m _ _ (hid c).2.2.2.2.1 (by rw [hcsc, hsc])
  have hLj : (a.heap j).getLocalMatrix m = translate (a.heap j).position :=
    getLocalMatrix_unrotated m hc hs _ hjrot hjsc
  obtain ⟨Mj, hMj, hM⟩ := getMatrix_of_parent m a.heap rank hrank fuel c j hcj hfuel
  cases hpar : (a.heap j).parent with
  | none =>
    obtain ⟨f, rfl⟩ : ∃ f, fuel = f + 2 := ⟨fuel - 2, by omega⟩
    have hMj' : getMatrix m a.heap (f + 1) j = some ((a.heap j).getLocalMatrix m) :=
      getMatrix_root m a.heap f j hpar
    have hMjeq : Mj = (a.heap j).getLocalMatrix m := by
      have e : f + 2 - 1 = f + 1 := by omega
      rw [e, hMj'] at hMj
      exact (Option.some.inj hMj).symm
    have hM' : getMatrix m a'.heap (f + 2) c = some ((a'.heap c).getLocalMatrix m) :=
      getMatrix_root m a'.heap (f + 1) c (by rw [hcpar, hpar])
    refine ⟨_, _, hM, hM', fun v => ?_⟩
    rw [hMjeq, hLj, linearApply_mul _ _ (isAffine_getLocalMatrix m _), linearApply_translate,
      hLc]
  | some pj =>
    have hpj : rank pj < rank j := hrank j pj hpar
    obtain ⟨f, rfl⟩ : ∃ f, fuel = f + 3 := ⟨fuel - 3, by omega⟩
    obtain ⟨P, hP⟩ := getMatrix_of_rank m a.heap rank hrank f pj (by omega)
    have hMj' := getMatrix_child m a.heap (f + 1) j pj P hpar hP
    have hMjeq : Mj = P * (a.heap j).getLocalMatrix m := by
      have e : f + 3 - 1 = f + 1 + 1 := by omega
      rw [e, hMj'] at hMj
      exact (Option.some.inj hMj).symm
    have hP' : getMatrix m a'.heap (f + 2) pj = some P := by
      have hcongr := getMatrix_congr m a.heap a'.heap (fun k => rank k < rank j)
        (fun n p hn hp => lt_trans (hrank n p hp) hn)
        (fun n hn => by
          obtain ⟨e1, e2, e3⟩ := hoth n hn
          obtain ⟨_, _, _, _, e5, e6⟩ := hid n
          exact ⟨e1, getLocalMatrix_congr m _ _ e2 e5 e3 e6⟩) (f + 2) pj hpj
      rw [hcongr]
      exact getMatrix_mono m a.heap pj P (f + 1) (f + 2) (by omega) hP
    have hM' := getMatrix_child m a'.heap (f + 2) c pj P (by rw [hcpar, hpar]) hP'
    refine ⟨_, _, hM, hM', fun v => ?_⟩
    rw [hMjeq, hLj, linearApply_mul P _ (isAffine_getLocalMatrix m (a'.heap c)),
      linearApply_mul (P * translate _) _ (isAffine_getLocalMatrix m (a.heap c)),
      linearApply_mul P _ (isAffine_translate _), linearApply_translate, hLc]

theorem twistHeap_rank :
    ∀ n p, (twistApp.heap n).parent = some p →
      (fun k => if k = 1 then 1 else 0) p < (fun k => if k = 1 then 1 else 0) n := by
  intro n p hp
  by_cases h1 : n = 1
  · subst h1
    simp [twistApp, twistHeap, SceneObject.new] at hp
    subst hp
    simp
  · by_cases h0 : n = 0 <;> simp [twistApp, twistHeap, SceneObject.new, h1, h0] at hp

theorem entry_zero_zero (A : Mat4) : A 0 0 = (linearApply A ⟨1, 0, 0⟩).x := by
  simp [linearApply]

theorem acyclic_stackedHeap : Acyclic stackedApp.heap := by
  refine ⟨fun n => if n = 1 then 1 else 0, ?_⟩
  intro n p hp
  by_cases h1 : n = 1
  · subst h1
    simp [stackedApp, stackedHeap, SceneObject.new] at hp
    subst hp
    simp
  · by_cases h0 : n = 0 <;> simp [stackedApp, stackedHeap, SceneObject.new, h1, h0] at hp

theorem stackedApp_kids :
    ∀ c, c ∈ (stackedApp.heap 0).childList → (stackedApp.heap c).parent = some 0 := by
  intro c hc
  have e : (stackedApp.heap 0).childList = [1] := rfl
  rw [e, List.mem_singleton] at hc
  subst hc
  rfl

/-! ## Names of joints -/

theorem digitChar_value (d : Nat) (h : d < 10) : (Nat.digitChar d).toNat - 48 = d := by
  interval_cases d <;> rfl

theorem toDigitsCore_value :
    ∀ (fuel n : Nat) (ds : List Char), n < fuel →
      List.foldl (fun acc c => acc * 10 + (c.toNat - 48)) 0 (Nat.toDigitsCore 10 fuel n ds) =
        List.foldl (fun acc c => acc * 10 + (c.toNat - 48)) n ds := by
  intro fuel
  induction fuel with
  | zero => intro n ds h; omega
  | succ fuel ih =>
    intro n ds h
    unfold Nat.toDigitsCore
    simp only
    have hd := digitChar_value (n % 10) (Nat.mod_lt n (by norm_num))
    by_cases h0 : n / 10 = 0
    · rw [if_pos h0]
      simp only [List.foldl_cons, hd]
      have : n % 10 = n := by omega
      rw [zero_mul, zero_add, this]
    · rw [if_neg h0, ih (n / 10) _ (by omega)]
      simp only [List.foldl_cons, hd]
      have : n / 10 * 10 + n % 10 = n := by omega
      rw [this]

theorem to_string_injective : Function.Injective to_string := by
  intro a b h
  have hl : Nat.toDigits 10 a = Nat.toDigits 10 b := by
    have := congrArg String.data h
    simpa [to_string, Nat.repr, List.asString] using this
  have ha := toDigitsCore_value (a + 1) a [] (by omega)
  have hb := toDigitsCore_value (b + 1) b [] (by omega)
  simp only [List.foldl_nil] at ha hb
  have ha' : Nat.toDigitsCore 10 (a + 1) a [] = Nat.toDigits 10 a := rfl
  have hb' : Nat.toDigitsCore 10 (b + 1) b [] = Nat.toDigits 10 b := rfl
  rw [ha', hl, ← hb', hb] at ha
  exact ha.symm

theorem joint_name_injective :
    Function.Injective (fun k : Nat => "joint" ++ to_string k) := by
  intro a b h
  apply to_string_injective
  have := congrArg String.data h
  simp only [String.data_append] at this
  exact String.ext (List.append_cancel_left this)

theorem append_ne_no_name (p s : String) (hp : p.data.head? ≠ some 'n') (hne : p ≠ "") :
    p ++ s ≠ "no name" := by
  intro h
  have := congrArg String.data h
  simp only [String.data_append] at this
  cases hpd : p.data with
  | nil => exact hne (String.ext hpd)
  | cons c cs =>
    rw [hpd] at this hp
    simp only [List.cons_append, List.cons.injEq] at this
    simp only [List.head?_cons, ne_eq, Option.some.injEq] at hp
    exact hp this.1

theorem taken_iff (h : Heap) (joints : List Nat) (s : String) :
    joints.any (fun j => getName (h j) == s) = true ↔ ∃ j, j ∈ joints ∧ getName (h j) = s := by
  simp [List.any_eq_true]

theorem getNewName_run (h : Heap) (joints : List Nat) :
    ∀ (d fuel c : Nat), d < fuel →
      (∀ k, k < d → joints.any (fun j => getName (h j) == "joint" ++ to_string (c + k)) = true) →
      joints.any (fun j => getName (h j) == "joint" ++ to_string (c + d)) = false →
      getNewName h joints fuel c ("joint" ++ to_string c) =
        some ("joint" ++ to_string (c + d), c + d) := by
  intro d
  induction d with
  | zero =>
    intro fuel c hf _ hfree
    obtain ⟨f, rfl⟩ : ∃ f, fuel = f + 1 := ⟨fuel - 1, by omega⟩
    rw [getNewName]
    rw [Nat.add_zero] at hfree
    rw [hfree]
    simp
  | succ d ih =>
    intro fuel c hf htaken hfree
    obtain ⟨f, rfl⟩ : ∃ f, fuel = f + 1 := ⟨fuel - 1, by omega⟩
    rw [getNewName]
    have h0 := htaken 0 (by omega)
    rw [Nat.add_zero] at h0
    rw [h0]
    simp only [if_true]
    have e : c + (d + 1) = c + 1 + d := by omega
    rw [e]
    apply ih f (c + 1) (by omega)
    · intro k hk
      have := htaken (k + 1) (by omega)
      have e' : c + (k + 1) = c + 1 + k := by omega
      rw [e'] at this
      exact this
    · rw [← e]
      exact hfree

theorem exists_free_name (h : Heap) (joints : List Nat) (c : Nat) :
    ∃ d, d ≤ joints.length ∧
      joints.any (fun j => getName (h j) == "joint" ++ to_string (c + d)) = false ∧
      ∀ k, k < d → joints.any (fun j => getName (h j) == "joint" ++ to_string (c + k)) = true := by
  have hex : ∃ d, d ≤ joints.length ∧
      joints.any (fun j => getName (h j) == "joint" ++ to_string (c + d)) = false := by
    by_contra hcon
    push_neg at hcon
    have hall : ∀ d, d ≤ joints.length →
        "joint" ++ to_string (c + d) ∈ (joints.map (fun j => getName (h j))).toFinset := by
      intro d hd
      have ht := Bool.eq_true_of_not_eq_false (hcon d hd)
      obtain ⟨j, hj, hn⟩ := (taken_iff h joints _).1 ht
      rw [List.mem_toFinset, List.mem_map]
      exact ⟨j, hj, hn⟩
    have hcard : (Finset.range (joints.length + 1)).card ≤
        ((joints.map (fun j => getName (h j))).toFinset).card := by
      apply Finset.card_le_card_of_injOn (fun d => "joint" ++ to_string (c + d))
      · intro d hd
        rw [Finset.mem_range] at hd
        exact hall d (by omega)
      · intro x _ y _ hxy
        have := joint_name_injective hxy
        omega
    have h1 : ((joints.map (fun j => getName (h j))).toFinset).card ≤ joints.length := by
      have := List.toFinset_card_le (joints.map (fun j => getName (h j)))
      rw [List.length_map] at this
      exact this
    rw [Finset.card_range] at hcard
    omega
  classical
  refine ⟨Nat.find hex, (Nat.find_spec hex).1, (Nat.find_spec hex).2, ?_⟩
  intro k hk
  have hmin := Nat.find_min hex hk
  have hle : k ≤ joints.length := by
    have := (Nat.find_spec hex).1
    omega
  by_contra hne
  rw [Bool.not_eq_true] at hne
  exact hmin ⟨hle, hne⟩

theorem getNewName_spec (h : Heap) (joints : List Nat) (c : Nat) (newName : String)
    (fuel : Nat) (hf : joints.length + 2 ≤ fuel) :
    ∃ name c', getNewName h joints fuel c newName = some (name, c') ∧
      ∀ j, j ∈ joints → getName (h j) ≠ name := by
  obtain ⟨f, rfl⟩ : ∃ f, fuel = f + 1 := ⟨fuel - 1, by omega⟩
  rw [getNewName]
  by_cases ht : joints.any (fun j => getName (h j) == newName) = true
  · rw [if_pos ht]
    obtain ⟨d, hd, hfree, htaken⟩ := exists_free_name h joints (c + 1)
    refine ⟨_, _, getNewName_run h joints d f (c + 1) (by omega) htaken hfree, ?_⟩
    intro j hj hn
    have : joints.any (fun j => getName (h j) == "joint" ++ to_string (c + 1 + d)) = true :=
      (taken_iff h joints _).2 ⟨j, hj, hn⟩
    rw [hfree] at this
    exact Bool.noConfusion this
  · rw [if_neg ht]
    refine ⟨_, _, rfl, ?_⟩
    intro j hj hn
    exact ht ((taken_iff h joints _).2 ⟨j, hj, hn⟩)

theorem addJoint_spec (m : Libm) (rank : Nat → Nat) (a : App) (fresh : Nat) (pos : Vec3)
    (hrank : ∀ n p, (a.heap n).parent = some p → rank p < rank n)
    (hfp : ∀ n, (a.heap n).parent ≠ some fresh) (hfs : fresh ∉ a.selected) :
    ∃ fuel0, ∀ fuel, fuel0 ≤ fuel → ∃ a' name, addJoint m fuel fresh pos a = some a' ∧
      a'.joints = a.joints ++ [fresh] ∧ a'.selected = a.selected ∧
      a'.meshScene = a.meshScene ∧
      (a'.heap fresh).name = name ∧ (a'.heap fresh).cls = ObjClass.joint ∧
      (a'.heap fresh).hasMesh = false ∧ (a'.heap fresh).parent = a.selected.head? ∧
      (∀ j, j ∈ a.joints → j ≠ fresh → getName (a.heap j) ≠ name) ∧
      (∀ k, k ≠ fresh →
        (a'.heap k).name = (a.heap k).name ∧ (a'.heap k).cls = (a.heap k).cls ∧
          (a'.heap k).hasMesh = (a.heap k).hasMesh ∧
          (a'.heap k).attatchedMesh = (a.heap k).attatchedMesh ∧
          (a'.heap k).parent = (a.heap k).parent) ∧
      Acyclic a'.heap := by
  have hrk : ∃ r' : Nat → Nat, (∀ k, k ≠ fresh → r' k = rank k) ∧
      ∀ s, a.selected.head? = some s → rank s < r' fresh := by
    cases hsel : a.selected with
    | nil => exact ⟨rank, fun _ _ => rfl, fun s hs => by simp at hs⟩
    | cons s0 rest =>
      refine ⟨fun k => if k = fresh then rank s0 + 1 else rank k, fun k hk => by simp [hk], ?_⟩
      intro s hs
      simp only [List.head?_cons, Option.some.injEq] at hs
      subst hs
      simp
  obtain ⟨r', hr1, hr2⟩ := hrk
  refine ⟨max (a.joints.length + 2) (r' fresh + 1), fun fuel hfuel => ?_⟩
  have hf1 : a.joints.length + 2 ≤ fuel := le_trans (le_max_left _ _) hfuel
  have hf2 : r' fresh + 1 ≤ fuel := le_trans (le_max_right _ _) hfuel
  obtain ⟨name, c', hname, hfree⟩ := getNewName_spec (Function.update a.heap fresh SceneObject.new)
    a.joints 0 ("joint" ++ to_string 0) fuel hf1
  -- the heap before `setPosition`
  have hheap2 : ∃ h2 : Heap,
      (match a.selected with
        | [] => Function.update (Function.update a.heap fresh SceneObject.new) fresh
            { (Function.update a.heap fresh SceneObject.new) fresh with name := name }
        | sel :: _ => addChild
            (Function.update (Function.update a.heap fresh SceneObject.new) fresh
              { (Function.update a.heap fresh SceneObject.new) fresh with name := name })
            sel fresh) = h2 ∧
      h2 fresh = { SceneObject.new with name := name, parent := a.selected.head? } ∧
      ∀ k, k ≠ fresh →
        (h2 k).name = (a.heap k).name ∧ (h2 k).cls = (a.heap k).cls ∧
          (h2 k).hasMesh = (a.heap k).hasMesh ∧
          (h2 k).attatchedMesh = (a.heap k).attatchedMesh ∧
          (h2 k).parent = (a.heap k).parent := by
    cases hsel : a.selected with
    | nil =>
      refine ⟨_, rfl, by simp [SceneObject.new], fun k hk => ?_⟩
      simp [Function.update_noteq hk]
    | cons s0 rest =>
      have hs0 : fresh ≠ s0 := by
        intro e
        apply hfs
        rw [hsel, e]
        exact List.mem_cons_self _ _
      refine ⟨_, rfl, ?_, fun k hk => ?_⟩
      · dsimp only
        rw [addChild_child _ s0 fresh hs0]
        simp [SceneObject.new]
      · dsimp only
        rw [addChild_child _ s0 fresh hs0, Function.update_noteq hk]
        by_cases hks : k = s0
        · subst hks
          simp [Function.update_noteq hk]
        · simp [Function.update_noteq hks, Function.update_noteq hk]
  obtain ⟨h2, hh2, h2f, h2o⟩ := hheap2
  have hrank2 : ∀ n p, (h2 n).parent = some p → r' p < r' n := by
    intro n p hnp
    by_cases hn : n = fresh
    · subst hn
      rw [h2f] at hnp
      simp only at hnp
      have hpf : p ≠ n := by
        intro e
        apply hfs
        rw [← e]
        exact List.mem_of_mem_head? hnp
      rw [hr1 p hpf]
      exact hr2 p hnp
    · rw [(h2o n hn).2.2.2.2] at hnp
      have hpf : p ≠ fresh := fun e => hfp n (by rw [hnp, e])
      rw [hr1 n hn, hr1 p hpf]
      exact hrank n p hnp
  obtain ⟨g, rfl⟩ : ∃ g, fuel = g + 1 := ⟨fuel - 1, by omega⟩
  obtain ⟨M, hM⟩ := getMatrix_of_rank m h2 r' hrank2 g fresh (by omega)
  have hset := setPosition_of_getMatrix m h2 (g + 1) fresh pos M hM
  refine ⟨{ a with
      heap := Function.update h2 fresh
        { h2 fresh with position := xyz ((inverse M).mulVec (vec4 pos 1)) }
      joints := a.joints ++ [fresh] }, name, ?_, rfl, rfl, rfl, ?_, ?_, ?_, ?_, ?_, ?_, ?_⟩
  · simp only [addJoint, hname, hh2, hset]
  · simp [h2f]
  · simp [h2f, SceneObject.new]
  · simp [h2f, SceneObject.new]
  · simp [h2f]
  · intro j hj hjf hn
    apply hfree j hj
    rw [Function.update_noteq hjf]
    exact hn
  · intro k hk
    simp only [Function.update_noteq hk]
    exact h2o k hk
  · refine ⟨r', fun n p hnp => ?_⟩
    apply hrank2 n p
    by_cases hn : n = fresh
    · subst hn
      simpa using hnp
    · simpa [Function.update_noteq hn] using hnp

/-! ## The script loader -/

theorem getMatrix_self_parent (m : Libm) (h : Heap) (n : Nat) (hp : (h n).parent = some n) :
    ∀ fuel, getMatrix m h fuel n = none := by
  intro fuel
  induction fuel with
  | zero => rfl
  | succ f ih => simp only [getMatrix, hp, ih]

theorem not_acyclic_of_self_parent (h : Heap) (n : Nat) (hp : (h n).parent = some n) :
    ¬ Acyclic h := by
  rintro ⟨rank, hrank⟩
  have := hrank n n hp
  omega

theorem selfParent_sample :
    loadScriptFile (fun _ _ _ => none) 1 ["create", "-joint", "a", "-parent", "a"] (setup 0) =
      some
        { heap := addChild
            (Function.update (Function.update (setup 0).heap 1 SceneObject.new) 1
              { SceneObject.new with name := "a" }) 1 1
          meshScene := [0], joints := [1], selected := [] } := by
  simp [loadScriptFile, loadScriptLoop, readWord, adoptLoop, setup, getName, SceneObject.new]

theorem readWord_snd_length (old : String) (l : List String) :
    (readWord old l).2.length ≤ l.length := by
  cases l <;> simp [readWord]

theorem loadScriptLoop_inv (pv : String → String → String → Option Vec3)
    (P : ScriptState → Prop)
    (hcreate : ∀ st, P st →
      P { st with
          heap := Function.update st.heap st.next SceneObject.new
          joints := st.joints ++ [st.next]
          jointToAdd := some st.next
          next := st.next + 1 })
    (hname : ∀ st j w, P st → st.jointToAdd = some j →
      P { st with
          readName := w
          heap := Function.update st.heap j { st.heap j with name := w } })
    (hrot : ∀ st j t v, P st → st.jointToAdd = some j →
      P { st with
          tempString := t
          heap := Function.update st.heap j { st.heap j with rotation := v } })
    (htr : ∀ st j t v, P st → st.jointToAdd = some j →
      P { st with
          tempString := t
          heap := Function.update st.heap j { st.heap j with position := v } })
    (hpar : ∀ st w, P st →
      P { st with
          parentName := w
          heap :=
            match st.jointToAdd with
            | some j => adoptLoop w j st.joints st.heap
            | none => st.heap }) :
    ∀ (n : Nat) (script : List String) (st st' : ScriptState), script.length ≤ n → P st →
      loadScriptLoop pv script st = some st' → P st' := by
  intro n
  induction n with
  | zero =>
    intro script st st' hlen hP hrun
    have : script = [] := List.length_eq_zero.1 (by omega)
    subst this
    rw [loadScriptLoop] at hrun
    cases hrun
    exact hP
  | succ n ih =>
    intro script st st' hlen hP hrun
    cases script with
    | nil =>
      rw [loadScriptLoop] at hrun
      cases hrun
      exact hP
    | cons read rest =>
      have hrest : rest.length ≤ n := by simpa using hlen
      rw [loadScriptLoop] at hrun
      split_ifs at hrun with h1 h2 h3 h4 h5
      · exact ih rest _ st' hrest (hcreate st hP) hrun
      · split at hrun
        · cases hrun
        · rename_i j hj
          exact ih _ _ st' (le_trans (readWord_snd_length _ _) hrest) (hname st j _ hP hj) hrun
      · dsimp only at hrun
        split at hrun
        · rename_i v j hv hj
          refine ih _ _ st' ?_ (hrot st j _ v hP hj) hrun
          exact le_trans (readWord_snd_length _ _)
            (le_trans (readWord_snd_length _ _) (le_trans (readWord_snd_length _ _) hrest))
        · cases hrun
      · dsimp only at hrun
        split at hrun
        · rename_i v j hv hj
          refine ih _ _ st' ?_ (htr st j _ v hP hj) hrun
          exact le_trans (readWord_snd_length _ _)
            (le_trans (readWord_snd_length _ _) (le_trans (readWord_snd_length _ _) hrest))
        · cases hrun
      · exact ih _ _ st' (le_trans (readWord_snd_length _ _) hrest) (hpar st _ hP) hrun
      · exact ih rest st st' hrest hP hrun

theorem loadScriptLoop_invariant (pv : String → String → String → Option Vec3)
    (P : ScriptState → Prop)
    (hcreate : ∀ st, P st →
      P { st with
          heap := Function.update st.heap st.next SceneObject.new
          joints := st.joints ++ [st.next]
          jointToAdd := some st.next
          next := st.next + 1 })
    (hname : ∀ st j w, P st → st.jointToAdd = some j →
      P { st with
          readName := w
          heap := Function.update st.heap j { st.heap j with name := w } })
    (hrot : ∀ st j t v, P st → st.jointToAdd = some j →
      P { st with
          tempString := t
          heap := Function.update st.heap j { st.heap j with rotation := v } })
    (htr : ∀ st j t v, P st → st.jointToAdd = some j →
      P { st with
          tempString := t
          heap := Function.update st.heap j { st.heap j with position := v } })
    (hpar : ∀ st w, P st →
      P { st with
          parentName := w
          heap :=
            match st.jointToAdd with
            | some j => adoptLoop w j st.joints st.heap
            | none => st.heap })
    (script : List String) (st st' : ScriptState) (hP : P st)
    (hrun : loadScriptLoop pv script st = some st') : P st' :=
  loadScriptLoop_inv pv P hcreate hname hrot htr hpar script.length script st st' (le_refl _)
    hP hrun

theorem addChild_fields (h : Heap) (i j k : Nat) :
    (addChild h i j k).name = (h k).name ∧ (addChild h i j k).cls = (h k).cls ∧
    (addChild h i j k).hasMesh = (h k).hasMesh ∧
    (addChild h i j k).attatchedMesh = (h k).attatchedMesh ∧
    (addChild h i j k).parent = (if k = j then some i else (h k).parent) ∧
    (k ≠ i → k ≠ j → addChild h i j k = h k) := by
  by_cases hkj : k = j
  · subst hkj
    by_cases hki : k = i
    · subst hki
      simp [addChild]
    · simp [addChild, Function.update_noteq hki]
  · by_cases hki : k = i
    · subst hki
      simp [addChild, Function.update_noteq hkj, hkj]
    · simp [addChild, Function.update_noteq hkj, Function.update_noteq hki, hkj]

theorem adoptLoop_fields (w : String) (j : Nat) :
    ∀ (joints : List Nat) (h : Heap) (k : Nat),
      (adoptLoop w j joints h k).name = (h k).name ∧
      (adoptLoop w j joints h k).cls = (h k).cls ∧
      (adoptLoop w j joints h k).hasMesh = (h k).hasMesh ∧
      (adoptLoop w j joints h k).attatchedMesh = (h k).attatchedMesh ∧
      (k ≠ j → (adoptLoop w j joints h k).parent = (h k).parent) ∧
      ((adoptLoop w j joints h j).parent = (h j).parent ∨
        ∃ i, i ∈ joints ∧ (adoptLoop w j joints h j).parent = some i) ∧
      (k ∉ joints → k ≠ j → adoptLoop w j joints h k = h k) := by
  intro joints
  induction joints with
  | nil =>
    intro h k
    simp [adoptLoop]
  | cons i js ih =>
    intro h k
    have hstep : adoptLoop w j (i :: js) h =
        adoptLoop w j js (if getName (h i) = w then addChild h i j else h) := by
      simp only [adoptLoop, List.foldl_cons]
    rw [hstep]
    by_cases hw : getName (h i) = w
    · simp only [if_pos hw]
      obtain ⟨a1, a2, a3, a4, a5, a6, a7⟩ := ih (addChild h i j) k
      obtain ⟨b1, b2, b3, b4, b5, b6⟩ := addChild_fields h i j k
      refine ⟨a1.trans b1, a2.trans b2, a3.trans b3, a4.trans b4, ?_, ?_, ?_⟩
      · intro hkj
        rw [a5 hkj, b5, if_neg hkj]
      · right
        rcases a6 with e | ⟨i', hi', e⟩
        · refine ⟨i, List.mem_cons_self _ _, ?_⟩
          rw [e, (addChild_fields h i j j).2.2.2.2.1, if_pos rfl]
        · exact ⟨i', List.mem_cons_of_mem _ hi', e⟩
      · intro hk hkj
        rw [a7 (fun hm => hk (List.mem_cons_of_mem _ hm)) hkj]
        exact b6 (fun e => hk (e ▸ List.mem_cons_self _ _)) hkj
    · simp only [if_neg hw]
      obtain ⟨a1, a2, a3, a4, a5, a6, a7⟩ := ih h k
      refine ⟨a1, a2, a3, a4, a5, ?_, ?_⟩
      · rcases a6 with e | ⟨i', hi', e⟩
        · exact Or.inl e
        · exact Or.inr ⟨i', List.mem_cons_of_mem _ hi', e⟩
      · intro hk hkj
        exact a7 (fun hm => hk (List.mem_cons_of_mem _ hm)) hkj

theorem loadScriptLoop_scriptInv (pv : String → String → String → Option Vec3) (h0 : Heap)
    (fresh : Nat) (script : List String) (st st' : ScriptState) (hP : ScriptInv h0 fresh st)
    (hrun : loadScriptLoop pv script st = some st') : ScriptInv h0 fresh st' := by
  refine loadScriptLoop_invariant pv (ScriptInv h0 fresh) ?_ ?_ ?_ ?_ ?_ script st st' hP hrun
  · rintro st ⟨h1, h2, h3, h4, h5⟩
    refine ⟨by simp only; omega, ?_, ?_, ?_, ?_⟩
    · intro j hj
      simp only [List.mem_append, List.mem_singleton] at hj
      rcases hj with hj | hj
      · have := h2 j hj
        simp only
        omega
      · subst hj
        simp only
        omega
    · intro j hj
      simp only [Option.some.injEq] at hj
      subst hj
      refine ⟨h1, by simp only; omega, ?_⟩
      intro i hi
      simp only [List.mem_append, List.mem_singleton] at hi
      rcases hi with hi | hi
      · have := h2 i hi
        omega
      · omega
    · intro k hk
      simp only at hk
      simp only
      rw [Function.update_noteq (by omega)]
      exact h4 k (by omega)
    · intro k hk1 hk2
      simp only at hk2
      simp only
      by_cases hk : k = st.next
      · subst hk
        simp [SceneObject.new]
      · rw [Function.update_noteq hk]
        exact h5 k hk1 (by omega)
  · rintro st j w ⟨h1, h2, h3, h4, h5⟩ hj
    obtain ⟨hj1, hj2, -⟩ := h3 j hj
    refine ⟨h1, h2, h3, ?_, ?_⟩
    · intro k hk
      have hk' : k < fresh ∨ st.next ≤ k := hk
      simp only
      rw [Function.update_noteq (by omega)]
      exact h4 k hk'
    · intro k hk1 hk2
      have hk2' : k < st.next := hk2
      simp only
      by_cases hk : k = j
      · subst hk
        simpa using h5 k hk1 hk2'
      · rw [Function.update_noteq hk]
        exact h5 k hk1 hk2'
  · rintro st j t v ⟨h1, h2, h3, h4, h5⟩ hj
    obtain ⟨hj1, hj2, -⟩ := h3 j hj
    refine ⟨h1, h2, h3, ?_, ?_⟩
    · intro k hk
      have hk' : k < fresh ∨ st.next ≤ k := hk
      simp only
      rw [Function.update_noteq (by omega)]
      exact h4 k hk'
    · intro k hk1 hk2
      have hk2' : k < st.next := hk2
      simp only
      by_cases hk : k = j
      · subst hk
        simpa using h5 k hk1 hk2'
      · rw [Function.update_noteq hk]
        exact h5 k hk1 hk2'
  · rintro st j t v ⟨h1, h2, h3, h4, h5⟩ hj
    obtain ⟨hj1, hj2, -⟩ := h3 j hj
    refine ⟨h1, h2, h3, ?_, ?_⟩
    · intro k hk
      have hk' : k < fresh ∨ st.next ≤ k := hk
      simp only
      rw [Function.update_noteq (by omega)]
      exact h4 k hk'
    · intro k hk1 hk2
      have hk2' : k < st.next := hk2
      simp only
      by_cases hk : k = j
      · subst hk
        simpa using h5 k hk1 hk2'
      · rw [Function.update_noteq hk]
        exact h5 k hk1 hk2'
  · rintro st w ⟨h1, h2, h3, h4, h5⟩
    have hjo : st.jointToAdd = none ∨ ∃ j, st.jointToAdd = some j := by
      cases st.jointToAdd <;> simp
    refine ⟨h1, h2, h3, ?_, ?_⟩
    · intro k hk
      have hk' : k < fresh ∨ st.next ≤ k := hk
      rcases hjo with hj | ⟨j, hj⟩
      · simp only [hj]
        exact h4 k hk'
      · obtain ⟨hj1, hj2, hj3⟩ := h3 j hj
        simp only [hj]
        have hkj : k ≠ j := by omega
        have hkn : k ∉ st.joints := by
          intro hm
          have := h2 k hm
          omega
        rw [(adoptLoop_fields w j st.joints st.heap k).2.2.2.2.2.2 hkn hkj]
        exact h4 k hk'
    · intro k hk1 hk2
      have hk2' : k < st.next := hk2
      rcases hjo with hj | ⟨j, hj⟩
      · simp only [hj]
        exact h5 k hk1 hk2'
      · obtain ⟨hj1, hj2, hj3⟩ := h3 j hj
        simp only [hj]
        obtain ⟨a1, a2, a3, a4, a5, a6, a7⟩ := adoptLoop_fields w j st.joints st.heap k
        obtain ⟨c1, c2, c3⟩ := h5 k hk1 hk2'
        refine ⟨a2.trans c1, a3.trans c2, ?_⟩
        intro p hp
        by_cases hkj : k = j
        · subst hkj
          rcases a6 with e | ⟨i, hi, e⟩
          · exact c3 p (e ▸ hp)
          · rw [e] at hp
            have hip : i = p := Option.some.inj hp
            rw [← hip]
            exact ⟨(h2 i hi).1, hj3 i hi⟩
        · rw [a5 hkj] at hp
          exact c3 p hp

theorem loadScriptFile_frame (pv : String → String → String → Option Vec3) (fresh : Nat)
    (script : List String) (a a' : App) (hrun : loadScriptFile pv fresh script a = some a') :
    ∃ next floor rest, a.meshScene = floor :: rest ∧ a'.meshScene = [floor] ∧
      a'.selected = [] ∧ fresh ≤ next ∧
      (∀ j, j ∈ a'.joints → fresh ≤ j ∧ j < next) ∧
      (∀ k, k < fresh ∨ next ≤ k → a'.heap k = a.heap k) ∧
      (∀ k, fresh ≤ k → k < next →
        (a'.heap k).cls = ObjClass.joint ∧ (a'.heap k).hasMesh = false ∧
          ∀ p, (a'.heap k).parent = some p → fresh ≤ p ∧ p ≤ k) := by
  unfold loadScriptFile at hrun
  cases hms : a.meshScene with
  | nil => simp [hms] at hrun
  | cons floor rest =>
    simp only [hms] at hrun
    split at hrun
    · cases hrun
    · rename_i st hst
      simp only [Option.some.injEq] at hrun
      subst hrun
      have hinit : ScriptInv a.heap fresh
          { heap := a.heap, joints := [], jointToAdd := none, next := fresh,
            tempString := "", readName := "", parentName := "" } := by
        refine ⟨le_refl _, ?_, ?_, ?_, ?_⟩
        · intro j hj
          simp at hj
        · intro j hj
          simp at hj
        · intro k _
          rfl
        · intro k hk1 hk2
          simp only at hk2
          omega
      obtain ⟨h1, h2, -, h4, h5⟩ := loadScriptLoop_scriptInv pv a.heap fresh script _ st hinit hst
      exact ⟨st.next, floor, rest, rfl, rfl, rfl, h1, h2, h4, h5⟩

theorem getMatrix_of_acyclic (m : Libm) (h : Heap) (hac : Acyclic h) : GetMatrixReturns m h := by
  obtain ⟨rank, hrank⟩ := hac
  intro n
  refine ⟨rank n + 1, fun fuel hfuel => ?_⟩
  obtain ⟨g, rfl⟩ : ∃ g, fuel = g + 1 := ⟨fuel - 1, by omega⟩
  exact getMatrix_of_rank m h rank hrank g n (by omega)

theorem deleteJoint_acyclic (m : Libm) (a : App) (hac : Acyclic a.heap)
    (hkids : ∀ j c, a.selected.head? = some j → c ∈ (a.heap j).childList →
      (a.heap c).parent = some j) :
    ∃ fuel0, ∀ fuel, fuel0 ≤ fuel → ∃ a', deleteJoint m fuel a = some a' ∧ Acyclic a'.heap := by
  cases hsel : a.selected with
  | nil =>
    refine ⟨0, fun fuel _ => ⟨{ a with selected := [] }, ?_, hac⟩⟩
    simp only [deleteJoint, hsel]
  | cons j rest =>
    obtain ⟨rank, hrank⟩ := hac
    have hk : ∀ c, c ∈ (a.heap j).childList → rank j < rank c := fun c hc =>
      hrank c j (hkids j c (by rw [hsel]; rfl) hc)
    obtain ⟨fuel0, hf⟩ := deleteJoint_struct m rank a j rest hsel hrank hk
    refine ⟨fuel0, fun fuel hfuel => ?_⟩
    obtain ⟨a', hd, -, -, -, -, -, -, -, hr', -⟩ := hf fuel hfuel
    exact ⟨a', hd, rank, hr'⟩

theorem loadScriptFile_acyclic (pv : String → String → String → Option Vec3) (fresh : Nat)
    (script : List String) (a a' : App) (hac : Acyclic a.heap)
    (hfresh : ∀ n p, (a.heap n).parent = some p → p < fresh)
    (hrun : loadScriptFile pv fresh script a = some a')
    (hself : ∀ n, (a'.heap n).parent ≠ some n) : Acyclic a'.heap := by
  obtain ⟨rank, hrank⟩ := hac
  obtain ⟨next, floor, rest, -, -, -, hn, -, hout, hin⟩ :=
    loadScriptFile_frame pv fresh script a a' hrun
  refine ⟨fun k => if fresh ≤ k ∧ k < next then k else rank k, fun n p hp => ?_⟩
  by_cases hr : fresh ≤ n ∧ n < next
  · obtain ⟨h1, h2⟩ := (hin n hr.1 hr.2).2.2 p hp
    have hne : p ≠ n := fun e => hself n (e ▸ hp)
    have hpr : fresh ≤ p ∧ p < next := ⟨h1, by omega⟩
    simp only [if_pos hr, if_pos hpr]
    omega
  · have hn' : n < fresh ∨ next ≤ n := by
      by_contra hc
      exact hr ⟨by omega, by omega⟩
    rw [hout n hn'] at hp
    have hpf := hfresh n p hp
    have hpr : ¬ (fresh ≤ p ∧ p < next) := fun hc => by omega
    simp only [if_neg hr, if_neg hpr]
    exact hrank n p hp

theorem twistApp_kids : ∀ j c, twistApp.selected.head? = some j →
    c ∈ (twistApp.heap j).childList → (twistApp.heap c).parent = some j := by
  intro j c hj hc
  simp only [twistApp, List.head?_cons, Option.some.injEq] at hj
  subst hj
  simp [twistApp, twistHeap, SceneObject.new] at hc
  subst hc
  simp [twistApp, twistHeap, SceneObject.new]

theorem twistApp_parent_lt (fresh : Nat) (hf : 1 ≤ fresh) :
    ∀ n p, (twistApp.heap n).parent = some p → p < fresh := by
  intro n p hp
  by_cases h1 : n = 1
  · subst h1
    simp [twistApp, twistHeap, SceneObject.new] at hp
    omega
  · by_cases h0 : n = 0 <;> simp [twistApp, twistHeap, SceneObject.new, h1, h0] at hp

theorem chain_sample :
    loadScriptFile (fun _ _ _ => none) 5
        ["create", "-joint", "a", "create", "-joint", "b", "-parent", "a"] twistApp =
      some
        { heap := addChild
            (Function.update
              (Function.update
                (Function.update (Function.update twistApp.heap 5 SceneObject.new) 5
                  { SceneObject.new with name := "a" }) 6 SceneObject.new) 6
              { SceneObject.new with name := "b" }) 5 6
          meshScene := [2], joints := [5, 6], selected := [] } := by
  simp [loadScriptFile, loadScriptLoop, readWord, adoptLoop, twistApp, getName, SceneObject.new,
    addChild]

theorem chain_sample_no_self (n : Nat) :
    ((addChild
      (Function.update
        (Function.update
          (Function.update (Function.update twistApp.heap 5 SceneObject.new) 5
            { SceneObject.new with name := "a" }) 6 SceneObject.new) 6
        { SceneObject.new with name := "b" }) 5 6) n).parent ≠ some n := by
  rw [(addChild_fields _ 5 6 n).2.2.2.2.1]
  by_cases h6 : n = 6
  · subst h6
    simp
  · rw [if_neg h6, Function.update_noteq h6, Function.update_noteq h6]
    by_cases h5 : n = 5
    · subst h5
      simp [SceneObject.new]
    · rw [Function.update_noteq h5, Function.update_noteq h5]
      intro hp
      have := twistApp_parent_lt 1 (le_refl _) n n hp
      have h0 : n = 0 := by omega
      subst h0
      simp [twistApp, twistHeap, SceneObject.new] at hp

theorem setup_parent (floor n : Nat) : ((setup floor).heap n).parent = none := by
  by_cases hn : n = floor
  · subst hn
    simp [setup, SceneObject.new]
  · simp [setup, Function.update_noteq hn, SceneObject.new]

theorem acyclic_setup (floor : Nat) : Acyclic (setup floor).heap :=
  ⟨fun _ => 0, fun n p hp => by rw [setup_parent] at hp; cases hp⟩

/-! ## The floor in `meshScene` -/

theorem sameIdentity_refl (o : SceneObject) : SameIdentity o o :=
  ⟨rfl, rfl, rfl, rfl, rfl, rfl⟩

theorem sameIdentity_trans (o1 o2 o3 : SceneObject) (h12 : SameIdentity o1 o2)
    (h23 : SameIdentity o2 o3) : SameIdentity o1 o3 := by
  obtain ⟨a1, a2, a3, a4, a5, a6⟩ := h12
  obtain ⟨b1, b2, b3, b4, b5, b6⟩ := h23
  exact ⟨b1.trans a1, b2.trans a2, b3.trans a3, b4.trans a4, b5.trans a5, b6.trans a6⟩

theorem setPosition_some (m : Libm) (h : Heap) (fuel n : Nat) (pos : Vec3) (h' : Heap)
    (hs : setPosition m h fuel n pos = some h') :
    ∃ p, h' = Function.update h n { h n with position := p } := by
  unfold setPosition at hs
  split at hs
  · simp only [Option.some.injEq] at hs
    exact ⟨_, hs.symm⟩
  · cases hs

theorem update_identity (h : Heap) (c : Nat) (o : SceneObject) (ho : SameIdentity (h c) o) :
    ∀ k, SameIdentity (h k) (Function.update h c o k) := by
  intro k
  by_cases hk : k = c
  · subst hk
    rw [Function.update_same]
    exact ho
  · rw [Function.update_noteq hk]
    exact sameIdentity_refl _

theorem addChild_identity (h : Heap) (i j : Nat) (hij : j ≠ i) :
    ∀ k, (addChild h i j k).name = (h k).name ∧ (addChild h i j k).cls = (h k).cls ∧
      (addChild h i j k).hasMesh = (h k).hasMesh ∧
      (addChild h i j k).attatchedMesh = (h k).attatchedMesh ∧
      (addChild h i j k).pivot = (h k).pivot ∧
      (k ≠ j → (addChild h i j k).rotation = (h k).rotation) := by
  intro k
  rw [addChild_child h i j hij]
  by_cases hkj : k = j
  · subst hkj
    simp
  · rw [Function.update_noteq hkj]
    by_cases hki : k = i
    · subst hki
      simp
    · rw [Function.update_noteq hki]
      simp

theorem rehome_identity (m : Libm) (fuel J : Nat) (pj : Option Nat) (h : Heap) (c : Nat)
    (h' : Heap) (hr : rehome m fuel J pj h c = some h') :
    ∀ k, SameIdentity (h k) (h' k) := by
  unfold rehome at hr
  split at hr
  · cases hr
  · rename_i rp hrp
    dsimp only at hr
    split at hr
    · cases hr
    · rename_i h3 hh3
      split at hr
      · cases hr
      · rename_i h4 hh4
        simp only [Option.some.injEq] at hr
        obtain ⟨p, rfl⟩ := setPosition_some m h3 fuel c rp h4 hh4
        subst hr
        -- the heap `h3` agrees with `h` except for the transform and the links
        have h3k : ∀ k, (h3 k).name = (h k).name ∧ (h3 k).cls = (h k).cls ∧
            (h3 k).hasMesh = (h k).hasMesh ∧ (h3 k).attatchedMesh = (h k).attatchedMesh ∧
            (h3 k).pivot = (h k).pivot ∧ (k ≠ c → (h3 k).rotation = (h k).rotation) := by
          intro k
          have h2k : ∀ k, (resetMatrices (Function.update h c { h c with parent := none }) c
                k).name = (h k).name ∧
              (resetMatrices (Function.update h c { h c with parent := none }) c k).cls
                = (h k).cls ∧
              (resetMatrices (Function.update h c { h c with parent := none }) c k).hasMesh
                = (h k).hasMesh ∧
              (resetMatrices (Function.update h c { h c with parent := none }) c
                k).attatchedMesh = (h k).attatchedMesh ∧
              (resetMatrices (Function.update h c { h c with parent := none }) c k).pivot
                = (h k).pivot ∧
              (k ≠ c →
                (resetMatrices (Function.update h c { h c with parent := none }) c k).rotation
                  = (h k).rotation) := by
            intro k
            by_cases hk : k = c
            · subst hk
              simp [resetMatrices]
            · simp [resetMatrices, Function.update_noteq hk]
          split at hh3
          · rename_i x pj' hx
            simp only [Option.some.injEq] at hh3
            subst hh3
            by_cases hcp : c = pj'
            · subst hcp
              obtain ⟨a1, a2, a3, a4, a5, a6⟩ := addChild_fields
                (resetMatrices (Function.update h c { h c with parent := none }) c) c c k
              obtain ⟨b1, b2, b3, b4, b5, b6⟩ := h2k k
              refine ⟨a1.trans b1, a2.trans b2, a3.trans b3, a4.trans b4, ?_, ?_⟩
              · by_cases hk : k = c
                · subst hk
                  simp [addChild, resetMatrices]
                · rw [a6 hk hk]
                  exact b5
              · intro hk
                rw [a6 hk hk]
                exact b6 hk
            · obtain ⟨a1, a2, a3, a4, a5, a6⟩ := addChild_identity
                (resetMatrices (Function.update h c { h c with parent := none }) c) pj' c hcp k
              obtain ⟨b1, b2, b3, b4, b5, b6⟩ := h2k k
              exact ⟨a1.trans b1, a2.trans b2, a3.trans b3, a4.trans b4, a5.trans b5,
                fun hk => (a6 hk).trans (b6 hk)⟩
          · cases hh3
          · simp only [Option.some.injEq] at hh3
            subst hh3
            exact h2k k
        intro k
        obtain ⟨a1, a2, a3, a4, a5, a6⟩ := h3k k
        by_cases hk : k = c
        · subst hk
          simp only [Function.update_same]
          exact ⟨a1, a2, a3, a4, rfl, a5⟩
        · rw [Function.update_noteq hk, Function.update_noteq hk]
          exact ⟨a1, a2, a3, a4, a6 hk, a5⟩

theorem FloorFirst.no_match (floor : Nat) (a : App) (n : Nat) (hf : FloorFirst floor a n) :
    getName (a.heap floor) = "no name" ∧ ∀ k, getMeshName a.heap (a.heap k) ≠ "no name" := by
  obtain ⟨-, hcls, -, hm⟩ := hf
  refine ⟨by simp only [getName, hcls], fun k => ?_⟩
  cases hc : (a.heap k).cls with
  | joint =>
    cases hh : (a.heap k).hasMesh with
    | false =>
      simp only [getMeshName, hc, hh, Bool.false_eq_true, if_false]
      decide
    | true =>
      simp only [getMeshName, hc, hh, if_true]
      exact (hm k hc hh).2
  | mesh =>
    simp only [getMeshName, hc]
    decide
  | plane =>
    simp only [getMeshName, hc]
    decide

theorem FloorFirst.transfer (floor : Nat) (a a' : App) (n n' : Nat) (hn : n ≤ n')
    (hhead : a'.meshScene.head? = a.meshScene.head?)
    (hlow : ∀ k, k < n → (a'.heap k).name = (a.heap k).name ∧ (a'.heap k).cls = (a.heap k).cls)
    (hmesh : ∀ k, (a'.heap k).cls = ObjClass.joint → (a'.heap k).hasMesh = true →
      (a.heap k).cls = ObjClass.joint ∧ (a.heap k).hasMesh = true ∧
        (a'.heap k).attatchedMesh = (a.heap k).attatchedMesh)
    (hf : FloorFirst floor a n) : FloorFirst floor a' n' := by
  obtain ⟨h1, h2, h3, h4⟩ := hf
  refine ⟨hhead.trans h1, (hlow floor h3).2.trans h2, by omega, fun k hc hh => ?_⟩
  obtain ⟨c1, c2, c3⟩ := hmesh k hc hh
  obtain ⟨d1, d2⟩ := h4 k c1 c2
  rw [c3]
  refine ⟨by omega, ?_⟩
  obtain ⟨e1, e2⟩ := hlow _ d1
  have : getName (a'.heap (a.heap k).attatchedMesh) = getName (a.heap (a.heap k).attatchedMesh) := by
    simp only [getName, e1, e2]
  rw [this]
  exact d2

theorem FloorFirst.of_identity (floor : Nat) (a a' : App) (n : Nat)
    (hhead : a'.meshScene.head? = a.meshScene.head?)
    (hid : ∀ k, SameIdentity (a.heap k) (a'.heap k))
    (hf : FloorFirst floor a n) : FloorFirst floor a' n := by
  refine FloorFirst.transfer floor a a' n n (le_refl _) hhead (fun k _ => ?_) (fun k hc hh => ?_) hf
  · exact ⟨(hid k).1, (hid k).2.1⟩
  · obtain ⟨-, i2, i3, i4, -⟩ := hid k
    exact ⟨i2 ▸ hc, i3 ▸ hh, i4⟩

theorem eraseLoop_head_some (pred : Nat → Bool) (v : List Nat) (f : Nat) (hv : v.head? = some f)
    (hf : pred f = false) : (eraseLoop pred v 0).head? = some f := by
  cases v with
  | nil => simp at hv
  | cons x rest =>
    simp only [List.head?_cons, Option.some.injEq] at hv
    subst hv
    rw [eraseLoop_head pred x rest hf]
    rfl

theorem name_ne_beq (s t : String) (h : s ≠ t) : (s == t) = false := by
  simpa using h

theorem rehomeChild_floor (m : Libm) (fuel J : Nat) (pj : Option Nat) (floor n : Nat)
    (a a' : App) (c : Nat) (hr : rehomeChild m fuel J pj a c = some a')
    (hf : FloorFirst floor a n) :
    FloorFirst floor a' n ∧ ∀ k, SameIdentity (a.heap k) (a'.heap k) := by
  unfold rehomeChild at hr
  dsimp only at hr
  split at hr
  · rename_i h' hh'
    simp only [Option.some.injEq] at hr
    subst hr
    have hid := rehome_identity m fuel J pj a.heap c h' hh'
    obtain ⟨hn1, hn2⟩ := FloorFirst.no_match floor a n hf
    refine ⟨FloorFirst.of_identity floor a _ n ?_ hid hf, hid⟩
    show (eraseLoop _ a.meshScene 0).head? = a.meshScene.head?
    rw [hf.1]
    apply eraseLoop_head_some _ _ _ hf.1
    apply name_ne_beq
    rw [hn1]
    exact fun e => hn2 c e.symm
  · cases hr

theorem deleteJointChildren_floor (m : Libm) (fuel J : Nat) (pj : Option Nat) (floor n : Nat) :
    ∀ (k i : Nat) (a a' : App), deleteJointChildren m fuel J pj k i a = some a' →
      FloorFirst floor a n →
      FloorFirst floor a' n ∧ (∀ x, SameIdentity (a.heap x) (a'.heap x)) ∧
        a'.joints = a.joints := by
  intro k
  induction k with
  | zero =>
    intro i a a' hr _
    simp only [deleteJointChildren] at hr
    cases hr
  | succ k ih =>
    intro i a a' hr hf
    simp only [deleteJointChildren] at hr
    split at hr
    · simp only [Option.some.injEq] at hr
      subst hr
      exact ⟨hf, fun x => sameIdentity_refl _, rfl⟩
    · rename_i c hc
      split at hr
      · rename_i a1 ha1
        obtain ⟨hf1, hid1⟩ := rehomeChild_floor m fuel J pj floor n a a1 c ha1 hf
        obtain ⟨hf2, hid2, hj2⟩ := ih (i + 1) a1 a' hr hf1
        refine ⟨hf2, fun x => sameIdentity_trans _ _ _ (hid1 x) (hid2 x), hj2.trans ?_⟩
        unfold rehomeChild at ha1
        dsimp only at ha1
        split at ha1
        · simp only [Option.some.injEq] at ha1
          subst ha1
          rfl
        · cases ha1
      · cases hr

theorem deleteJoint_floor (m : Libm) (fuel floor n : Nat) (a a' : App)
    (hr : deleteJoint m fuel a = some a') (hf : FloorFirst floor a n) :
    FloorFirst floor a' n := by
  unfold deleteJoint at hr
  split at hr
  · simp only [Option.some.injEq] at hr
    subst hr
    exact hf
  · rename_i j rest hsel
    dsimp only at hr
    split at hr
    · cases hr
    · rename_i a2 ha2
      simp only [Option.some.injEq] at hr
      subst hr
      have hf1 : FloorFirst floor
          { a with heap :=
            match (a.heap j).parent with
            | some pj =>
              Function.update a.heap pj
                { a.heap pj with
                  childList := eraseLoop (fun c => getName (a.heap c) == getName (a.heap j))
                    (a.heap pj).childList 0 }
            | none => a.heap } n := by
        refine FloorFirst.of_identity floor a _ n rfl (fun k => ?_) hf
        cases (a.heap j).parent with
        | none => exact sameIdentity_refl _
        | some pj =>
          dsimp only
          exact update_identity a.heap pj
            { a.heap pj with
              childList := eraseLoop (fun c => getName (a.heap c) == getName (a.heap j))
                (a.heap pj).childList 0 } ⟨rfl, rfl, rfl, rfl, rfl, rfl⟩ k
      obtain ⟨hf2, -, -⟩ := deleteJointChildren_floor m fuel j _ floor n fuel 0 _ a2 ha2 hf1
      obtain ⟨hn1, hn2⟩ := FloorFirst.no_match floor a2 n hf2
      refine FloorFirst.of_identity floor a2 _ n ?_ (fun k => sameIdentity_refl _) hf2
      show (eraseLoop _ a2.meshScene 0).head? = a2.meshScene.head?
      rw [hf2.1]
      apply eraseLoop_head_some _ _ _ hf2.1
      apply name_ne_beq
      rw [hn1]
      exact fun e => hn2 j e.symm

theorem addJoint_floor (m : Libm) (fuel fresh floor n : Nat) (pos : Vec3) (a a' : App)
    (hr : addJoint m fuel fresh pos a = some a') (hn : n ≤ fresh)
    (hf : FloorFirst floor a n) : FloorFirst floor a' (fresh + 1) := by
  unfold addJoint at hr
  dsimp only at hr
  split at hr
  · cases hr
  · rename_i name cnt hname
    split at hr
    · cases hr
    · rename_i h3 hh3
      simp only [Option.some.injEq] at hr
      subst hr
      obtain ⟨p, rfl⟩ := setPosition_some _ _ _ _ _ _ hh3
      have h2 : ∀ k,
          ((match a.selected with
            | [] => Function.update (Function.update a.heap fresh SceneObject.new) fresh
                { (Function.update a.heap fresh SceneObject.new) fresh with name := name }
            | sel :: _ => addChild
                (Function.update (Function.update a.heap fresh SceneObject.new) fresh
                  { (Function.update a.heap fresh SceneObject.new) fresh with name := name })
                sel fresh) k).cls =
            (Function.update a.heap fresh SceneObject.new k).cls ∧
          ((match a.selected with
            | [] => Function.update (Function.update a.heap fresh SceneObject.new) fresh
                { (Function.update a.heap fresh SceneObject.new) fresh with name := name }
            | sel :: _ => addChild
                (Function.update (Function.update a.heap fresh SceneObject.new) fresh
                  { (Function.update a.heap fresh SceneObject.new) fresh with name := name })
                sel fresh) k).hasMesh =
            (Function.update a.heap fresh SceneObject.new k).hasMesh ∧
          ((match a.selected with
            | [] => Function.update (Function.update a.heap fresh SceneObject.new) fresh
                { (Function.update a.heap fresh SceneObject.new) fresh with name := name }
            | sel :: _ => addChild
                (Function.update (Function.update a.heap fresh SceneObject.new) fresh
                  { (Function.update a.heap fresh SceneObject.new) fresh with name := name })
                sel fresh) k).attatchedMesh =
            (Function.update a.heap fresh SceneObject.new k).attatchedMesh ∧
          (k ≠ fresh →
            ((match a.selected with
              | [] => Function.update (Function.update a.heap fresh SceneObject.new) fresh
                  { (Function.update a.heap fresh SceneObject.new) fresh with name := name }
              | sel :: _ => addChild
                  (Function.update (Function.update a.heap fresh SceneObject.new) fresh
                    { (Function.update a.heap fresh SceneObject.new) fresh with name := name })
                  sel fresh) k).name = (a.heap k).name) := by
        intro k
        have hb : ∀ k,
            (Function.update (Function.update a.heap fresh SceneObject.new) fresh
              { (Function.update a.heap fresh SceneObject.new) fresh with name := name } k).cls =
              (Function.update a.heap fresh SceneObject.new k).cls ∧
            (Function.update (Function.update a.heap fresh SceneObject.new) fresh
              { (Function.update a.heap fresh SceneObject.new) fresh with name := name }
                k).hasMesh = (Function.update a.heap fresh SceneObject.new k).hasMesh ∧
            (Function.update (Function.update a.heap fresh SceneObject.new) fresh
              { (Function.update a.heap fresh SceneObject.new) fresh with name := name }
                k).attatchedMesh =
              (Function.update a.heap fresh SceneObject.new k).attatchedMesh ∧
            (k ≠ fresh →
              (Function.update (Function.update a.heap fresh SceneObject.new) fresh
                { (Function.update a.heap fresh SceneObject.new) fresh with name := name }
                  k).name = (a.heap k).name) := by
          intro k
          by_cases hk : k = fresh
          · subst hk
            simp
          · simp [Function.update_noteq hk]
        cases a.selected with
        | nil => exact hb k
        | cons sel rest =>
          dsimp only
          obtain ⟨a1, a2, a3, a4, -, -⟩ := addChild_fields
            (Function.update (Function.update a.heap fresh SceneObject.new) fresh
              { (Function.update a.heap fresh SceneObject.new) fresh with name := name })
            sel fresh k
          obtain ⟨b1, b2, b3, b4⟩ := hb k
          exact ⟨a2.trans b1, a3.trans b2, a4.trans b3, fun hk => a1.trans (b4 hk)⟩
      refine FloorFirst.transfer floor a _ n (fresh + 1) (by omega) rfl (fun k hk => ?_)
        (fun k hc hh => ?_) hf
      · have hkf : k ≠ fresh := by omega
        obtain ⟨c1, c2, c3, c4⟩ := h2 k
        simp only [Function.update_noteq hkf] at c1 ⊢
        exact ⟨c4 hkf, c1⟩
      · obtain ⟨c1, c2, c3, c4⟩ := h2 k
        by_cases hkf : k = fresh
        · subst hkf
          simp only [Function.update_same] at hh c2
          rw [c2] at hh
          simp [SceneObject.new] at hh
        · simp only [Function.update_noteq hkf] at c1 c2 c3 hc hh ⊢
          exact ⟨c1 ▸ hc, c2 ▸ hh, c3⟩

theorem setup_floor (floor : Nat) : FloorFirst floor (setup floor) (floor + 1) := by
  refine ⟨rfl, by simp [setup], by omega, fun k _ hh => ?_⟩
  by_cases hk : k = floor
  · subst hk
    simp [setup, SceneObject.new] at hh
  · simp [setup, Function.update_noteq hk, SceneObject.new] at hh

theorem loadScriptFile_floor (pv : String → String → String → Option Vec3)
    (fresh floor n n' : Nat) (script : List String) (a a' : App)
    (hr : loadScriptFile pv fresh script a = some a') (hn : n ≤ fresh) (hn' : fresh ≤ n')
    (hf : FloorFirst floor a n) : FloorFirst floor a' n' := by
  obtain ⟨next, f, rest, hms, hms', -, hnext, -, hout, hin⟩ :=
    loadScriptFile_frame pv fresh script a a' hr
  refine FloorFirst.transfer floor a a' n n' (by omega) ?_ (fun k hk => ?_) (fun k hc hh => ?_) hf
  · rw [hms, hms']
    rfl
  · rw [hout k (Or.inl (by omega))]
    exact ⟨rfl, rfl⟩
  · by_cases hk : fresh ≤ k ∧ k < next
    · have := (hin k hk.1 hk.2).2.1
      rw [this] at hh
      cases hh
    · have hk' : k < fresh ∨ next ≤ k := by
        by_contra hc'
        exact hk ⟨by omega, by omega⟩
      rw [hout k hk'] at hc hh ⊢
      exact ⟨hc, hh, rfl⟩

theorem mesh_name_ne (N : Nat) : "mesh" ++ to_string N ≠ "no name" :=
  append_ne_no_name "mesh" (to_string N) (by decide) (by decide)

theorem attach_getName (h : Heap) (sel mesh x : Nat) :
    getName (Function.update h sel { h sel with attatchedMesh := mesh, hasMesh := true } x) =
      getName (h x) := by
  by_cases hx : x = sel
  · subst hx
    rw [Function.update_same]
    rfl
  · rw [Function.update_noteq hx]

theorem attach_floor (floor n sel mesh : Nat) (A : App) (hf0 : FloorFirst floor A n)
    (hm : mesh < n) (hmn : getName (A.heap mesh) ≠ "no name") :
    FloorFirst floor
      { A with
        heap := (Function.update A.heap sel
          { A.heap sel with attatchedMesh := mesh, hasMesh := true })
        meshScene := (eraseLoop
          (fun s => getName (A.heap s) == getMeshName A.heap (A.heap sel)) A.meshScene 0
            ++ [mesh]) } n := by
  obtain ⟨hn1, hn2⟩ := FloorFirst.no_match floor _ _ hf0
  obtain ⟨g1, g2, g3, g4⟩ := hf0
  refine ⟨?_, ?_, g3, fun k hc hh => ?_⟩
  · show (eraseLoop _ A.meshScene 0 ++ [mesh]).head? = some floor
    rw [List.head?_append, eraseLoop_head_some _ _ floor g1 ?_]
    · rfl
    · apply name_ne_beq
      rw [hn1]
      exact fun e => hn2 sel e.symm
  · show ((Function.update A.heap sel _ : Heap) floor).cls = ObjClass.plane
    by_cases hfs : floor = sel
    · subst hfs
      rw [Function.update_same]
      exact g2
    · rw [Function.update_noteq hfs]
      exact g2
  · have hc' : ((Function.update A.heap sel
        { A.heap sel with attatchedMesh := mesh, hasMesh := true } : Heap) k).cls
          = ObjClass.joint := hc
    have hh' : ((Function.update A.heap sel
        { A.heap sel with attatchedMesh := mesh, hasMesh := true } : Heap) k).hasMesh
          = true := hh
    show ((Function.update A.heap sel
        { A.heap sel with attatchedMesh := mesh, hasMesh := true } : Heap) k).attatchedMesh < n ∧
      getName ((Function.update A.heap sel
        { A.heap sel with attatchedMesh := mesh, hasMesh := true } : Heap)
          ((Function.update A.heap sel
            { A.heap sel with attatchedMesh := mesh, hasMesh := true } : Heap)
              k).attatchedMesh) ≠ "no name"
    rw [attach_getName]
    by_cases hks : k = sel
    · rw [hks, Function.update_same]
      exact ⟨hm, hmn⟩
    · rw [Function.update_noteq hks] at hc' hh' ⊢
      exact g4 k hc' hh'

theorem loadObjFile_floor (mesh numMeshes floor n : Nat) (a : App) (hn : n ≤ mesh)
    (hf : FloorFirst floor a n) : FloorFirst floor (loadObjFile mesh numMeshes a).1 (mesh + 1) := by
  -- the state once the new mesh is named
  have hf0 : FloorFirst floor
      { a with
        heap := (Function.update a.heap mesh
          { SceneObject.new with
            cls := ObjClass.mesh, name := "mesh" ++ to_string (numMeshes + 1) }) }
      (mesh + 1) := by
    refine FloorFirst.transfer floor a _ n (mesh + 1) (by omega) rfl (fun k hk => ?_)
      (fun k hc hh => ?_) hf
    · have hkm : k ≠ mesh := by omega
      simp [Function.update_noteq hkm]
    · by_cases hkm : k = mesh
      · subst hkm
        simp at hc
      · simp only [Function.update_noteq hkm] at hc hh ⊢
        exact ⟨hc, hh, trivial⟩
  unfold loadObjFile
  dsimp only
  cases hsel : a.selected with
  | nil => exact hf0
  | cons sel rest =>
    dsimp only
    by_cases hp : (Function.update a.heap mesh
        { SceneObject.new with cls := ObjClass.mesh, name := "mesh" ++ to_string (numMeshes + 1) }
        sel).parent = none
    · rw [if_pos hp]
      exact hf0
    · rw [if_neg hp]
      exact attach_floor floor (mesh + 1) sel mesh _ hf0 (by omega)
        (by
          show getName (Function.update a.heap mesh _ mesh) ≠ "no name"
          rw [Function.update_same]
          exact mesh_name_ne _)

theorem scriptedApp_loaded :
    loadScriptFile (fun _ _ _ => none) 1
        ["create", "-joint", "a", "create", "-joint", "b", "-parent", "a"] (setup 0) =
      some scriptedApp := by
  simp [loadScriptFile, loadScriptLoop, readWord, adoptLoop, setup, scriptedApp, getName,
    SceneObject.new, addChild]

theorem reachable_floorFirst (m : Libm) (pv : String → String → String → Option Vec3)
    (floor : Nat) (a : App) (n : Nat) (hr : Reachable m pv floor a n) : FloorFirst floor a n := by
  induction hr with
  | setup => exact setup_floor floor
  | select a n sel _ _ ih => exact ih
  | addJoint a n fuel fresh pos a' _ hn hadd ih => exact addJoint_floor m fuel fresh floor n pos a a' hadd hn ih
  | deleteJoint a n fuel a' _ hd ih => exact deleteJoint_floor m fuel floor n a a' hd ih
  | loadObjFile a n mesh numMeshes _ hn ih => exact loadObjFile_floor mesh numMeshes floor n a hn ih
  | loadScriptFile a n fresh script a' n' _ hn hrun hn' _ ih =>
    exact loadScriptFile_floor pv fresh floor n n' script a a' hrun hn hn' ih

/-! ## Square roots that are not exact -/

theorem doubledApp_loaded :
    loadScriptFile (fun _ _ _ => none) 1
        ["create", "-joint", "p", "create", "-joint", "j", "-parent", "p", "-parent", "p"]
        (setup 0) = some { doubledApp with selected := [] } := by
  simp [loadScriptFile, loadScriptLoop, readWord, adoptLoop, setup, doubledApp, getName,
    SceneObject.new, addChild]

theorem doubledApp_heap_one :
    doubledApp.heap 1 = { SceneObject.new with name := "p", childList := [2, 2] } := by
  simp [doubledApp, addChild, SceneObject.new]

theorem doubledApp_heap_two :
    doubledApp.heap 2 = { SceneObject.new with name := "j", parent := some 1 } := by
  simp [doubledApp, addChild, SceneObject.new]

theorem doubledApp_rank :
    ∀ n p, (doubledApp.heap n).parent = some p →
      (fun k => if k = 2 then 1 else 0) p < (fun k => if k = 2 then 1 else 0) n := by
  intro n p hp
  by_cases h2 : n = 2
  · subst h2
    rw [doubledApp_heap_two] at hp
    simp only [Option.some.injEq] at hp
    subst hp
    simp
  · exfalso
    have hpar : (doubledApp.heap n).parent = none := by
      by_cases h1 : n = 1
      · subst h1
        rw [doubledApp_heap_one]
        rfl
      · simp only [doubledApp]
        rw [(addChild_fields _ 1 2 n).2.2.2.2.1, if_neg h2,
          (addChild_fields _ 1 2 n).2.2.2.2.1, if_neg h2, Function.update_noteq h2,
          Function.update_noteq h2, Function.update_noteq h1, Function.update_noteq h1]
        exact setup_parent 0 n
    rw [hpar] at hp
    cases hp

theorem doubledApp_delete :
    ∃ fuel0, ∀ fuel, fuel0 ≤ fuel → ∃ a', deleteJoint ratLibm fuel doubledApp = some a' ∧
      a'.joints = [1] ∧ (a'.heap 1).childList = [2] ∧ a'.selected = [] := by
  obtain ⟨fuel0, hf⟩ := deleteJoint_struct ratLibm (fun k => if k = 2 then 1 else 0)
    doubledApp 2 [] rfl doubledApp_rank (by
      intro c hc
      rw [doubledApp_heap_two] at hc
      simp [SceneObject.new] at hc)
  refine ⟨fuel0, fun fuel hfuel => ?_⟩
  obtain ⟨a', hd, hsel, hj, -, -, -, -, hpl, -, -⟩ := hf fuel hfuel
  refine ⟨a', hd, ?_, ?_, hsel⟩
  · rw [hj]
    have hj' : doubledApp.joints = [1, 2] := rfl
    rw [hj']
    simp [eraseLoop, doubledApp_heap_one, doubledApp_heap_two, getName, SceneObject.new]
  · rw [hpl 1 (by rw [doubledApp_heap_two])]
    rw [doubledApp_heap_one, doubledApp_heap_two]
    simp [eraseLoop, doubledApp_heap_one, doubledApp_heap_two, getName, SceneObject.new]

/-! ## `toMat4` of a quaternion that is not a unit -/

theorem toMat4_mul_transpose_general (q : Quat) :
    toMat4 q * (toMat4 q).transpose = 1 + (4 * (1 - q.normSq)) • q.crossSq := by
  ext i j
  fin_cases i <;> fin_cases j <;>
    simp [toMat4, Quat.crossSq, Quat.normSq, Matrix.mul_apply, Fin.sum_univ_four,
      Matrix.transpose_apply, Matrix.vecHead, Matrix.vecTail] <;>
    ring

theorem toMat4_det_general (q : Quat) :
    (toMat4 q).det = 1 + 4 * (q.x ^ 2 + q.y ^ 2 + q.z ^ 2) * (q.normSq - 1) := by
  simp [toMat4, Quat.normSq, Matrix.det_succ_row_zero, Fin.sum_univ_succ, Matrix.det_fin_three,
    Fin.succAbove, Matrix.vecHead, Matrix.vecTail]
  ring

theorem abs_mul_le_sq_add (p r : ℚ) : |p * r| ≤ p ^ 2 + r ^ 2 := by
  rw [abs_le]
  constructor
  · nlinarith [sq_nonneg (p + r)]
  · nlinarith [sq_nonneg (p - r)]

theorem Quat.crossSq_abs_le (q : Quat) (i j : Fin 4) :
    |q.crossSq i j| ≤ q.x ^ 2 + q.y ^ 2 + q.z ^ 2 := by
  have hx := sq_nonneg q.x
  have hy := sq_nonneg q.y
  have hz := sq_nonneg q.z
  have hxy := abs_mul_le_sq_add q.x q.y
  have hxz := abs_mul_le_sq_add q.x q.z
  have hyz := abs_mul_le_sq_add q.y q.z
  fin_cases i <;> fin_cases j <;>
    simp [Quat.crossSq, Matrix.vecHead, Matrix.vecTail]
  all_goals first | linarith | (rw [abs_le]; constructor <;> linarith)

theorem Vec3.abs_le_one_of_unit (v : Vec3) (hv : v.dot v = 1) :
    |v.x| ≤ 1 ∧ |v.y| ≤ 1 ∧ |v.z| ≤ 1 := by
  simp only [Vec3.dot] at hv
  refine ⟨?_, ?_, ?_⟩ <;> rw [abs_le] <;> constructor <;>
    nlinarith [sq_nonneg v.x, sq_nonneg v.y, sq_nonneg v.z, sq_nonneg (v.x + 1),
      sq_nonneg (v.x - 1), sq_nonneg (v.y + 1), sq_nonneg (v.y - 1), sq_nonneg (v.z + 1),
      sq_nonneg (v.z - 1)]

theorem Vec3.abs_dot_le_one (a b : Vec3) (ha : a.dot a = 1) (hb : b.dot b = 1) :
    |a.dot b| ≤ 1 := by
  have hlag : (a.cross b).dot (a.cross b) = a.dot a * b.dot b - a.dot b ^ 2 := by
    simp only [Vec3.cross, Vec3.dot]
    ring
  have hX : 0 ≤ (a.cross b).dot (a.cross b) := by
    simp only [Vec3.dot]
    nlinarith [mul_self_nonneg (a.cross b).x, mul_self_nonneg (a.cross b).y,
      mul_self_nonneg (a.cross b).z]
  rw [ha, hb] at hlag
  rw [abs_le]
  constructor <;> nlinarith [sq_nonneg (a.dot b + 1), sq_nonneg (a.dot b - 1)]

/-- The quaternion that `rotateToVector(a, b)` passes to `toMat4`. -/
theorem rotateToVector_quat (m : Libm) (acos : ℚ → ℚ) (a b : Vec3) :
    ∃ q : Quat, rotateToVector m acos a b = toMat4 q ∧
      q.normSq - 1 = quatDefect m acos a b ∧
      q.x ^ 2 + q.y ^ 2 + q.z ^ 2 = halfAngleSin m acos a b ^ 2 * axisLengthSq m a b ∧
      Matrix.mulVec (toMat4 q) (vec4 (a.cross b) 0) = vec4 (a.cross b) 0 ∧
      (a.dot a = 1 →
        Matrix.mulVec (toMat4 q) (vec4 a 0) =
          vec4 ((b.add (Vec3.smul (cosineDefect m acos a b) a)).add
            (Vec3.smul (sineDefect m acos a b) b)) 0) ∧
      toMat4 q 0 0 + toMat4 q 1 1 + toMat4 q 2 2 - (1 + 2 * a.dot b) =
        2 * cosineDefect m acos a b + 2 * sineDefect m acos a b * a.dot b := by
  refine ⟨angleAxis m (angle acos a b) (normalize m (a.cross b)), rfl, ?_, ?_, ?_, ?_, ?_⟩
  · simp only [Quat.normSq, quatDefect, halfAngleCos, halfAngleSin, axisLengthSq, angleAxis,
      normalize, Vec3.smul, Vec3.dot]
    ring
  · simp only [halfAngleSin, axisLengthSq, angleAxis, normalize, Vec3.smul, Vec3.dot]
    ring
  · rw [toMat4_mulVec]
    refine congrArg (fun v => vec4 v 0) ?_
    simp only [angleAxis, normalize, Vec3.smul, Vec3.cross]
    rw [Vec3.mk.injEq]
    refine ⟨?_, ?_, ?_⟩ <;> ring
  · intro ha
    rw [toMat4_mulVec]
    refine congrArg (fun v => vec4 v 0) ?_
    obtain ⟨ax, ay, az⟩ := a
    obtain ⟨bx, by', bz⟩ := b
    simp only [cosineDefect, sineDefect, halfAngleCos, halfAngleSin, axisLengthSq, angleAxis,
      normalize, Vec3.smul, Vec3.cross, Vec3.dot, Vec3.add] at ha ⊢
    generalize m.cos _ = c
    generalize m.sin _ = s
    generalize 1 / m.sqrt _ = u
    rw [Vec3.mk.injEq]
    refine ⟨?_, ?_, ?_⟩
    · linear_combination (2 * c * s * u * bx) * ha
    · linear_combination (2 * c * s * u * by') * ha
    · linear_combination (2 * c * s * u * bz) * ha
  · simp only [cosineDefect, sineDefect, halfAngleCos, halfAngleSin, axisLengthSq, angleAxis,
      normalize, Vec3.smul, Vec3.cross, Vec3.dot]
    simp [toMat4, Matrix.vecHead, Matrix.vecTail]
    ring

theorem series_sample_cross : Vec3.cross ⟨0, 1, 0⟩ ⟨1, 0, 0⟩ = ⟨0, 0, -1⟩ := by
  norm_num [Vec3.cross]

theorem series_sample_sqrt :
    seriesLibm.sqrt ((Vec3.cross ⟨0, 1, 0⟩ ⟨1, 0, 0⟩).dot (Vec3.cross ⟨0, 1, 0⟩ ⟨1, 0, 0⟩)) = 1 := by
  rw [series_sample_cross]
  norm_num [seriesLibm, newtonSqrt, Vec3.dot, Function.iterate_succ]

theorem series_sample_half : angle seriesAcos ⟨0, 1, 0⟩ ⟨1, 0, 0⟩ * (1 / 2) = 355 / 452 := by
  have e : Vec3.dot ⟨0, 1, 0⟩ ⟨1, 0, 0⟩ = 0 := by norm_num [Vec3.dot]
  rw [angle, e, max_eq_left (by norm_num), min_eq_left (by norm_num)]
  norm_num [seriesAcos]

theorem series_sample_axis : axisLengthSq seriesLibm ⟨0, 1, 0⟩ ⟨1, 0, 0⟩ = 1 := by
  rw [axisLengthSq, normalize, series_sample_sqrt, series_sample_cross]
  norm_num [Vec3.smul, Vec3.dot]

theorem series_sample_defects :
    |quatDefect seriesLibm seriesAcos ⟨0, 1, 0⟩ ⟨1, 0, 0⟩| ≤ 1 / 100000 ∧
    |sineDefect seriesLibm seriesAcos ⟨0, 1, 0⟩ ⟨1, 0, 0⟩| ≤ 1 / 100000 ∧
    |cosineDefect seriesLibm seriesAcos ⟨0, 1, 0⟩ ⟨1, 0, 0⟩| ≤ 1 / 100000 := by
  have e : Vec3.dot ⟨0, 1, 0⟩ ⟨1, 0, 0⟩ = 0 := by norm_num [Vec3.dot]
  simp only [quatDefect, sineDefect, cosineDefect, halfAngleCos, halfAngleSin,
    series_sample_half, series_sample_axis, series_sample_sqrt, e]
  refine ⟨?_, ?_, ?_⟩ <;> rw [abs_le] <;> constructor <;> norm_num [seriesLibm]

theorem ratLibm_sample_sqrt :
    ratLibm.sqrt ((Vec3.cross ⟨1, 0, 0⟩ ⟨7 / 25, 24 / 25, 0⟩).dot
      (Vec3.cross ⟨1, 0, 0⟩ ⟨7 / 25, 24 / 25, 0⟩)) = 24 / 25 := by
  rw [ratLibm_sample_cross]
  exact ratLibm_sqrt_sq (24 / 25) (by norm_num)

theorem ratLibm_sample_axis : axisLengthSq ratLibm ⟨1, 0, 0⟩ ⟨7 / 25, 24 / 25, 0⟩ = 1 := by
  rw [axisLengthSq, normalize, ratLibm_sample_sqrt]
  norm_num [Vec3.cross, Vec3.smul, Vec3.dot]

theorem ratLibm_sample_defects :
    |quatDefect ratLibm ratAcos ⟨1, 0, 0⟩ ⟨7 / 25, 24 / 25, 0⟩| ≤ 0 ∧
    |sineDefect ratLibm ratAcos ⟨1, 0, 0⟩ ⟨7 / 25, 24 / 25, 0⟩| ≤ 0 ∧
    |cosineDefect ratLibm ratAcos ⟨1, 0, 0⟩ ⟨7 / 25, 24 / 25, 0⟩| ≤ 0 := by
  have e : Vec3.dot ⟨1, 0, 0⟩ ⟨7 / 25, 24 / 25, 0⟩ = 7 / 25 := by norm_num [Vec3.dot]
  have hc : ratLibm.cos (1 / 3) = 4 / 5 := by norm_num [ratLibm]
  have hs : ratLibm.sin (1 / 3) = 3 / 5 := by norm_num [ratLibm]
  simp only [quatDefect, sineDefect, cosineDefect, halfAngleCos, halfAngleSin,
    ratAcos_sample, ratLibm_sample_axis, ratLibm_sample_sqrt, e, hc, hs]
  refine ⟨?_, ?_, ?_⟩ <;> norm_num

/-! ## Rational numbers that have no rational square root -/

theorem rat_mul_self_ne_two (x : ℚ) : x * x ≠ 2 := by
  intro h
  have hsq : IsSquare ((2 : ℕ) : ℚ) := ⟨x, by rw [h]; norm_num⟩
  rw [Rat.isSquare_natCast_iff] at hsq
  obtain ⟨r, hr⟩ := hsq
  have hle : r ≤ 1 := by
    by_contra hc
    push_neg at hc
    nlinarith
  interval_cases r <;> omega

theorem rat_mul_self_ne_26 (x : ℚ) : x * x ≠ 26 := by
  intro h
  have hsq : IsSquare ((26 : ℕ) : ℚ) := ⟨x, by rw [h]; norm_num⟩
  rw [Rat.isSquare_natCast_iff] at hsq
  obtain ⟨r, hr⟩ := hsq
  have hle : r ≤ 5 := by
    by_contra hc
    push_neg at hc
    nlinarith
  interval_cases r <;> omega

theorem defaultCam_sample_ray :
    (defaultCam.view.toWorld (2 / 3) (1 / 2)).sub defaultCam.position = ⟨1, 0, -5⟩ := by
  norm_num [defaultCam, ViewPlane.toWorld, ViewPlane.width, ViewPlane.height, Vec3.sub]

theorem series_sample_dot : Vec3.dot ⟨0, 1, 0⟩ ⟨1, 0, 0⟩ = 0 := by
  norm_num [Vec3.dot]
/-! ## The claims -/

/-- C1: in an acyclic hierarchy `getMatrix` returns, whatever the node, and
its result is `getLocalMatrix` of the node when the node has no parent and the
parent's `getMatrix` times the node's `getLocalMatrix` otherwise, where
`getLocalMatrix` is translate(position) × translate(pivot) × rotate ×
translate(-pivot) × scale. -/
theorem getMatrix_eq_parent_mul_local (m : Libm) (h : Heap) (hac : Acyclic h) (n : Nat) :
    ∃ (fuel : Nat) (M : Mat4), (∀ f, fuel ≤ f → getMatrix m h f n = some M) ∧
      ((h n).parent = none → M = (h n).getLocalMatrix m) ∧
      (∀ p, (h n).parent = some p →
        ∃ Mp, (∀ f, fuel ≤ f → getMatrix m h f p = some Mp) ∧
          M = Mp * (h n).getLocalMatrix m) ∧
      (h n).getLocalMatrix m =
        translate (h n).position * translate (h n).pivot * (h n).getRotateMatrix m *
          translate (h n).pivot.neg * scaleMatrix (h n).scale := by
  obtain ⟨rank, hr⟩ := hac
  obtain ⟨M, hM⟩ := getMatrix_of_rank m h rank hr (rank n) n le_rfl
  refine ⟨rank n + 1, M, fun f hf => getMatrix_mono m h n M _ f hf hM, ?_, ?_, rfl⟩
  · intro hp
    rw [getMatrix_root m h _ n hp] at hM
    exact (Option.some.inj hM).symm
  · intro p hp
    have hlt := hr n p hp
    obtain ⟨Mp, hMp⟩ := getMatrix_of_rank m h rank hr (rank p) p le_rfl
    have hMp' : getMatrix m h (rank n) p = some Mp :=
      getMatrix_mono m h p Mp _ _ (by omega) hMp
    refine ⟨Mp, fun f hf => getMatrix_mono m h p Mp _ f (by omega) hMp', ?_⟩
    rw [getMatrix_child m h _ n p Mp hp hMp'] at hM
    exact (Option.some.inj hM).symm

theorem getMatrix_eq_parent_mul_local_witness :
    Acyclic twoJointHeap ∧
    ∃ (fuel : Nat) (M : Mat4), (∀ f, fuel ≤ f → getMatrix ratLibm twoJointHeap f 1 = some M) ∧
      ((twoJointHeap 1).parent = none → M = (twoJointHeap 1).getLocalMatrix ratLibm) ∧
      (∀ p, (twoJointHeap 1).parent = some p →
        ∃ Mp, (∀ f, fuel ≤ f → getMatrix ratLibm twoJointHeap f p = some Mp) ∧
          M = Mp * (twoJointHeap 1).getLocalMatrix ratLibm) ∧
      (twoJointHeap 1).getLocalMatrix ratLibm =
        translate (twoJointHeap 1).position * translate (twoJointHeap 1).pivot *
          (twoJointHeap 1).getRotateMatrix ratLibm *
          translate (twoJointHeap 1).pivot.neg * scaleMatrix (twoJointHeap 1).scale :=
  ⟨acyclic_twoJointHeap,
    getMatrix_eq_parent_mul_local ratLibm twoJointHeap acyclic_twoJointHeap 1⟩

/-- C2: a child with zero rotation and unit scale (any pivot, any local
position `p`) whose parent is a root with zero rotation, unit scale and
translation (1, 2, 3) has world position `p + (1, 2, 3)`. -/
theorem getPosition_child_of_translated_root (m : Libm) (hc : m.cos 0 = 1)
    (hs : m.sin 0 = 0) (h : Heap) (c r : Nat)
    (hpc : (h c).parent = some r) (hrc : (h c).rotation = ⟨0, 0, 0⟩)
    (hsc : (h c).scale = ⟨1, 1, 1⟩)
    (hpr : (h r).parent = none) (hrr : (h r).rotation = ⟨0, 0, 0⟩)
    (hsr : (h r).scale = ⟨1, 1, 1⟩) (htr : (h r).position = ⟨1, 2, 3⟩)
    (fuel : Nat) (hf : 2 ≤ fuel) :
    getPosition m h fuel c = some ((h c).position.add ⟨1, 2, 3⟩) := by
  have hMr : getMatrix m h 1 r = some (translate ⟨1, 2, 3⟩) := by
    rw [getMatrix_root m h 0 r hpr, getLocalMatrix_unrotated m hc hs _ hrr hsr, htr]
  have hMc : getMatrix m h 2 c = some (translate ⟨1, 2, 3⟩ * translate (h c).position) := by
    rw [getMatrix_child m h 1 c r _ hpc hMr, getLocalMatrix_unrotated m hc hs _ hrc hsc]
  have hMf := getMatrix_mono m h c _ 2 fuel hf hMc
  simp only [getPosition, hMf, translate_mul, translate_mulVec, xyz_vec4]
  simp [Vec3.add]
  refine ⟨?_, ?_, ?_⟩ <;> ring

theorem getPosition_child_of_translated_root_witness :
    getPosition ratLibm twoJointHeap 2 1 = some ((twoJointHeap 1).position.add ⟨1, 2, 3⟩) :=
  getPosition_child_of_translated_root ratLibm (by norm_num [ratLibm])
    (by norm_num [ratLibm]) twoJointHeap 1 0 rfl rfl rfl rfl rfl rfl rfl 2 le_rfl

/-- C3 (failing input): on a root placed at (1, 0, 0), with zero rotation and
unit scale, `setPosition((5, 0, 0))` stores the local translation (4, 0, 0),
not (5, 0, 0), and `getPosition()` afterwards returns (4, 0, 0): the inverse
applied is that of the node's own world matrix, which contains the node's old
translation. -/
theorem setPosition_offset_root_misses :
    ∃ h', setPosition ratLibm offsetRootHeap 1 0 ⟨5, 0, 0⟩ = some h' ∧
      (h' 0).position = ⟨4, 0, 0⟩ ∧
      getPosition ratLibm h' 1 0 = some ⟨4, 0, 0⟩ ∧
      getPosition ratLibm h' 1 0 ≠ some ⟨5, 0, 0⟩ := by
  have hc : ratLibm.cos 0 = 1 := by norm_num [ratLibm]
  have hs : ratLibm.sin 0 = 0 := by norm_num [ratLibm]
  have hM : getMatrix ratLibm offsetRootHeap 1 0 = some (translate ⟨1, 0, 0⟩) := by
    rw [getMatrix_root ratLibm offsetRootHeap 0 0 rfl,
      getLocalMatrix_unrotated ratLibm hc hs _ rfl rfl]
    rfl
  have hpos : xyz ((inverse (translate ⟨1, 0, 0⟩)).mulVec (vec4 ⟨5, 0, 0⟩ 1)) = ⟨4, 0, 0⟩ := by
    rw [inverse_translate, translate_mulVec, xyz_vec4]
    norm_num [Vec3.neg]
  refine ⟨_, setPosition_of_getMatrix ratLibm offsetRootHeap 1 0 ⟨5, 0, 0⟩ _ hM, ?_, ?_⟩
  · simp [hpos]
  · have hM' : getMatrix ratLibm
        (Function.update offsetRootHeap 0
          { offsetRootHeap 0 with
            position := xyz ((inverse (translate ⟨1, 0, 0⟩)).mulVec (vec4 ⟨5, 0, 0⟩ 1)) })
        1 0 = some (translate ⟨4, 0, 0⟩) := by
      rw [getMatrix_root ratLibm _ 0 0 (by simp [offsetRootHeap, SceneObject.new]),
        getLocalMatrix_unrotated ratLibm hc hs _ (by simp [offsetRootHeap, SceneObject.new])
          (by simp [offsetRootHeap, SceneObject.new])]
      simp [hpos]
    simp only [getPosition, hM', translate_mulVec, xyz_vec4]
    norm_num

/-- C4: in an acyclic hierarchy `setPosition` returns, and it writes the
`position` field of its node only: the node's rotation, scale, pivot, parent
link, child list (and name) are what they were, and so is every other
object. -/
theorem setPosition_frame (m : Libm) (h : Heap) (hac : Acyclic h) (n : Nat) (pos : Vec3) :
    ∃ (fuel : Nat) (h' : Heap), (∀ f, fuel ≤ f → setPosition m h f n pos = some h') ∧
      (h' n).rotation = (h n).rotation ∧ (h' n).scale = (h n).scale ∧
      (h' n).pivot = (h n).pivot ∧ (h' n).parent = (h n).parent ∧
      (h' n).childList = (h n).childList ∧ (h' n).name = (h n).name ∧
      ∀ k, k ≠ n → h' k = h k := by
  obtain ⟨rank, hr⟩ := hac
  obtain ⟨M, hM⟩ := getMatrix_of_rank m h rank hr (rank n) n le_rfl
  refine ⟨rank n + 1, _, fun f hf => setPosition_of_getMatrix m h f n pos M
    (getMatrix_mono m h n M _ f hf hM), ?_⟩
  · simp only [Function.update_same, true_and]
    intro k hk
    exact Function.update_noteq hk _ _

theorem setPosition_frame_witness :
    Acyclic twoJointHeap ∧
    ∃ (fuel : Nat) (h' : Heap),
      (∀ f, fuel ≤ f → setPosition ratLibm twoJointHeap f 1 ⟨7, 8, 9⟩ = some h') ∧
      (h' 1).rotation = (twoJointHeap 1).rotation ∧ (h' 1).scale = (twoJointHeap 1).scale ∧
      (h' 1).pivot = (twoJointHeap 1).pivot ∧ (h' 1).parent = (twoJointHeap 1).parent ∧
      (h' 1).childList = (twoJointHeap 1).childList ∧ (h' 1).name = (twoJointHeap 1).name ∧
      ∀ k, k ≠ 1 → h' k = twoJointHeap k :=
  ⟨acyclic_twoJointHeap, setPosition_frame ratLibm twoJointHeap acyclic_twoJointHeap 1 ⟨7, 8, 9⟩⟩

/-- C5: `deleteJoint` on a selected joint of an acyclic skeleton whose pivots
are zero and whose scales are one returns, every child of the deleted joint
ends up with the deleted joint's parent link as its own (no parent if the joint
was a root, the joint's parent otherwise), and the world position
`getPosition()` of every such child after the deletion is its world position
before the deletion. -/
theorem deleteJoint_preserves_child_position (m : Libm) (hc : m.cos 0 = 1) (hs : m.sin 0 = 0)
    (htrig : ∀ t, m.cos t ^ 2 + m.sin t ^ 2 = 1)
    (a : App) (j : Nat) (rest : List Nat) (hsel : a.selected = j :: rest)
    (hac : Acyclic a.heap)
    (hkids : ∀ c, c ∈ (a.heap j).childList → (a.heap c).parent = some j)
    (hpiv : ∀ n, (a.heap n).pivot = ⟨0, 0, 0⟩)
    (hsc : ∀ n, (a.heap n).scale = ⟨1, 1, 1⟩) :
    ∃ fuel0, ∀ fuel, fuel0 ≤ fuel → ∃ a', deleteJoint m fuel a = some a' ∧
      ∀ c, c ∈ (a.heap j).childList →
        (a'.heap c).parent = (a.heap j).parent ∧
        ∃ p, getPosition m a.heap fuel c = some p ∧ getPosition m a'.heap fuel c = some p :=
  deleteJoint_preserves_of_det m hc hs a j rest hsel hac hkids (fun c _ => hpiv c)
    (fun pj fuel P _ hP => by
      rw [det_getMatrix m htrig a.heap hsc fuel pj P hP]
      exact one_ne_zero)

theorem deleteJoint_preserves_child_position_witness :
    ∃ fuel0, ∀ fuel, fuel0 ≤ fuel → ∃ a', deleteJoint ratLibm fuel threeJointApp = some a' ∧
      ∀ c, c ∈ (threeJointApp.heap 1).childList →
        (a'.heap c).parent = (threeJointApp.heap 1).parent ∧
        ∃ p, getPosition ratLibm threeJointApp.heap fuel c = some p ∧
          getPosition ratLibm a'.heap fuel c = some p :=
  deleteJoint_preserves_child_position ratLibm (by norm_num [ratLibm]) (by norm_num [ratLibm])
    ratLibm_trig threeJointApp 1 [] rfl acyclic_threeJointHeap
    (fun c hc => by
      have h2 : c = 2 := by simpa [threeJointApp, threeJointHeap, SceneObject.new] using hc
      subst h2
      rfl)
    (fun n => (threeJointHeap_unpivoted n).1) (fun n => (threeJointHeap_unpivoted n).2)

/-- C6: on a plane with normal (0, 1, 0), whenever the ray meets the infinite
plane at `q`, `Plane::intersect` returns false if `q.x` or `q.z` is outside the
rectangle or exactly on its boundary, and returns true (leaving `q` and the
plane's normal in the reference parameters) if `q` is strictly inside. -/
theorem Plane.intersect_rectangle (rp : RayPlaneTest) (pl : Plane) (hn : pl.normal = ⟨0, 1, 0⟩)
    (ray : Ray) (point normal : Vec3) (dist : ℚ)
    (hq : rp ray.p ray.d pl.position pl.normal = some dist) :
    (((ray.evalPoint dist).x ≤ pl.position.x - pl.width / 2 ∨
        (ray.evalPoint dist).x ≥ pl.position.x + pl.width / 2 ∨
        (ray.evalPoint dist).z ≤ pl.position.z - pl.height / 2 ∨
        (ray.evalPoint dist).z ≥ pl.position.z + pl.height / 2) →
      (pl.intersect rp ray point normal).hit = false) ∧
    ((pl.position.x - pl.width / 2 < (ray.evalPoint dist).x ∧
        (ray.evalPoint dist).x < pl.position.x + pl.width / 2 ∧
        pl.position.z - pl.height / 2 < (ray.evalPoint dist).z ∧
        (ray.evalPoint dist).z < pl.position.z + pl.height / 2) →
      pl.intersect rp ray point normal = ⟨true, ray.evalPoint dist, ⟨0, 1, 0⟩⟩) := by
  constructor
  · intro hout
    simp only [Plane.intersect, hq]
    split_ifs with hin
    · exfalso
      obtain ⟨h1, h2, h3, h4⟩ := hin
      simp only [gt_iff_lt] at h2 h4
      rcases hout with h | h | h | h <;> linarith
    · rfl
  · intro hin
    obtain ⟨h1, h2, h3, h4⟩ := hin
    simp only [Plane.intersect, hq]
    rw [if_pos ⟨h2, h1, h4, h3⟩, hn]

theorem Plane.intersect_rectangle_witness :
    floorPlane.normal = ⟨0, 1, 0⟩ ∧
    intersectRayPlane ⟨10, 3, 0⟩ ⟨0, -1, 0⟩ floorPlane.position floorPlane.normal = some 5 ∧
    (floorPlane.intersect intersectRayPlane ⟨⟨10, 3, 0⟩, ⟨0, -1, 0⟩⟩ ⟨0, 0, 0⟩ ⟨0, 0, 0⟩).hit
      = false ∧
    intersectRayPlane ⟨9, 3, -9⟩ ⟨0, -1, 0⟩ floorPlane.position floorPlane.normal = some 5 ∧
    floorPlane.intersect intersectRayPlane ⟨⟨9, 3, -9⟩, ⟨0, -1, 0⟩⟩ ⟨0, 0, 0⟩ ⟨0, 0, 0⟩
      = ⟨true, ⟨9, -2, -9⟩, ⟨0, 1, 0⟩⟩ :=
  have hq : intersectRayPlane ⟨10, 3, 0⟩ ⟨0, -1, 0⟩ floorPlane.position floorPlane.normal
      = some 5 := by
    norm_num [intersectRayPlane, floorPlane, Vec3.dot, Vec3.sub, epsilon]
  have hq' : intersectRayPlane ⟨9, 3, -9⟩ ⟨0, -1, 0⟩ floorPlane.position floorPlane.normal
      = some 5 := by
    norm_num [intersectRayPlane, floorPlane, Vec3.dot, Vec3.sub, epsilon]
  ⟨rfl, hq,
    (Plane.intersect_rectangle intersectRayPlane floorPlane rfl ⟨⟨10, 3, 0⟩, ⟨0, -1, 0⟩⟩
      ⟨0, 0, 0⟩ ⟨0, 0, 0⟩ 5 hq).1
      (by norm_num [Ray.evalPoint, Vec3.add, Vec3.smul, floorPlane]),
    hq',
    by
      have h := (Plane.intersect_rectangle intersectRayPlane floorPlane rfl
        ⟨⟨9, 3, -9⟩, ⟨0, -1, 0⟩⟩ ⟨0, 0, 0⟩ ⟨0, 0, 0⟩ 5 hq').2
        (by norm_num [Ray.evalPoint, Vec3.add, Vec3.smul, floorPlane])
      rw [h]
      norm_num [Ray.evalPoint, Vec3.add, Vec3.smul]⟩

/-- C7 (failing input): the plane through the origin with normal (0, 0, 1),
width 20 and height 20 accepts the hit point (0, 100, 0), whose offset along
the plane's height axis `y` is 100 > height / 2: the test is on `x` and `z`
whatever the normal. -/
theorem Plane.intersect_z_normal_accepts_outside :
    Plane.intersect intersectRayPlane ⟨⟨0, 0, 0⟩, ⟨0, 0, 1⟩, 20, 20⟩
      ⟨⟨0, 100, 5⟩, ⟨0, 0, -1⟩⟩ ⟨0, 0, 0⟩ ⟨0, 0, 0⟩ = ⟨true, ⟨0, 100, 0⟩, ⟨0, 0, 1⟩⟩ := by
  have hq : intersectRayPlane ⟨0, 100, 5⟩ ⟨0, 0, -1⟩ ⟨0, 0, 0⟩ ⟨0, 0, 1⟩ = some 5 := by
    norm_num [intersectRayPlane, Vec3.dot, Vec3.sub, epsilon]
  simp only [Plane.intersect, hq]
  norm_num [Ray.evalPoint, Vec3.add, Vec3.smul]

/-- C8 (as stated, refuted): for the radius 6 the root sphere at the origin is
hit by the ray from (0, 0, 5) along -Z at (0, 0, -6), at distance 11 from the
ray origin and not at 5 - 6. -/
theorem Sphere.intersect_radius_six :
    Sphere.intersect ratLibm freshHeap 1 0 6 ⟨⟨0, 0, 5⟩, ⟨0, 0, -1⟩⟩ ⟨0, 0, 0⟩ ⟨0, 0, 0⟩
      = some ⟨true, ⟨0, 0, -6⟩, ⟨0, 0, -1⟩⟩ ∧
    (⟨0, 0, -6⟩ : Vec3) ≠ (⟨⟨0, 0, 5⟩, ⟨0, 0, -1⟩⟩ : Ray).evalPoint (5 - 6) ∧
    ((⟨0, 0, -6⟩ : Vec3).sub ⟨0, 0, 5⟩).dot ((⟨0, 0, -6⟩ : Vec3).sub ⟨0, 0, 5⟩) ≠ (5 - 6) ^ 2 := by
  have hpos : getPosition ratLibm freshHeap 1 0 = some ⟨0, 0, 0⟩ := by
    simp only [getPosition, getMatrix_root ratLibm freshHeap 0 0 rfl,
      getLocalMatrix_mulVec_origin ratLibm (freshHeap 0) rfl, xyz_vec4]
    rfl
  have hsq : ratLibm.sqrt 36 = 6 := by
    have := ratLibm_sqrt_sq 6 (by norm_num)
    norm_num at this
    exact this
  refine ⟨?_, ?_, ?_⟩
  · simp only [Sphere.intersect, hpos, intersectRaySphere, intersectRaySphereDistance]
    norm_num [Vec3.sub, Vec3.dot, Vec3.add, Vec3.smul, Vec3.sdiv, hsq, epsilon]
  · norm_num [Ray.evalPoint, Vec3.add, Vec3.smul]
  · norm_num [Vec3.sub, Vec3.dot]

/-- C8 (amended): for every radius `r` with `0 < r` and `r + ε < 5`, a root
sphere of radius `r` at the world origin and the ray from (0, 0, 5) along -Z:
`Sphere::intersect` returns true, the hit point is (0, 0, r), which is the point
of the ray at parameter `5 - r > 0` and at squared distance `(5 - r)²` from the
ray origin, and the normal (0, 0, 1) has unit length and, scaled by `r`, is the
vector from the centre to the hit point. -/
theorem Sphere.intersect_along_z (m : Libm) (hsqrt : ∀ x : ℚ, 0 ≤ x → m.sqrt (x * x) = x)
    (h : Heap) (n : Nat) (hroot : (h n).parent = none)
    (hpos : (h n).position = ⟨0, 0, 0⟩) (hpiv : (h n).pivot = ⟨0, 0, 0⟩)
    (r : ℚ) (hr : 0 < r) (hr5 : r + epsilon < 5) (fuel : Nat) (point normal : Vec3) :
    Sphere.intersect m h (fuel + 1) n r ⟨⟨0, 0, 5⟩, ⟨0, 0, -1⟩⟩ point normal
      = some ⟨true, ⟨0, 0, r⟩, ⟨0, 0, 1⟩⟩ ∧
    (⟨0, 0, r⟩ : Vec3) = (⟨⟨0, 0, 5⟩, ⟨0, 0, -1⟩⟩ : Ray).evalPoint (5 - r) ∧
    0 < 5 - r ∧
    ((⟨0, 0, r⟩ : Vec3).sub ⟨0, 0, 5⟩).dot ((⟨0, 0, r⟩ : Vec3).sub ⟨0, 0, 5⟩) = (5 - r) ^ 2 ∧
    (⟨0, 0, 1⟩ : Vec3).dot ⟨0, 0, 1⟩ = 1 ∧
    Vec3.smul r ⟨0, 0, 1⟩ = (⟨0, 0, r⟩ : Vec3).sub ⟨0, 0, 0⟩ := by
  have he : (0 : ℚ) < epsilon := by norm_num [epsilon]
  have hcentre : getPosition m h (fuel + 1) n = some ⟨0, 0, 0⟩ := by
    simp only [getPosition, getMatrix_root m h fuel n hroot,
      getLocalMatrix_mulVec_origin m (h n) hpiv, xyz_vec4, hpos]
  refine ⟨?_, ?_, by linarith, ?_, ?_, ?_⟩
  · have h1 : ¬ ((0 : ℚ) > r * r) := by nlinarith
    have h2 : (5 : ℚ) > r + epsilon := hr5
    have h3 : (5 : ℚ) - r > epsilon := by linarith
    simp only [Sphere.intersect, hcentre, intersectRaySphere, intersectRaySphereDistance]
    norm_num [Vec3.sub, Vec3.dot, Vec3.add, Vec3.smul, Vec3.sdiv, hsqrt r hr.le, h1, h2, h3]
    exact div_self hr.ne'
  · simp [Ray.evalPoint, Vec3.add, Vec3.smul]
  · simp [Vec3.sub, Vec3.dot]; ring
  · simp [Vec3.dot]
  · simp [Vec3.smul, Vec3.sub]

theorem Sphere.intersect_along_z_witness :
    Sphere.intersect ratLibm freshHeap 1 0 2 ⟨⟨0, 0, 5⟩, ⟨0, 0, -1⟩⟩ ⟨0, 0, 0⟩ ⟨0, 0, 0⟩
      = some ⟨true, ⟨0, 0, 2⟩, ⟨0, 0, 1⟩⟩ :=
  (Sphere.intersect_along_z ratLibm ratLibm_sqrt_sq freshHeap 0 rfl rfl rfl 2 (by norm_num)
    (by norm_num [epsilon]) 0 ⟨0, 0, 0⟩ ⟨0, 0, 0⟩).1

/-- C9: the ray from (1/2, 1/2, 5) along -Z meets the first
triangle of `twoLayerMesh` at the parameter 5 and the plane of the second, which
lies behind the ray origin, at the parameter -5; `glm::intersectRayTriangle`
accepts both, and `Mesh::intersect` returns the point (1/2, 1/2, 10) of the
parameter -5, not the point of the minimum positive parameter 5. -/
theorem Mesh.intersect_behind_origin :
    twoLayerMesh.test intersectRayTriangle ⟨⟨1 / 2, 1 / 2, 5⟩, ⟨0, 0, -1⟩⟩
      ⟨![0, 1, 2], ![0, 0, 0]⟩ = some (⟨1 / 4, 1 / 4⟩, 5) ∧
    twoLayerMesh.test intersectRayTriangle ⟨⟨1 / 2, 1 / 2, 5⟩, ⟨0, 0, -1⟩⟩
      ⟨![3, 4, 5], ![0, 0, 0]⟩ = some (⟨1 / 4, 1 / 4⟩, -5) ∧
    (twoLayerMesh.intersect ratLibm intersectRayTriangle ⟨⟨1 / 2, 1 / 2, 5⟩, ⟨0, 0, -1⟩⟩
      ⟨0, 0, 0⟩ ⟨0, 0, 0⟩) = ⟨true, ⟨1 / 2, 1 / 2, 10⟩, ⟨0, 0, 1⟩⟩ ∧
    (twoLayerMesh.intersect ratLibm intersectRayTriangle ⟨⟨1 / 2, 1 / 2, 5⟩, ⟨0, 0, -1⟩⟩
      ⟨0, 0, 0⟩ ⟨0, 0, 0⟩).point ≠
      (⟨1 / 2, 1 / 2, 5⟩ : Vec3).add (Vec3.smul 5 ⟨0, 0, -1⟩) := by
  have hsq : ratLibm.sqrt 4 = 2 := by
    have := ratLibm_sqrt_sq 2 (by norm_num)
    norm_num at this
    exact this
  have hv : ∀ i, twoLayerMesh.vert i = twoLayerMesh.verts.getD i ⟨0, 0, 0⟩ := by
    intro i
    simp [Mesh.vert, twoLayerMesh, xyz_vec4]
  have ht0 : twoLayerMesh.test intersectRayTriangle ⟨⟨1 / 2, 1 / 2, 5⟩, ⟨0, 0, -1⟩⟩
      ⟨![0, 1, 2], ![0, 0, 0]⟩ = some (⟨1 / 4, 1 / 4⟩, 5) := by
    simp only [Mesh.test, hv]
    norm_num [twoLayerMesh, intersectRayTriangle, Vec3.sub, Vec3.cross, Vec3.dot, epsilon]
  have ht1 : twoLayerMesh.test intersectRayTriangle ⟨⟨1 / 2, 1 / 2, 5⟩, ⟨0, 0, -1⟩⟩
      ⟨![3, 4, 5], ![0, 0, 0]⟩ = some (⟨1 / 4, 1 / 4⟩, -5) := by
    simp only [Mesh.test, hv]
    norm_num [twoLayerMesh, intersectRayTriangle, Vec3.sub, Vec3.cross, Vec3.dot, epsilon]
  have hn1 : twoLayerMesh.hitNormal ratLibm ⟨![3, 4, 5], ![0, 0, 0]⟩ ⟨1 / 4, 1 / 4⟩
      = ⟨0, 0, 1⟩ := by
    simp only [Mesh.hitNormal, hv]
    norm_num [twoLayerMesh, normalize, Vec3.sub, Vec3.cross, Vec3.dot, Vec3.smul, hsq]
  have hres : (twoLayerMesh.intersect ratLibm intersectRayTriangle
      ⟨⟨1 / 2, 1 / 2, 5⟩, ⟨0, 0, -1⟩⟩ ⟨0, 0, 0⟩ ⟨0, 0, 0⟩)
      = ⟨true, ⟨1 / 2, 1 / 2, 10⟩, ⟨0, 0, 1⟩⟩ := by
    simp only [Mesh.intersect, Mesh.scan]
    rw [show twoLayerMesh.triangles = [⟨![0, 1, 2], ![0, 0, 0]⟩, ⟨![3, 4, 5], ![0, 0, 0]⟩]
      from rfl]
    simp only [List.foldl, Mesh.step, ht0, ht1, closer, hn1]
    norm_num [Ray.evalPoint, Vec3.add, Vec3.smul]
  refine ⟨ht0, ht1, hres, ?_⟩
  rw [hres]
  norm_num [Vec3.add, Vec3.smul]

/-- What the scan of `Mesh::intersect` computes: it returns true exactly when
the ray–triangle test succeeds for at least one triangle (on the vertices
transformed by `meshTransMatrix`); the point it then returns is
`ray.p + d * ray.d` for the parameter `d` of a triangle whose parameter is
minimal over all triangles that the test accepts, without regard to its sign,
and every earlier triangle that the test accepts has a strictly larger
parameter, so that on equal parameters the earlier triangle wins; `d` is
positive as soon as the test reports positive parameters only. -/
theorem Mesh.intersect_closest (m : Libm) (rt : RayTriangleTest) (mesh : Mesh) (ray : Ray)
    (point normal : Vec3) :
    ((mesh.intersect m rt ray point normal).hit = true ↔
      ∃ t ∈ mesh.triangles, mesh.test rt ray t ≠ none) ∧
    ((mesh.intersect m rt ray point normal).hit = true →
      ∃ (i : Nat) (t : Triangle) (b : Vec2) (d : ℚ),
        mesh.triangles[i]? = some t ∧ mesh.test rt ray t = some (b, d) ∧
        (mesh.intersect m rt ray point normal).point = ray.p.add (Vec3.smul d ray.d) ∧
        (∀ (j : Nat) (t' : Triangle) (b' : Vec2) (d' : ℚ),
          mesh.triangles[j]? = some t' → mesh.test rt ray t' = some (b', d') →
            d ≤ d' ∧ (j < i → d < d')) ∧
        ((∀ (o dir v0 v1 v2 : Vec3) (bc : Vec2) (dd : ℚ),
            rt o dir v0 v1 v2 = some (bc, dd) → 0 < dd) → 0 < d)) := by
  obtain ⟨h1, _, h3⟩ := Mesh.scan_invariant m rt mesh ray point normal mesh.triangles
  refine ⟨h1, fun hh => ?_⟩
  obtain ⟨i, t, b, d, hi, ht, _, hpt, _, hmin⟩ := h3 hh
  exact ⟨i, t, b, d, hi, ht, hpt, hmin, fun hpos => hpos _ _ _ _ _ b d ht⟩

/-- C10 (as stated, refuted): on the flat-shaded triangle (0, 0, 0), (2, 0, 0),
(0, 2, 0) the normal returned is (0, 0, 1), the cross product of the normalized
edge vectors, and not the raw cross product (0, 0, 4) of the edge vectors. -/
theorem Mesh.intersect_flat_normal_not_raw :
    (flatTriangleMesh.intersect ratLibm intersectRayTriangle ⟨⟨1 / 2, 1 / 2, 5⟩, ⟨0, 0, -1⟩⟩
      ⟨0, 0, 0⟩ ⟨0, 0, 0⟩) = ⟨true, ⟨1 / 2, 1 / 2, 0⟩, ⟨0, 0, 1⟩⟩ ∧
    ((flatTriangleMesh.vert 1).sub (flatTriangleMesh.vert 0)).cross
      ((flatTriangleMesh.vert 2).sub (flatTriangleMesh.vert 0)) = ⟨0, 0, 4⟩ ∧
    (flatTriangleMesh.intersect ratLibm intersectRayTriangle ⟨⟨1 / 2, 1 / 2, 5⟩, ⟨0, 0, -1⟩⟩
      ⟨0, 0, 0⟩ ⟨0, 0, 0⟩).normal ≠
      ((flatTriangleMesh.vert 1).sub (flatTriangleMesh.vert 0)).cross
        ((flatTriangleMesh.vert 2).sub (flatTriangleMesh.vert 0)) := by
  obtain ⟨hv0, hv1, hv2⟩ := flatTriangleMesh_vert
  refine ⟨flatTriangleMesh_intersect, ?_, ?_⟩
  · rw [hv0, hv1, hv2]
    norm_num [Vec3.sub, Vec3.cross]
  · rw [flatTriangleMesh_intersect, hv0, hv1, hv2]
    norm_num [Vec3.sub, Vec3.cross]

/-- C10 (amended): on a hit, the normal returned by `Mesh::intersect` belongs to
the winning triangle (minimal parameter, earliest on ties) and is, with smooth
shading, the normalized blend `(1-u-v)*n0 + u*n1 + v*n2` of that triangle's
transformed vertex normals at the winning hit's barycentric coordinates, and,
with flat shading, the cross product `normalize(v1-v0) × normalize(v2-v0)` of
that triangle's normalized transformed edge vectors. -/
theorem Mesh.intersect_normal (m : Libm) (rt : RayTriangleTest) (mesh : Mesh) (ray : Ray)
    (point normal : Vec3) :
    (mesh.intersect m rt ray point normal).hit = true →
      ∃ (i : Nat) (t : Triangle) (b : Vec2) (d : ℚ),
        mesh.triangles[i]? = some t ∧ mesh.test rt ray t = some (b, d) ∧
        (∀ (j : Nat) (t' : Triangle) (b' : Vec2) (d' : ℚ),
          mesh.triangles[j]? = some t' → mesh.test rt ray t' = some (b', d') →
            d ≤ d' ∧ (j < i → d < d')) ∧
        (mesh.smoothShading = true →
          (mesh.intersect m rt ray point normal).normal =
            normalize m
              (((Vec3.smul (1 - b.x - b.y) (mesh.nVert m (t.nVertInd 0))).add
                (Vec3.smul b.x (mesh.nVert m (t.nVertInd 1)))).add
                (Vec3.smul b.y (mesh.nVert m (t.nVertInd 2))))) ∧
        (mesh.smoothShading = false →
          (mesh.intersect m rt ray point normal).normal =
            (normalize m ((mesh.vert (t.vertInd 1)).sub (mesh.vert (t.vertInd 0)))).cross
              (normalize m ((mesh.vert (t.vertInd 2)).sub (mesh.vert (t.vertInd 0))))) := by
  intro hh
  obtain ⟨_, _, h3⟩ := Mesh.scan_invariant m rt mesh ray point normal mesh.triangles
  obtain ⟨i, t, b, d, hi, ht, _, _, hnm, hmin⟩ := h3 hh
  refine ⟨i, t, b, d, hi, ht, hmin, fun hs => ?_, fun hs => ?_⟩
  · show (mesh.scan m rt ray ⟨false, none, point, normal⟩ mesh.triangles).normal = _
    rw [hnm]
    simp [Mesh.hitNormal, hs]
  · show (mesh.scan m rt ray ⟨false, none, point, normal⟩ mesh.triangles).normal = _
    rw [hnm]
    simp [Mesh.hitNormal, hs]

theorem Mesh.intersect_normal_witness :
    ∃ (i : Nat) (t : Triangle) (b : Vec2) (d : ℚ),
      flatTriangleMesh.triangles[i]? = some t ∧
      flatTriangleMesh.test intersectRayTriangle ⟨⟨1 / 2, 1 / 2, 5⟩, ⟨0, 0, -1⟩⟩ t = some (b, d) ∧
      (∀ (j : Nat) (t' : Triangle) (b' : Vec2) (d' : ℚ),
        flatTriangleMesh.triangles[j]? = some t' →
          flatTriangleMesh.test intersectRayTriangle ⟨⟨1 / 2, 1 / 2, 5⟩, ⟨0, 0, -1⟩⟩ t'
            = some (b', d') →
          d ≤ d' ∧ (j < i → d < d')) ∧
      (flatTriangleMesh.smoothShading = true →
        (flatTriangleMesh.intersect ratLibm intersectRayTriangle
            ⟨⟨1 / 2, 1 / 2, 5⟩, ⟨0, 0, -1⟩⟩ ⟨0, 0, 0⟩ ⟨0, 0, 0⟩).normal =
          normalize ratLibm
            (((Vec3.smul (1 - b.x - b.y) (flatTriangleMesh.nVert ratLibm (t.nVertInd 0))).add
              (Vec3.smul b.x (flatTriangleMesh.nVert ratLibm (t.nVertInd 1)))).add
              (Vec3.smul b.y (flatTriangleMesh.nVert ratLibm (t.nVertInd 2))))) ∧
      (flatTriangleMesh.smoothShading = false →
        (flatTriangleMesh.intersect ratLibm intersectRayTriangle
            ⟨⟨1 / 2, 1 / 2, 5⟩, ⟨0, 0, -1⟩⟩ ⟨0, 0, 0⟩ ⟨0, 0, 0⟩).normal =
          (normalize ratLibm
            ((flatTriangleMesh.vert (t.vertInd 1)).sub (flatTriangleMesh.vert (t.vertInd 0)))).cross
            (normalize ratLibm
              ((flatTriangleMesh.vert (t.vertInd 2)).sub
                (flatTriangleMesh.vert (t.vertInd 0))))) :=
  Mesh.intersect_normal ratLibm intersectRayTriangle flatTriangleMesh
    ⟨⟨1 / 2, 1 / 2, 5⟩, ⟨0, 0, -1⟩⟩ ⟨0, 0, 0⟩ ⟨0, 0, 0⟩
    (by rw [flatTriangleMesh_intersect])

/-- C11: with smooth shading, when two triangles share the edge from `A` to `B`
(`A ≠ B`) and use the same transformed normals `nA`, `nB` at its two ends, two
hits that lie on that edge and are the same point get the same normal from
either triangle, namely the normalized blend of `nA` and `nB` by the weights of
the point along the edge; with flat shading the normal of a triangle does not
depend on the hit point and is the face normal `(v1 - v0) × (v2 - v0)` scaled
by `1 / |v1 - v0|` and `1 / |v2 - v0|`, hence perpendicular to both edges. -/
theorem Mesh.hitNormal_edge_and_face (m : Libm) (mesh : Mesh) :
    (mesh.smoothShading = true →
      ∀ (t1 t2 : Triangle) (b1 b2 : Vec2) (i1 j1 k1 i2 j2 k2 : Fin 3),
        (i1 ≠ j1 ∧ i1 ≠ k1 ∧ j1 ≠ k1) → (i2 ≠ j2 ∧ i2 ≠ k2 ∧ j2 ≠ k2) →
        mesh.vert (t1.vertInd i1) = mesh.vert (t2.vertInd i2) →
        mesh.vert (t1.vertInd j1) = mesh.vert (t2.vertInd j2) →
        mesh.vert (t1.vertInd i1) ≠ mesh.vert (t1.vertInd j1) →
        mesh.nVert m (t1.nVertInd i1) = mesh.nVert m (t2.nVertInd i2) →
        mesh.nVert m (t1.nVertInd j1) = mesh.nVert m (t2.nVertInd j2) →
        baryWeight b1 k1 = 0 → baryWeight b2 k2 = 0 →
        mesh.baryPoint t1 b1 = mesh.baryPoint t2 b2 →
        mesh.hitNormal m t1 b1 = mesh.hitNormal m t2 b2 ∧
        mesh.hitNormal m t1 b1 =
          normalize m
            ((Vec3.smul (baryWeight b1 i1) (mesh.nVert m (t1.nVertInd i1))).add
              (Vec3.smul (baryWeight b1 j1) (mesh.nVert m (t1.nVertInd j1))))) ∧
    (mesh.smoothShading = false →
      ∀ (t : Triangle) (b b' : Vec2),
        mesh.hitNormal m t b = mesh.hitNormal m t b' ∧
        mesh.hitNormal m t b =
          Vec3.smul
            (1 / m.sqrt (((mesh.vert (t.vertInd 1)).sub (mesh.vert (t.vertInd 0))).dot
                ((mesh.vert (t.vertInd 1)).sub (mesh.vert (t.vertInd 0)))) *
              (1 / m.sqrt (((mesh.vert (t.vertInd 2)).sub (mesh.vert (t.vertInd 0))).dot
                ((mesh.vert (t.vertInd 2)).sub (mesh.vert (t.vertInd 0))))))
            (((mesh.vert (t.vertInd 1)).sub (mesh.vert (t.vertInd 0))).cross
              ((mesh.vert (t.vertInd 2)).sub (mesh.vert (t.vertInd 0)))) ∧
        (mesh.hitNormal m t b).dot
          ((mesh.vert (t.vertInd 1)).sub (mesh.vert (t.vertInd 0))) = 0 ∧
        (mesh.hitNormal m t b).dot
          ((mesh.vert (t.vertInd 2)).sub (mesh.vert (t.vertInd 0))) = 0) := by
  constructor
  · intro hs t1 t2 b1 b2 i1 j1 k1 i2 j2 k2 hd1 hd2 hA hB hAB hnA hnB hk1 hk2 hP
    obtain ⟨s1, p1, n1⟩ := bary_on_edge (fun i => mesh.vert (t1.vertInd i))
      (fun i => mesh.nVert m (t1.nVertInd i)) b1 i1 j1 k1 hd1 hk1
    obtain ⟨s2, p2, n2⟩ := bary_on_edge (fun i => mesh.vert (t2.vertInd i))
      (fun i => mesh.nVert m (t2.nVertInd i)) b2 i2 j2 k2 hd2 hk2
    have hP' : (Vec3.smul (baryWeight b1 i1) (mesh.vert (t1.vertInd i1))).add
        (Vec3.smul (baryWeight b1 j1) (mesh.vert (t1.vertInd j1))) =
        (Vec3.smul (baryWeight b2 i2) (mesh.vert (t1.vertInd i1))).add
        (Vec3.smul (baryWeight b2 j2) (mesh.vert (t1.vertInd j1))) := by
      rw [← p1, hA, hB, ← p2]
      exact hP
    have hw : baryWeight b1 i1 - baryWeight b2 i2 = 0 := by
      apply smul_sub_eq_zero_of_ne _ _ _ hAB
      have hj1 : baryWeight b1 j1 = 1 - baryWeight b1 i1 := by linarith
      have hj2 : baryWeight b2 j2 = 1 - baryWeight b2 i2 := by linarith
      rw [hj1, hj2] at hP'
      simp only [Vec3.smul, Vec3.add, Vec3.sub, Vec3.mk.injEq] at hP' ⊢
      obtain ⟨hx, hy, hz⟩ := hP'
      exact ⟨by linarith, by linarith, by linarith⟩
    have hwi : baryWeight b1 i1 = baryWeight b2 i2 := by linarith
    have hwj : baryWeight b1 j1 = baryWeight b2 j2 := by linarith
    have e1 : mesh.hitNormal m t1 b1 = normalize m
        ((Vec3.smul (baryWeight b1 i1) (mesh.nVert m (t1.nVertInd i1))).add
          (Vec3.smul (baryWeight b1 j1) (mesh.nVert m (t1.nVertInd j1)))) := by
      simp only [Mesh.hitNormal, hs, if_true]
      rw [n1]
    have e2 : mesh.hitNormal m t2 b2 = normalize m
        ((Vec3.smul (baryWeight b2 i2) (mesh.nVert m (t2.nVertInd i2))).add
          (Vec3.smul (baryWeight b2 j2) (mesh.nVert m (t2.nVertInd j2)))) := by
      simp only [Mesh.hitNormal, hs, if_true]
      rw [n2]
    refine ⟨?_, e1⟩
    rw [e1, e2, hwi, hwj, hnA, hnB]
  · intro hs t b b'
    have e : ∀ c : Vec2, mesh.hitNormal m t c =
        (normalize m ((mesh.vert (t.vertInd 1)).sub (mesh.vert (t.vertInd 0)))).cross
          (normalize m ((mesh.vert (t.vertInd 2)).sub (mesh.vert (t.vertInd 0)))) := by
      intro c
      simp [Mesh.hitNormal, hs]
    rw [e b, e b']
    generalize (mesh.vert (t.vertInd 1)).sub (mesh.vert (t.vertInd 0)) = e1
    generalize (mesh.vert (t.vertInd 2)).sub (mesh.vert (t.vertInd 0)) = e2
    simp only [normalize]
    generalize (1 / m.sqrt (e1.dot e1)) = k1
    generalize (1 / m.sqrt (e2.dot e2)) = k2
    refine ⟨trivial, ?_, ?_, ?_⟩
    · simp only [Vec3.smul, Vec3.cross, Vec3.mk.injEq]
      exact ⟨by ring, by ring, by ring⟩
    · simp only [Vec3.smul, Vec3.cross, Vec3.dot]
      ring
    · simp only [Vec3.smul, Vec3.cross, Vec3.dot]
      ring

theorem Mesh.hitNormal_edge_and_face_witness :
    sharedEdgeMesh.hitNormal ratLibm ⟨![0, 1, 2], ![0, 1, 2]⟩ ⟨1 / 4, 0⟩ =
      sharedEdgeMesh.hitNormal ratLibm ⟨![1, 0, 3], ![1, 0, 2]⟩ ⟨3 / 4, 0⟩ :=
  have hv : ∀ i, sharedEdgeMesh.vert i = sharedEdgeMesh.verts.getD i ⟨0, 0, 0⟩ := by
    intro i
    simp [Mesh.vert, sharedEdgeMesh, xyz_vec4]
  ((Mesh.hitNormal_edge_and_face ratLibm sharedEdgeMesh).1 rfl
    ⟨![0, 1, 2], ![0, 1, 2]⟩ ⟨![1, 0, 3], ![1, 0, 2]⟩ ⟨1 / 4, 0⟩ ⟨3 / 4, 0⟩ 0 1 2 1 0 2
    (by decide) (by decide) rfl rfl
    (by
      rw [hv, hv]
      simp [sharedEdgeMesh])
    rfl rfl
    (by simp [baryWeight]) (by simp [baryWeight])
    (by
      simp only [Mesh.baryPoint, hv]
      norm_num [sharedEdgeMesh, Vec3.smul, Vec3.add])).1

/-- C12: for a pixel of the image whose ray hits at least one object of
`meshScene`, the scene splits as `l1 ++ c :: l2` around an object `c` that the
ray hits at `pt` with normal `nr`, every object before `c` that the ray hits is
hit strictly farther from the ray origin than `pt`, every object after `c` that
the ray hits is hit at least as far, and the colour `rayTrace` leaves in the
cell of the pixel is `phong` at `pt` and `nr` with the colour of `c` at `pt`. -/
theorem rayTrace_closest_first {C : Type} (o : Outside C) (s : Scene C) (f : Frame C)
    (i j : Nat) (hi : i < s.imageWidth) (hj : j < s.imageHeight)
    (hhit : ∃ e ∈ s.meshScene, ∃ p n, (e.intersect o (pixelRay o s i j) p n).hit = true) :
    ∃ l1 c l2 pt nr, s.meshScene = l1 ++ c :: l2 ∧
      (∀ p n, c.intersect o (pixelRay o s i j) p n = ⟨true, pt, nr⟩) ∧
      (∀ e ∈ l1, ∀ p n, (e.intersect o (pixelRay o s i j) p n).hit = true →
        distance o.libm (pixelRay o s i j).p pt <
          distance o.libm (pixelRay o s i j).p (e.intersect o (pixelRay o s i j) p n).point) ∧
      (∀ e ∈ l2, ∀ p n, (e.intersect o (pixelRay o s i j) p n).hit = true →
        distance o.libm (pixelRay o s i j).p pt ≤
          distance o.libm (pixelRay o s i j).p (e.intersect o (pixelRay o s i j) p n).point) ∧
      (rayTrace o s f).image i (s.imageHeight - 1 - j) =
        phong o s (pixelRay o s i j) pt nr (c.getColor pt) o.white s.phongPower := by
  obtain ⟨e0, he0, p0, n0, hh0⟩ := hhit
  have hne : s.meshScene ≠ [] := by
    intro h
    rw [h] at he0
    simp at he0
  have hcell := rayTrace_cell o s f hne i j hi hj
  cases hb : closestHit o (pixelRay o s i j) s.meshScene with
  | none =>
    have h1 := (closestHit_none_iff o (pixelRay o s i j) s.meshScene).1 hb e0 he0
    rw [Entity.hitData_of_hit o e0 (pixelRay o s i j) p0 n0 hh0] at h1
    simp at h1
  | some b =>
    obtain ⟨c, pt, nr⟩ := b
    obtain ⟨l1, l2, hl, hc, h1, h2⟩ :=
      closestHit_first_min o (pixelRay o s i j) s.meshScene c pt nr hb
    refine ⟨l1, c, l2, pt, nr, hl, Entity.hitData_some o c (pixelRay o s i j) pt nr hc, ?_, ?_, ?_⟩
    · intro e he p n hh
      exact h1 e he _ _ (Entity.hitData_of_hit o e (pixelRay o s i j) p n hh)
    · intro e he p n hh
      exact h2 e he _ _ (Entity.hitData_of_hit o e (pixelRay o s i j) p n hh)
    · rw [hcell, hb]
      rfl

theorem rayTrace_closest_first_witness :
    (0 < tiltedScene.imageWidth ∧ 0 < tiltedScene.imageHeight ∧
      ∃ e ∈ tiltedScene.meshScene, ∃ p n,
        (e.intersect ratOutside (pixelRay ratOutside tiltedScene 0 0) p n).hit = true) ∧
    ∃ l1 c l2 pt nr, tiltedScene.meshScene = l1 ++ c :: l2 ∧
      (∀ p n, c.intersect ratOutside (pixelRay ratOutside tiltedScene 0 0) p n = ⟨true, pt, nr⟩) ∧
      (∀ e ∈ l1, ∀ p n,
        (e.intersect ratOutside (pixelRay ratOutside tiltedScene 0 0) p n).hit = true →
        distance ratOutside.libm (pixelRay ratOutside tiltedScene 0 0).p pt <
          distance ratOutside.libm (pixelRay ratOutside tiltedScene 0 0).p
            (e.intersect ratOutside (pixelRay ratOutside tiltedScene 0 0) p n).point) ∧
      (∀ e ∈ l2, ∀ p n,
        (e.intersect ratOutside (pixelRay ratOutside tiltedScene 0 0) p n).hit = true →
        distance ratOutside.libm (pixelRay ratOutside tiltedScene 0 0).p pt ≤
          distance ratOutside.libm (pixelRay ratOutside tiltedScene 0 0).p
            (e.intersect ratOutside (pixelRay ratOutside tiltedScene 0 0) p n).point) ∧
      (rayTrace ratOutside tiltedScene greyFrame).image 0 (tiltedScene.imageHeight - 1 - 0) =
        phong ratOutside tiltedScene (pixelRay ratOutside tiltedScene 0 0) pt nr (c.getColor pt)
          ratOutside.white tiltedScene.phongPower :=
  have hhit : ∃ e ∈ tiltedScene.meshScene, ∃ p n,
      (e.intersect ratOutside (pixelRay ratOutside tiltedScene 0 0) p n).hit = true :=
    ⟨floorEntity, by simp [tiltedScene], ⟨0, 0, 0⟩, ⟨0, 0, 0⟩, by
      rw [tiltedScene_pixelRay, floorEntity_tilted]⟩
  ⟨⟨by decide, by decide, hhit⟩,
    rayTrace_closest_first ratOutside tiltedScene greyFrame 0 0 (by decide) (by decide) hhit⟩

/-- C13: `toWorld(u, v)` is (min.x + u (max.x - min.x), min.y + v (max.y - min.y),
position.z); `toWorld(0, 0)` is the min corner and `toWorld(1, 1)` the max
corner, both at the depth position.z; and for `u`, `v` in [0, 1] the result
lies between the two corners in `x` and in `y`. -/
theorem ViewPlane.toWorld_interpolates (vp : ViewPlane) (u v : ℚ) :
    vp.toWorld u v =
      ⟨vp.min.x + u * (vp.max.x - vp.min.x), vp.min.y + v * (vp.max.y - vp.min.y),
        vp.position.z⟩ ∧
    vp.toWorld 0 0 = ⟨vp.min.x, vp.min.y, vp.position.z⟩ ∧
    vp.toWorld 1 1 = ⟨vp.max.x, vp.max.y, vp.position.z⟩ ∧
    (0 ≤ u → u ≤ 1 → 0 ≤ v → v ≤ 1 →
      vp.min.x ⊓ vp.max.x ≤ (vp.toWorld u v).x ∧ (vp.toWorld u v).x ≤ vp.min.x ⊔ vp.max.x ∧
      vp.min.y ⊓ vp.max.y ≤ (vp.toWorld u v).y ∧ (vp.toWorld u v).y ≤ vp.min.y ⊔ vp.max.y ∧
      (vp.min.x ≤ vp.max.x → vp.min.x ≤ (vp.toWorld u v).x ∧ (vp.toWorld u v).x ≤ vp.max.x) ∧
      (vp.min.y ≤ vp.max.y → vp.min.y ≤ (vp.toWorld u v).y ∧ (vp.toWorld u v).y ≤ vp.max.y)) := by
  refine ⟨?_, ?_, ?_, ?_⟩
  · simp only [ViewPlane.toWorld, ViewPlane.width, ViewPlane.height, Vec3.mk.injEq]
    exact ⟨by ring, by ring, trivial⟩
  · simp [ViewPlane.toWorld]
  · simp [ViewPlane.toWorld, ViewPlane.width, ViewPlane.height]
  · intro hu0 hu1 hv0 hv1
    have between : ∀ (a b t : ℚ), 0 ≤ t → t ≤ 1 →
        a ⊓ b ≤ t * (b - a) + a ∧ t * (b - a) + a ≤ a ⊔ b ∧
        (a ≤ b → a ≤ t * (b - a) + a ∧ t * (b - a) + a ≤ b) := by
      intro a b t ht0 ht1
      rcases le_total a b with hab | hab
      · have h1 : a ≤ t * (b - a) + a := by nlinarith
        have h2 : t * (b - a) + a ≤ b := by nlinarith
        exact ⟨le_trans inf_le_left h1, le_trans h2 le_sup_right, fun _ => ⟨h1, h2⟩⟩
      · have h1 : b ≤ t * (b - a) + a := by nlinarith
        have h2 : t * (b - a) + a ≤ a := by nlinarith
        exact ⟨le_trans inf_le_right h1, le_trans h2 le_sup_left,
          fun hab' => by
            have hab'' : a = b := le_antisymm hab' hab
            subst hab''
            simp⟩
    obtain ⟨x1, x2, x3⟩ := between vp.min.x vp.max.x u hu0 hu1
    obtain ⟨y1, y2, y3⟩ := between vp.min.y vp.max.y v hv0 hv1
    exact ⟨x1, x2, y1, y2, x3, y3⟩

/-- C14 (as stated, refuted): for the default camera and `(u, v) = (2/3, 1/2)` the
vector `toWorld(u, v) - position` is (1, 0, -5), of squared length 26, and for
every math library the direction that `getRay` returns has a squared length
other than 1: the direction is the vector divided by a rational number, and 26
has no rational square root. -/
theorem RenderCam.getRay_not_unit :
    (defaultCam.view.toWorld (2 / 3) (1 / 2)).sub defaultCam.position = ⟨1, 0, -5⟩ ∧
    ∀ m : Libm,
      (defaultCam.getRay m (2 / 3) (1 / 2)).d.dot (defaultCam.getRay m (2 / 3) (1 / 2)).d ≠ 1 := by
  refine ⟨defaultCam_sample_ray, fun m h => ?_⟩
  simp only [RenderCam.getRay, normalize, defaultCam_sample_ray] at h
  generalize m.sqrt _ = s at h
  simp only [Vec3.smul, Vec3.dot] at h
  by_cases hs : s = 0
  · subst hs
    norm_num at h
  · apply rat_mul_self_ne_26 s
    field_simp at h
    linarith

/-- C14 (amended): for every `u`, `v` at which the computed length
`s = sqrt(|toWorld(u, v) - position|²)` is positive, `getRay(u, v)` starts at the
camera position and its direction is the positive multiple `1 / s` of
`toWorld(u, v) - position`. The squared length of the direction times `s²` is
`|toWorld(u, v) - position|²`: the length is exactly 1 where the square root is
exact, and in general the squared length is within `ε` of 1 when the square of
`s` is within the relative error `ε` of the squared length. -/
theorem RenderCam.getRay_unit (m : Libm) (cam : RenderCam) (u v : ℚ)
    (hpos : 0 < m.sqrt (((cam.view.toWorld u v).sub cam.position).dot
      ((cam.view.toWorld u v).sub cam.position))) :
    (cam.getRay m u v).p = cam.position ∧
    (∃ k : ℚ, 0 < k ∧
      (cam.getRay m u v).d = Vec3.smul k ((cam.view.toWorld u v).sub cam.position)) ∧
    (cam.getRay m u v).d.dot (cam.getRay m u v).d *
        (m.sqrt (((cam.view.toWorld u v).sub cam.position).dot
            ((cam.view.toWorld u v).sub cam.position)) *
          m.sqrt (((cam.view.toWorld u v).sub cam.position).dot
            ((cam.view.toWorld u v).sub cam.position))) =
      ((cam.view.toWorld u v).sub cam.position).dot
        ((cam.view.toWorld u v).sub cam.position) ∧
    (m.sqrt (((cam.view.toWorld u v).sub cam.position).dot
          ((cam.view.toWorld u v).sub cam.position)) *
        m.sqrt (((cam.view.toWorld u v).sub cam.position).dot
          ((cam.view.toWorld u v).sub cam.position)) =
      ((cam.view.toWorld u v).sub cam.position).dot
        ((cam.view.toWorld u v).sub cam.position) →
      (cam.getRay m u v).d.dot (cam.getRay m u v).d = 1) ∧
    (∀ ε : ℚ,
      |m.sqrt (((cam.view.toWorld u v).sub cam.position).dot
            ((cam.view.toWorld u v).sub cam.position)) *
          m.sqrt (((cam.view.toWorld u v).sub cam.position).dot
            ((cam.view.toWorld u v).sub cam.position)) -
        ((cam.view.toWorld u v).sub cam.position).dot
          ((cam.view.toWorld u v).sub cam.position)| ≤
        ε * (m.sqrt (((cam.view.toWorld u v).sub cam.position).dot
            ((cam.view.toWorld u v).sub cam.position)) *
          m.sqrt (((cam.view.toWorld u v).sub cam.position).dot
            ((cam.view.toWorld u v).sub cam.position))) →
      |(cam.getRay m u v).d.dot (cam.getRay m u v).d - 1| ≤ ε) := by
  simp only [RenderCam.getRay, normalize]
  generalize ((cam.view.toWorld u v).sub cam.position) = w at hpos ⊢
  generalize m.sqrt (w.dot w) = s at hpos ⊢
  have hs : s ≠ 0 := ne_of_gt hpos
  have hdd : (Vec3.smul (1 / s) w).dot (Vec3.smul (1 / s) w) = w.dot w / (s * s) := by
    simp only [Vec3.smul, Vec3.dot]
    field_simp
  have hss : 0 < s * s := mul_pos hpos hpos
  refine ⟨trivial, ⟨1 / s, by positivity, rfl⟩, ?_, ?_, ?_⟩
  · rw [hdd]
    field_simp
  · intro h
    rw [hdd, h]
    exact div_self (ne_of_gt (h ▸ hss))
  · intro ε h
    rw [hdd]
    have e : w.dot w / (s * s) - 1 = (w.dot w - s * s) / (s * s) := by
      field_simp
    rw [e, abs_div, abs_of_pos hss, div_le_iff₀ hss, abs_sub_comm]
    exact h

theorem RenderCam.getRay_unit_witness :
    0 < seriesLibm.sqrt (((defaultCam.view.toWorld (2 / 3) (1 / 2)).sub defaultCam.position).dot
      ((defaultCam.view.toWorld (2 / 3) (1 / 2)).sub defaultCam.position)) ∧
    ((defaultCam.view.toWorld (2 / 3) (1 / 2)).sub defaultCam.position).dot
      ((defaultCam.view.toWorld (2 / 3) (1 / 2)).sub defaultCam.position) = 26 ∧
    (defaultCam.getRay seriesLibm (2 / 3) (1 / 2)).p = defaultCam.position ∧
    (∃ k : ℚ, 0 < k ∧
      (defaultCam.getRay seriesLibm (2 / 3) (1 / 2)).d =
        Vec3.smul k ((defaultCam.view.toWorld (2 / 3) (1 / 2)).sub defaultCam.position)) ∧
    |(defaultCam.getRay seriesLibm (2 / 3) (1 / 2)).d.dot
        (defaultCam.getRay seriesLibm (2 / 3) (1 / 2)).d - 1| ≤ 1 / 10000 :=
  have hd : ((defaultCam.view.toWorld (2 / 3) (1 / 2)).sub defaultCam.position).dot
      ((defaultCam.view.toWorld (2 / 3) (1 / 2)).sub defaultCam.position) = 26 := by
    norm_num [defaultCam, ViewPlane.toWorld, ViewPlane.width, ViewPlane.height, Vec3.sub,
      Vec3.dot]
  have hs : seriesLibm.sqrt 26 =
      6718805050383440964223873 / 1317658167472355974647648 := by
    norm_num [seriesLibm, newtonSqrt, Function.iterate_succ]
  have hpos : 0 < seriesLibm.sqrt
      (((defaultCam.view.toWorld (2 / 3) (1 / 2)).sub defaultCam.position).dot
        ((defaultCam.view.toWorld (2 / 3) (1 / 2)).sub defaultCam.position)) := by
    rw [hd, hs]
    norm_num
  have h := RenderCam.getRay_unit seriesLibm defaultCam (2 / 3) (1 / 2) hpos
  ⟨hpos, hd, h.1, h.2.1, h.2.2.2.2 (1 / 10000) (by
    rw [hd, hs]
    rw [abs_le]
    constructor <;> norm_num)⟩

/-- C15: when `pow(x, 2)` is the square of `x`, `phong` returns the ambient term
`0.15 * diffuse` followed, for exactly the lights that `shadowCheck` does not
report as blocked and in the order of the list, by
`diffuse * (intensity / d²) * max(0, n·L)` and
`specular * (intensity / d²) * max(0, n·H)^power`, with `n` the normalised
normal, `d` the distance from the point to the light, `L` the unit vector to the
light and `H` the normalised sum of the unit vector to the camera and `L`; with
no light the result is the ambient term alone. -/
theorem phong_eq_phongSpec {C : Type} (o : Outside C) (s : Scene C) (ray : Ray)
    (point normal : Vec3) (diffuse specular : C) (power : ℚ)
    (hpow : ∀ x : ℚ, o.pow x 2 = x ^ 2) :
    phong o s ray point normal diffuse specular power =
        phongSpec o s point normal diffuse specular power ∧
      (s.lights = [] →
        phong o s ray point normal diffuse specular power = o.scale diffuse (15 / 100)) := by
  refine ⟨?_, ?_⟩
  · unfold phong phongSpec
    exact phong_fold_eq o s point normal diffuse specular power hpow s.lights _
  · intro h
    simp [phong, h]

theorem phong_eq_phongSpec_witness :
    (∀ x : ℚ, ratOutside.pow x 2 = x ^ 2) ∧
    (phong ratOutside tiltedScene ⟨⟨0, 2, 3⟩, ⟨0, -4 / 5, -3 / 5⟩⟩ ⟨0, -2, 0⟩ ⟨0, 1, 0⟩ (1 / 2) 1 2 =
        phongSpec ratOutside tiltedScene ⟨0, -2, 0⟩ ⟨0, 1, 0⟩ (1 / 2) 1 2 ∧
      (tiltedScene.lights = [] →
        phong ratOutside tiltedScene ⟨⟨0, 2, 3⟩, ⟨0, -4 / 5, -3 / 5⟩⟩ ⟨0, -2, 0⟩ ⟨0, 1, 0⟩ (1 / 2)
          1 2 = ratOutside.scale (1 / 2) (15 / 100))) :=
  have hpow : ∀ x : ℚ, ratOutside.pow x 2 = x ^ 2 := by
    intro x
    have h2 : Rat.floor 2 = 2 := rfl
    simp only [ratOutside, h2]
    rfl
  ⟨hpow, phong_eq_phongSpec ratOutside tiltedScene ⟨⟨0, 2, 3⟩, ⟨0, -4 / 5, -3 / 5⟩⟩ ⟨0, -2, 0⟩
    ⟨0, 1, 0⟩ (1 / 2) 1 2 hpow⟩

/-- C16: for a pixel `(i, j)` of a `W x H` image, `rayTrace` takes the ray
`getRay((i + 0.5) / W, (j + 0.5) / H)`, the body of the loops for the pixel
changes no cell other than `(i, H - 1 - j)`, and that cell holds at the end of
`rayTrace` what the body for `(i, j)` leaves in it, which for a scene with an
object is the shading of the closest hit of the ray of the pixel. The cell is
inside the image, no other pixel of the image has the same cell, every cell of
the image is the cell of exactly one pixel of the image, and the cells outside
the image are left as they were. -/
theorem rayTrace_pixel_cell {C : Type} (o : Outside C) (s : Scene C) (f : Frame C)
    (i j : Nat) (hi : i < s.imageWidth) (hj : j < s.imageHeight) :
    pixelRay o s i j =
        s.renderCam.getRay o.libm ((i + 1 / 2) / s.imageWidth) ((j + 1 / 2) / s.imageHeight) ∧
      (∀ (g : Frame C) x y, ¬ (x = i ∧ y = s.imageHeight - 1 - j) →
        (tracePixel o s i j g).image x y = g.image x y) ∧
      (rayTrace o s f).image i (s.imageHeight - 1 - j) =
        (tracePixel o s i j f).image i (s.imageHeight - 1 - j) ∧
      (s.meshScene ≠ [] →
        (rayTrace o s f).image i (s.imageHeight - 1 - j) =
          shade o s (pixelRay o s i j) (closestHit o (pixelRay o s i j) s.meshScene)) ∧
      (i < s.imageWidth ∧ s.imageHeight - 1 - j < s.imageHeight) ∧
      (∀ i' j', i' < s.imageWidth → j' < s.imageHeight →
        i' = i ∧ s.imageHeight - 1 - j' = s.imageHeight - 1 - j → i' = i ∧ j' = j) ∧
      (∀ x y, x < s.imageWidth → y < s.imageHeight →
        ∃! p : Nat × Nat, p.1 < s.imageWidth ∧ p.2 < s.imageHeight ∧
          p.1 = x ∧ s.imageHeight - 1 - p.2 = y) ∧
      (∀ x y, s.imageWidth ≤ x ∨ s.imageHeight ≤ y →
        (rayTrace o s f).image x y = f.image x y) := by
  refine ⟨rfl, fun g x y h => tracePixel_other o s i j g x y h, ?_,
    fun hne => rayTrace_cell o s f hne i j hi hj, ⟨hi, by omega⟩, ?_, ?_, ?_⟩
  · by_cases hne : s.meshScene = []
    · rw [rayTrace_empty o s f hne]
      simp [tracePixel, hne]
    · rw [rayTrace_cell o s f hne i j hi hj, tracePixel_cell o s i j f hne]
  · intro i' j' _ hj' h
    exact ⟨h.1, by omega⟩
  · intro x y hx hy
    refine ⟨(x, s.imageHeight - 1 - y), ⟨hx, by simp only; omega, rfl, by simp only; omega⟩, ?_⟩
    rintro ⟨a, b⟩ ⟨_, hb, h1, h2⟩
    simp only at hb h1 h2
    simp only [Prod.mk.injEq]
    exact ⟨h1, by omega⟩
  · intro x y h
    apply rayTrace_other
    rcases h with h | h
    · left
      rw [List.mem_range]
      omega
    · exact Or.inr h

theorem rayTrace_pixel_cell_witness :
    (0 < tiltedScene.imageWidth ∧ 0 < tiltedScene.imageHeight) ∧
    (pixelRay ratOutside tiltedScene 0 0 =
        tiltedScene.renderCam.getRay ratOutside.libm (((0 : Nat) + 1 / 2) / tiltedScene.imageWidth)
          (((0 : Nat) + 1 / 2) / tiltedScene.imageHeight) ∧
      (∀ (g : Frame ℚ) x y, ¬ (x = 0 ∧ y = tiltedScene.imageHeight - 1 - 0) →
        (tracePixel ratOutside tiltedScene 0 0 g).image x y = g.image x y) ∧
      (rayTrace ratOutside tiltedScene greyFrame).image 0 (tiltedScene.imageHeight - 1 - 0) =
        (tracePixel ratOutside tiltedScene 0 0 greyFrame).image 0
          (tiltedScene.imageHeight - 1 - 0) ∧
      (tiltedScene.meshScene ≠ [] →
        (rayTrace ratOutside tiltedScene greyFrame).image 0 (tiltedScene.imageHeight - 1 - 0) =
          shade ratOutside tiltedScene (pixelRay ratOutside tiltedScene 0 0)
            (closestHit ratOutside (pixelRay ratOutside tiltedScene 0 0) tiltedScene.meshScene)) ∧
      (0 < tiltedScene.imageWidth ∧
        tiltedScene.imageHeight - 1 - 0 < tiltedScene.imageHeight) ∧
      (∀ i' j', i' < tiltedScene.imageWidth → j' < tiltedScene.imageHeight →
        i' = 0 ∧ tiltedScene.imageHeight - 1 - j' = tiltedScene.imageHeight - 1 - 0 →
        i' = 0 ∧ j' = 0) ∧
      (∀ x y, x < tiltedScene.imageWidth → y < tiltedScene.imageHeight →
        ∃! p : Nat × Nat, p.1 < tiltedScene.imageWidth ∧ p.2 < tiltedScene.imageHeight ∧
          p.1 = x ∧ tiltedScene.imageHeight - 1 - p.2 = y) ∧
      (∀ x y, tiltedScene.imageWidth ≤ x ∨ tiltedScene.imageHeight ≤ y →
        (rayTrace ratOutside tiltedScene greyFrame).image x y = greyFrame.image x y)) :=
  ⟨⟨by decide, by decide⟩,
    rayTrace_pixel_cell ratOutside tiltedScene greyFrame 0 0 (by decide) (by decide)⟩

/-- C17: `shadowCheck` returns true exactly when some object of `meshScene` is
hit by the ray at a point `h` with `dist(ray.p, h) < dist(ray.p, light)` and
`dist(h, light) < dist(ray.p, light)`. A light whose shadow ray is blocked leaves
the running colour of `phong` as it is, so `phong` returns what it returns
without that light. An object hit at a point at least as far from the ray origin
as the light can be taken out of the scene without changing `shadowCheck`. -/
theorem shadowCheck_iff_occluder {C : Type} (o : Outside C) (s : Scene C) (ray : Ray)
    (p n lightPosition : Vec3) :
    (shadowCheck o s ray p n lightPosition = true ↔
      ∃ e ∈ s.meshScene, ∃ h nh, (∀ p' n', e.intersect o ray p' n' = ⟨true, h, nh⟩) ∧
        distance o.libm ray.p h < distance o.libm ray.p lightPosition ∧
        distance o.libm h lightPosition < distance o.libm ray.p lightPosition) ∧
    (∀ (point normal : Vec3) (diffuse specular : C) (power : ℚ) (light : Light),
      shadowCheck o s
          ⟨point.add (Vec3.smul (1 / 10000) (normalize o.libm normal)),
            normalize o.libm (light.position.sub point)⟩
          o.blockIntersectPt o.blockIntersectNormal light.position = true →
        (∀ result, phongStep o s point normal diffuse specular power result light = result) ∧
        ∀ (l1 l2 : List Light) (r : Ray),
          phong o { s with lights := l1 ++ light :: l2 } r point normal diffuse specular power =
            phong o { s with lights := l1 ++ l2 } r point normal diffuse specular power) ∧
    (∀ (l1 l2 : List (Entity C)) (e : Entity C) (h nh : Vec3),
      (∀ p' n', e.intersect o ray p' n' = ⟨true, h, nh⟩) →
      distance o.libm ray.p lightPosition ≤ distance o.libm ray.p h →
        shadowCheck o { s with meshScene := l1 ++ e :: l2 } ray p n lightPosition =
          shadowCheck o { s with meshScene := l1 ++ l2 } ray p n lightPosition) := by
  refine ⟨?_, ?_, ?_⟩
  · unfold shadowCheck
    rw [shadowCheckLoop_iff]
    simp only [Entity.hitData_iff]
  · intro point normal diffuse specular power light hblocked
    have hstep : ∀ result,
        phongStep o s point normal diffuse specular power result light = result := by
      intro result
      simp only [phongStep, hblocked, Bool.true_eq_false, if_false]
    exact ⟨hstep, fun l1 l2 r =>
      phong_blocked_light o s r point normal diffuse specular power l1 l2 light hstep⟩
  · intro l1 l2 e h nh he hfar
    rw [Bool.eq_iff_iff]
    unfold shadowCheck
    simp only [shadowCheckLoop_iff, List.mem_append, List.mem_cons]
    constructor
    · rintro ⟨a, ha, h', nh', hd, h1, h2⟩
      rcases ha with ha | ha | ha
      · exact ⟨a, Or.inl ha, h', nh', hd, h1, h2⟩
      · rw [ha, (Entity.hitData_iff o e ray h nh).2 he] at hd
        simp only [Option.some.injEq, Prod.mk.injEq] at hd
        rw [← hd.1] at h1
        exact absurd h1 (not_lt.2 hfar)
      · exact ⟨a, Or.inr ha, h', nh', hd, h1, h2⟩
    · rintro ⟨a, ha, h', nh', hd, h1, h2⟩
      rcases ha with ha | ha
      · exact ⟨a, Or.inl ha, h', nh', hd, h1, h2⟩
      · exact ⟨a, Or.inr (Or.inr ha), h', nh', hd, h1, h2⟩

theorem shadowCheck_iff_occluder_witness :
    shadowCheck ratOutside tiltedScene ⟨⟨0, -3, 0⟩, ⟨0, 1, 0⟩⟩ ⟨0, 0, 0⟩ ⟨0, 0, 0⟩ ⟨0, 8, 0⟩ = true ∧
    ∀ result : ℚ,
      phongStep ratOutside tiltedScene ⟨0, -3, 0⟩ ⟨0, 1, 0⟩ (1 / 4) 1 2 result ⟨⟨0, 8, 0⟩, 100⟩ =
        result :=
  have hocc : ∀ (y : ℚ), y < -2 → ∀ p n : Vec3,
      shadowCheck ratOutside tiltedScene ⟨⟨0, y, 0⟩, ⟨0, 1, 0⟩⟩ p n ⟨0, 8, 0⟩ = true := by
    intro y hy p n
    refine (shadowCheck_iff_occluder ratOutside tiltedScene ⟨⟨0, y, 0⟩, ⟨0, 1, 0⟩⟩ p n
      ⟨0, 8, 0⟩).1.2 ⟨floorEntity, by simp [tiltedScene], ⟨0, -2, 0⟩, ⟨0, 1, 0⟩,
      floorEntity_below y hy, ?_, ?_⟩
    · rw [ratOutside_distance_y y (-2) (by linarith), ratOutside_distance_y y 8 (by linarith)]
      norm_num
    · rw [ratOutside_distance_y (-2) 8 (by norm_num), ratOutside_distance_y y 8 (by linarith)]
      linarith
  ⟨hocc (-3) (by norm_num) _ _, by
    intro result
    have h1 : ratLibm.sqrt 1 = 1 := by
      have h := ratLibm_sqrt_sq 1 (by norm_num)
      rw [mul_one] at h
      exact h
    have h121 : ratLibm.sqrt 121 = 11 := by
      have h := ratLibm_sqrt_sq 11 (by norm_num)
      have e : (11 : ℚ) * 11 = 121 := by norm_num
      rw [e] at h
      exact h
    have hn : normalize ratOutside.libm ⟨0, 1, 0⟩ = ⟨0, 1, 0⟩ := by
      simp only [normalize, ratOutside, Vec3.dot, Vec3.smul]
      norm_num [h1]
    have hl : normalize ratOutside.libm (Vec3.sub ⟨0, 8, 0⟩ ⟨0, -3, 0⟩) = ⟨0, 1, 0⟩ := by
      simp only [normalize, ratOutside, Vec3.dot, Vec3.smul, Vec3.sub]
      norm_num [h121]
    have hp : Vec3.add ⟨0, -3, 0⟩ (Vec3.smul (1 / 10000) ⟨0, 1, 0⟩) =
        (⟨0, -29999 / 10000, 0⟩ : Vec3) := by
      simp only [Vec3.add, Vec3.smul]
      norm_num
    have hb := hocc (-29999 / 10000) (by norm_num) ratOutside.blockIntersectPt
      ratOutside.blockIntersectNormal
    simp only [phongStep, hn, hl, hp, hb, Bool.true_eq_false, if_false]⟩

/-- C18: for a scene with at least one object and a pixel of the image whose ray
hits no object of `meshScene`, the colour `rayTrace` leaves in the cell of the
pixel is the background colour. -/
theorem rayTrace_miss_background {C : Type} (o : Outside C) (s : Scene C) (f : Frame C)
    (i j : Nat) (hi : i < s.imageWidth) (hj : j < s.imageHeight) (hne : s.meshScene ≠ [])
    (hmiss : ∀ e ∈ s.meshScene, ∀ p n, (e.intersect o (pixelRay o s i j) p n).hit = false) :
    (rayTrace o s f).image i (s.imageHeight - 1 - j) = o.background := by
  rw [rayTrace_cell o s f hne i j hi hj]
  have hb : closestHit o (pixelRay o s i j) s.meshScene = none := by
    rw [closestHit_none_iff]
    intro e he
    unfold Entity.hitData
    rw [if_neg]
    rw [hmiss e he]
    simp
  rw [hb]
  rfl

theorem rayTrace_miss_background_witness :
    (0 < levelScene.imageWidth ∧ 0 < levelScene.imageHeight ∧ levelScene.meshScene ≠ [] ∧
      ∀ e ∈ levelScene.meshScene, ∀ p n,
        (e.intersect ratOutside (pixelRay ratOutside levelScene 0 0) p n).hit = false) ∧
    (rayTrace ratOutside levelScene greyFrame).image 0 (levelScene.imageHeight - 1 - 0) =
      ratOutside.background :=
  have hmiss : ∀ e ∈ levelScene.meshScene, ∀ p n,
      (e.intersect ratOutside (pixelRay ratOutside levelScene 0 0) p n).hit = false := by
    intro e he p n
    simp only [levelScene, List.mem_singleton] at he
    rw [he, levelScene_pixelRay]
    exact floorEntity_level p n
  ⟨⟨by decide, by decide, by simp [levelScene], hmiss⟩,
    rayTrace_miss_background ratOutside levelScene greyFrame 0 0 (by decide) (by decide)
      (by simp [levelScene]) hmiss⟩

/-- C19 (as stated, refuted): with an empty `meshScene` the body of the loop over
the objects never runs, so `rayTrace` returns the frame it was given, whatever
the lights, the camera and the image size; on the sample scene without objects
the pixel that held the grey level 7 still holds it, and the background colour
is 0. -/
theorem rayTrace_empty_scene_keeps_image :
    (∀ (C : Type) (o : Outside C) (s : Scene C) (f : Frame C),
      rayTrace o { s with meshScene := [] } f = f) ∧
    emptyScene.meshScene = [] ∧
    (rayTrace ratOutside emptyScene greyFrame).image 0 0 = 7 ∧
    ratOutside.background = 0 :=
  ⟨fun _ o s f => rayTrace_empty o _ f rfl,
    rfl, by rw [rayTrace_empty ratOutside emptyScene greyFrame rfl]; rfl, rfl⟩

/-- C19 (amended): for a scene whose `meshScene` is not empty and none of whose
objects is hit by the ray of any pixel, after `rayTrace` every pixel of the
image holds the background colour, whatever the image contained before the
call, and the cells outside the image keep what they held. -/
theorem rayTrace_nothing_hit_background {C : Type} (o : Outside C) (s : Scene C)
    (f : Frame C) (hne : s.meshScene ≠ [])
    (hmiss : ∀ i j, i < s.imageWidth → j < s.imageHeight → ∀ e ∈ s.meshScene, ∀ p n,
      (e.intersect o (pixelRay o s i j) p n).hit = false) :
    (∀ x y, x < s.imageWidth → y < s.imageHeight →
      (rayTrace o s f).image x y = o.background) ∧
    (∀ x y, s.imageWidth ≤ x ∨ s.imageHeight ≤ y →
      (rayTrace o s f).image x y = f.image x y) := by
  constructor
  · intro x y hx hy
    have hj : s.imageHeight - 1 - y < s.imageHeight := by omega
    have hy' : s.imageHeight - 1 - (s.imageHeight - 1 - y) = y := by omega
    have h := rayTrace_cell o s f hne x (s.imageHeight - 1 - y) hx hj
    rw [hy'] at h
    rw [h]
    have hb : closestHit o (pixelRay o s x (s.imageHeight - 1 - y)) s.meshScene = none := by
      rw [closestHit_none_iff]
      intro e he
      unfold Entity.hitData
      rw [if_neg]
      rw [hmiss x _ hx hj e he]
      simp
    rw [hb]
    rfl
  · intro x y hxy
    apply rayTrace_other o s (List.range s.imageWidth) f x y
    rcases hxy with h | h
    · exact Or.inl (fun hm => by
        have := List.mem_range.1 hm
        omega)
    · exact Or.inr h

theorem rayTrace_nothing_hit_background_witness :
    (levelScene.meshScene ≠ [] ∧
      ∀ i j, i < levelScene.imageWidth → j < levelScene.imageHeight →
        ∀ e ∈ levelScene.meshScene, ∀ p n,
          (e.intersect ratOutside (pixelRay ratOutside levelScene i j) p n).hit = false) ∧
    greyFrame.image 0 0 = 7 ∧
    (rayTrace ratOutside levelScene greyFrame).image 0 0 = ratOutside.background ∧
    ratOutside.background = 0 :=
  have hmiss : ∀ i j, i < levelScene.imageWidth → j < levelScene.imageHeight →
      ∀ e ∈ levelScene.meshScene, ∀ p n,
        (e.intersect ratOutside (pixelRay ratOutside levelScene i j) p n).hit = false := by
    intro i j hi hj e he p n
    have hi0 : i = 0 := by
      have : i < 1 := hi
      omega
    have hj0 : j = 0 := by
      have : j < 1 := hj
      omega
    subst hi0
    subst hj0
    simp only [levelScene, List.mem_singleton] at he
    rw [he, levelScene_pixelRay]
    exact floorEntity_level p n
  ⟨⟨by simp [levelScene], hmiss⟩, rfl,
    (rayTrace_nothing_hit_background ratOutside levelScene greyFrame (by simp [levelScene])
      hmiss).1 0 0 (by decide) (by decide),
    rfl⟩

/-- C20 (as stated, refuted): the unit vectors (0, 1, 0) and (1, 0, 0) are not
colinear, and for every math library and every arc cosine the matrix
`rotateToVector((0, 1, 0), (1, 0, 0))` maps (0, 1, 0) to a vector other than
(1, 0, 0): the exact image needs the sine of 45 degrees, whose square is 1/2,
and no rational number has that square. -/
theorem rotateToVector_quarter_turn_inexact :
    Vec3.dot ⟨0, 1, 0⟩ ⟨0, 1, 0⟩ = 1 ∧ Vec3.dot ⟨1, 0, 0⟩ ⟨1, 0, 0⟩ = 1 ∧
    Vec3.cross ⟨0, 1, 0⟩ ⟨1, 0, 0⟩ = ⟨0, 0, -1⟩ ∧
    ∀ (m : Libm) (acos : ℚ → ℚ),
      Matrix.mulVec (rotateToVector m acos ⟨0, 1, 0⟩ ⟨1, 0, 0⟩) (vec4 ⟨0, 1, 0⟩ 0) ≠
        vec4 ⟨1, 0, 0⟩ 0 := by
  have ha : Vec3.dot ⟨0, 1, 0⟩ ⟨0, 1, 0⟩ = 1 := by norm_num [Vec3.dot]
  have hb : Vec3.dot ⟨1, 0, 0⟩ ⟨1, 0, 0⟩ = 1 := by norm_num [Vec3.dot]
  refine ⟨ha, hb, series_sample_cross, fun m acos h => ?_⟩
  obtain ⟨q, hq, -, -, -, hmap, -⟩ := rotateToVector_quat m acos ⟨0, 1, 0⟩ ⟨1, 0, 0⟩
  rw [hq, hmap ha] at h
  have hy := congrFun h 1
  simp only [vec4, Vec3.add, Vec3.smul, Matrix.cons_val_one, Matrix.head_cons] at hy
  have hα : cosineDefect m acos ⟨0, 1, 0⟩ ⟨1, 0, 0⟩ = 0 := by linarith
  simp only [cosineDefect, axisLengthSq, normalize, series_sample_cross, series_sample_dot,
    Vec3.smul, Vec3.dot] at hα
  generalize halfAngleSin m acos ⟨0, 1, 0⟩ ⟨1, 0, 0⟩ = s at hα
  generalize 1 / m.sqrt _ = u at hα
  apply rat_mul_self_ne_two (2 * s * u)
  linear_combination (-2 : ℚ) * hα

/-- C20 (amended): for unit vectors `a` and `b` whose cross product has a non-zero computed
length, `rotateToVector(a, b)` is finite and fixes the axis `a × b`. When the
math library is accurate to `ε` at this input (the three defects of the half
angle and of the length of `a × b` are at most `ε` in absolute value), every
entry of `R Rᵀ - 1` and `det R - 1` are at most `4 ε (1 + ε)` in absolute value,
the trace of the upper left 3 x 3 block is within `4 ε` of `1 + 2 (a·b)`, the
trace of a rotation by the angle between `a` and `b`, and every component of
`R a - b` is at most `2 ε`. For an exact library, `ε = 0`, the matrix is
orthogonal with determinant 1 and maps `a` to `b`. -/
theorem rotateToVector_rotation (m : Libm) (acos : ℚ → ℚ) (a b : Vec3) (ε : ℚ)
    (ha : a.dot a = 1) (hb : b.dot b = 1)
    (hL : m.sqrt ((a.cross b).dot (a.cross b)) ≠ 0)
    (h1 : |quatDefect m acos a b| ≤ ε) (h2 : |sineDefect m acos a b| ≤ ε)
    (h3 : |cosineDefect m acos a b| ≤ ε) :
    rotateToVectorFinite m acos a b = some (rotateToVector m acos a b) ∧
      Matrix.mulVec (rotateToVector m acos a b) (vec4 (a.cross b) 0) = vec4 (a.cross b) 0 ∧
      Matrix.mulVec (rotateToVector m acos a b) (vec4 a 0) =
        vec4 ((b.add (Vec3.smul (cosineDefect m acos a b) a)).add
          (Vec3.smul (sineDefect m acos a b) b)) 0 ∧
      (∀ i, |(Matrix.mulVec (rotateToVector m acos a b) (vec4 a 0) - vec4 b 0) i| ≤ 2 * ε) ∧
      (∀ i j, |(rotateToVector m acos a b * (rotateToVector m acos a b).transpose - 1) i j| ≤
        4 * ε * (1 + ε)) ∧
      |(rotateToVector m acos a b).det - 1| ≤ 4 * ε * (1 + ε) ∧
      |rotateToVector m acos a b 0 0 + rotateToVector m acos a b 1 1 +
          rotateToVector m acos a b 2 2 - (1 + 2 * a.dot b)| ≤ 4 * ε ∧
      (ε = 0 →
        rotateToVector m acos a b * (rotateToVector m acos a b).transpose = 1 ∧
        (rotateToVector m acos a b).det = 1 ∧
        Matrix.mulVec (rotateToVector m acos a b) (vec4 a 0) = vec4 b 0 ∧
        rotateToVector m acos a b 0 0 + rotateToVector m acos a b 1 1 +
          rotateToVector m acos a b 2 2 = 1 + 2 * a.dot b) := by
  have hfin : rotateToVectorFinite m acos a b = some (rotateToVector m acos a b) := by
    simp only [rotateToVectorFinite, normalizeFinite, if_neg hL, rotateToVector]
  obtain ⟨q, hq, hN, -, hax, hmap, htr⟩ := rotateToVector_quat m acos a b
  have hε : 0 ≤ ε := le_trans (abs_nonneg _) h1
  have hV0 : 0 ≤ q.x ^ 2 + q.y ^ 2 + q.z ^ 2 := by positivity
  have hV1 : q.x ^ 2 + q.y ^ 2 + q.z ^ 2 ≤ 1 + ε := by
    have hN' : |q.normSq - 1| ≤ ε := by rw [hN]; exact h1
    have := (abs_le.1 hN').2
    have hw := sq_nonneg q.w
    simp only [Quat.normSq] at this
    linarith
  have hN' : |q.normSq - 1| ≤ ε := by rw [hN]; exact h1
  have hmapa := hmap ha
  obtain ⟨ax1, ay1, az1⟩ := Vec3.abs_le_one_of_unit a ha
  obtain ⟨bx1, by1, bz1⟩ := Vec3.abs_le_one_of_unit b hb
  have hab := Vec3.abs_dot_le_one a b ha hb
  -- the bound on a component of `R a - b`
  have hcomp : ∀ x y : ℚ, |x| ≤ 1 → |y| ≤ 1 →
      |cosineDefect m acos a b * x + sineDefect m acos a b * y| ≤ 2 * ε := by
    intro x y hx hy
    have e1 : |cosineDefect m acos a b * x| ≤ ε := by
      rw [abs_mul]
      calc |cosineDefect m acos a b| * |x| ≤ ε * 1 :=
            mul_le_mul h3 hx (abs_nonneg _) hε
        _ = ε := mul_one _
    have e2 : |sineDefect m acos a b * y| ≤ ε := by
      rw [abs_mul]
      calc |sineDefect m acos a b| * |y| ≤ ε * 1 :=
            mul_le_mul h2 hy (abs_nonneg _) hε
        _ = ε := mul_one _
    calc |cosineDefect m acos a b * x + sineDefect m acos a b * y|
        ≤ |cosineDefect m acos a b * x| + |sineDefect m acos a b * y| := abs_add _ _
      _ ≤ 2 * ε := by linarith
  have hD : ∀ i, |(Matrix.mulVec (rotateToVector m acos a b) (vec4 a 0) - vec4 b 0) i| ≤
      2 * ε := by
    intro i
    rw [hq, hmapa]
    fin_cases i
    · have := hcomp a.x b.x ax1 bx1
      simpa [vec4, Vec3.add, Vec3.smul, Matrix.vecHead, Matrix.vecTail, add_assoc] using this
    · have := hcomp a.y b.y ay1 by1
      simpa [vec4, Vec3.add, Vec3.smul, Matrix.vecHead, Matrix.vecTail, add_assoc] using this
    · have := hcomp a.z b.z az1 bz1
      simpa [vec4, Vec3.add, Vec3.smul, Matrix.vecHead, Matrix.vecTail, add_assoc] using this
    · simp [vec4, Matrix.vecHead, Matrix.vecTail]
      linarith
  have hE : ∀ i j,
      |(rotateToVector m acos a b * (rotateToVector m acos a b).transpose - 1) i j| ≤
        4 * ε * (1 + ε) := by
    intro i j
    rw [hq, toMat4_mul_transpose_general]
    have e : (1 + (4 * (1 - q.normSq)) • q.crossSq - 1) i j =
        4 * (1 - q.normSq) * q.crossSq i j := by
      simp [Matrix.add_apply, Matrix.sub_apply, Matrix.smul_apply]
    rw [e, abs_mul, abs_mul]
    have k1 : |(4 : ℚ)| = 4 := abs_of_pos (by norm_num)
    have k2 : |1 - q.normSq| ≤ ε := by rw [abs_sub_comm]; exact hN'
    have k3 : |q.crossSq i j| ≤ 1 + ε := le_trans (Quat.crossSq_abs_le q i j) hV1
    rw [k1]
    have k4 : 4 * |1 - q.normSq| ≤ 4 * ε := by linarith
    exact mul_le_mul k4 k3 (abs_nonneg _) (by positivity)
  have hF : |(rotateToVector m acos a b).det - 1| ≤ 4 * ε * (1 + ε) := by
    rw [hq, toMat4_det_general]
    have e : 1 + 4 * (q.x ^ 2 + q.y ^ 2 + q.z ^ 2) * (q.normSq - 1) - 1 =
        4 * (q.normSq - 1) * (q.x ^ 2 + q.y ^ 2 + q.z ^ 2) := by ring
    rw [e, abs_mul, abs_mul, abs_of_pos (by norm_num : (0 : ℚ) < 4), abs_of_nonneg hV0]
    have k4 : 4 * |q.normSq - 1| ≤ 4 * ε := by linarith
    exact mul_le_mul k4 hV1 hV0 (by positivity)
  have hG : |rotateToVector m acos a b 0 0 + rotateToVector m acos a b 1 1 +
      rotateToVector m acos a b 2 2 - (1 + 2 * a.dot b)| ≤ 4 * ε := by
    rw [hq, htr]
    have e1 : |2 * cosineDefect m acos a b| ≤ 2 * ε := by
      rw [abs_mul, abs_of_pos (by norm_num : (0 : ℚ) < 2)]
      linarith
    have e2 : |2 * sineDefect m acos a b * a.dot b| ≤ 2 * ε := by
      rw [abs_mul, abs_mul, abs_of_pos (by norm_num : (0 : ℚ) < 2)]
      calc 2 * |sineDefect m acos a b| * |a.dot b| ≤ 2 * ε * 1 :=
            mul_le_mul (by linarith) hab (abs_nonneg _) (by positivity)
        _ = 2 * ε := mul_one _
    calc |2 * cosineDefect m acos a b + 2 * sineDefect m acos a b * a.dot b|
        ≤ |2 * cosineDefect m acos a b| + |2 * sineDefect m acos a b * a.dot b| :=
          abs_add _ _
      _ ≤ 4 * ε := by linarith
  refine ⟨hfin, ?_, ?_, hD, hE, hF, hG, ?_⟩
  · rw [hq]
    exact hax
  · rw [hq]
    exact hmapa
  · intro h0
    subst h0
    refine ⟨?_, ?_, ?_, ?_⟩
    · ext i j
      have := hE i j
      simp only [mul_zero, zero_mul] at this
      have h' := abs_nonpos_iff.1 this
      simp only [Matrix.sub_apply] at h'
      linarith
    · have := hF
      simp only [mul_zero, zero_mul] at this
      have h' := abs_nonpos_iff.1 this
      linarith
    · ext i
      have := hD i
      simp only [mul_zero] at this
      have h' := abs_nonpos_iff.1 this
      simp only [Pi.sub_apply] at h'
      linarith
    · have := hG
      simp only [mul_zero] at this
      have h' := abs_nonpos_iff.1 this
      linarith

theorem rotateToVector_rotation_witness :
    (Vec3.dot ⟨0, 1, 0⟩ ⟨0, 1, 0⟩ = 1 ∧ Vec3.dot ⟨1, 0, 0⟩ ⟨1, 0, 0⟩ = 1 ∧
      seriesLibm.sqrt ((Vec3.cross ⟨0, 1, 0⟩ ⟨1, 0, 0⟩).dot
        (Vec3.cross ⟨0, 1, 0⟩ ⟨1, 0, 0⟩)) ≠ 0 ∧
      |quatDefect seriesLibm seriesAcos ⟨0, 1, 0⟩ ⟨1, 0, 0⟩| ≤ 1 / 100000 ∧
      |sineDefect seriesLibm seriesAcos ⟨0, 1, 0⟩ ⟨1, 0, 0⟩| ≤ 1 / 100000 ∧
      |cosineDefect seriesLibm seriesAcos ⟨0, 1, 0⟩ ⟨1, 0, 0⟩| ≤ 1 / 100000) ∧
    ((∀ i, |(Matrix.mulVec (rotateToVector seriesLibm seriesAcos ⟨0, 1, 0⟩ ⟨1, 0, 0⟩)
          (vec4 ⟨0, 1, 0⟩ 0) - vec4 ⟨1, 0, 0⟩ 0) i| ≤ 2 * (1 / 100000)) ∧
      (∀ i j, |(rotateToVector seriesLibm seriesAcos ⟨0, 1, 0⟩ ⟨1, 0, 0⟩ *
          (rotateToVector seriesLibm seriesAcos ⟨0, 1, 0⟩ ⟨1, 0, 0⟩).transpose - 1) i j| ≤
        4 * (1 / 100000) * (1 + 1 / 100000)) ∧
      |(rotateToVector seriesLibm seriesAcos ⟨0, 1, 0⟩ ⟨1, 0, 0⟩).det - 1| ≤
        4 * (1 / 100000) * (1 + 1 / 100000)) ∧
    (rotateToVector ratLibm ratAcos ⟨1, 0, 0⟩ ⟨7 / 25, 24 / 25, 0⟩ *
        (rotateToVector ratLibm ratAcos ⟨1, 0, 0⟩ ⟨7 / 25, 24 / 25, 0⟩).transpose = 1 ∧
      (rotateToVector ratLibm ratAcos ⟨1, 0, 0⟩ ⟨7 / 25, 24 / 25, 0⟩).det = 1 ∧
      Matrix.mulVec (rotateToVector ratLibm ratAcos ⟨1, 0, 0⟩ ⟨7 / 25, 24 / 25, 0⟩)
        (vec4 ⟨1, 0, 0⟩ 0) = vec4 ⟨7 / 25, 24 / 25, 0⟩ 0 ∧
      rotateToVector ratLibm ratAcos ⟨1, 0, 0⟩ ⟨7 / 25, 24 / 25, 0⟩ 0 0 +
          rotateToVector ratLibm ratAcos ⟨1, 0, 0⟩ ⟨7 / 25, 24 / 25, 0⟩ 1 1 +
          rotateToVector ratLibm ratAcos ⟨1, 0, 0⟩ ⟨7 / 25, 24 / 25, 0⟩ 2 2 =
        1 + 2 * Vec3.dot ⟨1, 0, 0⟩ ⟨7 / 25, 24 / 25, 0⟩) :=
  have ha : Vec3.dot ⟨0, 1, 0⟩ ⟨0, 1, 0⟩ = 1 := by norm_num [Vec3.dot]
  have hb : Vec3.dot ⟨1, 0, 0⟩ ⟨1, 0, 0⟩ = 1 := by norm_num [Vec3.dot]
  have hb' : Vec3.dot ⟨7 / 25, 24 / 25, 0⟩ ⟨7 / 25, 24 / 25, 0⟩ = 1 := by norm_num [Vec3.dot]
  have hL : seriesLibm.sqrt ((Vec3.cross ⟨0, 1, 0⟩ ⟨1, 0, 0⟩).dot
      (Vec3.cross ⟨0, 1, 0⟩ ⟨1, 0, 0⟩)) ≠ 0 := by
    rw [series_sample_sqrt]
    norm_num
  have hL' : ratLibm.sqrt ((Vec3.cross ⟨1, 0, 0⟩ ⟨7 / 25, 24 / 25, 0⟩).dot
      (Vec3.cross ⟨1, 0, 0⟩ ⟨7 / 25, 24 / 25, 0⟩)) ≠ 0 := by
    rw [ratLibm_sample_sqrt]
    norm_num
  have h := rotateToVector_rotation seriesLibm seriesAcos ⟨0, 1, 0⟩ ⟨1, 0, 0⟩ (1 / 100000)
    ha hb hL series_sample_defects.1 series_sample_defects.2.1 series_sample_defects.2.2
  have h' := rotateToVector_rotation ratLibm ratAcos ⟨1, 0, 0⟩ ⟨7 / 25, 24 / 25, 0⟩ 0
    hb hb' hL' ratLibm_sample_defects.1 ratLibm_sample_defects.2.1 ratLibm_sample_defects.2.2
  ⟨⟨ha, hb, hL, series_sample_defects⟩, ⟨h.2.2.2.1, h.2.2.2.2.1, h.2.2.2.2.2.1⟩,
    h'.2.2.2.2.2.2.2 rfl⟩

/-- C21 (as stated, refuted): for the anti-parallel unit vectors (0, 1, 0) and
(0, -1, 0) the cross product is zero, and `rotateToVector` divides by
`sqrt(0) = 0` in `glm::normalize`: with the sample library, and with every
library whose `sqrt(0)` is 0, the result is the non-finite matrix, not the
matrix of a fallback. -/
theorem rotateToVector_normalizes_zero :
    Vec3.cross ⟨0, 1, 0⟩ ⟨0, -1, 0⟩ = ⟨0, 0, 0⟩ ∧
    ratLibm.sqrt 0 = 0 ∧
    rotateToVectorFinite ratLibm ratAcos ⟨0, 1, 0⟩ ⟨0, -1, 0⟩ = none ∧
    ∀ (m : Libm) (acos : ℚ → ℚ), m.sqrt 0 = 0 →
      rotateToVectorFinite m acos ⟨0, 1, 0⟩ ⟨0, -1, 0⟩ = none := by
  have hc : Vec3.cross ⟨0, 1, 0⟩ ⟨0, -1, 0⟩ = ⟨0, 0, 0⟩ := by
    norm_num [Vec3.cross]
  have h0 : ratLibm.sqrt 0 = 0 := by
    have := ratLibm_sqrt_sq 0 (le_refl _)
    simpa using this
  have hall : ∀ (m : Libm) (acos : ℚ → ℚ), m.sqrt 0 = 0 →
      rotateToVectorFinite m acos ⟨0, 1, 0⟩ ⟨0, -1, 0⟩ = none := by
    intro m acos hm
    have hd : Vec3.dot ⟨0, 0, 0⟩ ⟨0, 0, 0⟩ = 0 := by norm_num [Vec3.dot]
    simp only [rotateToVectorFinite, normalizeFinite, hc, hd, hm, if_true]
  exact ⟨hc, h0, hall ratLibm ratAcos h0, hall⟩

/-- C21 (amended): `rotateToVector` has no test for the degenerate case. For
vectors with zero cross product, `glm::normalize` divides by `sqrt(0) = 0` and
the matrix returned is not finite; for all vectors whose cross product has a
non-zero computed length the result is the finite matrix
`toMat4(angleAxis(angle(v1, v2), normalize(cross(v1, v2))))`, and these are the
only inputs with a finite result. -/
theorem rotateToVector_degenerate (m : Libm) (acos : ℚ → ℚ) (v1 v2 : Vec3)
    (h : v1.cross v2 = ⟨0, 0, 0⟩) (hs0 : m.sqrt 0 = 0) :
    normalizeFinite m (v1.cross v2) = none ∧
      rotateToVectorFinite m acos v1 v2 = none ∧
      (∀ w1 w2 : Vec3, m.sqrt ((w1.cross w2).dot (w1.cross w2)) ≠ 0 →
        rotateToVectorFinite m acos w1 w2 = some (rotateToVector m acos w1 w2)) ∧
      (∀ w1 w2 : Vec3, rotateToVectorFinite m acos w1 w2 = none ↔
        m.sqrt ((w1.cross w2).dot (w1.cross w2)) = 0) := by
  have hd : Vec3.dot ⟨0, 0, 0⟩ ⟨0, 0, 0⟩ = 0 := by norm_num [Vec3.dot]
  refine ⟨?_, ?_, ?_, ?_⟩
  · simp only [normalizeFinite, h, hd, hs0, if_true]
  · simp only [rotateToVectorFinite, normalizeFinite, h, hd, hs0, if_true]
  · intro w1 w2 hw
    simp only [rotateToVectorFinite, normalizeFinite, if_neg hw, rotateToVector]
  · intro w1 w2
    by_cases hw : m.sqrt ((w1.cross w2).dot (w1.cross w2)) = 0
    · simp [rotateToVectorFinite, normalizeFinite, hw]
    · simp [rotateToVectorFinite, normalizeFinite, hw]

theorem rotateToVector_degenerate_witness :
    Vec3.cross ⟨0, 1, 0⟩ ⟨0, 1, 0⟩ = ⟨0, 0, 0⟩ ∧ ratLibm.sqrt 0 = 0 ∧
    normalizeFinite ratLibm (Vec3.cross ⟨0, 1, 0⟩ ⟨0, 1, 0⟩) = none ∧
    rotateToVectorFinite ratLibm ratAcos ⟨0, 1, 0⟩ ⟨0, 1, 0⟩ = none :=
  have hc : Vec3.cross ⟨0, 1, 0⟩ ⟨0, 1, 0⟩ = ⟨0, 0, 0⟩ := by
    norm_num [Vec3.cross]
  have h0 : ratLibm.sqrt 0 = 0 := by
    have := ratLibm_sqrt_sq 0 (le_refl _)
    simpa using this
  have h := rotateToVector_degenerate ratLibm ratAcos ⟨0, 1, 0⟩ ⟨0, 1, 0⟩ hc h0
  ⟨hc, h0, h.1, h.2.1⟩

/-- C22: the script `create -joint p create -joint j -parent p -parent p`, loaded
after `setup`, leaves the joints `p` and `j` with distinct names, `j` with the
parent `p`, and `j` twice in the child list of `p`. With `j` selected,
`deleteJoint` returns (for every large enough bound), removes `j` from `joints`
and clears the selection, but the loop that erases `j` from the child list of
`p` steps over the second entry: `j` is still a child of `p` afterwards. -/
theorem deleteJoint_keeps_second_entry :
    loadScriptFile (fun _ _ _ => none) 1
        ["create", "-joint", "p", "create", "-joint", "j", "-parent", "p", "-parent", "p"]
        (setup 0) = some { doubledApp with selected := [] } ∧
    doubledApp.selected = [2] ∧ doubledApp.joints = [1, 2] ∧
    getName (doubledApp.heap 1) = "p" ∧ getName (doubledApp.heap 2) = "j" ∧
    (doubledApp.heap 2).parent = some 1 ∧ (doubledApp.heap 1).childList = [2, 2] ∧
    ∃ fuel0, ∀ fuel, fuel0 ≤ fuel → ∃ a', deleteJoint ratLibm fuel doubledApp = some a' ∧
      a'.joints = [1] ∧ a'.selected = [] ∧ (a'.heap 1).childList = [2] ∧
      2 ∈ (a'.heap 1).childList := by
  refine ⟨doubledApp_loaded, rfl, rfl, ?_, ?_, ?_, ?_, ?_⟩
  · rw [doubledApp_heap_one]
    rfl
  · rw [doubledApp_heap_two]
    rfl
  · rw [doubledApp_heap_two]
  · rw [doubledApp_heap_one]
  · obtain ⟨fuel0, hf⟩ := doubledApp_delete
    refine ⟨fuel0, fun fuel hfuel => ?_⟩
    obtain ⟨a', hd, hj, hc, hs⟩ := hf fuel hfuel
    exact ⟨a', hd, hj, hs, hc, by rw [hc]; exact List.mem_singleton.2 rfl⟩

/-- What `deleteJoint` does on a well-formed skeleton: in an acyclic skeleton
whose joint names are pairwise distinct, whose joints list and child lists have
no repetition and whose child lists agree with the parent links around the
selected joint `J`, `deleteJoint` returns (for every large enough bound on the
recursion of `getMatrix`), and afterwards `J` is not in `joints`, which is the
former list with `J` erased and one shorter; `J` is not in the child list of
its former parent, which holds every former child of `J`; every former child of
`J` has the former parent link of `J`; every other object keeps its parent
link; and the selection is empty. -/
theorem deleteJoint_structure (m : Libm) (a : App) (j : Nat) (rest : List Nat)
    (hsel : a.selected = j :: rest) (hac : Acyclic a.heap)
    (hkids : ∀ c, c ∈ (a.heap j).childList → (a.heap c).parent = some j)
    (hnd : a.joints.Nodup) (hj : j ∈ a.joints)
    (hnames : ∀ x, x ∈ a.joints → ∀ y, y ∈ a.joints →
      getName (a.heap x) = getName (a.heap y) → x = y)
    (hsib : ∀ pj, (a.heap j).parent = some pj →
      (a.heap pj).childList.Nodup ∧ j ∈ (a.heap pj).childList ∧
        ∀ x, x ∈ (a.heap pj).childList → x ∈ a.joints) :
    ∃ fuel0, ∀ fuel, fuel0 ≤ fuel → ∃ a', deleteJoint m fuel a = some a' ∧
      j ∉ a'.joints ∧ a'.joints = a.joints.erase j ∧
      a'.joints.length + 1 = a.joints.length ∧
      (∀ pj, (a.heap j).parent = some pj →
        j ∉ (a'.heap pj).childList ∧
          ∀ c, c ∈ (a.heap j).childList → c ∈ (a'.heap pj).childList) ∧
      (∀ c, c ∈ (a.heap j).childList → (a'.heap c).parent = (a.heap j).parent) ∧
      (∀ k, k ∉ (a.heap j).childList → (a'.heap k).parent = (a.heap k).parent) ∧
      a'.selected = [] := by
  obtain ⟨rank, hrank⟩ := hac
  have hkr : ∀ c, c ∈ (a.heap j).childList → rank j < rank c :=
    fun c hc => hrank c j (hkids c hc)
  obtain ⟨fuel0, hf⟩ := deleteJoint_struct m rank a j rest hsel hrank hkr
  refine ⟨fuel0, fun fuel hfuel => ?_⟩
  obtain ⟨a', ha', hs', hj', _, hch, hoth, _, hpl, _, _⟩ := hf fuel hfuel
  have hjoints : a'.joints = a.joints.erase j := by
    rw [hj']
    apply eraseLoop_erase _ _ _ hnd hj
    · simp
    · intro x hx hxj
      simp only [beq_eq_false_iff_ne, ne_eq]
      exact fun e => hxj (hnames x hx j hj e)
  refine ⟨a', ha', ?_, hjoints, ?_, ?_, fun c hc => (hch c hc).1, fun k hk => (hoth k hk).1, hs'⟩
  · rw [hjoints]
    exact fun hmem => (List.Nodup.mem_erase_iff hnd).1 hmem |>.1 rfl
  · rw [hjoints, List.length_erase_of_mem hj]
    have := List.length_pos_of_mem hj
    omega
  · intro pj hpj
    obtain ⟨hnd', hjin, hsub⟩ := hsib pj hpj
    rw [hpl pj hpj]
    have he : eraseLoop (fun c => getName (a.heap c) == getName (a.heap j))
        (a.heap pj).childList 0 = (a.heap pj).childList.erase j := by
      apply eraseLoop_erase _ _ _ hnd' hjin
      · simp
      · intro x hx hxj
        simp only [beq_eq_false_iff_ne, ne_eq]
        exact fun e => hxj (hnames x (hsub x hx) j hj e)
    rw [he]
    constructor
    · intro hmem
      rcases List.mem_append.1 hmem with h1 | h1
      · exact ((List.Nodup.mem_erase_iff hnd').1 h1).1 rfl
      · have := hkr j h1
        omega
    · intro c hc
      exact List.mem_append_right _ hc

theorem deleteJoint_structure_witness :
    Acyclic threeJointApp.heap ∧
    ∃ fuel0, ∀ fuel, fuel0 ≤ fuel → ∃ a', deleteJoint ratLibm fuel threeJointApp = some a' ∧
      1 ∉ a'.joints ∧ a'.joints = threeJointApp.joints.erase 1 ∧
      a'.joints.length + 1 = threeJointApp.joints.length ∧
      (∀ pj, (threeJointApp.heap 1).parent = some pj →
        1 ∉ (a'.heap pj).childList ∧
          ∀ c, c ∈ (threeJointApp.heap 1).childList → c ∈ (a'.heap pj).childList) ∧
      (∀ c, c ∈ (threeJointApp.heap 1).childList →
        (a'.heap c).parent = (threeJointApp.heap 1).parent) ∧
      (∀ k, k ∉ (threeJointApp.heap 1).childList →
        (a'.heap k).parent = (threeJointApp.heap k).parent) ∧
      a'.selected = [] :=
  ⟨acyclic_threeJointHeap,
    deleteJoint_structure ratLibm threeJointApp 1 [] rfl acyclic_threeJointHeap
      threeJointApp_wellformed.1 threeJointApp_wellformed.2.1 threeJointApp_wellformed.2.2.1
      threeJointApp_wellformed.2.2.2.1 threeJointApp_wellformed.2.2.2.2⟩


/-- C23, counterexample: from the acyclic state that `setup` leaves, the script
`create -joint a -parent a` is loaded to the end and leaves the joint it
created as its own parent, so that the parent relation is cyclic and the
recursion of `getMatrix` on that joint reaches every bound. -/
theorem loadScriptFile_self_parent :
    Acyclic (setup 0).heap ∧
    ∃ a', loadScriptFile (fun _ _ _ => none) 1 ["create", "-joint", "a", "-parent", "a"]
        (setup 0) = some a' ∧
      a'.joints = [1] ∧ (a'.heap 1).parent = some 1 ∧ ¬ Acyclic a'.heap ∧
      ∀ fuel, getMatrix ratLibm a'.heap fuel 1 = none := by
  have hp : ((addChild
      (Function.update (Function.update (setup 0).heap 1 SceneObject.new) 1
        { SceneObject.new with name := "a" }) 1 1) 1).parent = some 1 := by
    rw [(addChild_fields _ 1 1 1).2.2.2.2.1, if_pos rfl]
  exact ⟨acyclic_setup 0, _, selfParent_sample, rfl, hp, not_acyclic_of_self_parent _ 1 hp,
    getMatrix_self_parent ratLibm _ 1 hp⟩

/-- C23, amended: on an acyclic skeleton, `addJoint` with a newly allocated
joint returns and leaves the parent relation acyclic; `deleteJoint` returns and
leaves it acyclic when the child list of the selected joint agrees with the
parent links; and a script that `loadScriptFile` loads to the end into newly
allocated joints leaves it acyclic unless some joint has become its own parent.
In each case `getMatrix` then returns on every object. -/
theorem parent_links_acyclic (m : Libm) (pv : String → String → String → Option Vec3)
    (a : App) (hac : Acyclic a.heap) :
    (∀ fresh pos, fresh ∉ a.selected → (∀ n, (a.heap n).parent ≠ some fresh) →
      ∃ fuel0, ∀ fuel, fuel0 ≤ fuel → ∃ a', addJoint m fuel fresh pos a = some a' ∧
        Acyclic a'.heap ∧ GetMatrixReturns m a'.heap) ∧
    ((∀ j c, a.selected.head? = some j → c ∈ (a.heap j).childList →
        (a.heap c).parent = some j) →
      ∃ fuel0, ∀ fuel, fuel0 ≤ fuel → ∃ a', deleteJoint m fuel a = some a' ∧
        Acyclic a'.heap ∧ GetMatrixReturns m a'.heap) ∧
    (∀ fresh script a', (∀ n p, (a.heap n).parent = some p → p < fresh) →
      loadScriptFile pv fresh script a = some a' → (∀ n, (a'.heap n).parent ≠ some n) →
        Acyclic a'.heap ∧ GetMatrixReturns m a'.heap) := by
  refine ⟨fun fresh pos hfs hfp => ?_, fun hkids => ?_, fun fresh script a' hfresh hrun hself => ?_⟩
  · obtain ⟨rank, hrank⟩ := hac
    obtain ⟨fuel0, hf⟩ := addJoint_spec m rank a fresh pos hrank hfp hfs
    refine ⟨fuel0, fun fuel hfuel => ?_⟩
    obtain ⟨a', name, hadd, -, -, -, -, -, -, -, -, -, hac'⟩ := hf fuel hfuel
    exact ⟨a', hadd, hac', getMatrix_of_acyclic m _ hac'⟩
  · obtain ⟨fuel0, hf⟩ := deleteJoint_acyclic m a hac hkids
    refine ⟨fuel0, fun fuel hfuel => ?_⟩
    obtain ⟨a', hd, hac'⟩ := hf fuel hfuel
    exact ⟨a', hd, hac', getMatrix_of_acyclic m _ hac'⟩
  · have hac' := loadScriptFile_acyclic pv fresh script a a' hac hfresh hrun hself
    exact ⟨hac', getMatrix_of_acyclic m _ hac'⟩

theorem parent_links_acyclic_witness :
    Acyclic twistApp.heap ∧
    (∃ fuel0, ∀ fuel, fuel0 ≤ fuel →
      ∃ a', addJoint ratLibm fuel 5 ⟨1, 1, 0⟩ twistApp = some a' ∧
        Acyclic a'.heap ∧ GetMatrixReturns ratLibm a'.heap) ∧
    (∃ fuel0, ∀ fuel, fuel0 ≤ fuel → ∃ a', deleteJoint ratLibm fuel twistApp = some a' ∧
      Acyclic a'.heap ∧ GetMatrixReturns ratLibm a'.heap) ∧
    ∃ a', loadScriptFile (fun _ _ _ => none) 5
        ["create", "-joint", "a", "create", "-joint", "b", "-parent", "a"] twistApp = some a' ∧
      (a'.heap 6).parent = some 5 ∧ Acyclic a'.heap ∧ GetMatrixReturns ratLibm a'.heap :=
  ⟨⟨_, twistHeap_rank⟩,
    (parent_links_acyclic ratLibm (fun _ _ _ => none) twistApp ⟨_, twistHeap_rank⟩).1 5 ⟨1, 1, 0⟩
      (by decide) (fun n hn => by
        have := twistApp_parent_lt 1 (le_refl _) n 5 hn
        omega),
    (parent_links_acyclic ratLibm (fun _ _ _ => none) twistApp ⟨_, twistHeap_rank⟩).2.1
      twistApp_kids,
    _, chain_sample,
    by rw [(addChild_fields _ 5 6 6).2.2.2.2.1, if_pos rfl],
    (parent_links_acyclic ratLibm (fun _ _ _ => none) twistApp ⟨_, twistHeap_rank⟩).2.2 5 _ _
      (twistApp_parent_lt 5 (by decide)) chain_sample chain_sample_no_self⟩
/-- C24 (as stated, refuted): on the skeleton whose root is turned by 90 degrees
about z and has one child with zero rotation, `deleteJoint` of the root returns
(for every large enough bound), and the world matrix of the child has the entry
(0, 0) of its rotation part equal to 1 after the deletion and different from 1
before it. -/
theorem deleteJoint_turns_child :
    ∃ fuel0, ∀ fuel, fuel0 ≤ fuel → ∃ a' M M', deleteJoint ratLibm fuel twistApp = some a' ∧
      getMatrix ratLibm twistApp.heap fuel 1 = some M ∧
      getMatrix ratLibm a'.heap fuel 1 = some M' ∧ M' 0 0 = 1 ∧ M 0 0 ≠ 1 := by
  have hc : ratLibm.cos 0 = 1 := by norm_num [ratLibm]
  have hs : ratLibm.sin 0 = 0 := by norm_num [ratLibm]
  have hkids : ∀ c, c ∈ (twistApp.heap 0).childList →
      (fun k => if k = 1 then 1 else 0) 0 < (fun k => if k = 1 then 1 else 0) c := by
    intro c hc'
    have e : (twistApp.heap 0).childList = [1] := rfl
    rw [e, List.mem_singleton] at hc'
    subst hc'
    simp
  obtain ⟨fuel0, hf⟩ := deleteJoint_struct ratLibm _ twistApp 0 [] rfl twistHeap_rank hkids
  refine ⟨max fuel0 2, fun fuel hfuel => ?_⟩
  obtain ⟨a', ha', _, _, hid, hch, _, _, _, _, _⟩ := hf fuel (le_trans (le_max_left _ _) hfuel)
  obtain ⟨f, rfl⟩ : ∃ f, fuel = f + 2 := ⟨fuel - 2, by
    have := le_max_right fuel0 2
    omega⟩
  have h0 := getMatrix_root ratLibm twistApp.heap f 0 rfl
  have hM := getMatrix_child ratLibm twistApp.heap (f + 1) 1 0 _ rfl h0
  obtain ⟨hp1, hsc1, _⟩ := hch 1 (by
    have e : (twistApp.heap 0).childList = [1] := rfl
    rw [e]
    simp)
  have hrot1 : (a'.heap 1).rotation = ⟨0, 0, 0⟩ := by
    rw [(hid 1).2.2.2.2.1]
    rfl
  have hM' := getMatrix_root ratLibm a'.heap (f + 1) 1 (by rw [hp1]; rfl)
  refine ⟨a', _, _, ha', hM, hM', ?_, ?_⟩
  · rw [getLocalMatrix_unrotated ratLibm hc hs _ hrot1 hsc1]
    simp [translate]
  · have hL1 : (twistApp.heap 1).getLocalMatrix ratLibm = translate ⟨1, 0, 0⟩ :=
      getLocalMatrix_unrotated ratLibm hc hs _ rfl rfl
    rw [entry_zero_zero ((twistApp.heap 0).getLocalMatrix ratLibm *
        (twistApp.heap 1).getLocalMatrix ratLibm),
      linearApply_mul _ _ (isAffine_getLocalMatrix ratLibm _), hL1,
      linearApply_translate, linearApply_getLocalMatrix]
    have hS : (twistApp.heap 0).getScaleMatrix = 1 := by
      have e : (twistApp.heap 0).getScaleMatrix = scaleMatrix ⟨1, 1, 1⟩ := rfl
      rw [e, scaleMatrix_one]
    have hR : (twistApp.heap 0).getRotateMatrix ratLibm =
        eulerAngleYXZ ratLibm (radians 0) (radians 0) (radians 90) := rfl
    rw [hS, hR]
    simp only [linearApply, eulerAngleYXZ, radians]
    norm_num [ratLibm, Matrix.vecHead, Matrix.vecTail]

/-- C24 (amended): in an acyclic skeleton in which the children of the selected
joint `J` have it as parent, `deleteJoint` returns (for every large enough
bound) and leaves the local `rotation` field of every child of `J` as it was;
and when `J` has zero rotation and unit scale and the child has unit scale, the
upper left 3 x 3 block of the child's world matrix is the same after the
deletion as before (for a math library with `cos 0 = 1` and `sin 0 = 0`). -/
theorem deleteJoint_child_rotation (m : Libm) (hc : m.cos 0 = 1) (hs : m.sin 0 = 0)
    (a : App) (j : Nat) (rest : List Nat) (hsel : a.selected = j :: rest)
    (hac : Acyclic a.heap)
    (hkids : ∀ c, c ∈ (a.heap j).childList → (a.heap c).parent = some j) :
    ∃ fuel0, ∀ fuel, fuel0 ≤ fuel → ∃ a', deleteJoint m fuel a = some a' ∧
      ∀ c, c ∈ (a.heap j).childList →
        (a'.heap c).rotation = (a.heap c).rotation ∧
        ((a.heap j).rotation = ⟨0, 0, 0⟩ → (a.heap j).scale = ⟨1, 1, 1⟩ →
          (a.heap c).scale = ⟨1, 1, 1⟩ →
          ∃ M M', getMatrix m a.heap fuel c = some M ∧ getMatrix m a'.heap fuel c = some M' ∧
            ∀ v, linearApply M' v = linearApply M v) := by
  obtain ⟨rank, hrank⟩ := hac
  have hkr : ∀ c, c ∈ (a.heap j).childList → rank j < rank c :=
    fun c hc' => hrank c j (hkids c hc')
  obtain ⟨fuel0, hf⟩ := deleteJoint_struct m rank a j rest hsel hrank hkr
  obtain ⟨B, hB⟩ := rank_bound rank (a.heap j).childList
  refine ⟨max fuel0 (B + 1), fun fuel hfuel => ?_⟩
  obtain ⟨a', ha', _, _, hid, hch, hoth, _, _, _, _⟩ :=
    hf fuel (le_trans (le_max_left _ _) hfuel)
  refine ⟨a', ha', fun c hcL => ⟨(hid c).2.2.2.2.1, fun hjrot hjsc hsc => ?_⟩⟩
  have hfc : rank c < fuel := by
    have h1 := hB c hcL
    have h2 := le_max_right fuel0 (B + 1)
    omega
  apply deleteJoint_linear m hc hs rank a a' j c fuel hrank (hkids c hcL) hfc hid
    (hch c hcL).1 (hch c hcL).2.1 ?_ hjrot hjsc hsc
  intro k hk
  apply hoth k
  intro hmem
  have := hkr k hmem
  omega

theorem deleteJoint_child_rotation_witness :
    Acyclic stackedApp.heap ∧
    ∃ fuel0, ∀ fuel, fuel0 ≤ fuel → ∃ a' M M',
      deleteJoint ratLibm fuel stackedApp = some a' ∧
      (a'.heap 1).rotation = (stackedApp.heap 1).rotation ∧
      getMatrix ratLibm stackedApp.heap fuel 1 = some M ∧
      getMatrix ratLibm a'.heap fuel 1 = some M' ∧
      ∀ v, linearApply M' v = linearApply M v := by
  obtain ⟨fuel0, hf⟩ := deleteJoint_child_rotation ratLibm (by norm_num [ratLibm])
    (by norm_num [ratLibm]) stackedApp 0 [] rfl acyclic_stackedHeap stackedApp_kids
  refine ⟨acyclic_stackedHeap, fuel0, fun fuel hfuel => ?_⟩
  obtain ⟨a', ha', hall⟩ := hf fuel hfuel
  have h1 : 1 ∈ (stackedApp.heap 0).childList := by
    have e : (stackedApp.heap 0).childList = [1] := rfl
    rw [e]
    simp
  obtain ⟨hrot, hlin⟩ := hall 1 h1
  obtain ⟨M, M', hM, hM', hv⟩ := hlin rfl rfl rfl
  exact ⟨a', M, M', ha', hrot, hM, hM', hv⟩

/-- C25 (as stated, refuted): for the hit point (0, 0, 0) with normal (0, 1, 0)
and the light at (5, 0, 0), the shadow ray of `phong` and `lambert` starts at
(0, 0.0001, 0) with direction (1, 0, 0); no point of that ray is the light
position, and the direction is no multiple of the vector from the ray origin to
the light. -/
theorem shadingRay_misses_light :
    shadingRay ratLibm ⟨0, 0, 0⟩ ⟨0, 1, 0⟩ ⟨5, 0, 0⟩ = ⟨⟨0, 1 / 10000, 0⟩, ⟨1, 0, 0⟩⟩ ∧
    (∀ t : ℚ, (shadingRay ratLibm ⟨0, 0, 0⟩ ⟨0, 1, 0⟩ ⟨5, 0, 0⟩).evalPoint t ≠ ⟨5, 0, 0⟩) ∧
    (∀ k : ℚ,
      Vec3.smul k (Vec3.sub ⟨5, 0, 0⟩ (shadingRay ratLibm ⟨0, 0, 0⟩ ⟨0, 1, 0⟩ ⟨5, 0, 0⟩).p) ≠
        (shadingRay ratLibm ⟨0, 0, 0⟩ ⟨0, 1, 0⟩ ⟨5, 0, 0⟩).d) := by
  rw [shadingRay_sample]
  refine ⟨rfl, ?_, ?_⟩
  · intro t h
    simp only [Ray.evalPoint, Vec3.add, Vec3.smul, Vec3.mk.injEq] at h
    norm_num at h
  · intro k h
    simp only [Vec3.smul, Vec3.sub, Vec3.mk.injEq] at h
    obtain ⟨h1, h2, _⟩ := h
    have hk : k = 0 := by
      rcases mul_eq_zero.1 h2 with h0 | h0
      · exact h0
      · norm_num at h0
    rw [hk] at h1
    norm_num at h1

/-- C25 (amended): the shadow ray that `phong` and `lambert` pass to
`shadowCheck` for a light starts at `point + 0.0001 * normalize(normal)`, and its
direction is `normalize(light - point)`, the vector from the hit point itself
to the light divided by the computed distance `d = sqrt(|light - point|²)`. When
`d` is positive the light is `point + d * direction`, on the ray from the hit
point, and the shadow ray passes at its parameter `d` through
`light + 0.0001 * normalize(normal)`. The squared length of the direction
times `d²` is `|light - point|²`: the direction is a unit vector where the
square root is exact, and its squared length is within `ε` of 1 when `d²` is
within the relative error `ε` of the squared distance. The result of
`shadowCheck` on this ray decides whether the light contributes. -/
theorem shadingRay_from_hit_point {C : Type} (o : Outside C) (s : Scene C)
    (point normal : Vec3) (light : Light)
    (hpos : 0 < o.libm.sqrt ((light.position.sub point).dot (light.position.sub point))) :
    (shadingRay o.libm point normal light.position).p =
        point.add (Vec3.smul (1 / 10000) (normalize o.libm normal)) ∧
      (shadingRay o.libm point normal light.position).d =
        Vec3.smul (1 / o.libm.sqrt ((light.position.sub point).dot (light.position.sub point)))
          (light.position.sub point) ∧
      point.add
          (Vec3.smul (o.libm.sqrt ((light.position.sub point).dot (light.position.sub point)))
            (shadingRay o.libm point normal light.position).d) = light.position ∧
      (shadingRay o.libm point normal light.position).evalPoint
          (o.libm.sqrt ((light.position.sub point).dot (light.position.sub point))) =
        light.position.add (Vec3.smul (1 / 10000) (normalize o.libm normal)) ∧
      (shadingRay o.libm point normal light.position).d.dot
          (shadingRay o.libm point normal light.position).d *
          (o.libm.sqrt ((light.position.sub point).dot (light.position.sub point)) *
            o.libm.sqrt ((light.position.sub point).dot (light.position.sub point))) =
        (light.position.sub point).dot (light.position.sub point) ∧
      (o.libm.sqrt ((light.position.sub point).dot (light.position.sub point)) *
          o.libm.sqrt ((light.position.sub point).dot (light.position.sub point)) =
        (light.position.sub point).dot (light.position.sub point) →
        (shadingRay o.libm point normal light.position).d.dot
          (shadingRay o.libm point normal light.position).d = 1) ∧
      (∀ ε : ℚ,
        |o.libm.sqrt ((light.position.sub point).dot (light.position.sub point)) *
            o.libm.sqrt ((light.position.sub point).dot (light.position.sub point)) -
          (light.position.sub point).dot (light.position.sub point)| ≤
          ε * (o.libm.sqrt ((light.position.sub point).dot (light.position.sub point)) *
            o.libm.sqrt ((light.position.sub point).dot (light.position.sub point))) →
        |(shadingRay o.libm point normal light.position).d.dot
          (shadingRay o.libm point normal light.position).d - 1| ≤ ε) ∧
      (∀ (diffuse specular : C) (power : ℚ) (result : C),
        shadowCheck o s (shadingRay o.libm point normal light.position) o.blockIntersectPt
            o.blockIntersectNormal light.position = true →
          phongStep o s point normal diffuse specular power result light = result ∧
          lambertStep o s point normal diffuse result light = result) ∧
      (∀ (diffuse : C) (result : C),
        shadowCheck o s (shadingRay o.libm point normal light.position) o.blockIntersectPt
            o.blockIntersectNormal light.position = false →
          lambertStep o s point normal diffuse result light =
            o.add result
              (o.scale
                (o.scale diffuse
                  (light.intensity / o.pow (distance o.libm light.position point) 2))
                (max 0 ((normalize o.libm normal).dot
                  (shadingRay o.libm point normal light.position).d)))) := by
  have hA : ∀ (diffuse specular : C) (power : ℚ) (result : C),
      shadowCheck o s (shadingRay o.libm point normal light.position) o.blockIntersectPt
          o.blockIntersectNormal light.position = true →
        phongStep o s point normal diffuse specular power result light = result ∧
        lambertStep o s point normal diffuse result light = result := by
    intro diffuse specular power result hb
    simp only [shadingRay] at hb
    constructor
    · simp only [phongStep, hb, Bool.true_eq_false, if_false]
    · simp only [lambertStep, hb, Bool.true_eq_false, if_false]
  have hB : ∀ (diffuse : C) (result : C),
      shadowCheck o s (shadingRay o.libm point normal light.position) o.blockIntersectPt
          o.blockIntersectNormal light.position = false →
        lambertStep o s point normal diffuse result light =
          o.add result
            (o.scale
              (o.scale diffuse
                (light.intensity / o.pow (distance o.libm light.position point) 2))
              (max 0 ((normalize o.libm normal).dot
                (shadingRay o.libm point normal light.position).d))) := by
    intro diffuse result hb
    simp only [shadingRay] at hb ⊢
    simp only [lambertStep, hb, if_true]
  refine ⟨rfl, rfl, ?_, ?_, ?_, ?_, ?_, hA, hB⟩
  · clear hA hB
    obtain ⟨lp, li⟩ := light
    obtain ⟨px, py, pz⟩ := point
    obtain ⟨lx, ly, lz⟩ := lp
    simp only [shadingRay, normalize] at *
    generalize o.libm.sqrt (Vec3.dot (Vec3.sub ⟨lx, ly, lz⟩ ⟨px, py, pz⟩)
      (Vec3.sub ⟨lx, ly, lz⟩ ⟨px, py, pz⟩)) = d at hpos ⊢
    have hd : d ≠ 0 := ne_of_gt hpos
    simp only [Vec3.smul, Vec3.add, Vec3.sub, Vec3.mk.injEq]
    refine ⟨?_, ?_, ?_⟩ <;> field_simp
  · clear hA hB
    obtain ⟨lp, li⟩ := light
    obtain ⟨px, py, pz⟩ := point
    obtain ⟨lx, ly, lz⟩ := lp
    simp only [shadingRay, normalize] at *
    generalize o.libm.sqrt (Vec3.dot (Vec3.sub ⟨lx, ly, lz⟩ ⟨px, py, pz⟩)
      (Vec3.sub ⟨lx, ly, lz⟩ ⟨px, py, pz⟩)) = d at hpos ⊢
    have hd : d ≠ 0 := ne_of_gt hpos
    simp only [Ray.evalPoint, Vec3.smul, Vec3.add, Vec3.sub, Vec3.mk.injEq]
    refine ⟨?_, ?_, ?_⟩ <;> field_simp <;> ring
  all_goals
    clear hA hB
    simp only [shadingRay, normalize] at *
    generalize light.position.sub point = w at hpos ⊢
    generalize o.libm.sqrt (w.dot w) = d at hpos ⊢
    have hd : d ≠ 0 := ne_of_gt hpos
    have hdd : (Vec3.smul (1 / d) w).dot (Vec3.smul (1 / d) w) = w.dot w / (d * d) := by
      simp only [Vec3.smul, Vec3.dot]
      field_simp
    have hss : 0 < d * d := mul_pos hpos hpos
  · rw [hdd]
    field_simp
  · intro h
    rw [hdd, h]
    exact div_self (ne_of_gt (h ▸ hss))
  · intro ε h
    rw [hdd]
    have e : w.dot w / (d * d) - 1 = (w.dot w - d * d) / (d * d) := by
      field_simp
    rw [e, abs_div, abs_of_pos hss, div_le_iff₀ hss, abs_sub_comm]
    exact h

theorem shadingRay_from_hit_point_witness :
    0 < seriesOutside.libm.sqrt
      ((Vec3.sub ⟨1, 1, 0⟩ ⟨0, 0, 0⟩).dot (Vec3.sub ⟨1, 1, 0⟩ ⟨0, 0, 0⟩)) ∧
    (Vec3.sub ⟨1, 1, 0⟩ ⟨0, 0, 0⟩).dot (Vec3.sub ⟨1, 1, 0⟩ ⟨0, 0, 0⟩) = 2 ∧
    (shadingRay seriesOutside.libm ⟨0, 0, 0⟩ ⟨0, 1, 0⟩ ⟨1, 1, 0⟩).d =
      Vec3.smul (627013566048 / 886731088897) ⟨1, 1, 0⟩ ∧
    (⟨0, 0, 0⟩ : Vec3).add
        (Vec3.smul (886731088897 / 627013566048)
          (shadingRay seriesOutside.libm ⟨0, 0, 0⟩ ⟨0, 1, 0⟩ ⟨1, 1, 0⟩).d) = ⟨1, 1, 0⟩ ∧
    |(shadingRay seriesOutside.libm ⟨0, 0, 0⟩ ⟨0, 1, 0⟩ ⟨1, 1, 0⟩).d.dot
        (shadingRay seriesOutside.libm ⟨0, 0, 0⟩ ⟨0, 1, 0⟩ ⟨1, 1, 0⟩).d - 1| ≤
      1 / 1000000 :=
  have e : (Vec3.sub ⟨1, 1, 0⟩ ⟨0, 0, 0⟩).dot (Vec3.sub ⟨1, 1, 0⟩ ⟨0, 0, 0⟩) = 2 := by
    norm_num [Vec3.sub, Vec3.dot]
  have e' : Vec3.sub ⟨1, 1, 0⟩ ⟨0, 0, 0⟩ = ⟨1, 1, 0⟩ := by
    norm_num [Vec3.sub]
  have hs : seriesOutside.libm.sqrt 2 = 886731088897 / 627013566048 := by
    norm_num [seriesOutside, seriesLibm, newtonSqrt, Function.iterate_succ]
  have hpos : 0 < seriesOutside.libm.sqrt
      ((Vec3.sub ⟨1, 1, 0⟩ ⟨0, 0, 0⟩).dot (Vec3.sub ⟨1, 1, 0⟩ ⟨0, 0, 0⟩)) := by
    rw [e, hs]
    norm_num
  have h := shadingRay_from_hit_point seriesOutside tiltedScene ⟨0, 0, 0⟩ ⟨0, 1, 0⟩
    ⟨⟨1, 1, 0⟩, 100⟩ hpos
  ⟨hpos, e,
    by
      rw [h.2.1, e, hs, e']
      norm_num,
    by
      have h3 := h.2.2.1
      rw [e, hs] at h3
      exact h3,
    h.2.2.2.2.2.2.1 (1 / 1000000) (by
      rw [e, hs, abs_le]
      constructor <;> norm_num)⟩

/-- C27: for an affine instance matrix `M` and a normal `n`, the vector
`M * (n, 1) - M * (0, 0, 0, 1)` that `Mesh::intersect` normalises is the upper
left 3 x 3 block of `M` applied to `n`, with `w = 0`; the transformed vertex
normal is the normalisation of that vector; and two meshes with the same
normals whose affine matrices agree outside the translation column have the
same transformed vertex normals. -/
theorem Mesh.nVert_linear_part (m : Libm) (mesh : Mesh) (hM : IsAffine mesh.meshTransMatrix) :
    (∀ n : Vec3,
      mesh.meshTransMatrix.mulVec (vec4 n 1) - mesh.meshTransMatrix.mulVec (vec4 ⟨0, 0, 0⟩ 1) =
        vec4 (linearApply mesh.meshTransMatrix n) 0) ∧
    (∀ i, mesh.nVert m i =
      normalize m (linearApply mesh.meshTransMatrix (mesh.nVerts.getD i ⟨0, 0, 0⟩))) ∧
    (∀ mesh' : Mesh, IsAffine mesh'.meshTransMatrix → mesh'.nVerts = mesh.nVerts →
      (∀ r c, c ≠ 3 → mesh'.meshTransMatrix r c = mesh.meshTransMatrix r c) →
      ∀ i, mesh'.nVert m i = mesh.nVert m i) := by
  have h2 : ∀ (me : Mesh), IsAffine me.meshTransMatrix → ∀ i, me.nVert m i =
      normalize m (linearApply me.meshTransMatrix (me.nVerts.getD i ⟨0, 0, 0⟩)) := by
    intro me hme i
    unfold Mesh.nVert
    rw [mulVec_sub_origin_affine _ hme, normalize4_vec4_zero]
  refine ⟨mulVec_sub_origin_affine _ hM, h2 mesh hM, ?_⟩
  intro mesh' hM' hn hcols i
  rw [h2 mesh' hM', h2 mesh hM, hn]
  have e : ∀ n, linearApply mesh'.meshTransMatrix n = linearApply mesh.meshTransMatrix n := by
    intro n
    simp only [linearApply]
    rw [hcols 0 0 (by decide), hcols 0 1 (by decide), hcols 0 2 (by decide),
      hcols 1 0 (by decide), hcols 1 1 (by decide), hcols 1 2 (by decide),
      hcols 2 0 (by decide), hcols 2 1 (by decide), hcols 2 2 (by decide)]
  rw [e]

theorem Mesh.nVert_linear_part_witness :
    IsAffine sharedEdgeMesh.meshTransMatrix ∧
    ∀ i, movedMesh.nVert ratLibm i = sharedEdgeMesh.nVert ratLibm i :=
  ⟨isAffine_one,
    (Mesh.nVert_linear_part ratLibm sharedEdgeMesh isAffine_one).2.2 movedMesh
      (isAffine_translate _) rfl
      (by
        intro r c hc
        fin_cases r <;> fin_cases c <;>
          first
          | exact absurd rfl hc
          | simp [movedMesh, sharedEdgeMesh, translate, Matrix.vecHead, Matrix.vecTail])⟩


/-- C28: in every state reachable from `setup` through changes of the
selection, `addJoint`, `deleteJoint`, `loadObjFile` and `loadScriptFile`,
`meshScene` is non-empty and its first element is the floor plane that `setup`
pushed. The floor reports the name "no name", and no object reports "no name"
as the name of its mesh, so that the removal of meshes by name never matches
the floor. -/
theorem meshScene_floor_first (m : Libm) (pv : String → String → String → Option Vec3)
    (floor : Nat) (a : App) (n : Nat) (hr : Reachable m pv floor a n) :
    a.meshScene ≠ [] ∧ a.meshScene.head? = some floor ∧
      (a.heap floor).cls = ObjClass.plane ∧ getName (a.heap floor) = "no name" ∧
      ∀ k, getMeshName a.heap (a.heap k) ≠ "no name" := by
  have hf := reachable_floorFirst m pv floor a n hr
  obtain ⟨hn1, hn2⟩ := FloorFirst.no_match floor a n hf
  refine ⟨?_, hf.1, hf.2.1, hn1, hn2⟩
  intro he
  have := hf.1
  rw [he] at this
  cases this

theorem meshScene_floor_first_witness :
    Reachable ratLibm (fun _ _ _ => none) 0
      (loadObjFile 7 0 { scriptedApp with selected := [2] }).1 8 ∧
    (loadObjFile 7 0 { scriptedApp with selected := [2] }).1.meshScene = [0, 7] ∧
    (loadObjFile 7 0 { scriptedApp with selected := [2] }).1.meshScene ≠ [] ∧
    (loadObjFile 7 0 { scriptedApp with selected := [2] }).1.meshScene.head? = some 0 ∧
    (((loadObjFile 7 0 { scriptedApp with selected := [2] }).1.heap 0).cls = ObjClass.plane ∧
      getName ((loadObjFile 7 0 { scriptedApp with selected := [2] }).1.heap 0) = "no name" ∧
      ∀ k, getMeshName (loadObjFile 7 0 { scriptedApp with selected := [2] }).1.heap
        ((loadObjFile 7 0 { scriptedApp with selected := [2] }).1.heap k) ≠ "no name") :=
  have hr : Reachable ratLibm (fun _ _ _ => none) 0
      (loadObjFile 7 0 { scriptedApp with selected := [2] }).1 8 :=
    Reachable.loadObjFile _ 3 7 0
      (Reachable.select scriptedApp 3 [2]
        (Reachable.loadScriptFile (setup 0) 1 1 _ scriptedApp 3 Reachable.setup (le_refl _)
          scriptedApp_loaded (by decide) (by decide))
        (by decide))
      (by decide)
  ⟨hr, by
      simp [loadObjFile, scriptedApp, addChild, eraseLoop, setup, getName, getMeshName,
        SceneObject.new],
    meshScene_floor_first ratLibm (fun _ _ _ => none) 0 _ 8 hr⟩

/-- C29: for every list of joints, every requested name and every value of the
counter, `getNewName` returns (any fuel above the length of the list plus one
suffices) and the returned name differs from the name of every joint of the
list. Hence, on an acyclic skeleton and for a newly allocated joint, `addJoint`
returns, appends the new joint to `joints`, leaves the names of the joints
that were there unchanged, gives the new joint a name different from each of
theirs, and keeps the names of the joints pairwise distinct. -/
theorem addJoint_names_distinct (m : Libm) (a : App) (fresh : Nat) (pos : Vec3)
    (hac : Acyclic a.heap) (hfj : fresh ∉ a.joints) (hfs : fresh ∉ a.selected)
    (hfp : ∀ n, (a.heap n).parent ≠ some fresh) :
    (∀ (h : Heap) (joints : List Nat) (c : Nat) (newName : String) (fuel : Nat),
      joints.length + 2 ≤ fuel →
        ∃ name c', getNewName h joints fuel c newName = some (name, c') ∧
          ∀ j, j ∈ joints → getName (h j) ≠ name) ∧
    ∃ fuel0, ∀ fuel, fuel0 ≤ fuel → ∃ a', addJoint m fuel fresh pos a = some a' ∧
      a'.joints = a.joints ++ [fresh] ∧
      (∀ j, j ∈ a.joints →
        getName (a'.heap j) = getName (a.heap j) ∧
          getName (a'.heap fresh) ≠ getName (a.heap j)) ∧
      ((a.joints.map (fun j => getName (a.heap j))).Nodup →
        (a'.joints.map (fun j => getName (a'.heap j))).Nodup) := by
  refine ⟨fun h joints c newName fuel hf => getNewName_spec h joints c newName fuel hf, ?_⟩
  obtain ⟨rank, hrank⟩ := hac
  obtain ⟨fuel0, hfuel0⟩ := addJoint_spec m rank a fresh pos hrank hfp hfs
  refine ⟨fuel0, fun fuel hfuel => ?_⟩
  obtain ⟨a', name, hadd, hj, -, -, hname, hcls, -, -, hfree, hold, -⟩ := hfuel0 fuel hfuel
  have hnew : getName (a'.heap fresh) = name := by
    simp only [getName, hcls, hname]
  have hkeep : ∀ j, j ∈ a.joints → getName (a'.heap j) = getName (a.heap j) := by
    intro j hjm
    have hjf : j ≠ fresh := fun e => hfj (e ▸ hjm)
    obtain ⟨h1, h2, -⟩ := hold j hjf
    simp only [getName, h1, h2]
  refine ⟨a', hadd, hj, fun j hjm => ⟨hkeep j hjm, ?_⟩, fun hnd => ?_⟩
  · rw [hnew]
    exact fun e => hfree j hjm (fun e' => hfj (e' ▸ hjm)) e.symm
  · rw [hj, List.map_append, List.map_cons, List.map_nil,
      List.map_congr_left (fun j hjm => hkeep j hjm)]
    refine List.Nodup.append hnd (List.nodup_singleton _) ?_
    intro x hmem hx
    rw [List.mem_singleton, hnew] at hx
    subst hx
    obtain ⟨j, hjm, hje⟩ := List.mem_map.1 hmem
    exact hfree j hjm (fun e' => hfj (e' ▸ hjm)) hje

theorem addJoint_names_distinct_witness :
    Acyclic twistApp.heap ∧
    (∀ (h : Heap) (joints : List Nat) (c : Nat) (newName : String) (fuel : Nat),
      joints.length + 2 ≤ fuel →
        ∃ name c', getNewName h joints fuel c newName = some (name, c') ∧
          ∀ j, j ∈ joints → getName (h j) ≠ name) ∧
    ∃ fuel0, ∀ fuel, fuel0 ≤ fuel →
      ∃ a', addJoint ratLibm fuel 5 ⟨1, 1, 0⟩ twistApp = some a' ∧
        a'.joints = twistApp.joints ++ [5] ∧
        (∀ j, j ∈ twistApp.joints →
          getName (a'.heap j) = getName (twistApp.heap j) ∧
            getName (a'.heap 5) ≠ getName (twistApp.heap j)) ∧
        ((twistApp.joints.map (fun j => getName (twistApp.heap j))).Nodup →
          (a'.joints.map (fun j => getName (a'.heap j))).Nodup) :=
  ⟨⟨_, twistHeap_rank⟩,
    addJoint_names_distinct ratLibm twistApp 5 ⟨1, 1, 0⟩ ⟨_, twistHeap_rank⟩
      (by decide) (by decide)
      (by
        intro n
        by_cases h1 : n = 1
        · subst h1
          simp [twistApp, twistHeap, SceneObject.new]
        · by_cases h0 : n = 0 <;> simp [twistApp, twistHeap, SceneObject.new, h1, h0])⟩
end MeshAnimator
